import Mathlib

/-!
# QIClib: entropies, gates and the deficit (discord) engine

A shallow embedding of `include/QIClib_bits/function/entropy.hpp`,
`include/QIClib_bits/function/EoF.hpp`, `include/QIClib_bits/class/constants.hpp`,
`include/QIClib_bits/class/gates.hpp` and `include/QIClib_bits/discord/deficit_meat.hpp`.

* `K` is the real scalar type `trait::pT<T1>` (taken equal to `double`, so that the
  `static_cast`s between `double` and `pT` are the identity), `S` the complex scalar type
  `std::complex<pT>`.
* The `std::` math functions and the two library calls `arma::eig_sym` and
  `nlopt::opt::optimize` are parameters (`StdMath`, `Libs`): the definitions are generic
  and computable, the theorems about exact arithmetic instantiate them with the real
  functions of Mathlib. Rounding of floating-point arithmetic is not modelled.
* Armadillo matrices carry their run-time shape (`Mat`); the fixed-size table entries and
  the local vectors built from them are `Matrix (Fin n) (Fin m) S`.
* The checks under `#ifndef QICLIB_NO_DEBUG` are compiled in (the default build).
* A call returns `Except`: either its value or the way it fails (`Exception`, `Fault`).
  A member function that changes the session returns the session after the call; the
  members that call the libraries also return the list of the calls they made (`Call`).
* The parts of `_internal` that `GATES::make_ctrl` uses (`MAXQDIT`, `dim_collapse_sys_ctrl`,
  `powm_gen`) are parameters (`Internal`). C arrays are lists with bounds-checked accesses,
  an access out of bounds being `Fault.undefined`; its `while` loops take a number of turns
  (`fuel`), and `Fault.fuel` marks a run of the model that was given too few.
-/

namespace qic

/-! ## Errors -/

/-- The kinds of `qic::Exception` raised by the embedded code: the members of
`Exception::type` it uses, and exceptions built from a custom message. -/
inductive Exception where
  | ZERO_SIZE
  | MATRIX_NOT_SQUARE
  | MATRIX_NOT_SQUARE_OR_CVECTOR
  | MATRIX_NOT_CVECTOR
  | INVALID_DIMS
  | DIMS_MISMATCH_MATRIX
  | DIMS_NOT_EQUAL
  | INVALID_SUBSYS
  | NOT_QUBIT_SUBSYS
  | OUT_OF_RANGE
  | CUSTOM (msg : String)
  deriving DecidableEq, Repr

/-- How a call can fail to return normally. -/
inductive Fault where
  /-- a `qic::Exception` is thrown -/
  | exception (e : Exception)
  /-- the linear-algebra library throws `std::logic_error` (incompatible shapes, a checked
  index out of bounds, `min` of an empty vector) -/
  | logic_error
  /-- undefined behaviour: an unchecked access (`.at(i)`, `operator[]`) out of bounds -/
  | undefined
  /-- a loop of the model was given fewer turns (`fuel`) than the loop of the code takes;
  this is not an outcome of the code -/
  | fuel
  deriving DecidableEq, Repr

/-- Embedding of the exceptions of a callee into the faults of its caller. -/
def liftExc {α : Type} : Except Exception α → Except Fault α
  | .ok a => .ok a
  | .error e => .error (.exception e)

/-! ## Scalars and library interface -/

/-- The `std::` functions and constants the code calls on `pT` and `std::complex<pT>`. -/
structure StdMath (K S : Type) where
  /-- conversion `pT -> std::complex<pT>` -/
  ofReal : K → S
  /-- the imaginary unit `std::complex<pT>(0.0, 1.0)` -/
  I : S
  cos : K → K
  sin : K → K
  exp : S → S
  sqrt : K → K
  log2 : K → K
  /-- the constant `arma::datum::pi` -/
  pi : K

/-- The laws of exact real and complex arithmetic that the parametrizations rely on. -/
structure StdMath.Exact {K S : Type} [Field K] [CommRing S] [StarRing S] (M : StdMath K S) :
    Prop where
  ofReal_mul : ∀ a b : K, M.ofReal (a * b) = M.ofReal a * M.ofReal b
  star_ofReal : ∀ a : K, star (M.ofReal a) = M.ofReal a
  cos_sq_add_sin_sq : ∀ a : K, M.ofReal (M.cos a) ^ 2 + M.ofReal (M.sin a) ^ 2 = 1
  star_exp : ∀ a : K, star (M.exp (M.I * M.ofReal a)) = M.exp (M.I * M.ofReal (-a))
  exp_neg_I : ∀ a : K, M.exp (-M.I * M.ofReal a) = M.exp (M.I * M.ofReal (-a))
  exp_mul_exp_neg : ∀ a : K, M.exp (M.I * M.ofReal a) * M.exp (M.I * M.ofReal (-a)) = 1

/-- The unsigned 64-bit `arma::uword`: arithmetic wraps modulo `2 ^ 64`. -/
def uword_size : Nat := 2 ^ 64

/-- Subtraction on `arma::uword`. -/
def uword_sub (a b : Nat) : Nat := (a + uword_size - b % uword_size) % uword_size

/-- Multiplication on `arma::uword`. -/
def uword_mul (a b : Nat) : Nat := (a * b) % uword_size

/-- The function `arma::prod` on a `uvec`. -/
def arma_prod (v : List Nat) : Nat := v.foldl uword_mul 1

/-- Unchecked read `v.at(i)` of an `arma::Col` / `arma::uvec`: undefined out of bounds. -/
def col_at {α : Type} (v : List α) (i : Nat) : Except Fault α :=
  match v.get? i with
  | some a => .ok a
  | none => .error .undefined

/-- Unchecked write `v.at(i) = a` into an `arma::Col`: it never changes the size of `v`, and
is undefined out of bounds. -/
def col_at_put {α : Type} (v : List α) (i : Nat) (a : α) : Except Fault (List α) :=
  if i < v.length then .ok (v.set i a) else .error .undefined

/-- Checked read `v(i)` of an `arma::uvec`: throws `std::logic_error` out of bounds. -/
def col_get {α : Type} (v : List α) (i : Nat) : Except Fault α :=
  match v.get? i with
  | some a => .ok a
  | none => .error .logic_error

/-- Unchecked read `x[i]` of a `std::vector`. -/
def vec_at {α : Type} (x : List α) (i : Nat) : Except Fault α :=
  match x.get? i with
  | some a => .ok a
  | none => .error .undefined

/-- The function `arma::min` on a column: throws on an empty vector. -/
def arma_min {K : Type} [LinearOrder K] : List K → Except Fault K
  | [] => .error .logic_error
  | a :: v => .ok (v.foldl min a)

/-! ## Armadillo matrices -/

/-- An `arma::Mat` with its run-time shape. -/
structure Mat (S : Type) where
  n_rows : Nat
  n_cols : Nat
  mem : Matrix (Fin n_rows) (Fin n_cols) S

namespace Mat

variable {S : Type} [CommRing S]

/-- The member `n_elem`. -/
def n_elem (A : Mat S) : Nat := A.n_rows * A.n_cols

/-- A fixed-size matrix seen as an `arma::Mat`. -/
def ofMatrix {m n : Nat} (A : Matrix (Fin m) (Fin n) S) : Mat S := ⟨m, n, A⟩

/-- The matrix `arma::eye(n, n)`. -/
def eye (n : Nat) : Mat S := ⟨n, n, 1⟩

/-- The product `A * B`; Armadillo throws when the shapes do not conform. -/
def mul (A B : Mat S) : Except Fault (Mat S) :=
  if h : A.n_cols = B.n_rows then
    .ok ⟨A.n_rows, B.n_cols, A.mem * B.mem.submatrix (Fin.cast h) id⟩
  else .error .logic_error

/-- The sum computed by `A += B`; Armadillo throws when the shapes differ. -/
def add (A B : Mat S) : Except Fault (Mat S) :=
  if h : A.n_rows = B.n_rows ∧ A.n_cols = B.n_cols then
    .ok ⟨A.n_rows, A.n_cols, A.mem + B.mem.submatrix (Fin.cast h.1) (Fin.cast h.2)⟩
  else .error .logic_error

/-- The Kronecker product `arma::kron(A, B)`: the block matrix of the `A(i,j) * B`. -/
def kron (A B : Mat S) : Mat S :=
  ⟨A.n_rows * B.n_rows, A.n_cols * B.n_cols,
    Matrix.of fun i j => A.mem i.divNat j.divNat * B.mem i.modNat j.modNat⟩

/-- The function `arma::trace`: the sum of the diagonal entries. -/
def trace {S : Type} [CommRing S] (A : Mat S) : S :=
  ∑ i : Fin A.n_rows, if h : i.val < A.n_cols then A.mem i ⟨i.val, h⟩ else 0

/-- The matrix `arma::zeros(n, n)`. -/
def zeros {S : Type} [CommRing S] (n : Nat) : Mat S := ⟨n, n, 0⟩

/-- The entries of `arma::kron(A, B)` for matrices of fixed shapes: the block matrix of the
`A(i,j) * B`, as in `kron`. -/
def kronF {S : Type} [CommRing S] {m n p q : Nat} (A : Matrix (Fin m) (Fin n) S)
    (B : Matrix (Fin p) (Fin q) S) : Matrix (Fin (m * p)) (Fin (n * q)) S :=
  Matrix.of fun i j => A i.divNat j.divNat * B i.modNat j.modNat

end Mat

/-! ## constants.hpp -/

namespace _precision

/-- The constant `_precision::eps<T>::value`: `10 * epsilon` for `float` (epsilon `2^-23`),
`100 * epsilon` otherwise (`double`, epsilon `2^-52`). -/
def eps {K : Type} [Field K] (isFloat : Bool) : K :=
  if isFloat then 10 * (1 / 2) ^ 23 else 100 * (1 / 2) ^ 52

end _precision

namespace SPM

variable {K S : Type} [Field K] [CommRing S] [StarRing S]

/-- A column filled by `<< a << b`. -/
def col2 (a b : S) : Matrix (Fin 2) (Fin 1) S := Matrix.of fun i _ => if i = 0 then a else b

/-- A column filled by `<< a << b << c`. -/
def col3 (a b c : S) : Matrix (Fin 3) (Fin 1) S :=
  Matrix.of fun i _ => if i = 0 then a else if i = 1 then b else c

/-- The field `basis2` (2 x 4) of `SPM`, entry `basis2.at(j, s)`; `std::complex<T1>(0.0, y)`
is written `I * y`. Entries outside the field are never read. -/
def basis2 (M : StdMath K S) (j s : Nat) : Matrix (Fin 2) (Fin 1) S :=
  match j, s with
  | 0, 0 => col2 1 0
  | 1, 0 => col2 0 1
  | 0, 1 => col2 (M.ofReal (M.sqrt (1 / 2))) (M.ofReal (M.sqrt (1 / 2)))
  | 1, 1 => col2 (M.ofReal (M.sqrt (1 / 2))) (M.ofReal (-M.sqrt (1 / 2)))
  | 0, 2 => col2 (M.ofReal (M.sqrt (1 / 2))) (M.I * M.ofReal (M.sqrt (1 / 2)))
  | 1, 2 => col2 (M.ofReal (M.sqrt (1 / 2))) (M.I * M.ofReal (-M.sqrt (1 / 2)))
  | 0, 3 => col2 1 0
  | 1, 3 => col2 0 1
  | _, _ => 0

/-- The field `basis3` (3 x 4) of `SPM`, entry `basis3.at(j, s)`. -/
def basis3 (M : StdMath K S) (j s : Nat) : Matrix (Fin 3) (Fin 1) S :=
  match j, s with
  | 0, 0 => col3 1 0 0
  | 1, 0 => col3 0 1 0
  | 2, 0 => col3 0 0 1
  | 0, 1 => col3 (M.ofReal (1 / 2)) (M.ofReal (M.sqrt (1 / 2))) (M.ofReal (1 / 2))
  | 1, 1 => col3 (M.ofReal (-M.sqrt (1 / 2))) 0 (M.ofReal (M.sqrt (1 / 2)))
  | 2, 1 => col3 (M.ofReal (1 / 2)) (M.ofReal (-M.sqrt (1 / 2))) (M.ofReal (1 / 2))
  | 0, 2 => col3 (M.ofReal (-(1 / 2))) (M.I * M.ofReal (-M.sqrt (1 / 2))) (M.ofReal (1 / 2))
  | 1, 2 => col3 (M.ofReal (M.sqrt (1 / 2))) 0 (M.ofReal (M.sqrt (1 / 2)))
  | 2, 2 => col3 (M.ofReal (-(1 / 2))) (M.I * M.ofReal (M.sqrt (1 / 2))) (M.ofReal (1 / 2))
  | 0, 3 => col3 1 0 0
  | 1, 3 => col3 0 1 0
  | 2, 3 => col3 0 0 1
  | _, _ => 0

/-- The field `proj2` of `SPM`: `proj2.at(j, s) = basis2.at(j, s) * basis2.at(j, s).t()`
for `s < 3`, and `proj2.at(j, 3) = proj2.at(j, 0)`. -/
def proj2 (M : StdMath K S) (j s : Nat) : Matrix (Fin 2) (Fin 2) S :=
  if s = 3 then basis2 M j 0 * (basis2 M j 0).conjTranspose
  else basis2 M j s * (basis2 M j s).conjTranspose

/-- The field `proj3` of `SPM`: `proj3.at(j, s) = basis3.at(j, s) * basis3.at(j, s).t()`
for `s < 3`, and `proj3.at(j, 3) = proj3.at(j, 0)`. -/
def proj3 (M : StdMath K S) (j s : Nat) : Matrix (Fin 3) (Fin 3) S :=
  if s = 3 then basis3 M j 0 * (basis3 M j 0).conjTranspose
  else basis3 M j s * (basis3 M j s).conjTranspose

end SPM

/-! ## The two library calls -/

namespace nlopt

/-- The enumeration `nlopt::algorithm`: the two defaults of the engine, and any other one. -/
inductive algorithm where
  | GN_DIRECT_L
  | LN_COBYLA
  | OTHER (id : Nat)
  deriving DecidableEq, Repr

/-- A configured `nlopt::opt` object: algorithm and dimension (constructor), bounds,
objective, relative tolerances. -/
structure opt (K : Type) where
  a : algorithm
  n : Nat
  lower_bounds : List K
  upper_bounds : List K
  min_objective : List K → Except Fault K
  xtol_rel : K
  ftol_rel : K

end nlopt

/-- The two library calls of the engine, taken as given. -/
structure Libs (K S : Type) where
  /-- `arma::eig_sym(rho)`: the eigenvalues of a Hermitian matrix -/
  eig_sym : Mat S → List K
  /-- `opt.optimize(x, minf)` started at `x`: the final point, written into `x`, and the
  value `minf` -/
  optimize : nlopt.opt K → List K → List K × K
  /-- the call writes into the caller's vector, whose size it does not change -/
  optimize_size : ∀ o x, (optimize o x).1.length = x.length

/-! ## entropy.hpp -/

section entropy

variable {K S : Type} [LinearOrderedField K] [CommRing S] [StarRing S]

/-- The function `qic::entropy` (lines 29-56), for `pT = double`. -/
def entropy (M : StdMath K S) (L : Libs K S) (rho : Mat S) : Except Exception K :=
  let checkV : Bool := if rho.n_cols = 1 then false else true
  if rho.n_elem = 0 then .error .ZERO_SIZE
  else if checkV = true ∧ rho.n_rows ≠ rho.n_cols then .error .MATRIX_NOT_SQUARE_OR_CVECTOR
  else if checkV = false then .ok 0
  else
    .ok ((L.eig_sym rho).foldl
      (fun S i => S - (if i > _precision.eps false then i * M.log2 i else 0)) 0)

end entropy

/-! ## deficit_meat.hpp : the objective functions -/

namespace protect_dis

/-- The context bundle `TO_PASS` handed to the objective through `void*`. -/
structure TO_PASS (S : Type) where
  rho : Mat S
  eye2 : Mat S
  eye3 : Mat S
  eye4 : Mat S
  nodal : Nat
  party_no : Nat

section param

variable {K S : Type} [Field K] [CommRing S] [StarRing S]

/-- The vector `proj1` of `def_nlopt2` before `proj1 *= proj1.t()` (lines 44-46). -/
def def_nlopt2_vec1 (M : StdMath K S) (theta phi : K) : Matrix (Fin 2) (Fin 1) S :=
  M.ofReal (M.cos ((1 / 2) * theta)) • SPM.basis2 M 0 0 +
    (M.exp (M.I * M.ofReal phi) * M.ofReal (M.sin ((1 / 2) * theta))) • SPM.basis2 M 1 0

/-- The vector `proj2` of `def_nlopt2` before `proj2 *= proj2.t()` (lines 48-50). -/
def def_nlopt2_vec2 (M : StdMath K S) (theta phi : K) : Matrix (Fin 2) (Fin 1) S :=
  M.ofReal (M.sin ((1 / 2) * theta)) • SPM.basis2 M 0 0 -
    (M.exp (M.I * M.ofReal phi) * M.ofReal (M.cos ((1 / 2) * theta))) • SPM.basis2 M 1 0

/-- The local projector `proj1` of `def_nlopt2` after `proj1 *= proj1.t()` (line 52);
`.t()` is the Hermitian transpose on complex matrices. -/
def def_nlopt2_proj1 (M : StdMath K S) (theta phi : K) : Matrix (Fin 2) (Fin 2) S :=
  def_nlopt2_vec1 M theta phi * (def_nlopt2_vec1 M theta phi).conjTranspose

/-- The local projector `proj2` of `def_nlopt2` after `proj2 *= proj2.t()` (line 53). -/
def def_nlopt2_proj2 (M : StdMath K S) (theta phi : K) : Matrix (Fin 2) (Fin 2) S :=
  def_nlopt2_vec2 M theta phi * (def_nlopt2_vec2 M theta phi).conjTranspose

/-- The vector `proj1` of `def_nlopt3` before `proj1 *= proj1.t()` (lines 100-109). -/
def def_nlopt3_vec1 (M : StdMath K S) (theta1 theta2 theta3 phi1 phi2 del : K) :
    Matrix (Fin 3) (Fin 1) S :=
  M.ofReal (M.cos theta1 * M.cos theta2) • SPM.basis3 M 0 0 -
    (M.exp (M.I * M.ofReal phi1) *
      (M.exp (M.I * M.ofReal del) * M.ofReal (M.sin theta1) * M.ofReal (M.cos theta2) *
          M.ofReal (M.cos theta3) +
        M.ofReal (M.sin theta2 * M.sin theta3))) • SPM.basis3 M 1 0 +
    (M.exp (M.I * M.ofReal phi2) *
      (-M.exp (M.I * M.ofReal del) * M.ofReal (M.sin theta1) * M.ofReal (M.cos theta2) *
          M.ofReal (M.sin theta3) +
        M.ofReal (M.sin theta2 * M.cos theta3))) • SPM.basis3 M 2 0

/-- The vector `proj2` of `def_nlopt3` before `proj2 *= proj2.t()` (lines 111-114). -/
def def_nlopt3_vec2 (M : StdMath K S) (theta1 theta3 phi1 phi2 del : K) :
    Matrix (Fin 3) (Fin 1) S :=
  (M.exp (-M.I * M.ofReal del) * M.ofReal (M.sin theta1)) • SPM.basis3 M 0 0 +
    (M.exp (M.I * M.ofReal phi1) * M.ofReal (M.cos theta1) * M.ofReal (M.cos theta3)) •
      SPM.basis3 M 1 0 +
    (M.exp (M.I * M.ofReal phi2) * M.ofReal (M.cos theta1) * M.ofReal (M.sin theta3)) •
      SPM.basis3 M 2 0

/-- The vector `proj3` of `def_nlopt3` before `proj3 *= proj3.t()` (lines 116-125). -/
def def_nlopt3_vec3 (M : StdMath K S) (theta1 theta2 theta3 phi1 phi2 del : K) :
    Matrix (Fin 3) (Fin 1) S :=
  M.ofReal (M.cos theta1 * M.sin theta2) • SPM.basis3 M 0 0 +
    (M.exp (M.I * M.ofReal phi1) *
      (-M.exp (M.I * M.ofReal del) * M.ofReal (M.sin theta1) * M.ofReal (M.sin theta2) *
          M.ofReal (M.cos theta3) +
        M.ofReal (M.cos theta2 * M.sin theta3))) • SPM.basis3 M 1 0 -
    (M.exp (M.I * M.ofReal phi2) *
      (M.exp (M.I * M.ofReal del) * M.ofReal (M.sin theta1) * M.ofReal (M.sin theta2) *
          M.ofReal (M.sin theta3) +
        M.ofReal (M.cos theta2 * M.cos theta3))) • SPM.basis3 M 2 0

/-- The three vectors of `def_nlopt3` as functions of the optimizer's point
`x = (x0, .., x4)`: lines 86-91 set `theta_i = 0.5 * x[i-1]`, `phi1 = x[3]`,
`phi2 = -x[3]`, `del = x[4]`. -/
def def_nlopt3_vecs (M : StdMath K S) (x0 x1 x2 x3 x4 : K) :
    Matrix (Fin 3) (Fin 1) S × Matrix (Fin 3) (Fin 1) S × Matrix (Fin 3) (Fin 1) S :=
  let theta1 := (1 / 2) * x0
  let theta2 := (1 / 2) * x1
  let theta3 := (1 / 2) * x2
  let phi1 := x3
  let phi2 := -x3
  let del := x4
  (def_nlopt3_vec1 M theta1 theta2 theta3 phi1 phi2 del,
   def_nlopt3_vec2 M theta1 theta3 phi1 phi2 del,
   def_nlopt3_vec3 M theta1 theta2 theta3 phi1 phi2 del)

/-- The three local projectors of `def_nlopt3` after lines 127-129
(`proj_i *= proj_i.t()`). -/
def def_nlopt3_projs (M : StdMath K S) (x0 x1 x2 x3 x4 : K) :
    Matrix (Fin 3) (Fin 3) S × Matrix (Fin 3) (Fin 3) S × Matrix (Fin 3) (Fin 3) S :=
  let v := def_nlopt3_vecs M x0 x1 x2 x3 x4
  (v.1 * v.1.conjTranspose, v.2.1 * v.2.1.conjTranspose, v.2.2 * v.2.2.conjTranspose)

end param

section objective

variable {K S : Type} [LinearOrderedField K] [CommRing S] [StarRing S]

/-- The embedding of a local projector into the full space, as written out in
`def_nlopt2` (lines 55-66), `def_nlopt3` (131-145) and `compute_reg` (516-525, 567-581):
`kron(proj, eye2)` for the first party, `kron(eye2, proj)` for the last one, and
`kron(kron(eye3, proj), eye4)` otherwise. -/
def embed (nodal party_no : Nat) (eye2 eye3 eye4 proj : Mat S) : Mat S :=
  if nodal = 1 then Mat.kron proj eye2
  else if party_no = nodal then Mat.kron eye2 proj
  else Mat.kron (Mat.kron eye3 proj) eye4

/-- The term `proj * rho * proj`. -/
def sandwich (proj rho : Mat S) : Except Fault (Mat S) := do
  let a ← Mat.mul proj rho
  Mat.mul a proj

/-- The objective `def_nlopt2` (lines 31-76): entropy of the state measured with the two
projectors at the angles `x[0]`, `x[1]`. -/
def def_nlopt2 (M : StdMath K S) (L : Libs K S) (x : List K) (pB : TO_PASS S) :
    Except Fault K := do
  let theta ← vec_at x 0
  let phi ← vec_at x 1
  let proj1 := embed pB.nodal pB.party_no pB.eye2 pB.eye3 pB.eye4
    (Mat.ofMatrix (def_nlopt2_proj1 M theta phi))
  let proj2 := embed pB.nodal pB.party_no pB.eye2 pB.eye3 pB.eye4
    (Mat.ofMatrix (def_nlopt2_proj2 M theta phi))
  let rho_1 ← sandwich proj1 pB.rho
  let rho_2 ← sandwich proj2 pB.rho
  let rho_1 ← Mat.add rho_1 rho_2
  let S_max ← liftExc (entropy M L rho_1)
  pure S_max

/-- The objective `def_nlopt3` (lines 81-157): entropy of the state measured with the
three projectors at the angles `x[0..4]`. -/
def def_nlopt3 (M : StdMath K S) (L : Libs K S) (x : List K) (pB : TO_PASS S) :
    Except Fault K := do
  let x0 ← vec_at x 0
  let x1 ← vec_at x 1
  let x2 ← vec_at x 2
  let x3 ← vec_at x 3
  let x4 ← vec_at x 4
  let p := def_nlopt3_projs M x0 x1 x2 x3 x4
  let proj1 := embed pB.nodal pB.party_no pB.eye2 pB.eye3 pB.eye4 (Mat.ofMatrix p.1)
  let proj2 := embed pB.nodal pB.party_no pB.eye2 pB.eye3 pB.eye4 (Mat.ofMatrix p.2.1)
  let proj3 := embed pB.nodal pB.party_no pB.eye2 pB.eye3 pB.eye4 (Mat.ofMatrix p.2.2)
  let rho_1 ← sandwich proj1 pB.rho
  let rho_2 ← sandwich proj2 pB.rho
  let rho_3 ← sandwich proj3 pB.rho
  let rho_23 ← Mat.add rho_2 rho_3
  let rho_1 ← Mat.add rho_1 rho_23
  let S_max ← liftExc (entropy M L rho_1)
  pure S_max

end objective

end protect_dis

/-! ## deficit_meat.hpp : the session `deficit_space` -/

/-- The data members of `deficit_space<T1>`. -/
structure deficit_space (K S : Type) where
  _rho : Mat S
  _nodal : Nat
  _dim : List Nat
  _party_no : Nat
  _deficit2 : Bool
  _deficit3 : Bool
  _is_computed : Bool
  _is_reg_computed : Bool
  _is_sab_computed : Bool
  _result : K
  _tp : List K
  _result_reg : K
  _result_reg_all : List K
  _S_A_B : K
  _deficit_global_opt : nlopt.algorithm
  _deficit_global_xtol : K
  _deficit_global_ftol : K
  _deficit_global : Bool
  _deficit_local_opt : nlopt.algorithm
  _deficit_local_xtol : K
  _deficit_local_ftol : K
  _deficit_angle_range : List K
  _deficit_angle_ini : List K

/-- A library call made by the session itself (the calls the optimizer makes to the
objective stay inside `optimize`). -/
inductive Call (K S : Type) where
  | entropy (rho : Mat S)
  | optimize (o : nlopt.opt K) (x : List K)

namespace deficit_space

variable {K S : Type} [LinearOrderedField K] [CommRing S] [StarRing S]

/-- The default configuration written by `init`, `refresh` and `reset_party`
(lines 235-259, 636-660, 685-709): one block under `if (_deficit2)`, one under
`if (_deficit3)`. -/
def set_defaults (s : deficit_space K S) : deficit_space K S :=
  let s : deficit_space K S :=
    if s._deficit2 = true then
      { s with
        _deficit_global_opt := nlopt.algorithm.GN_DIRECT_L
        _deficit_global_xtol := 4 / 100
        _deficit_global_ftol := 0
        _deficit_global := true
        _deficit_local_opt := nlopt.algorithm.LN_COBYLA
        _deficit_local_xtol := 10 * _precision.eps false
        _deficit_local_ftol := 0
        _deficit_angle_range := [1, 2]
        _deficit_angle_ini := [1 / 10, 1 / 10] }
    else s
  if s._deficit3 = true then
    { s with
      _deficit_global_opt := nlopt.algorithm.GN_DIRECT_L
      _deficit_global_xtol := 1 / 4
      _deficit_global_ftol := 0
      _deficit_global := true
      _deficit_local_opt := nlopt.algorithm.LN_COBYLA
      _deficit_local_xtol := 10 * _precision.eps false
      _deficit_local_ftol := 0
      _deficit_angle_range := List.replicate 5 2
      _deficit_angle_ini := List.replicate 5 2 }
  else s

/-- The member `init` (lines 210-260). -/
def init (s : deficit_space K S) (dim : List Nat) : Except Fault (deficit_space K S) := do
  let s := { s with _dim := dim, _party_no := dim.length }
  if s._dim.any (fun d => d == 0) then
    throw (Fault.exception Exception.INVALID_DIMS)
  if arma_prod s._dim ≠ s._rho.n_rows then
    throw (Fault.exception Exception.DIMS_MISMATCH_MATRIX)
  if s._nodal ≤ 0 ∨ s._nodal > s._party_no then
    throw (Fault.exception (Exception.CUSTOM "Invalid measured party index!"))
  let dk ← col_get s._dim (uword_sub s._nodal 1)
  let s := { s with _deficit2 := (dk == 2), _deficit3 := (dk == 3) }
  if s._deficit2 = false ∧ s._deficit3 = false then
    throw (Fault.exception (Exception.CUSTOM "Measured party is not qubit or qutrit!"))
  pure (set_defaults s)

/-- The constructor `deficit_space(rho1, nodal, uvec dim)` (lines 166-179). The members it
does not initialise are listed with a placeholder: the scalars `_result`, `_result_reg`,
`_S_A_B` (indeterminate until computed), the empty vectors `_tp`, `_result_reg_all`, and
the members `init` assigns before they are read. -/
def construct (rho1 : Mat S) (nodal : Nat) (dim : List Nat) :
    Except Fault (deficit_space K S) := do
  let s : deficit_space K S :=
    { _rho := rho1
      _nodal := nodal
      _is_computed := false
      _is_reg_computed := false
      _is_sab_computed := false
      _dim := []
      _party_no := 0
      _deficit2 := false
      _deficit3 := false
      _result := 0
      _tp := []
      _result_reg := 0
      _result_reg_all := []
      _S_A_B := 0
      _deficit_global_opt := nlopt.algorithm.GN_DIRECT_L
      _deficit_global_xtol := 0
      _deficit_global_ftol := 0
      _deficit_global := false
      _deficit_local_opt := nlopt.algorithm.LN_COBYLA
      _deficit_local_xtol := 0
      _deficit_local_ftol := 0
      _deficit_angle_range := []
      _deficit_angle_ini := [] }
  if s._rho.n_elem = 0 then
    throw (Fault.exception Exception.ZERO_SIZE)
  if s._rho.n_rows ≠ s._rho.n_cols then
    throw (Fault.exception Exception.MATRIX_NOT_SQUARE)
  init s dim

/-! ### Configuration setters (lines 264-351) -/

/-- The setter `global_algorithm`. -/
def global_algorithm (s : deficit_space K S) (a : nlopt.algorithm) : deficit_space K S :=
  { s with _deficit_global_opt := a, _is_computed := false }

/-- The setter `global_xtol`. -/
def global_xtol (s : deficit_space K S) (a : K) : deficit_space K S :=
  { s with _deficit_global_xtol := a, _is_computed := false }

/-- The setter `global_ftol`. -/
def global_ftol (s : deficit_space K S) (a : K) : deficit_space K S :=
  { s with _deficit_global_ftol := a, _is_computed := false }

/-- The setter `global_opt`. -/
def global_opt (s : deficit_space K S) (a : Bool) : deficit_space K S :=
  { s with _deficit_global := a, _is_computed := false }

/-- The setter `local_algorithm`. -/
def local_algorithm (s : deficit_space K S) (a : nlopt.algorithm) : deficit_space K S :=
  { s with _deficit_local_opt := a, _is_computed := false }

/-- The setter `local_xtol`. -/
def local_xtol (s : deficit_space K S) (a : K) : deficit_space K S :=
  { s with _deficit_local_xtol := a, _is_computed := false }

/-- The setter `local_ftol`. -/
def local_ftol (s : deficit_space K S) (a : K) : deficit_space K S :=
  { s with _deficit_local_ftol := a, _is_computed := false }

/-- The setter `angle_range` (lines 315-332): the session after the call, and the
exception thrown if any. -/
def angle_range (s : deficit_space K S) (a : List K) : deficit_space K S × Option Fault :=
  if s._deficit2 = true ∧ a.length ≠ 2 then
    (s, some (Fault.exception (Exception.CUSTOM
      "Number of elements has to be 2, when measured party is a qubit!")))
  else if s._deficit3 = true ∧ a.length ≠ 5 then
    (s, some (Fault.exception (Exception.CUSTOM
      "Number of elements has to be 5, when measured party is a qutrit!")))
  else ({ s with _deficit_angle_range := a, _is_computed := false }, none)

/-- The setter `initial_angle` (lines 334-351): the session after the call, and the
exception thrown if any. -/
def initial_angle (s : deficit_space K S) (a : List K) : deficit_space K S × Option Fault :=
  if s._deficit2 = true ∧ a.length ≠ 2 then
    (s, some (Fault.exception (Exception.CUSTOM
      "Number of elements has to be 2, when measured party is a qubit!")))
  else if s._deficit3 = true ∧ a.length ≠ 5 then
    (s, some (Fault.exception (Exception.CUSTOM
      "Number of elements has to be 5, when measured party is a qutrit!")))
  else ({ s with _deficit_angle_ini := a, _is_computed := false }, none)

/-- The member `refresh` (lines 630-662). -/
def refresh (s : deficit_space K S) : deficit_space K S :=
  set_defaults
    { s with _is_computed := false, _is_reg_computed := false, _is_sab_computed := false }

/-- The member `reset_party` (lines 664-711): the session after the call (the members
assigned before a `throw` keep their new values), and the exception thrown if any. -/
def reset_party (s : deficit_space K S) (nodal : Nat) : deficit_space K S × Option Fault :=
  let s := { s with _is_computed := false, _is_reg_computed := false, _nodal := nodal }
  if s._nodal ≤ 0 ∨ s._nodal > s._party_no then
    (s, some (Fault.exception (Exception.CUSTOM "Invalid measured party index!")))
  else
    match col_get s._dim (uword_sub s._nodal 1) with
    | .error f => (s, some f)
    | .ok dk =>
      let s := { s with _deficit2 := (dk == 2), _deficit3 := (dk == 3) }
      if s._deficit2 = false ∧ s._deficit3 = false then
        (s, some (Fault.exception (Exception.CUSTOM "Measured party is not qubit or qutrit!")))
      else (set_defaults s, none)

/-- The member `s_a_b` (lines 355-360). -/
def s_a_b (M : StdMath K S) (L : Libs K S) (s : deficit_space K S) :
    Except Fault (deficit_space K S × List (Call K S)) :=
  if s._is_sab_computed = false then do
    let v ← liftExc (entropy M L s._rho)
    pure ({ s with _S_A_B := v, _is_sab_computed := true }, [Call.entropy s._rho])
  else pure (s, [])

/-- The loop `for (i = lo; i < hi; ++i) acc *= _dim.at(i)` started at `acc = 1`. -/
def prod_loop (dim : List Nat) (lo hi : Nat) : Except Fault Nat :=
  (List.range' lo (hi - lo)).foldlM
    (fun acc i => do
      let d ← col_at dim i
      pure (uword_mul acc d)) 1

/-- The context built at the head of both branches of `compute` and `compute_reg`
(lines 367-383 with `d = 2`, 427-443 with `d = 3`): `eye2` of size `prod(_dim) / d`,
`eye3` of size `_dim[0] * .. * _dim[_nodal - 2]`, `eye4` of size
`_dim[_nodal] * .. * _dim[_party_no - 1]`. -/
def make_pass (s : deficit_space K S) (d : Nat) : Except Fault (protect_dis.TO_PASS S) := do
  let dim1 := arma_prod s._dim / d
  let dim2 ← prod_loop s._dim 0 (uword_sub s._nodal 1)
  let dim3 ← prod_loop s._dim s._nodal s._party_no
  pure ⟨s._rho, Mat.eye dim1, Mat.eye dim2, Mat.eye dim3, s._nodal, s._party_no⟩

/-- The branch `if (_deficit2)` of `compute` (lines 366-424). -/
def compute2 (M : StdMath K S) (L : Libs K S) (s : deficit_space K S) :
    Except Fault (deficit_space K S × List (Call K S)) := do
  let pass ← make_pass s 2
  let lb : List K := [0, 0]
  let r0 ← col_at s._deficit_angle_range 0
  let r1 ← col_at s._deficit_angle_range 1
  let ub : List K := [r0 * M.pi, r1 * M.pi]
  let i0 ← col_at s._deficit_angle_ini 0
  let i1 ← col_at s._deficit_angle_ini 0
  let x : List K := [i0 * M.pi, i1 * M.pi]
  let opt1 : nlopt.opt K :=
    ⟨s._deficit_global_opt, 2, lb, ub, fun y => protect_dis.def_nlopt2 M L y pass,
      s._deficit_global_xtol, s._deficit_global_ftol⟩
  let g : List K × List (Call K S) :=
    if s._deficit_global = true then ((L.optimize opt1 x).1, [Call.optimize opt1 x])
    else (x, [])
  let opt : nlopt.opt K :=
    ⟨s._deficit_local_opt, 2, lb, ub, fun y => protect_dis.def_nlopt2 M L y pass,
      s._deficit_local_xtol, s._deficit_local_ftol⟩
  let r := L.optimize opt g.1
  let t0 ← vec_at r.1 0
  let t1 ← vec_at r.1 1
  pure ({ s with _result := -s._S_A_B + r.2, _tp := [t0, t1], _is_computed := true },
    g.2 ++ [Call.optimize opt g.1])

/-- The branch `if (_deficit3)` of `compute` (lines 426-484). -/
def compute3 (M : StdMath K S) (L : Libs K S) (s : deficit_space K S) :
    Except Fault (deficit_space K S × List (Call K S)) := do
  let pass ← make_pass s 3
  let lb : List K := List.replicate 5 0
  let ub ← (List.range 5).mapM (fun i => do
    let r ← col_at s._deficit_angle_range i
    pure (r * M.pi))
  let x ← (List.range 5).mapM (fun i => do
    let a ← col_at s._deficit_angle_ini i
    pure (a * M.pi))
  let opt1 : nlopt.opt K :=
    ⟨s._deficit_global_opt, 5, lb, ub, fun y => protect_dis.def_nlopt3 M L y pass,
      s._deficit_global_xtol, s._deficit_global_ftol⟩
  let g : List K × List (Call K S) :=
    if s._deficit_global = true then ((L.optimize opt1 x).1, [Call.optimize opt1 x])
    else (x, [])
  let opt : nlopt.opt K :=
    ⟨s._deficit_local_opt, 5, lb, ub, fun y => protect_dis.def_nlopt3 M L y pass,
      s._deficit_local_xtol, s._deficit_local_ftol⟩
  let r := L.optimize opt g.1
  pure ({ s with _result := -s._S_A_B + r.2, _tp := r.1, _is_computed := true },
    g.2 ++ [Call.optimize opt g.1])

/-- The member `compute` (lines 364-486): the session after the call and the library calls
made, in order. -/
def compute (M : StdMath K S) (L : Libs K S) (s : deficit_space K S) :
    Except Fault (deficit_space K S × List (Call K S)) := do
  let a ← s_a_b M L s
  let b ← (if a.1._deficit2 = true then compute2 M L a.1 else pure (a.1, []))
  let c ← (if b.1._deficit3 = true then compute3 M L b.1 else pure (b.1, []))
  pure (c.1, a.2 ++ b.2 ++ c.2)

/-- One turn `i` of the loop of the `_deficit2` branch of `compute_reg` (lines 509-533),
on the vector `ret`. -/
def reg_step2 (M : StdMath K S) (L : Libs K S) (s : deficit_space K S)
    (pass : protect_dis.TO_PASS S) (acc : List K × List (Call K S)) (i : Nat) :
    Except Fault (List K × List (Call K S)) := do
  let proj1 := protect_dis.embed s._nodal s._party_no pass.eye2 pass.eye3 pass.eye4
    (Mat.ofMatrix (SPM.proj2 M 0 (i + 1)))
  let proj2 := protect_dis.embed s._nodal s._party_no pass.eye2 pass.eye3 pass.eye4
    (Mat.ofMatrix (SPM.proj2 M 1 (i + 1)))
  let rho_1 ← protect_dis.sandwich proj1 s._rho
  let rho_2 ← protect_dis.sandwich proj2 s._rho
  let rho_1 ← Mat.add rho_1 rho_2
  let S_max ← liftExc (entropy M L rho_1)
  let ret ← col_at_put acc.1 i (-s._S_A_B + S_max)
  pure (ret, acc.2 ++ [Call.entropy rho_1])

/-- One turn `i` of the loop of the `_deficit3` branch of `compute_reg` (lines 557-591),
on the vector `ret`. -/
def reg_step3 (M : StdMath K S) (L : Libs K S) (s : deficit_space K S)
    (pass : protect_dis.TO_PASS S) (acc : List K × List (Call K S)) (i : Nat) :
    Except Fault (List K × List (Call K S)) := do
  let proj1 := protect_dis.embed s._nodal s._party_no pass.eye2 pass.eye3 pass.eye4
    (Mat.ofMatrix (SPM.proj3 M 0 (i + 1)))
  let proj2 := protect_dis.embed s._nodal s._party_no pass.eye2 pass.eye3 pass.eye4
    (Mat.ofMatrix (SPM.proj3 M 1 (i + 1)))
  let proj3 := protect_dis.embed s._nodal s._party_no pass.eye2 pass.eye3 pass.eye4
    (Mat.ofMatrix (SPM.proj3 M 2 (i + 1)))
  let rho_1 ← protect_dis.sandwich proj1 s._rho
  let rho_2 ← protect_dis.sandwich proj2 s._rho
  let rho_3 ← protect_dis.sandwich proj3 s._rho
  let rho_23 ← Mat.add rho_2 rho_3
  let rho_1 ← Mat.add rho_1 rho_23
  let S_max ← liftExc (entropy M L rho_1)
  let ret ← col_at_put acc.1 i (-s._S_A_B + S_max)
  pure (ret, acc.2 ++ [Call.entropy rho_1])

/-- The branch `if (_deficit2)` of `compute_reg` (lines 492-537). The vector `ret` is
declared by `arma::Col<pT> ret;`, that is, empty. -/
def compute_reg2 (M : StdMath K S) (L : Libs K S) (s : deficit_space K S) :
    Except Fault (deficit_space K S × List (Call K S)) := do
  let pass ← make_pass s 2
  let ret : List K := []
  let r ← [0, 1, 2].foldlM (reg_step2 M L s pass) (ret, [])
  let m ← arma_min r.1
  pure ({ s with _result_reg := m, _result_reg_all := r.1, _is_reg_computed := true }, r.2)

/-- The branch `if (_deficit3)` of `compute_reg` (lines 539-595). The vector `ret` is
declared by `arma::Col<pT> ret;`, that is, empty. -/
def compute_reg3 (M : StdMath K S) (L : Libs K S) (s : deficit_space K S) :
    Except Fault (deficit_space K S × List (Call K S)) := do
  let pass ← make_pass s 3
  let ret : List K := []
  let r ← [0, 1, 2].foldlM (reg_step3 M L s pass) (ret, [])
  let m ← arma_min r.1
  pure ({ s with _result_reg := m, _result_reg_all := r.1, _is_reg_computed := true }, r.2)

/-- The member `compute_reg` (lines 489-597). -/
def compute_reg (M : StdMath K S) (L : Libs K S) (s : deficit_space K S) :
    Except Fault (deficit_space K S × List (Call K S)) := do
  let a ← s_a_b M L s
  let b ← (if a.1._deficit2 = true then compute_reg2 M L a.1 else pure (a.1, []))
  let c ← (if b.1._deficit3 = true then compute_reg3 M L b.1 else pure (b.1, []))
  pure (c.1, a.2 ++ b.2 ++ c.2)

/-- The accessor `opt_angles` (lines 600-606): the value returned, the session after the
call, the library calls made. -/
def opt_angles (M : StdMath K S) (L : Libs K S) (s : deficit_space K S) :
    Except Fault (List K × deficit_space K S × List (Call K S)) := do
  let a ← (if s._is_computed = false then compute M L s else pure (s, []))
  pure (a.1._tp, a.1, a.2)

/-- The accessor `result` (lines 608-613). -/
def result (M : StdMath K S) (L : Libs K S) (s : deficit_space K S) :
    Except Fault (K × deficit_space K S × List (Call K S)) := do
  let a ← (if s._is_computed = false then compute M L s else pure (s, []))
  pure (a.1._result, a.1, a.2)

/-- The accessor `result_reg` (lines 615-620). -/
def result_reg (M : StdMath K S) (L : Libs K S) (s : deficit_space K S) :
    Except Fault (K × deficit_space K S × List (Call K S)) := do
  let a ← (if s._is_reg_computed = false then compute_reg M L s else pure (s, []))
  pure (a.1._result_reg, a.1, a.2)

/-- The accessor `result_reg_all` (lines 622-628). -/
def result_reg_all (M : StdMath K S) (L : Libs K S) (s : deficit_space K S) :
    Except Fault (List K × deficit_space K S × List (Call K S)) := do
  let a ← (if s._is_reg_computed = false then compute_reg M L s else pure (s, []))
  pure (a.1._result_reg_all, a.1, a.2)

/-- What the checks of the constructor and of the setters establish: a non-empty square
state, a nodal index within the parties, exactly the flags of the measured party's
dimension with one of them set, and bound and seed vectors of the length of the case. -/
structure Valid {K S : Type} (s : deficit_space K S) : Prop where
  rho_nonempty : s._rho.n_elem ≠ 0
  rho_square : s._rho.n_rows = s._rho.n_cols
  dims_nonzero : ∀ d ∈ s._dim, d ≠ 0
  dims_prod : arma_prod s._dim = s._rho.n_rows
  party_no_eq : s._party_no = s._dim.length
  nodal_pos : 1 ≤ s._nodal
  nodal_le : s._nodal ≤ s._party_no
  flag2 : s._deficit2 = true ↔ s._dim.get? (uword_sub s._nodal 1) = some 2
  flag3 : s._deficit3 = true ↔ s._dim.get? (uword_sub s._nodal 1) = some 3
  some_flag : s._deficit2 = true ∨ s._deficit3 = true
  range2 : s._deficit2 = true → s._deficit_angle_range.length = 2
  range3 : s._deficit3 = true → s._deficit_angle_range.length = 5
  ini2 : s._deficit2 = true → s._deficit_angle_ini.length = 2
  ini3 : s._deficit3 = true → s._deficit_angle_ini.length = 5

/-- The total-entropy cache and the registered-result cache of `t` are those of `s`. -/
def KeepsCaches {K S : Type} (s t : deficit_space K S) : Prop :=
  t._is_sab_computed = s._is_sab_computed ∧ t._S_A_B = s._S_A_B ∧
    t._is_reg_computed = s._is_reg_computed ∧ t._result_reg = s._result_reg ∧
    t._result_reg_all = s._result_reg_all

/-- The default configuration of the qubit case (lines 236-245). -/
def HasQubitDefaults {K S : Type} [Field K] (t : deficit_space K S) : Prop :=
  t._deficit_global_opt = nlopt.algorithm.GN_DIRECT_L ∧ t._deficit_global_xtol = 4 / 100 ∧
    t._deficit_global_ftol = 0 ∧ t._deficit_global = true ∧
    t._deficit_local_opt = nlopt.algorithm.LN_COBYLA ∧
    t._deficit_local_xtol = 10 * _precision.eps false ∧ t._deficit_local_ftol = 0 ∧
    t._deficit_angle_range = [1, 2] ∧ t._deficit_angle_ini = [1 / 10, 1 / 10]

/-- The default configuration of the qutrit case (lines 249-258). -/
def HasQutritDefaults {K S : Type} [Field K] (t : deficit_space K S) : Prop :=
  t._deficit_global_opt = nlopt.algorithm.GN_DIRECT_L ∧ t._deficit_global_xtol = 1 / 4 ∧
    t._deficit_global_ftol = 0 ∧ t._deficit_global = true ∧
    t._deficit_local_opt = nlopt.algorithm.LN_COBYLA ∧
    t._deficit_local_xtol = 10 * _precision.eps false ∧ t._deficit_local_ftol = 0 ∧
    t._deficit_angle_range = [2, 2, 2, 2, 2] ∧ t._deficit_angle_ini = [2, 2, 2, 2, 2]

/-- The outcome of the constructor as the specification orders it: the error of the first
violated condition among non-empty state (`ZeroSize`), square state (`ShapeMismatch`),
non-zero dimensions (`InvalidDimension`), product of the dimensions equal to the size
(`DimensionMismatch`), nodal index within `1..P` (`InvalidMeasuredParty`), measured
dimension 2 or 3 (`UnsupportedMeasuredPartyDimension`); `none` when all hold. The product
is the one the code computes, `arma::prod` on `uword`. -/
def construct_check {S : Type} (rho : Mat S) (k : Nat) (dim : List Nat) : Option Fault :=
  if rho.n_elem = 0 then some (Fault.exception Exception.ZERO_SIZE)
  else if rho.n_rows ≠ rho.n_cols then some (Fault.exception Exception.MATRIX_NOT_SQUARE)
  else if 0 ∈ dim then some (Fault.exception Exception.INVALID_DIMS)
  else if arma_prod dim ≠ rho.n_rows then
    some (Fault.exception Exception.DIMS_MISMATCH_MATRIX)
  else if k < 1 ∨ dim.length < k then
    some (Fault.exception (Exception.CUSTOM "Invalid measured party index!"))
  else if dim.get? (k - 1) ≠ some 2 ∧ dim.get? (k - 1) ≠ some 3 then
    some (Fault.exception (Exception.CUSTOM "Measured party is not qubit or qutrit!"))
  else none

/-- A call of one of the configuration setters (lines 264-351), with its argument. -/
inductive Setter (K : Type) where
  | global_algorithm (a : nlopt.algorithm)
  | global_xtol (a : K)
  | global_ftol (a : K)
  | global_opt (a : Bool)
  | local_algorithm (a : nlopt.algorithm)
  | local_xtol (a : K)
  | local_ftol (a : K)
  | angle_range (a : List K)
  | initial_angle (a : List K)

/-- The session after a call of a setter (for `angle_range` and `initial_angle`: whether
the call throws or not). -/
def apply_setter {K S : Type} [LinearOrderedField K] (s : deficit_space K S) :
    Setter K → deficit_space K S
  | .global_algorithm a => s.global_algorithm a
  | .global_xtol a => s.global_xtol a
  | .global_ftol a => s.global_ftol a
  | .global_opt a => s.global_opt a
  | .local_algorithm a => s.local_algorithm a
  | .local_xtol a => s.local_xtol a
  | .local_ftol a => s.local_ftol a
  | .angle_range a => (s.angle_range a).1
  | .initial_angle a => (s.initial_angle a).1

/-- The members of `t` that no setter writes, `_is_computed` apart, are those of `s`. -/
def SameCore {K S : Type} (s t : deficit_space K S) : Prop :=
  t._rho = s._rho ∧ t._nodal = s._nodal ∧ t._dim = s._dim ∧ t._party_no = s._party_no ∧
    t._deficit2 = s._deficit2 ∧ t._deficit3 = s._deficit3 ∧
    t._is_reg_computed = s._is_reg_computed ∧ t._is_sab_computed = s._is_sab_computed ∧
    t._result = s._result ∧ t._tp = s._tp ∧ t._result_reg = s._result_reg ∧
    t._result_reg_all = s._result_reg_all ∧ t._S_A_B = s._S_A_B

end deficit_space

/-! ## The uniform-dimension constructor -/

/-- The `std::` functions of the uniform-dimension constructor: `std::log` and
`std::llround` on `double`. -/
structure RoundMath (K : Type) where
  log : K → K
  llround : K → Int

/-- The conversion `static_cast<arma::uword>` of a `long long`. -/
def uword_of_int (i : Int) : Nat := (i % (uword_size : Int)).toNat

/-- The constructor `deficit_space(rho1, nodal, uword dim)` (lines 183-206); the members
it does not initialise are listed as in `construct`. -/
def deficit_space.construct_uniform {K S : Type} [LinearOrderedField K] (R : RoundMath K)
    (rho1 : Mat S) (nodal : Nat) (dim : Nat) : Except Fault (deficit_space K S) := do
  let s : deficit_space K S :=
    { _rho := rho1
      _nodal := nodal
      _is_computed := false
      _is_reg_computed := false
      _is_sab_computed := false
      _dim := []
      _party_no := 0
      _deficit2 := false
      _deficit3 := false
      _result := 0
      _tp := []
      _result_reg := 0
      _result_reg_all := []
      _S_A_B := 0
      _deficit_global_opt := nlopt.algorithm.GN_DIRECT_L
      _deficit_global_xtol := 0
      _deficit_global_ftol := 0
      _deficit_global := false
      _deficit_local_opt := nlopt.algorithm.LN_COBYLA
      _deficit_local_xtol := 0
      _deficit_local_ftol := 0
      _deficit_angle_range := []
      _deficit_angle_ini := [] }
  if s._rho.n_elem = 0 then
    throw (Fault.exception Exception.ZERO_SIZE)
  if s._rho.n_rows ≠ s._rho.n_cols then
    throw (Fault.exception Exception.MATRIX_NOT_SQUARE)
  if dim = 0 then
    throw (Fault.exception Exception.INVALID_DIMS)
  let n : Nat := uword_of_int (R.llround (R.log (s._rho.n_rows : K) / R.log (dim : K)))
  let dim2 : List Nat := List.replicate n dim
  deficit_space.init s dim2

/-! ## Reachable sessions -/

/-- The sessions reachable from a constructor by public operations that return without
throwing (a throwing `angle_range` or `initial_angle` leaves the session as it was, and is
covered by `apply_setter`). -/
inductive deficit_space.Reachable {K S : Type} [LinearOrderedField K] [CommRing S] [StarRing S]
    (M : StdMath K S) (L : Libs K S) : deficit_space K S → Prop where
  | construct (rho : Mat S) (k : Nat) (dim : List Nat) (s : deficit_space K S) :
      deficit_space.construct rho k dim = .ok s → Reachable M L s
  | construct_uniform (R : RoundMath K) (rho : Mat S) (k d : Nat) (s : deficit_space K S) :
      deficit_space.construct_uniform R rho k d = .ok s → Reachable M L s
  | setter (s : deficit_space K S) (op : deficit_space.Setter K) :
      Reachable M L s → Reachable M L (s.apply_setter op)
  | refresh (s : deficit_space K S) : Reachable M L s → Reachable M L s.refresh
  | reset_party (s : deficit_space K S) (k : Nat) :
      Reachable M L s → k < uword_size → (s.reset_party k).2 = none →
      Reachable M L (s.reset_party k).1
  | result (s t : deficit_space K S) (v : K) (c : List (Call K S)) :
      Reachable M L s → deficit_space.result M L s = .ok (v, t, c) → Reachable M L t
  | opt_angles (s t : deficit_space K S) (v : List K) (c : List (Call K S)) :
      Reachable M L s → deficit_space.opt_angles M L s = .ok (v, t, c) → Reachable M L t
  | result_reg (s t : deficit_space K S) (v : K) (c : List (Call K S)) :
      Reachable M L s → deficit_space.result_reg M L s = .ok (v, t, c) → Reachable M L t
  | result_reg_all (s t : deficit_space K S) (v : List K) (c : List (Call K S)) :
      Reachable M L s → deficit_space.result_reg_all M L s = .ok (v, t, c) →
      Reachable M L t

/-! ## entropy.hpp : probability vectors, Rényi and Tsallis entropies -/

/-- Further `std::` functions the entropy functions call on `pT`, and the comparison with
the constant `arma::Datum<pT>::inf`. -/
structure PowMath (K : Type) where
  /-- `std::pow(x, y)` -/
  pow : K → K → K
  /-- `std::log` -/
  log : K → K
  /-- the test `alpha == arma::Datum<pT>::inf` -/
  is_inf : K → Bool

/-- The elements of an `arma::Mat` in memory order (column by column), as visited by a
range-based `for`. -/
def Mat.elems {S : Type} (A : Mat S) : List S :=
  (List.finRange A.n_cols).flatMap fun j => (List.finRange A.n_rows).map fun i => A.mem i j

/-- The conversion `static_cast<arma::Col<T> >(v)` of a `std::vector` or an initializer
list to a column vector. -/
def Mat.ofCol {S : Type} (v : List S) : Mat S := ⟨v.length, 1, Matrix.of fun i _ => v.get i⟩

/-- The function `arma::max` on a column: throws on an empty vector. -/
def arma_max {K : Type} [LinearOrder K] : List K → Except Fault K
  | [] => .error .logic_error
  | a :: v => .ok (v.foldl max a)

section entropies

variable {K S : Type} [LinearOrderedField K] [CommRing S] [StarRing S]

/-- The function `qic::shannon` on a matrix expression (lines 63-82). -/
def shannon (M : StdMath K S) (prob : Mat K) : Except Exception K :=
  if prob.n_elem = 0 then .error .ZERO_SIZE
  else if prob.n_cols ≠ 1 then .error .MATRIX_NOT_CVECTOR
  else if prob.elems.any (fun x => decide (x < -_precision.eps false)) then
    .error (.CUSTOM "Invalid probaility distribution")
  else
    .ok (prob.elems.foldl
      (fun S i => S - (if i > _precision.eps false then i * M.log2 i else 0)) 0)

/-- The function `qic::renyi` (lines 105-147), for `pT = double`. -/
def renyi (M : StdMath K S) (E : PowMath K) (L : Libs K S) (rho : Mat S) (alpha : K) :
    Except Fault K :=
  let checkV : Bool := if rho.n_cols = 1 then false else true
  if rho.n_elem = 0 then .error (.exception .ZERO_SIZE)
  else if checkV = true ∧ rho.n_rows ≠ rho.n_cols then
    .error (.exception .MATRIX_NOT_SQUARE_OR_CVECTOR)
  else if alpha < -_precision.eps false then .error (.exception .OUT_OF_RANGE)
  else if alpha < _precision.eps false then .ok (M.log2 (rho.n_rows : K))
  else if checkV = false then .ok 0
  else if |alpha - 1| < _precision.eps false then liftExc (entropy M L rho)
  else if E.is_inf alpha = true then do
    let m ← arma_max (L.eig_sym rho)
    pure (-M.log2 m)
  else
    let ret : K := (L.eig_sym rho).foldl
      (fun ret x => ret + (if x > _precision.eps false then E.pow x alpha else 0)) 0
    .ok (M.log2 ret / (1 - alpha))

/-- The function `qic::renyi_prob` on a matrix expression (lines 154-189). -/
def renyi_prob (M : StdMath K S) (E : PowMath K) (prob2 : Mat K) (alpha : K) :
    Except Fault K :=
  if prob2.n_elem = 0 then .error (.exception .ZERO_SIZE)
  else if prob2.n_cols ≠ 1 then .error (.exception .MATRIX_NOT_CVECTOR)
  else if alpha < -_precision.eps false then .error (.exception .OUT_OF_RANGE)
  else if prob2.elems.any (fun x => decide (x < -_precision.eps false)) then
    .error (.exception (.CUSTOM "Invalid probaility distribution"))
  else if alpha < _precision.eps false then .ok (M.log2 (prob2.n_elem : K))
  else if |alpha - 1| < _precision.eps false then liftExc (shannon M prob2)
  else if E.is_inf alpha = true then do
    let m ← arma_max prob2.elems
    pure (-M.log2 m)
  else
    let ret : K := prob2.elems.foldl
      (fun ret x => ret + (if x > _precision.eps false then E.pow x alpha else 0)) 0
    .ok (M.log2 ret / (1 - alpha))

/-- The function `qic::tsallis_prob` on a matrix expression (lines 258-286). -/
def tsallis_prob (M : StdMath K S) (E : PowMath K) (prob2 : Mat K) (alpha : K) :
    Except Fault K :=
  if prob2.n_elem = 0 then .error (.exception .ZERO_SIZE)
  else if prob2.n_cols ≠ 1 then .error (.exception .MATRIX_NOT_CVECTOR)
  else if alpha < 0 then .error (.exception .OUT_OF_RANGE)
  else if prob2.elems.any (fun x => decide (x < -_precision.eps false)) then
    .error (.exception (.CUSTOM "Invalid probaility distribution"))
  else if |alpha - 1| < _precision.eps false then do
    let s ← liftExc (shannon M prob2)
    pure (E.log 2 * s)
  else
    let ret : K := prob2.elems.foldl
      (fun ret x => ret + (if x > _precision.eps false then E.pow x alpha else 0)) 0
    .ok ((ret - 1) / (1 - alpha))

/-- The overload of `tsallis_prob` on a `std::vector` (lines 294-297). -/
def tsallis_prob_vector (M : StdMath K S) (E : PowMath K) (prob1 : List K) (alpha : K) :
    Except Fault K :=
  tsallis_prob M E (Mat.ofCol prob1) alpha

/-- The overload of `tsallis_prob` on an initializer list (lines 305-309): its body calls
`renyi_prob`. -/
def tsallis_prob_init (M : StdMath K S) (E : PowMath K) (prob1 : List K) (alpha : K) :
    Except Fault K :=
  renyi_prob M E (Mat.ofCol prob1) alpha

end entropies

/-! ## EoF.hpp -/

/-- The functions `qic::concurrence` and `qic::entanglement`, which `EoF` calls and which
are taken as given. -/
structure EntFuns (K S : Type) where
  concurrence : Mat S → K
  entanglement : Mat S → List Nat → K

/-- The function `qic::EoF` (lines 29-63), for `pT = double`. -/
def EoF {K S : Type} [LinearOrderedField K] (M : StdMath K S) (E : PowMath K)
    (F : EntFuns K S) (p : Mat S) : Except Exception K :=
  let checkV : Bool := if p.n_cols = 1 then false else true
  if p.n_elem = 0 then .error .ZERO_SIZE
  else if checkV = true ∧ p.n_rows ≠ p.n_cols then .error .MATRIX_NOT_SQUARE_OR_CVECTOR
  else if p.n_rows ≠ 4 then .error .NOT_QUBIT_SUBSYS
  else if checkV = false then .ok (F.entanglement p [2, 2])
  else
    let ret : K := (1 / 2) * (1 + M.sqrt (1 - E.pow (F.concurrence p) 2))
    let ret2 : K := 0
    let ret2 : K := if ret > _precision.eps false then ret2 - ret * M.log2 ret else ret2
    let ret2 : K :=
      if 1 - ret > _precision.eps false then ret2 - (1 - ret) * M.log2 (1 - ret) else ret2
    .ok ret2

/-! ## gates.hpp : the table gates and `qft` -/

namespace GATES

/-- The table gate `Had` (lines 50-51). -/
def Had {K S : Type} [Field K] (M : StdMath K S) : Matrix (Fin 2) (Fin 2) K :=
  Matrix.of fun i j => if i = 1 ∧ j = 1 then -M.sqrt (1 / 2) else M.sqrt (1 / 2)

/-- The member `qft` (lines 99-118); the product `i * j` is taken on `arma::uword`. -/
def qft {K S : Type} [Field K] [Field S] (M : StdMath K S) (dim : Nat) :
    Except Exception (Mat S) :=
  if dim = 0 then .error .INVALID_DIMS
  else
    .ok ⟨dim, dim, Matrix.of fun i j =>
      M.ofReal (1 / M.sqrt (dim : K)) *
        M.exp (M.ofReal 2 * M.I * M.ofReal M.pi * M.ofReal ((uword_mul i.val j.val : Nat) : K) /
          M.ofReal (dim : K))⟩

end GATES

/-! ## Contracts of the two library calls in exact arithmetic -/

/-- The list `l` holds the eigenvalues of the square matrix `rho`, with multiplicity: a
unitary matrix diagonalises `rho` to them. -/
def IsEigenvalues (rho : Mat ℂ) (l : List ℝ) : Prop :=
  ∃ (n : Nat) (A U : Matrix (Fin n) (Fin n) ℂ) (d : Fin n → ℝ),
    rho = ⟨n, n, A⟩ ∧ l = List.ofFn d ∧ U * star U = 1 ∧ star U * U = 1 ∧
      A = U * Matrix.diagonal (fun i => (d i : ℂ)) * star U

/-- Assumption on `arma::eig_sym`, a call into the linear-algebra library: on a Hermitian
matrix it returns the eigenvalues. -/
def Libs.EigContract (L : Libs ℝ ℂ) : Prop :=
  ∀ (n : Nat) (A : Matrix (Fin n) (Fin n) ℂ), A.IsHermitian →
    IsEigenvalues ⟨n, n, A⟩ (L.eig_sym ⟨n, n, A⟩)

/-- Assumption on `nlopt::opt::optimize`, a call into the optimization library: when the
objective returns a value at every point of the dimension of the start point, the value
`minf` handed back is the value of the objective at the point handed back. -/
def Libs.OptContract {K S : Type} (L : Libs K S) : Prop :=
  ∀ (o : nlopt.opt K) (x : List K),
    (∀ y : List K, y.length = x.length → ∃ v, o.min_objective y = .ok v) →
    o.min_objective (L.optimize o x).1 = .ok (L.optimize o x).2

/-! ## gates.hpp : `make_ctrl` -/

/-- Addition on `arma::uword`. -/
def uword_add (a b : Nat) : Nat := (a + b) % uword_size

/-- Unchecked read `a[i]` of a C array: undefined out of bounds. -/
def arr_at (a : List Nat) (i : Nat) : Except Fault Nat :=
  match a.get? i with
  | some x => .ok x
  | none => .error .undefined

/-- Unchecked write `a[i] = x` into a C array: undefined out of bounds. -/
def arr_put (a : List Nat) (i x : Nat) : Except Fault (List Nat) :=
  if i < a.length then .ok (a.set i x) else .error .undefined

/-- Unchecked read `A.at(i, j)` of a matrix: undefined out of bounds. -/
def Mat.entry {S : Type} (A : Mat S) (i j : Nat) : Except Fault S :=
  if h : i < A.n_rows ∧ j < A.n_cols then .ok (A.mem ⟨i, h.1⟩ ⟨j, h.2⟩)
  else .error .undefined

/-- Unchecked write `U.at(i, j) = v` into an `N x N` matrix given by its entries: undefined
out of bounds. -/
def mat_put {S : Type} (N : Nat) (U : Nat → Nat → S) (i j : Nat) (v : S) :
    Except Fault (Nat → Nat → S) :=
  if i < N ∧ j < N then .ok (fun x y => if x = i ∧ y = j then v else U x y)
  else .error .undefined

/-- The parts of `_internal` that `make_ctrl` uses; they are taken as given. -/
structure Internal (S : Type) where
  /-- the constant `_internal::MAXQDIT`, the size of the stride arrays -/
  MAXQDIT : Nat
  /-- `_internal::dim_collapse_sys_ctrl(dim, sys, ctrl)`: the vectors `dim`, `sys`, `ctrl`
  after the call, which modifies them in place -/
  dim_collapse_sys_ctrl : List Nat → List Nat → List Nat → List Nat × List Nat × List Nat
  /-- `powm_gen(A, i)`: the power `A^i` -/
  powm_gen : Mat S → Nat → Mat S

namespace GATES

/-- The table gate `X` (line 46): the real part of `S.at(1)`, which is filled with
`0, 1, 1, 0`. -/
def X {K : Type} [Field K] : Matrix (Fin 2) (Fin 2) K :=
  Matrix.of fun i j => if i = j then 0 else 1

/-- The table gate `Z` (line 48): the real part of `S.at(3)`, which is filled with
`1, 0, 0, -1`. -/
def Z {K : Type} [Field K] : Matrix (Fin 2) (Fin 2) K :=
  Matrix.of fun i j => if i = j then (if i = 0 then 1 else -1) else 0

/-- The table gate `CNOT` (lines 55-56). -/
def CNOT {K : Type} [Field K] : Matrix (Fin 4) (Fin 4) K :=
  Matrix.of fun i j =>
    if (i.val, j.val) ∈ [(0, 0), (1, 1), (2, 3), (3, 2)] then 1 else 0

/-- The table gate `CZ` (lines 58-60). -/
def CZ {K : Type} [Field K] : Matrix (Fin 4) (Fin 4) K :=
  Matrix.of fun i j =>
    if (i.val, j.val) ∈ [(0, 0), (1, 1), (2, 2)] then 1
    else if (i.val, j.val) = (3, 3) then -1 else 0

/-- The table gate `Tof` (lines 67-69). -/
def Tof {K : Type} [Field K] : Matrix (Fin 8) (Fin 8) K :=
  Matrix.of fun i j =>
    if (i.val, j.val) ∈ [(0, 0), (1, 1), (2, 2), (3, 3), (4, 4), (5, 5), (6, 7), (7, 6)]
    then 1 else 0

section make_ctrl

variable {S : Type} [CommRing S]

/-- The loop of lines 140-143 over the control parties after the first. -/
def ctrl_dims_check (dim : List Nat) (d : Nat) : List Nat → Except Fault Unit
  | [] => .ok ()
  | c :: cs =>
    match col_at dim (uword_sub c 1) with
    | .error e => .error e
    | .ok dc =>
      if dc ≠ d then .error (.exception .DIMS_NOT_EQUAL) else ctrl_dims_check dim d cs

/-- The checks of `make_ctrl` (lines 133-157), `d` being the value read at line 129. -/
def make_ctrl_checks (A1 : Mat S) (ctrl sys dim : List Nat) (d : Nat) : Except Fault Unit :=
  if A1.n_elem = 0 then .error (.exception .ZERO_SIZE)
  else if A1.n_rows ≠ A1.n_cols then .error (.exception .MATRIX_NOT_SQUARE)
  else
    match ctrl_dims_check dim d ctrl.tail with
    | .error e => .error e
    | .ok _ =>
      if dim.length = 0 ∨ dim.any (fun x => x == 0) = true then
        .error (.exception .INVALID_DIMS)
      else
        match sys.mapM (fun s => col_get dim (uword_sub s 1)) with
        | .error e => .error e
        | .ok sub =>
          if arma_prod sub ≠ A1.n_rows then .error (.exception .DIMS_MISMATCH_MATRIX)
          else if (sys ++ ctrl).length > dim.length ∨
              (sys ++ ctrl).dedup.length ≠ (sys ++ ctrl).length ∨
              (sys ++ ctrl).any (fun x => decide (x > dim.length)) = true ∨
              (sys ++ ctrl).any (fun x => x == 0) = true then
            .error (.exception .INVALID_SUBSYS)
          else .ok ()

/-- The vector `keep` (lines 166-173): the parties outside `sys`, in increasing order. -/
def keep_list (n : Nat) (sys : List Nat) : List Nat :=
  ((List.range n).filter (fun run => !(sys.contains (run + 1)))).map (fun run => run + 1)

/-- The loop `for (i = k - 1; i >= 0; --i) a[i] = a[i + 1] * f(i)` that fills a stride
array from the back; `acc` holds the entries already written. -/
def stride_loop (f : Nat → Except Fault Nat) : Nat → List Nat → Except Fault (List Nat)
  | 0, acc => .ok acc
  | i + 1, acc =>
    match f i with
    | .error e => .error e
    | .ok x => stride_loop f i (uword_mul (acc.headD 0) x :: acc)

/-- A stride array of `n` entries inside a C array of `MAXQDIT` entries (lines 175-178 and
180-183): `a[n - 1] = 1`, then the loop; the first write is out of bounds when `n = 0`
or `n > MAXQDIT`. -/
def stride_array (MAXQDIT n : Nat) (f : Nat → Except Fault Nat) : Except Fault (List Nat) :=
  if n = 0 ∨ MAXQDIT < n then .error .undefined else stride_loop f (n - 1) [1]

/-- The counts `count1` and `count2` of one turn of the main loop (lines 209-213). -/
def ctrl_counts (n : Nat) (ctrl lc : List Nat) : Except Fault (Nat × Nat) :=
  (List.range n).foldlM (fun (acc : Nat × Nat) i =>
    match arr_at lc i, arr_at lc (i + n) with
    | .ok a, .ok b =>
      .ok (acc.1 + (if ctrl.contains (i + 1) = true ∧ a ≠ 0 then 1 else 0),
        acc.2 + (if b = 0 then 1 else 0))
    | .error e, _ => .error e
    | _, .error e => .error e) (0, 0)

/-- The index `I` of the first branch (lines 216-217). -/
def ctrl_row (n : Nat) (product lc : List Nat) : Except Fault Nat :=
  (List.range n).foldlM (fun (acc : Nat) i =>
    match arr_at product i, arr_at lc i with
    | .ok p, .ok a => .ok (uword_add acc (uword_mul p a))
    | .error e, _ => .error e
    | _, .error e => .error e) 0

/-- The indices `I`, `J`, `K`, `L` of the second branch (lines 221-244). The inner `while`
looks for the first position `counter` of `i + 1` in `sys`. -/
def ctrl_index (n : Nat) (keep sys product productr lc : List Nat) :
    Except Fault (Nat × Nat × Nat × Nat) :=
  (List.range n).foldlM (fun (acc : Nat × Nat × Nat × Nat) i =>
    match arr_at product i, arr_at lc i, arr_at lc (i + n) with
    | .ok p, .ok a, .ok b =>
      let I := uword_add acc.1 (uword_mul p a)
      let J := uword_add acc.2.1 (uword_mul p (if keep.contains (i + 1) = true then a else b))
      if sys.contains (i + 1) = true then
        match arr_at productr (sys.indexOf (i + 1)) with
        | .ok pr =>
          .ok (I, J, uword_add acc.2.2.1 (uword_mul pr a), uword_add acc.2.2.2 (uword_mul pr b))
        | .error e => .error e
      else .ok (I, J, acc.2.2.1, acc.2.2.2)
    | .error e, _, _ => .error e
    | _, .error e, _ => .error e
    | _, _, .error e => .error e) (0, 0, 0, 0)

/-- The exponent `power` (lines 222 and 246-253). -/
def ctrl_power (ctrl lc : List Nat) : Except Fault Nat :=
  match ctrl with
  | [] => .ok 1
  | c0 :: cs =>
    match arr_at lc (uword_sub c0 1) with
    | .error e => .error e
    | .ok a0 =>
      match (cs.foldlM (fun (acc : Nat) cj =>
          match arr_at lc (uword_sub cj 1) with
          | .ok aj => .ok (acc + (if a0 = aj then 1 else 0))
          | .error e => .error e) 1 : Except Fault Nat) with
      | .error e => .error e
      | .ok counter_1 => .ok (if counter_1 = (c0 :: cs).length then a0 else 0)

/-- The body of the main loop before the counter is advanced (lines 209-255), on the
entries of `U`. -/
def ctrl_body (E : Internal S) (A1 : Mat S) (n : Nat) (ctrl sys keep product productr : List Nat)
    (p_num N : Nat) (lc : List Nat) (U : Nat → Nat → S) : Except Fault (Nat → Nat → S) :=
  match ctrl_counts n ctrl lc with
  | .error e => .error e
  | .ok cnt =>
    if cnt.1 ≠ ctrl.length ∧ cnt.2 = n then
      match ctrl_row n product lc with
      | .error e => .error e
      | .ok I => mat_put N U I I 1
    else if cnt.1 = ctrl.length then
      match ctrl_index n keep sys product productr lc, ctrl_power ctrl lc with
      | .ok x, .ok power =>
        if power ≤ p_num then
          match (E.powm_gen A1 power).entry x.2.2.1 x.2.2.2 with
          | .ok v => mat_put N U x.1 x.2.1 v
          | .error e => .error e
        else .error .undefined
      | .error e, _ => .error e
      | _, .error e => .error e
    else .ok U

/-- The test `loop_counter[p1] == MAX[p1]` of the inner loop (line 258). -/
def carry_test (MAX : List Nat) (st : List Nat × Nat) : Except Fault Bool :=
  match arr_at st.1 st.2 with
  | .error e => .error e
  | .ok c =>
    match arr_at MAX st.2 with
    | .error e => .error e
    | .ok mx => .ok (decide (c = mx))

/-- The body of the inner loop (lines 259-262). -/
def carry_step (MAX : List Nat) (st : List Nat × Nat) : Except Fault (List Nat × Nat) :=
  match arr_put st.1 st.2 0 with
  | .error e => .error e
  | .ok lc1 =>
    match arr_at lc1 (st.2 + 1) with
    | .error e => .error e
    | .ok c1 =>
      match arr_put lc1 (st.2 + 1) (c1 + 1) with
      | .error e => .error e
      | .ok lc2 =>
        match arr_at MAX (st.2 + 1) with
        | .error e => .error e
        | .ok mx1 => .ok (lc2, if c1 + 1 ≠ mx1 then 0 else st.2 + 1)

/-- The inner loop of lines 258-263 that carries the counter, with at most `fuel` turns;
the state is `loop_counter` and `p1`. -/
def ctrl_carry (MAX : List Nat) : Nat → List Nat × Nat → Except Fault (List Nat × Nat)
  | 0, st =>
    match carry_test MAX st with
    | .error e => .error e
    | .ok true => .error .fuel
    | .ok false => .ok st
  | fuel + 1, st =>
    match carry_test MAX st with
    | .error e => .error e
    | .ok false => .ok st
    | .ok true =>
      match carry_step MAX st with
      | .error e => .error e
      | .ok st1 => ctrl_carry MAX fuel st1

/-- The end of a turn of the main loop (lines 257-263): `++loop_counter[0]`, then the
carries. -/
def ctrl_advance (MAX : List Nat) (fuel : Nat) (lc : List Nat) (p1 : Nat) :
    Except Fault (List Nat × Nat) :=
  match arr_at lc 0 with
  | .error e => .error e
  | .ok c0 =>
    match arr_put lc 0 (c0 + 1) with
    | .error e => .error e
    | .ok lc1 => ctrl_carry MAX fuel (lc1, p1)

/-- One turn of the main loop (lines 209-263): `body`, the part before the counter is
advanced, then the advance of the counter with at most `cfuel` carries. The state is
`loop_counter`, `p1` and the entries of `U`. -/
def ctrl_turn (body : List Nat → (Nat → Nat → S) → Except Fault (Nat → Nat → S))
    (MAX : List Nat) (cfuel : Nat) (st : List Nat × Nat × (Nat → Nat → S)) :
    Except Fault (List Nat × Nat × (Nat → Nat → S)) :=
  match body st.1 st.2.2 with
  | .error e => .error e
  | .ok U1 =>
    match ctrl_advance MAX cfuel st.1 st.2.1 with
    | .error e => .error e
    | .ok x => .ok (x.1, x.2, U1)

/-- The main loop `while (loop_counter[loop_no] == 0)` (lines 208-264) with at most `fuel`
turns. -/
def ctrl_loop (body : List Nat → (Nat → Nat → S) → Except Fault (Nat → Nat → S))
    (MAX : List Nat) (loop_no cfuel : Nat) :
    Nat → List Nat × Nat × (Nat → Nat → S) → Except Fault (List Nat × Nat × (Nat → Nat → S))
  | 0, st =>
    match arr_at st.1 loop_no with
    | .error e => .error e
    | .ok c => if c ≠ 0 then .ok st else .error .fuel
  | fuel + 1, st =>
    match arr_at st.1 loop_no with
    | .error e => .error e
    | .ok c =>
      if c ≠ 0 then .ok st
      else
        match ctrl_turn body MAX cfuel st with
        | .error e => .error e
        | .ok st1 => ctrl_loop body MAX loop_no cfuel fuel st1

/-- The state after `t` turns of the main loop. -/
def ctrl_turns (body : List Nat → (Nat → Nat → S) → Except Fault (Nat → Nat → S))
    (MAX : List Nat) (cfuel : Nat) :
    Nat → List Nat × Nat × (Nat → Nat → S) → Except Fault (List Nat × Nat × (Nat → Nat → S))
  | 0, st => .ok st
  | t + 1, st =>
    match ctrl_turns body MAX cfuel t st with
    | .error e => .error e
    | .ok st1 => ctrl_turn body MAX cfuel st1

/-- The array `MAX` (lines 197-204): the dimensions, then for each party 1 if it is kept
and its dimension otherwise, then the sentinel 2. -/
def ctrl_MAX (n : Nat) (keep dim : List Nat) : List Nat :=
  dim ++ List.zipWith (fun i di => if keep.contains (i + 1) = true then 1 else di)
    (List.range n) dim ++ [2]

/-- The part of `make_ctrl` after the call of `dim_collapse_sys_ctrl` (lines 162-265), on
the vectors that call left; `d` and `N` were computed before it (lines 129-130). Each loop
takes at most `fuel` turns. -/
def make_ctrl_core (E : Internal S) (fuel : Nat) (A1 : Mat S) (ctrl sys dim : List Nat)
    (d N : Nat) : Except Fault (Mat S) :=
  let n := dim.length
  let m := sys.length
  let keep := keep_list n sys
  if keep.length ≠ uword_sub n m then .error .undefined
  else
    match stride_array E.MAXQDIT n (fun i => col_at dim (i + 1)),
      stride_array E.MAXQDIT m (fun i =>
        match col_get sys i with
        | .error e => .error e
        | .ok s => col_at dim (uword_sub s 1)) with
    | .ok product, .ok productr =>
      let p_num := max 1 (uword_sub d 1)
      let MAX := ctrl_MAX n keep dim
      match ctrl_loop (ctrl_body E A1 n ctrl sys keep product productr p_num N) MAX (2 * n)
          fuel fuel (List.replicate (2 * n + 1) 0, 0, fun _ _ => 0) with
      | .error e => .error e
      | .ok r => .ok ⟨N, N, Matrix.of fun i j => r.2.2 i.val j.val⟩
    | .error e, _ => .error e
    | _, .error e => .error e

/-- The member `make_ctrl(A, ctrl, sys, dim)` (lines 125-266); the argument `A` is a
matrix, as `as_Mat(A)` and the reads of `A1` require. Each loop takes at most `fuel`
turns. -/
def make_ctrl (E : Internal S) (fuel : Nat) (A1 : Mat S) (ctrl sys dim : List Nat) :
    Except Fault (Mat S) :=
  match (match ctrl with
    | [] => .ok 1
    | c0 :: _ => col_at dim (uword_sub c0 1) : Except Fault Nat) with
  | .error e => .error e
  | .ok d =>
    match make_ctrl_checks A1 ctrl sys dim d with
    | .error e => .error e
    | .ok _ =>
      let t := E.dim_collapse_sys_ctrl dim sys ctrl
      make_ctrl_core E fuel A1 t.2.2 t.2.1 t.1 d (arma_prod dim)

/-- The overload `make_ctrl(A, ctrl, sys, n, dim = 2)` (lines 273-287). -/
def make_ctrl_uniform (E : Internal S) (fuel : Nat) (A1 : Mat S) (ctrl sys : List Nat)
    (n dim : Nat) : Except Fault (Mat S) :=
  if n = 0 then .error (.exception .OUT_OF_RANGE)
  else if dim = 0 then .error (.exception .INVALID_DIMS)
  else make_ctrl E fuel A1 ctrl sys (List.replicate n dim)

end make_ctrl

end GATES

/-- The mixed-radix digits of `t` for the radices `R`, least significant first. -/
def digits : List Nat → Nat → List Nat
  | [], _ => []
  | m :: ms, t => t % m :: digits ms (t / m)

/-- The number with the mixed-radix digits `ds` for the radices `R`, least significant
first. -/
def ofDigits : List Nat → List Nat → Nat
  | m :: ms, d :: ds => d + m * ofDigits ms ds
  | _, _ => 0

/-! ## The controlled gate, as a table of entries -/

/-- The strides of the dimensions `dim`: entry `i` is the product of the dimensions of the
parties after party `i`. -/
def strides : List Nat → List Nat
  | [] => []
  | _ :: ds => ds.prod :: strides ds

/-- The multi-index of the index `I` for the dimensions `dim`, the first party being the
most significant. -/
def multi_index : List Nat → Nat → List Nat
  | [], _ => []
  | d :: ds, I => (I / ds.prod) % d :: multi_index ds (I % ds.prod)

/-- The index with the multi-index `xs` for the dimensions `dim`, the first party being the
most significant. -/
def sub_index : List Nat → List Nat → Nat
  | _ :: ds, x :: xs => x * ds.prod + sub_index ds xs
  | _, _ => 0

/-- The controlled-`A` gate on the parties `sys` with the control parties `ctrl`, entry by
entry: 0 unless the row `I` and the column `J` agree on every party outside `sys`; then
`A(K, L)`, for the sub-indices `K`, `L` of `I`, `J` on the parties of `sys`, when every
control party of `I` is at 1, and `delta(K, L)` otherwise. -/
def controlled_gate {S : Type} [CommRing S] (A : Mat S) (ctrl sys dim : List Nat)
    (I J : Nat) : S :=
  let x := multi_index dim I
  let y := multi_index dim J
  let K := sub_index (sys.map (fun s => dim.getD (s - 1) 1)) (sys.map (fun s => x.getD (s - 1) 0))
  let L := sub_index (sys.map (fun s => dim.getD (s - 1) 1)) (sys.map (fun s => y.getD (s - 1) 0))
  if ∀ i, i < dim.length → (i + 1) ∉ sys → x.getD i 0 = y.getD i 0 then
    if ∀ c ∈ ctrl, x.getD (c - 1) 0 = 1 then
      match A.entry K L with
      | .ok v => v
      | .error _ => 0
    else if K = L then 1 else 0
  else 0

/-- Well-formed vectors of a controlled gate on qubits: dimensions from 1 on whose product
and number fit `arma::uword`, and distinct parties `sys` and distinct parties `ctrl` of
dimension 2, the size `2 ^ m` of the gate on `sys` fitting `arma::uword` too. -/
structure CtrlWF (dim sys ctrl : List Nat) : Prop where
  pos : ∀ x ∈ dim, 1 ≤ x
  prod_lt : dim.prod < uword_size
  len_lt : dim.length < uword_size
  sys_nodup : sys.Nodup
  sys_valid : ∀ s ∈ sys, 1 ≤ s ∧ s ≤ dim.length
  sys_qubit : ∀ s ∈ sys, dim.getD (s - 1) 1 = 2
  ctrl_nodup : ctrl.Nodup
  ctrl_valid : ∀ c ∈ ctrl, 1 ≤ c ∧ c ≤ dim.length
  ctrl_qubit : ∀ c ∈ ctrl, dim.getD (c - 1) 1 = 2
  pow_lt : 2 ^ sys.length < uword_size

/-- A counter of the main loop of `make_ctrl` during the loop: `2 n + 1` entries, a row
digit below the dimension for every party, a column digit below the dimension for the
parties of `sys` and 0 for the others. -/
structure CounterOK (dim sys lc : List Nat) : Prop where
  len : lc.length = 2 * dim.length + 1
  row : ∀ i, i < dim.length → lc.getD i 0 < dim.getD i 1
  col : ∀ i, i < dim.length →
    if (i + 1) ∈ sys then lc.getD (i + dim.length) 0 < dim.getD i 1
    else lc.getD (i + dim.length) 0 = 0

/-- The row that a counter of the main loop of `make_ctrl` stands for. -/
def counter_row (dim lc : List Nat) : Nat :=
  ∑ i in Finset.range dim.length, (dim.drop (i + 1)).prod * lc.getD i 0

/-- The column that a counter of the main loop of `make_ctrl` stands for. -/
def counter_col (dim sys lc : List Nat) : Nat :=
  ∑ i in Finset.range dim.length, (dim.drop (i + 1)).prod *
    (if (i + 1) ∈ sys then lc.getD (i + dim.length) 0 else lc.getD i 0)

/-! ## Inputs used in the examples -/

/-- The maximally mixed state `(1/N) * I` of size `N`, as an input of `entropy`. -/
def maximally_mixed {S : Type} [Field S] (N : Nat) : Mat S :=
  ⟨N, N, (1 / (N : S)) • (1 : Matrix (Fin N) (Fin N) S)⟩

/-- The pure state `|0>` of one qubit as a column vector (2 x 1). -/
def ket0 : Mat GaussianInt := Mat.ofMatrix (SPM.col2 1 0)

/-- The pure product state `|00><00|` of two qubits as a 4 x 4 density matrix. -/
def rho00 : Mat GaussianInt :=
  ⟨4, 4, Matrix.of fun i j => if i = 0 ∧ j = 0 then 1 else 0⟩

/-- The session built by `deficit_space(rho00, 1, {2, 2})`. -/
def session00 : deficit_space ℚ GaussianInt :=
  { _rho := rho00
    _nodal := 1
    _dim := [2, 2]
    _party_no := 2
    _deficit2 := true
    _deficit3 := false
    _is_computed := false
    _is_reg_computed := false
    _is_sab_computed := false
    _result := 0
    _tp := []
    _result_reg := 0
    _result_reg_all := []
    _S_A_B := 0
    _deficit_global_opt := nlopt.algorithm.GN_DIRECT_L
    _deficit_global_xtol := 4 / 100
    _deficit_global_ftol := 0
    _deficit_global := true
    _deficit_local_opt := nlopt.algorithm.LN_COBYLA
    _deficit_local_xtol := 10 * _precision.eps false
    _deficit_local_ftol := 0
    _deficit_angle_range := [1, 2]
    _deficit_angle_ini := [1 / 10, 1 / 10] }

/-- The session `session00` once `s_a_b()` has cached the total entropy (0 for the pure
state `rho00`). -/
def session00_sab : deficit_space ℚ GaussianInt :=
  { session00 with _S_A_B := 0, _is_sab_computed := true }

/-- The pure product state `|0><0|` of a qubit and a ququart as an 8 x 8 density matrix. -/
def rho24 : Mat GaussianInt :=
  ⟨8, 8, Matrix.of fun i j => if i = 0 ∧ j = 0 then 1 else 0⟩

/-- The session built by `deficit_space(rho24, 1, {2, 4})`. -/
def session24 : deficit_space ℚ GaussianInt :=
  { session00 with _rho := rho24, _dim := [2, 4] }

/-- The pure state `|0><0|` of one qubit as a 2 x 2 density matrix. -/
def rho0 : Mat GaussianInt :=
  ⟨2, 2, Matrix.of fun i j => if i = 0 ∧ j = 0 then 1 else 0⟩

/-- The sample session after `initial_angle({0.1, 0.7})`. -/
def session_seed : deficit_space ℚ GaussianInt :=
  { session00 with _deficit_angle_ini := [1 / 10, 7 / 10] }

/-- The Bell state `(|00> + |11>) / sqrt 2` of two qubits as a 4 x 4 density matrix. -/
def bell_state {S : Type} [Field S] : Mat S :=
  ⟨4, 4, Matrix.of fun i j =>
    if (i = 0 ∨ i = 3) ∧ (j = 0 ∨ j = 3) then 1 / 2 else 0⟩

/-- The session built by `deficit_space(bell_state, 1, {2, 2})`. -/
def bell_session {K S : Type} [Field K] [Field S] : deficit_space K S :=
  { _rho := bell_state
    _nodal := 1
    _dim := [2, 2]
    _party_no := 2
    _deficit2 := true
    _deficit3 := false
    _is_computed := false
    _is_reg_computed := false
    _is_sab_computed := false
    _result := 0
    _tp := []
    _result_reg := 0
    _result_reg_all := []
    _S_A_B := 0
    _deficit_global_opt := nlopt.algorithm.GN_DIRECT_L
    _deficit_global_xtol := 4 / 100
    _deficit_global_ftol := 0
    _deficit_global := true
    _deficit_local_opt := nlopt.algorithm.LN_COBYLA
    _deficit_local_xtol := 10 * _precision.eps false
    _deficit_local_ftol := 0
    _deficit_angle_range := [1, 2]
    _deficit_angle_ini := [1 / 10, 1 / 10] }

/-- The entries of `bell_state`. -/
def bell_mat {S : Type} [Field S] : Matrix (Fin 4) (Fin 4) S :=
  Matrix.of fun i j => if (i = 0 ∨ i = 3) ∧ (j = 0 ∨ j = 3) then 1 / 2 else 0

/-- The power `A^k` by repeated multiplication, for the examples. -/
def sample_powm {S : Type} [CommRing S] (A : Mat S) : Nat → Mat S
  | 0 => Mat.eye A.n_rows
  | k + 1 =>
    match Mat.mul (sample_powm A k) A with
    | .ok P => P
    | .error _ => A

/-- A choice of the parts of `_internal` for the examples: arrays of 40 entries, a call
`dim_collapse_sys_ctrl` that leaves the vectors as they are, and the powers of `sample_powm`. -/
def sample_internal (S : Type) [CommRing S] : Internal S :=
  ⟨40, fun dim sys ctrl => (dim, sys, ctrl), sample_powm⟩

/-- The real and complex functions of Mathlib satisfy the laws of exact arithmetic. -/
theorem exact_real :
    StdMath.Exact (⟨Complex.ofReal, Complex.I, Real.cos, Real.sin, Complex.exp, Real.sqrt,
      Real.logb 2, Real.pi⟩ : StdMath ℝ ℂ) where
  ofReal_mul a b := Complex.ofReal_mul a b
  star_ofReal a := Complex.conj_ofReal a
  cos_sq_add_sin_sq a := by
    show ((Real.cos a : ℝ) : ℂ) ^ 2 + ((Real.sin a : ℝ) : ℂ) ^ 2 = 1
    exact_mod_cast Real.cos_sq_add_sin_sq a
  star_exp a := by
    show star (Complex.exp (Complex.I * ((a : ℝ) : ℂ))) =
      Complex.exp (Complex.I * ((-a : ℝ) : ℂ))
    rw [Complex.star_def, ← Complex.exp_conj]; simp
  exp_neg_I a := by
    show Complex.exp (-Complex.I * ((a : ℝ) : ℂ)) = Complex.exp (Complex.I * ((-a : ℝ) : ℂ))
    simp
  exp_mul_exp_neg a := by
    show Complex.exp (Complex.I * ((a : ℝ) : ℂ)) *
      Complex.exp (Complex.I * ((-a : ℝ) : ℂ)) = 1
    rw [← Complex.exp_add]; simp

section generic

variable {K S : Type} [Field K] [CommRing S] [StarRing S]

/-- In exact arithmetic the two qubit projectors resolve the identity. -/
theorem def_nlopt2_resolution (M : StdMath K S) (hM : M.Exact) (theta phi : K) :
    protect_dis.def_nlopt2_proj1 M theta phi + protect_dis.def_nlopt2_proj2 M theta phi = 1 := by
  have h1 := hM.cos_sq_add_sin_sq (1 / 2 * theta)
  have he := hM.exp_mul_exp_neg phi
  have sc := hM.star_ofReal (M.cos (1 / 2 * theta))
  have ss := hM.star_ofReal (M.sin (1 / 2 * theta))
  have se := hM.star_exp phi
  simp only [protect_dis.def_nlopt2_proj1, protect_dis.def_nlopt2_proj2,
      protect_dis.def_nlopt2_vec1, protect_dis.def_nlopt2_vec2]
  generalize M.ofReal (M.cos (1 / 2 * theta)) = c at *
  generalize M.ofReal (M.sin (1 / 2 * theta)) = s at *
  generalize M.exp (M.I * M.ofReal phi) = e at *
  generalize M.exp (M.I * M.ofReal (-phi)) = f at *
  ext i j
  fin_cases i <;> fin_cases j <;>
    simp [SPM.basis2, SPM.col2, Matrix.mul_apply, Matrix.add_apply,
      Matrix.sub_apply, sc, ss, se]
  · linear_combination h1
  · ring
  · ring
  · linear_combination (e * f) * h1 + he

/-- In exact arithmetic the two qubit vectors are orthonormal. -/
theorem def_nlopt2_orthonormal (M : StdMath K S) (hM : M.Exact) (theta phi : K) :
    ((protect_dis.def_nlopt2_vec1 M theta phi).conjTranspose *
          protect_dis.def_nlopt2_vec1 M theta phi = 1 ∧
      (protect_dis.def_nlopt2_vec1 M theta phi).conjTranspose *
          protect_dis.def_nlopt2_vec2 M theta phi = 0 ∧
      (protect_dis.def_nlopt2_vec2 M theta phi).conjTranspose *
          protect_dis.def_nlopt2_vec1 M theta phi = 0 ∧
      (protect_dis.def_nlopt2_vec2 M theta phi).conjTranspose *
          protect_dis.def_nlopt2_vec2 M theta phi = 1) := by
  have h1 := hM.cos_sq_add_sin_sq (1 / 2 * theta)
  have he := hM.exp_mul_exp_neg phi
  have sc := hM.star_ofReal (M.cos (1 / 2 * theta))
  have ss := hM.star_ofReal (M.sin (1 / 2 * theta))
  have se := hM.star_exp phi
  simp only [protect_dis.def_nlopt2_vec1, protect_dis.def_nlopt2_vec2]
  generalize M.ofReal (M.cos (1 / 2 * theta)) = c at *
  generalize M.ofReal (M.sin (1 / 2 * theta)) = s at *
  generalize M.exp (M.I * M.ofReal phi) = e at *
  generalize M.exp (M.I * M.ofReal (-phi)) = f at *
  refine ⟨?_, ?_, ?_, ?_⟩ <;> ext i j <;> fin_cases i <;> fin_cases j <;>
    simp [SPM.basis2, SPM.col2, Matrix.mul_apply, Matrix.add_apply,
      Matrix.sub_apply, sc, ss, se]
  · linear_combination h1 + (s * s) * he
  · linear_combination (-(c * s)) * he
  · linear_combination (-(c * s)) * he
  · linear_combination h1 + (c * c) * he

set_option maxHeartbeats 1600000 in
/-- In exact arithmetic the three qutrit vectors resolve the identity, for arbitrary angles
`t1 t2 t3`, phases `p` (with `phi2 = -p`) and `dl`. -/
theorem def_nlopt3_resolution (M : StdMath K S) (hM : M.Exact) (t1 t2 t3 p dl : K) :
    protect_dis.def_nlopt3_vec1 M t1 t2 t3 p (-p) dl *
        (protect_dis.def_nlopt3_vec1 M t1 t2 t3 p (-p) dl).conjTranspose +
      protect_dis.def_nlopt3_vec2 M t1 t3 p (-p) dl *
        (protect_dis.def_nlopt3_vec2 M t1 t3 p (-p) dl).conjTranspose +
      protect_dis.def_nlopt3_vec3 M t1 t2 t3 p (-p) dl *
        (protect_dis.def_nlopt3_vec3 M t1 t2 t3 p (-p) dl).conjTranspose = 1 := by
  have h1 := hM.cos_sq_add_sin_sq t1
  have h2 := hM.cos_sq_add_sin_sq t2
  have h3 := hM.cos_sq_add_sin_sq t3
  have he := hM.exp_mul_exp_neg p
  have hd := hM.exp_mul_exp_neg dl
  have sc1 := hM.star_ofReal (M.cos t1)
  have ss1 := hM.star_ofReal (M.sin t1)
  have sc2 := hM.star_ofReal (M.cos t2)
  have ss2 := hM.star_ofReal (M.sin t2)
  have sc3 := hM.star_ofReal (M.cos t3)
  have ss3 := hM.star_ofReal (M.sin t3)
  have se := hM.star_exp p
  have sf := hM.star_exp (-p)
  have sd := hM.star_exp dl
  have sg := hM.star_exp (-dl)
  rw [neg_neg] at sf sg
  simp only [protect_dis.def_nlopt3_vec1, protect_dis.def_nlopt3_vec2,
    protect_dis.def_nlopt3_vec3, hM.ofReal_mul, hM.exp_neg_I]
  generalize M.ofReal (M.cos t1) = c1 at *
  generalize M.ofReal (M.sin t1) = s1 at *
  generalize M.ofReal (M.cos t2) = c2 at *
  generalize M.ofReal (M.sin t2) = s2 at *
  generalize M.ofReal (M.cos t3) = c3 at *
  generalize M.ofReal (M.sin t3) = s3 at *
  generalize M.exp (M.I * M.ofReal p) = e at *
  generalize M.exp (M.I * M.ofReal (-p)) = f at *
  generalize M.exp (M.I * M.ofReal dl) = d at *
  generalize M.exp (M.I * M.ofReal (-dl)) = g at *
  ext i j
  fin_cases i <;> fin_cases j <;>
    simp [SPM.basis3, SPM.col3, Matrix.mul_apply,
      Matrix.add_apply, Matrix.sub_apply, Fin.sum_univ_three, sc1, ss1, sc2, ss2, sc3, ss3,
      se, sf, sd, sg]
  · linear_combination (1) * h1 + (c1^2) * h2 + (s1^2) * hd
  · linear_combination (-c1 * s1 * c3 * f * g) * h2
  · linear_combination (-c1 * s1 * s3 * e * g) * h2
  · linear_combination (-c1 * s1 * c3 * e * d) * h2
  · linear_combination (c3^2) * h1 + (1 - c3^2 + s1^2 * c3^2) * h2 + (s2^2 + c2^2) * h3 + (s2^2 *
        s3^2 + c2^2 * s3^2 + s1^2 * s2^2 * c3^2 + s1^2 * c2^2 * c3^2 + c1^2 * c3^2) * he + (s1^2 *
        s2^2 * c3^2 * e * f + s1^2 * c2^2 * c3^2 * e * f) * hd
  · linear_combination (c3 * s3 * e^2) * h1 + (-c3 * s3 * e^2 + s1^2 * c3 * s3 * e^2) * h2 + (s1^2
        * s2^2 * c3 * s3 * e^2 + s1^2 * c2^2 * c3 * s3 * e^2) * hd
  · linear_combination (-c1 * s1 * s3 * f * d) * h2
  · linear_combination (c3 * s3 * f^2) * h1 + (-c3 * s3 * f^2 + s1^2 * c3 * s3 * f^2) * h2 + (s1^2
        * s2^2 * c3 * s3 * f^2 + s1^2 * c2^2 * c3 * s3 * f^2) * hd
  · linear_combination (1 - c3^2) * h1 + (c3^2 + s1^2 - s1^2 * c3^2) * h2 + (s1^2 * s2^2 + s1^2 *
        c2^2 + c1^2) * h3 + (s2^2 * c3^2 + c2^2 * c3^2 + s1^2 * s2^2 * s3^2 + s1^2 * c2^2 * s3^2 +
        c1^2 * s3^2) * he + (s1^2 * s2^2 * s3^2 * e * f + s1^2 * c2^2 * s3^2 * e * f) * hd

set_option maxHeartbeats 1600000 in
/-- In exact arithmetic the three qutrit vectors are orthonormal: the nine inner products
`v_i^dagger * v_j` (as 1 x 1 matrices) are `1` on the diagonal and `0` off it. -/
theorem def_nlopt3_orthonormal (M : StdMath K S) (hM : M.Exact) (t1 t2 t3 p dl : K) :
    ((protect_dis.def_nlopt3_vec1 M t1 t2 t3 p (-p) dl).conjTranspose *
          protect_dis.def_nlopt3_vec1 M t1 t2 t3 p (-p) dl = 1 ∧
      (protect_dis.def_nlopt3_vec1 M t1 t2 t3 p (-p) dl).conjTranspose *
          protect_dis.def_nlopt3_vec2 M t1 t3 p (-p) dl = 0 ∧
      (protect_dis.def_nlopt3_vec1 M t1 t2 t3 p (-p) dl).conjTranspose *
          protect_dis.def_nlopt3_vec3 M t1 t2 t3 p (-p) dl = 0 ∧
      (protect_dis.def_nlopt3_vec2 M t1 t3 p (-p) dl).conjTranspose *
          protect_dis.def_nlopt3_vec1 M t1 t2 t3 p (-p) dl = 0 ∧
      (protect_dis.def_nlopt3_vec2 M t1 t3 p (-p) dl).conjTranspose *
          protect_dis.def_nlopt3_vec2 M t1 t3 p (-p) dl = 1 ∧
      (protect_dis.def_nlopt3_vec2 M t1 t3 p (-p) dl).conjTranspose *
          protect_dis.def_nlopt3_vec3 M t1 t2 t3 p (-p) dl = 0 ∧
      (protect_dis.def_nlopt3_vec3 M t1 t2 t3 p (-p) dl).conjTranspose *
          protect_dis.def_nlopt3_vec1 M t1 t2 t3 p (-p) dl = 0 ∧
      (protect_dis.def_nlopt3_vec3 M t1 t2 t3 p (-p) dl).conjTranspose *
          protect_dis.def_nlopt3_vec2 M t1 t3 p (-p) dl = 0 ∧
      (protect_dis.def_nlopt3_vec3 M t1 t2 t3 p (-p) dl).conjTranspose *
          protect_dis.def_nlopt3_vec3 M t1 t2 t3 p (-p) dl = 1) := by
  have h1 := hM.cos_sq_add_sin_sq t1
  have h2 := hM.cos_sq_add_sin_sq t2
  have h3 := hM.cos_sq_add_sin_sq t3
  have he := hM.exp_mul_exp_neg p
  have hd := hM.exp_mul_exp_neg dl
  have sc1 := hM.star_ofReal (M.cos t1)
  have ss1 := hM.star_ofReal (M.sin t1)
  have sc2 := hM.star_ofReal (M.cos t2)
  have ss2 := hM.star_ofReal (M.sin t2)
  have sc3 := hM.star_ofReal (M.cos t3)
  have ss3 := hM.star_ofReal (M.sin t3)
  have se := hM.star_exp p
  have sf := hM.star_exp (-p)
  have sd := hM.star_exp dl
  have sg := hM.star_exp (-dl)
  rw [neg_neg] at sf sg
  simp only [protect_dis.def_nlopt3_vec1, protect_dis.def_nlopt3_vec2,
    protect_dis.def_nlopt3_vec3, hM.ofReal_mul, hM.exp_neg_I]
  generalize M.ofReal (M.cos t1) = c1 at *
  generalize M.ofReal (M.sin t1) = s1 at *
  generalize M.ofReal (M.cos t2) = c2 at *
  generalize M.ofReal (M.sin t2) = s2 at *
  generalize M.ofReal (M.cos t3) = c3 at *
  generalize M.ofReal (M.sin t3) = s3 at *
  generalize M.exp (M.I * M.ofReal p) = e at *
  generalize M.exp (M.I * M.ofReal (-p)) = f at *
  generalize M.exp (M.I * M.ofReal dl) = d at *
  generalize M.exp (M.I * M.ofReal (-dl)) = g at *
  refine ⟨?_, ?_, ?_, ?_, ?_, ?_, ?_, ?_, ?_⟩ <;> ext i j <;> fin_cases i <;> fin_cases j <;>
    simp [SPM.basis3, SPM.col3, Matrix.mul_apply,
      Matrix.add_apply, Matrix.sub_apply, Fin.sum_univ_three, sc1, ss1, sc2, ss2, sc3, ss3,
      se, sf, sd, sg]
  · linear_combination (c2^2) * h1 + (1) * h2 + (s2^2 + s1^2 * c2^2) * h3 + (s2^2 * s3^2 + s2^2 *
        c3^2 + s1^2 * c2^2 * s3^2 + s1^2 * c2^2 * c3^2) * he + (s1^2 * c2^2 * s3^2 * e * f + s1^2 *
        c2^2 * c3^2 * e * f) * hd
  · linear_combination (-c1 * s1 * c2 * g) * h3 + (-c1 * s1 * c2 * s3^2 * g - c1 * s1 * c2 * c3^2
        * g) * he
  · linear_combination (c2 * s2) * h1 + (-c2 * s2 + s1^2 * c2 * s2) * h3 + (-c2 * s2 * s3^2 - c2 *
        s2 * c3^2 + s1^2 * c2 * s2 * s3^2 + s1^2 * c2 * s2 * c3^2) * he + (s1^2 * c2 * s2 * s3^2 * e *
        f + s1^2 * c2 * s2 * c3^2 * e * f) * hd
  · linear_combination (-c1 * s1 * c2 * d) * h3 + (-c1 * s1 * c2 * s3^2 * d - c1 * s1 * c2 * c3^2
        * d) * he
  · linear_combination (1) * h1 + (c1^2) * h3 + (c1^2 * s3^2 + c1^2 * c3^2) * he + (s1^2) * hd
  · linear_combination (-c1 * s1 * s2 * d) * h3 + (-c1 * s1 * s2 * s3^2 * d - c1 * s1 * s2 * c3^2
        * d) * he
  · linear_combination (c2 * s2) * h1 + (-c2 * s2 + s1^2 * c2 * s2) * h3 + (-c2 * s2 * s3^2 - c2 *
        s2 * c3^2 + s1^2 * c2 * s2 * s3^2 + s1^2 * c2 * s2 * c3^2) * he + (s1^2 * c2 * s2 * s3^2 * e *
        f + s1^2 * c2 * s2 * c3^2 * e * f) * hd
  · linear_combination (-c1 * s1 * s2 * g) * h3 + (-c1 * s1 * s2 * s3^2 * g - c1 * s1 * s2 * c3^2
        * g) * he
  · linear_combination (1 - c2^2) * h1 + (s1^2 + c1^2) * h2 + (c2^2 + s1^2 * s2^2) * h3 + (c2^2 *
        s3^2 + c2^2 * c3^2 + s1^2 * s2^2 * s3^2 + s1^2 * s2^2 * c3^2) * he + (s1^2 * s2^2 * s3^2 * e *
        f + s1^2 * s2^2 * c3^2 * e * f) * hd

/-- The outer product of a unit vector with itself is idempotent. -/
theorem outer_idempotent {n : Nat} (v : Matrix (Fin n) (Fin 1) S)
    (h : v.conjTranspose * v = 1) :
    (v * v.conjTranspose) * (v * v.conjTranspose) = v * v.conjTranspose := by
  calc (v * v.conjTranspose) * (v * v.conjTranspose)
      = v * (v.conjTranspose * v) * v.conjTranspose := by simp only [Matrix.mul_assoc]
    _ = v * v.conjTranspose := by rw [h, Matrix.mul_one]

/-- The outer product of a vector with itself is Hermitian. -/
theorem outer_hermitian {n : Nat} (v : Matrix (Fin n) (Fin 1) S) :
    (v * v.conjTranspose).conjTranspose = v * v.conjTranspose := by
  rw [Matrix.conjTranspose_mul, Matrix.conjTranspose_conjTranspose]
end generic

/-! ## Entropy: auxiliary lemmas -/

/-- On a non-empty square input `entropy` returns a value. -/
theorem entropy_ok_of_square {K S : Type} [LinearOrderedField K] (M : StdMath K S)
    (L : Libs K S) (rho : Mat S) (h0 : rho.n_elem ≠ 0) (h1 : rho.n_rows = rho.n_cols) :
    ∃ v, entropy M L rho = .ok v := by
  simp only [entropy, h0, if_false]
  by_cases hc : rho.n_cols = 1
  · exact ⟨0, by simp [hc, h1]⟩
  · simp [hc, h1]

/-! ## The session: auxiliary lemmas -/

section session

variable {K S : Type} [LinearOrderedField K] [CommRing S] [StarRing S]

/-- A `do` block returns exactly when its first statement and the rest return. -/
theorem except_bind_eq_ok {ε α β : Type} (x : Except ε α) (f : α → Except ε β) (b : β) :
    (x >>= f) = .ok b ↔ ∃ a, x = .ok a ∧ f a = .ok b := by
  cases x with
  | error e => simp [bind, Except.bind]
  | ok a => simp [bind, Except.bind]

/-- A write `ret.at(i) = a` into the empty vector never returns. -/
theorem col_at_put_nil {α : Type} (i : Nat) (a : α) :
    col_at_put ([] : List α) i a = .error .undefined := by
  simp [col_at_put]

/-- A turn of the `_deficit2` loop of `compute_reg` on an empty `ret` never returns. -/
theorem reg_step2_nil (M : StdMath K S) (L : Libs K S) (s : deficit_space K S)
    (pass : protect_dis.TO_PASS S) (c : List (Call K S)) (i : Nat)
    (r : List K × List (Call K S)) :
    deficit_space.reg_step2 M L s pass ([], c) i ≠ .ok r := by
  intro h
  simp only [deficit_space.reg_step2, except_bind_eq_ok, col_at_put_nil] at h
  obtain ⟨_, _, _, _, _, _, _, _, _, h, _⟩ := h
  cases h

/-- A turn of the `_deficit3` loop of `compute_reg` on an empty `ret` never returns. -/
theorem reg_step3_nil (M : StdMath K S) (L : Libs K S) (s : deficit_space K S)
    (pass : protect_dis.TO_PASS S) (c : List (Call K S)) (i : Nat)
    (r : List K × List (Call K S)) :
    deficit_space.reg_step3 M L s pass ([], c) i ≠ .ok r := by
  intro h
  simp only [deficit_space.reg_step3, except_bind_eq_ok, col_at_put_nil] at h
  obtain ⟨_, _, _, _, _, _, _, _, _, _, _, _, _, h, _⟩ := h
  cases h

/-- The `_deficit2` branch of `compute_reg` never returns. -/
theorem compute_reg2_not_ok (M : StdMath K S) (L : Libs K S) (s : deficit_space K S)
    (r : deficit_space K S × List (Call K S)) : deficit_space.compute_reg2 M L s ≠ .ok r := by
  intro h
  simp only [deficit_space.compute_reg2, except_bind_eq_ok, List.foldlM_cons] at h
  obtain ⟨pass, _, _, ⟨a, ha, _⟩, _⟩ := h
  exact reg_step2_nil M L s pass [] 0 a ha

/-- The `_deficit3` branch of `compute_reg` never returns. -/
theorem compute_reg3_not_ok (M : StdMath K S) (L : Libs K S) (s : deficit_space K S)
    (r : deficit_space K S × List (Call K S)) : deficit_space.compute_reg3 M L s ≠ .ok r := by
  intro h
  simp only [deficit_space.compute_reg3, except_bind_eq_ok, List.foldlM_cons] at h
  obtain ⟨pass, _, _, ⟨a, ha, _⟩, _⟩ := h
  exact reg_step3_nil M L s pass [] 0 a ha

omit [CommRing S] [StarRing S] in
/-- The member `s_a_b` keeps the case flags. -/
theorem s_a_b_flags (M : StdMath K S) (L : Libs K S) (s s1 : deficit_space K S)
    (c : List (Call K S)) (h : deficit_space.s_a_b M L s = .ok (s1, c)) :
    s1._deficit2 = s._deficit2 ∧ s1._deficit3 = s._deficit3 := by
  unfold deficit_space.s_a_b at h
  split_ifs at h with h0
  · simp only [except_bind_eq_ok] at h
    obtain ⟨v, _, h⟩ := h
    cases h
    exact ⟨rfl, rfl⟩
  · cases h
    exact ⟨rfl, rfl⟩

/-- With a case flag set, `compute_reg` never returns. -/
theorem compute_reg_not_ok (M : StdMath K S) (L : Libs K S) (s : deficit_space K S)
    (hf : s._deficit2 = true ∨ s._deficit3 = true)
    (r : deficit_space K S × List (Call K S)) : deficit_space.compute_reg M L s ≠ .ok r := by
  intro h
  simp only [deficit_space.compute_reg, except_bind_eq_ok] at h
  obtain ⟨⟨s1, c0⟩, h0, ⟨s2, c1⟩, h1, ⟨s3, c2⟩, h2, _⟩ := h
  obtain ⟨f2, f3⟩ := s_a_b_flags M L s s1 c0 h0
  dsimp only at h1 h2
  by_cases g2 : s1._deficit2 = true
  · rw [if_pos g2] at h1
    exact compute_reg2_not_ok M L s1 _ h1
  · rw [if_neg g2] at h1
    cases h1
    have g3 : s1._deficit3 = true := by
      rcases hf with hf | hf
      · exact absurd (f2.trans hf) g2
      · exact f3.trans hf
    rw [if_pos g3] at h2
    exact compute_reg3_not_ok M L s1 _ h2


omit [CommRing S] [StarRing S] in
/-- The constructor establishes `Valid`. -/
theorem construct_valid (rho1 : Mat S) (nodal : Nat) (dim : List Nat) (s : deficit_space K S)
    (h : deficit_space.construct rho1 nodal dim = .ok s) : s.Valid := by
  unfold deficit_space.construct at h
  simp only [bind, Except.bind, pure, Except.pure, throw, throwThe, MonadExceptOf.throw] at h
  split_ifs at h with h1 h2
  unfold deficit_space.init at h
  simp only [bind, Except.bind, pure, Except.pure, throw, throwThe, MonadExceptOf.throw] at h
  split_ifs at h with h3 h4 h5
  cases hg : col_get dim (uword_sub nodal 1) with
  | error e => rw [hg] at h; cases h
  | ok v =>
    rw [hg] at h
    dsimp only at h
    have hget : dim.get? (uword_sub nodal 1) = some v := by
      unfold col_get at hg
      split at hg
      · cases hg; assumption
      · cases hg
    split_ifs at h with h6
    cases h
    have hv : v = 2 ∨ v = 3 := by
      by_contra hv
      push_neg at hv
      exact h6 ⟨by simpa using hv.1, by simpa using hv.2⟩
    have hnz : ∀ d ∈ dim, d ≠ 0 := by
      intro d hd h0
      apply h3
      rw [List.any_eq_true]
      exact ⟨d, hd, by simp [h0]⟩
    rcases hv with rfl | rfl
    · constructor
      all_goals simp_all [deficit_space.set_defaults]
      all_goals omega
    · constructor
      all_goals simp_all [deficit_space.set_defaults]
      all_goals omega



/-- For `n >= 1` the `uword` difference `n - 1` does not wrap upwards. -/
theorem uword_sub_one_le (n : Nat) (h : 1 ≤ n) : uword_sub n 1 ≤ n - 1 := by
  have hm : 1 < uword_size := Nat.one_lt_two_pow (by decide)
  unfold uword_sub
  generalize uword_size = m at hm
  have h1 : n + m - 1 % m = (n - 1) + m := by
    rw [Nat.mod_eq_of_lt hm]
    omega
  rw [h1, Nat.add_mod_right]
  exact Nat.mod_le _ _

/-- The product loop returns when all the indices it reads are in range. -/
theorem prod_fold_ok (dim : List Nat) (l : List Nat) (acc : Nat)
    (h : ∀ i ∈ l, i < dim.length) :
    ∃ v, l.foldlM (fun acc i => do
      let d ← col_at dim i
      pure (uword_mul acc d)) acc = (.ok v : Except Fault Nat) := by
  induction l generalizing acc with
  | nil => exact ⟨acc, rfl⟩
  | cons i l ih =>
    have hi : i < dim.length := h i (List.mem_cons_self i l)
    obtain ⟨d, hd⟩ : ∃ d, dim.get? i = some d :=
      ⟨dim.get ⟨i, hi⟩, List.get?_eq_get hi⟩
    obtain ⟨v, hv⟩ := ih (uword_mul acc d) (fun j hj => h j (List.mem_cons_of_mem i hj))
    refine ⟨v, ?_⟩
    rw [List.foldlM_cons]
    simp only [col_at, hd]
    exact hv

/-- The product loop up to `hi` returns when `hi` is within the vector. -/
theorem prod_loop_ok (dim : List Nat) (lo hi : Nat) (h : hi ≤ dim.length) :
    ∃ v, deficit_space.prod_loop dim lo hi = .ok v := by
  unfold deficit_space.prod_loop
  apply prod_fold_ok
  intro i hi'
  rw [List.mem_range'_1] at hi'
  omega

omit [LinearOrderedField K] [StarRing S] in
/-- The context of the objective is built when the nodal index is within the parties. -/
theorem make_pass_ok (s : deficit_space K S) (d : Nat) (h1 : 1 ≤ s._nodal)
    (h2 : s._nodal ≤ s._party_no) (h3 : s._party_no ≤ s._dim.length) :
    ∃ a b, deficit_space.make_pass s d =
      .ok ⟨s._rho, Mat.eye (arma_prod s._dim / d), Mat.eye a, Mat.eye b, s._nodal,
        s._party_no⟩ := by
  obtain ⟨a, ha⟩ := prod_loop_ok s._dim 0 (uword_sub s._nodal 1)
    (by have := uword_sub_one_le s._nodal h1; omega)
  obtain ⟨b, hb⟩ := prod_loop_ok s._dim s._nodal s._party_no h3
  refine ⟨a, b, ?_⟩
  unfold deficit_space.make_pass
  rw [ha, hb]
  rfl

omit [CommRing S] [StarRing S] in
/-- On a non-empty square state `s_a_b` returns, changing the total-entropy cache only. -/
theorem s_a_b_ok (M : StdMath K S) (L : Libs K S) (s : deficit_space K S)
    (h0 : s._rho.n_elem ≠ 0) (h1 : s._rho.n_rows = s._rho.n_cols) :
    ∃ v c, deficit_space.s_a_b M L s =
      .ok ({ s with _S_A_B := v, _is_sab_computed := true }, c) := by
  unfold deficit_space.s_a_b
  split_ifs with h
  · obtain ⟨v, hv⟩ := entropy_ok_of_square M L s._rho h0 h1
    exact ⟨v, _, by rw [hv]; rfl⟩
  · refine ⟨s._S_A_B, [], ?_⟩
    have : s._is_sab_computed = true := by simpa using h
    cases s
    simp_all [pure, Except.pure]


/-- The `_deficit2` branch of `compute` returns on bound and seed vectors of length 2; it
changes `_result`, `_tp` and `_is_computed` only. -/
theorem compute2_ok (M : StdMath K S) (L : Libs K S) (s : deficit_space K S)
    (h1 : 1 ≤ s._nodal) (h2 : s._nodal ≤ s._party_no) (h3 : s._party_no ≤ s._dim.length)
    (hr : s._deficit_angle_range.length = 2) (hi : s._deficit_angle_ini.length = 2) :
    ∃ r tp c, deficit_space.compute2 M L s =
      .ok ({ s with _result := r, _tp := tp, _is_computed := true }, c) := by
  obtain ⟨a, b, hp⟩ := make_pass_ok s 2 h1 h2 h3
  obtain ⟨r0, r1, hr'⟩ : ∃ r0 r1, s._deficit_angle_range = [r0, r1] := by
    match hx : s._deficit_angle_range, hr with
    | [r0, r1], _ => exact ⟨r0, r1, rfl⟩
  obtain ⟨i0, i1, hi'⟩ : ∃ i0 i1, s._deficit_angle_ini = [i0, i1] := by
    match hx : s._deficit_angle_ini, hi with
    | [i0, i1], _ => exact ⟨i0, i1, rfl⟩
  unfold deficit_space.compute2
  rw [hp]
  simp only [bind, Except.bind, hr', hi', col_at, List.get?]
  have two : ∀ (o : nlopt.opt K) (x : List K), x.length = 2 →
      ∃ t0 t1, (L.optimize o x).1 = [t0, t1] := by
    intro o x hx
    have hl := L.optimize_size o x
    rw [hx] at hl
    match hy : (L.optimize o x).1, hl with
    | [t0, t1], _ => exact ⟨t0, t1, rfl⟩
  by_cases hg : s._deficit_global = true
  · simp only [hg, if_true]
    obtain ⟨g0, g1, hG⟩ := two ⟨s._deficit_global_opt, 2, [0, 0], [r0 * M.pi, r1 * M.pi],
      fun y => protect_dis.def_nlopt2 M L y ⟨s._rho, Mat.eye (arma_prod s._dim / 2),
        Mat.eye a, Mat.eye b, s._nodal, s._party_no⟩, s._deficit_global_xtol,
      s._deficit_global_ftol⟩ [i0 * M.pi, i0 * M.pi] rfl
    rw [hG]
    generalize hR : L.optimize _ _ = R
    obtain ⟨t0, t1, hT⟩ : ∃ t0 t1, R.1 = [t0, t1] := by
      rw [← hR]; exact two _ _ rfl
    simp only [hT, vec_at, List.get?, pure, Except.pure]
    exact ⟨_, _, _, rfl⟩
  · simp only [hg]
    generalize hR : L.optimize _ _ = R
    obtain ⟨t0, t1, hT⟩ : ∃ t0 t1, R.1 = [t0, t1] := by
      rw [← hR]; exact two _ _ rfl
    simp only [hT, vec_at, List.get?, pure, Except.pure]
    exact ⟨_, _, _, rfl⟩


/-- The `_deficit3` branch of `compute` returns on bound and seed vectors of length 5; it
changes `_result`, `_tp` and `_is_computed` only. -/
theorem compute3_ok (M : StdMath K S) (L : Libs K S) (s : deficit_space K S)
    (h1 : 1 ≤ s._nodal) (h2 : s._nodal ≤ s._party_no) (h3 : s._party_no ≤ s._dim.length)
    (hr : s._deficit_angle_range.length = 5) (hi : s._deficit_angle_ini.length = 5) :
    ∃ r tp c, deficit_space.compute3 M L s =
      .ok ({ s with _result := r, _tp := tp, _is_computed := true }, c) := by
  obtain ⟨a, b, hp⟩ := make_pass_ok s 3 h1 h2 h3
  obtain ⟨r0, r1, r2, r3, r4, hr'⟩ : ∃ r0 r1 r2 r3 r4,
      s._deficit_angle_range = [r0, r1, r2, r3, r4] := by
    match hx : s._deficit_angle_range, hr with
    | [r0, r1, r2, r3, r4], _ => exact ⟨r0, r1, r2, r3, r4, rfl⟩
  obtain ⟨i0, i1, i2, i3, i4, hi'⟩ : ∃ i0 i1 i2 i3 i4,
      s._deficit_angle_ini = [i0, i1, i2, i3, i4] := by
    match hx : s._deficit_angle_ini, hi with
    | [i0, i1, i2, i3, i4], _ => exact ⟨i0, i1, i2, i3, i4, rfl⟩
  have h5 : List.range 5 = [0, 1, 2, 3, 4] := by decide
  unfold deficit_space.compute3
  rw [hp, h5]
  simp only [bind, Except.bind, hr', hi', col_at, List.get?, List.mapM_cons, List.mapM_nil,
    pure, Except.pure]
  exact ⟨_, _, _, rfl⟩


/-- The `if (_deficit2)` step of `compute` returns when the session meets the
preconditions of the branch; it changes `_result`, `_tp` and `_is_computed` only. -/
theorem compute2_step (M : StdMath K S) (L : Libs K S) (s : deficit_space K S)
    (h1 : 1 ≤ s._nodal) (h2 : s._nodal ≤ s._party_no) (h3 : s._party_no ≤ s._dim.length)
    (hr : s._deficit2 = true → s._deficit_angle_range.length = 2)
    (hi : s._deficit2 = true → s._deficit_angle_ini.length = 2) :
    ∃ s2 c, (if s._deficit2 = true then deficit_space.compute2 M L s else pure (s, [])) =
        .ok (s2, c) ∧
      s2._nodal = s._nodal ∧ s2._party_no = s._party_no ∧ s2._dim = s._dim ∧
      s2._deficit3 = s._deficit3 ∧ s2._deficit_angle_range = s._deficit_angle_range ∧
      s2._deficit_angle_ini = s._deficit_angle_ini ∧
      (s._deficit2 = true ∨ s._is_computed = true → s2._is_computed = true) := by
  by_cases f2 : s._deficit2 = true
  · obtain ⟨r, tp, c1, e⟩ := compute2_ok M L s h1 h2 h3 (hr f2) (hi f2)
    rw [if_pos f2, e]
    exact ⟨_, _, rfl, rfl, rfl, rfl, rfl, rfl, rfl, fun _ => rfl⟩
  · rw [if_neg f2]
    refine ⟨s, [], rfl, rfl, rfl, rfl, rfl, rfl, rfl, fun h => ?_⟩
    rcases h with h | h
    · exact absurd h f2
    · exact h

/-- The `if (_deficit3)` step of `compute` returns when the session meets the
preconditions of the branch. -/
theorem compute3_step (M : StdMath K S) (L : Libs K S) (s : deficit_space K S)
    (h1 : 1 ≤ s._nodal) (h2 : s._nodal ≤ s._party_no) (h3 : s._party_no ≤ s._dim.length)
    (hr : s._deficit3 = true → s._deficit_angle_range.length = 5)
    (hi : s._deficit3 = true → s._deficit_angle_ini.length = 5) :
    ∃ s3 c, (if s._deficit3 = true then deficit_space.compute3 M L s else pure (s, [])) =
        .ok (s3, c) ∧
      (s._deficit3 = true ∨ s._is_computed = true → s3._is_computed = true) := by
  by_cases f3 : s._deficit3 = true
  · obtain ⟨r, tp, c1, e⟩ := compute3_ok M L s h1 h2 h3 (hr f3) (hi f3)
    rw [if_pos f3, e]
    exact ⟨_, _, rfl, fun _ => rfl⟩
  · rw [if_neg f3]
    refine ⟨s, [], rfl, fun h => ?_⟩
    rcases h with h | h
    · exact absurd h f3
    · exact h

/-- On a valid session `compute` returns, and leaves the optimized result marked valid. -/
theorem compute_ok (M : StdMath K S) (L : Libs K S) (s : deficit_space K S) (hv : s.Valid) :
    ∃ s1 c, deficit_space.compute M L s = .ok (s1, c) ∧ s1._is_computed = true := by
  obtain ⟨v, c0, h0⟩ := s_a_b_ok M L s hv.rho_nonempty hv.rho_square
  have hp : s._party_no ≤ s._dim.length := le_of_eq hv.party_no_eq
  obtain ⟨s2, c1, e2, g1, g2, g3, g4, g5, g6, g7⟩ := compute2_step M L
    { s with _S_A_B := v, _is_sab_computed := true } hv.nodal_pos hv.nodal_le hp
    hv.range2 hv.ini2
  obtain ⟨s3, c2, e3, g8⟩ := compute3_step M L s2 (g1 ▸ hv.nodal_pos)
    (by rw [g1, g2]; exact hv.nodal_le) (by rw [g2, g3]; exact hp)
    (by rw [g4, g5]; exact hv.range3) (by rw [g4, g6]; exact hv.ini3)
  refine ⟨s3, c0 ++ c1 ++ c2, ?_, ?_⟩
  · simp only [deficit_space.compute, except_bind_eq_ok]
    exact ⟨_, h0, _, e2, _, e3, rfl⟩
  · apply g8
    rcases hv.some_flag with h | h
    · exact Or.inr (g7 (Or.inl h))
    · exact Or.inl (g4.trans h)

omit [CommRing S] [StarRing S] in
/-- The default configuration does not touch the total-entropy cache. -/
theorem set_defaults_sab (s : deficit_space K S) :
    s.set_defaults._is_sab_computed = s._is_sab_computed ∧
      s.set_defaults._S_A_B = s._S_A_B ∧
      s.set_defaults._is_computed = s._is_computed ∧
      s.set_defaults._is_reg_computed = s._is_reg_computed := by
  unfold deficit_space.set_defaults
  by_cases h2 : s._deficit2 = true <;> by_cases h3 : s._deficit3 = true <;> simp [h2, h3]

omit [CommRing S] [StarRing S] in
/-- The member `reset_party` does not touch the total-entropy cache, whether it throws or
not. -/
theorem reset_party_sab (s : deficit_space K S) (k : Nat) :
    (s.reset_party k).1._is_sab_computed = s._is_sab_computed ∧
      (s.reset_party k).1._S_A_B = s._S_A_B := by
  unfold deficit_space.reset_party
  dsimp only
  split_ifs with h1
  · exact ⟨rfl, rfl⟩
  · split
    · exact ⟨rfl, rfl⟩
    · split_ifs with h2
      · exact ⟨rfl, rfl⟩
      · exact ⟨(set_defaults_sab _).1, (set_defaults_sab _).2.1⟩

end session

/-- The sample session is the one the constructor builds. -/
theorem construct_session00 :
    deficit_space.construct rho00 1 [2, 2] = .ok session00 := by
  rfl

/-- The sample session is valid, being built by the constructor. -/
theorem session00_valid : session00.Valid :=
  construct_valid rho00 1 [2, 2] session00 construct_session00

/-- Below `2 ^ 64` and from 1 on, the `uword` difference `k - 1` is the difference. -/
theorem uword_sub_one_eq (k : Nat) (h1 : 1 ≤ k) (h2 : k < uword_size) :
    uword_sub k 1 = k - 1 := by
  have hm : 1 < uword_size := Nat.one_lt_two_pow (by decide)
  unfold uword_sub
  generalize uword_size = m at hm h2
  have e : k + m - 1 % m = (k - 1) + m := by
    rw [Nat.mod_eq_of_lt hm]
    omega
  rw [e, Nat.add_mod_right]
  exact Nat.mod_eq_of_lt (by omega)

/-- A checked read within the vector returns the entry. -/
theorem col_get_of_lt {α : Type} (v : List α) (i : Nat) (h : i < v.length) :
    ∃ a, v.get? i = some a ∧ col_get v i = .ok a := by
  refine ⟨v.get ⟨i, h⟩, List.get?_eq_get h, ?_⟩
  unfold col_get
  rw [List.get?_eq_get h]

/-- The three outcomes of `reset_party`, in the order of its checks. -/
theorem reset_party_cases {K S : Type} [LinearOrderedField K] (s : deficit_space K S)
    (k : Nat) (hP : s._party_no = s._dim.length) (hk : k < uword_size) :
    ((k < 1 ∨ s._party_no < k) ∧
      s.reset_party k =
        ({ s with _is_computed := false, _is_reg_computed := false, _nodal := k },
          some (Fault.exception (Exception.CUSTOM "Invalid measured party index!")))) ∨
    (∃ dk, 1 ≤ k ∧ k ≤ s._party_no ∧ s._dim.get? (k - 1) = some dk ∧ dk ≠ 2 ∧ dk ≠ 3 ∧
      s.reset_party k =
        ({ s with _is_computed := false, _is_reg_computed := false, _nodal := k,
                  _deficit2 := false, _deficit3 := false },
          some (Fault.exception
            (Exception.CUSTOM "Measured party is not qubit or qutrit!")))) ∨
    (∃ dk, 1 ≤ k ∧ k ≤ s._party_no ∧ s._dim.get? (k - 1) = some dk ∧ (dk = 2 ∨ dk = 3) ∧
      s.reset_party k =
        (deficit_space.set_defaults
          { s with _is_computed := false, _is_reg_computed := false, _nodal := k,
                   _deficit2 := (dk == 2), _deficit3 := (dk == 3) }, none)) := by
  by_cases h : k < 1 ∨ s._party_no < k
  · left
    refine ⟨h, ?_⟩
    unfold deficit_space.reset_party
    have h' : k ≤ 0 ∨ k > s._party_no := by omega
    simp only [h', if_true]
  · right
    have h1 : 1 ≤ k := by omega
    have h2 : k ≤ s._party_no := by omega
    have h' : ¬ (k ≤ 0 ∨ k > s._party_no) := by omega
    obtain ⟨dk, hg, hc⟩ := col_get_of_lt s._dim (k - 1) (by omega)
    have hu := uword_sub_one_eq k h1 hk
    by_cases hd : dk = 2 ∨ dk = 3
    · right
      refine ⟨dk, h1, h2, hg, hd, ?_⟩
      unfold deficit_space.reset_party
      simp only [h', if_false, hu, hc]
      rcases hd with rfl | rfl <;> simp
    · left
      push_neg at hd
      refine ⟨dk, h1, h2, hg, hd.1, hd.2, ?_⟩
      unfold deficit_space.reset_party
      simp only [h', if_false, hu, hc]
      simp [hd.1, hd.2]

/-- The `uword` product of a list started at `acc` is the product modulo `2 ^ 64`. -/
theorem foldl_uword_mul_mod (l : List Nat) (acc : Nat) :
    l.foldl uword_mul acc % uword_size = (acc * l.prod) % uword_size := by
  induction l generalizing acc with
  | nil => simp
  | cons x l ih =>
    rw [List.foldl_cons, ih, List.prod_cons]
    unfold uword_mul
    rw [Nat.mod_mul_mod, Nat.mul_assoc]

/-- The `uword` product of a list stays below `2 ^ 64`. -/
theorem foldl_uword_mul_lt (l : List Nat) (acc : Nat) (h : acc < uword_size) :
    l.foldl uword_mul acc < uword_size := by
  induction l generalizing acc with
  | nil => exact h
  | cons x l ih =>
    rw [List.foldl_cons]
    exact ih _ (Nat.mod_lt _ (Nat.pos_of_ne_zero (by unfold uword_size; positivity)))

/-- The function `arma::prod` on `uword` is the product modulo `2 ^ 64`. -/
theorem arma_prod_eq_mod (l : List Nat) : arma_prod l = l.prod % uword_size := by
  have h1 : (1 : Nat) < uword_size := Nat.one_lt_two_pow (by decide)
  have h := foldl_uword_mul_mod l 1
  rw [Nat.mod_eq_of_lt (foldl_uword_mul_lt l 1 h1), Nat.one_mul] at h
  exact h

/-- Without overflow `arma::prod` is the product. -/
theorem arma_prod_eq (l : List Nat) (h : l.prod < uword_size) : arma_prod l = l.prod := by
  rw [arma_prod_eq_mod, Nat.mod_eq_of_lt h]

/-- The outcome of the constructor, check by check. -/
theorem construct_cases {K S : Type} [LinearOrderedField K] (rho : Mat S) (k : Nat)
    (dim : List Nat) (hk : k < uword_size) :
    (∃ f, deficit_space.construct_check rho k dim = some f ∧
      deficit_space.construct (K := K) rho k dim = .error f) ∨
    (∃ s : deficit_space K S, deficit_space.construct_check rho k dim = none ∧
      deficit_space.construct rho k dim = .ok s ∧ s._is_computed = false ∧
      s._is_reg_computed = false ∧ s._is_sab_computed = false ∧ s._rho = rho ∧
      s._nodal = k ∧ s._dim = dim ∧ s._party_no = dim.length) := by
  unfold deficit_space.construct_check deficit_space.construct
  simp only [bind, Except.bind, pure, Except.pure, throw, throwThe, MonadExceptOf.throw]
  by_cases h1 : rho.n_elem = 0
  · left; simp [h1]
  by_cases h2 : rho.n_rows ≠ rho.n_cols
  · left; simp [h1, h2]
  unfold deficit_space.init
  simp only [bind, Except.bind, pure, Except.pure, throw, throwThe, MonadExceptOf.throw]
  by_cases h3 : 0 ∈ dim
  · left
    have : (dim.any fun d => d == 0) = true := by
      rw [List.any_eq_true]; exact ⟨0, h3, rfl⟩
    simp [h1, h2, h3, this]
  have h3' : ¬ (dim.any fun d => d == 0) = true := by
    rw [List.any_eq_true]
    rintro ⟨d, hd, h0⟩
    have : d = 0 := by simpa using h0
    exact h3 (this ▸ hd)
  by_cases h4 : arma_prod dim ≠ rho.n_rows
  · left; simp [h1, h2, h3, h3', h4]
  by_cases h5 : k < 1 ∨ dim.length < k
  · left
    have h5' : k ≤ 0 ∨ k > dim.length := by omega
    simp only [h1, h2, h3, h3', h4, h5', if_true, if_false]
    simp_all
  have h5' : ¬ (k ≤ 0 ∨ k > dim.length) := by omega
  obtain ⟨dk, hg, hc⟩ := col_get_of_lt dim (k - 1) (by omega)
  have hu := uword_sub_one_eq k (by omega) hk
  rw [List.get?_eq_getElem?] at hg
  by_cases h6 : dk = 2 ∨ dk = 3
  · right
    simp only [h1, h2, h3, h3', h4, h5, h5', hu, hc, if_false]
    rcases h6 with rfl | rfl <;> simp_all [deficit_space.set_defaults]
  · left
    push_neg at h6
    simp only [h1, h2, h3, h3', h4, h5, h5', hu, hc, if_false]
    simp_all

/-- The checks of the specification all pass exactly on the inputs it calls valid. -/
theorem construct_check_none {S : Type} (rho : Mat S) (k : Nat) (dim : List Nat) :
    deficit_space.construct_check rho k dim = none ↔
      (rho.n_elem ≠ 0 ∧ rho.n_rows = rho.n_cols ∧ (∀ d ∈ dim, d ≠ 0) ∧
        arma_prod dim = rho.n_rows ∧ 1 ≤ k ∧ k ≤ dim.length ∧
        (dim.get? (k - 1) = some 2 ∨ dim.get? (k - 1) = some 3)) := by
  unfold deficit_space.construct_check
  have hz : (∀ d ∈ dim, d ≠ 0) ↔ 0 ∉ dim :=
    ⟨fun h h0 => h 0 h0 rfl, fun h d hd h0 => h (h0 ▸ hd)⟩
  rw [hz]
  split_ifs with h1 h2 h3 h4 h5 h6
  · simp [h1]
  · simp [h2]
  · simp [h3]
  · simp [h4]
  · simp only [false_iff, reduceCtorEq]
    rintro ⟨_, _, _, _, a, b, _⟩
    omega
  · simp only [false_iff, reduceCtorEq]
    rintro ⟨_, _, _, _, _, _, c⟩
    rcases c with c | c
    · exact h6.1 c
    · exact h6.2 c
  · simp only [true_iff]
    refine ⟨h1, by simpa using h2, h3, by simpa using h4, by omega, by omega, ?_⟩
    by_contra hc
    push_neg at hc
    exact h6 hc

/-- For a non-zero uniform dimension the uniform constructor is the vector constructor on
the inferred number of copies. -/
theorem construct_uniform_eq {K S : Type} [LinearOrderedField K] (R : RoundMath K)
    (rho : Mat S) (k d : Nat) (hd : d ≠ 0) :
    deficit_space.construct_uniform R rho k d =
      deficit_space.construct rho k
        (List.replicate (uword_of_int (R.llround (R.log (rho.n_rows : K) / R.log (d : K))))
          d) := by
  unfold deficit_space.construct_uniform deficit_space.construct
  simp only [bind, Except.bind, pure, Except.pure, throw, throwThe, MonadExceptOf.throw]
  by_cases h1 : rho.n_elem = 0
  · simp [h1]
  · by_cases h2 : rho.n_rows ≠ rho.n_cols
    · simp [h1, h2]
    · simp [h1, h2, hd]

/-- A zero uniform dimension is rejected once the state is accepted. -/
theorem construct_uniform_zero {K S : Type} [LinearOrderedField K] (R : RoundMath K)
    (rho : Mat S) (k : Nat) (h0 : rho.n_elem ≠ 0) (hsq : rho.n_rows = rho.n_cols) :
    deficit_space.construct_uniform R rho k 0 =
      .error (Fault.exception Exception.INVALID_DIMS) := by
  unfold deficit_space.construct_uniform
  simp [bind, Except.bind, pure, Except.pure, throw, throwThe, MonadExceptOf.throw, h0, hsq]

/-- In exact arithmetic the inferred number of parties `n = round(log N / log d)` satisfies
`d ^ (2 n) <= N ^ 2 * d`. -/
theorem round_log_bound (N d : Nat) (hN : 1 ≤ N) (hd : 2 ≤ d) :
    0 ≤ round (Real.log N / Real.log d) ∧
      d ^ (2 * (round (Real.log N / Real.log d)).toNat) ≤ N * N * d := by
  have hN' : (1 : ℝ) ≤ N := by exact_mod_cast hN
  have hd' : (1 : ℝ) < d := by exact_mod_cast (by omega : 1 < d)
  have hlN : 0 ≤ Real.log N := Real.log_nonneg hN'
  have hld : 0 < Real.log d := Real.log_pos hd'
  have hx : 0 ≤ Real.log N / Real.log d := div_nonneg hlN hld.le
  have hz : 0 ≤ round (Real.log N / Real.log d) := by
    rw [round_eq]
    apply Int.floor_nonneg.mpr
    linarith
  refine ⟨hz, ?_⟩
  set z := round (Real.log N / Real.log d) with hzdef
  have hzc : ((z.toNat : ℕ) : ℝ) = (z : ℝ) := by
    have : ((z.toNat : ℤ) : ℝ) = (z : ℝ) := by rw [Int.toNat_of_nonneg hz]
    exact_mod_cast this
  have habs : |Real.log N / Real.log d - z| ≤ 1 / 2 := abs_sub_round _
  have hle : (z : ℝ) ≤ Real.log N / Real.log d + 1 / 2 := by
    have := (abs_le.mp habs).1
    linarith
  have hmul : (z : ℝ) * Real.log d ≤ Real.log N + Real.log d / 2 := by
    have := mul_le_mul_of_nonneg_right hle hld.le
    rw [add_mul, div_mul_cancel₀ _ hld.ne'] at this
    linarith
  have hlog : Real.log ((d : ℝ) ^ (2 * z.toNat)) ≤ Real.log ((N : ℝ) * N * d) := by
    rw [Real.log_pow, Real.log_mul (by positivity) (by positivity),
      Real.log_mul (by positivity) (by positivity)]
    push_cast
    rw [hzc]
    linarith
  have hreal : (d : ℝ) ^ (2 * z.toNat) ≤ (N : ℝ) * N * d :=
    (Real.log_le_log_iff (by positivity) (by positivity)).mp hlog
  exact_mod_cast hreal

/-- An integer in the `uword` range converts to itself. -/
theorem uword_of_int_eq (z : Int) (h0 : 0 ≤ z) (h : z.toNat < uword_size) :
    uword_of_int z = z.toNat := by
  unfold uword_of_int
  rw [Int.emod_eq_of_lt h0]
  have : ((z.toNat : ℕ) : ℤ) < (uword_size : ℤ) := by exact_mod_cast h
  rwa [Int.toNat_of_nonneg h0] at this

/-- A power of `d >= 2` below `2 ^ 64` has an exponent below `2 ^ 64`. -/
theorem exp_lt_of_pow_lt (d n : Nat) (hd : 2 ≤ d) (h : d ^ n < uword_size) :
    n < uword_size :=
  lt_of_lt_of_le (Nat.lt_two_pow n) (le_trans (Nat.pow_le_pow_left hd n) h.le)

/-- The inferred number of parties in exact arithmetic: the rounded quotient is a `uword`,
and `d` to that power does not overflow. -/
theorem uniform_count (N d : Nat) (hN : 1 ≤ N) (hNN : N * N < uword_size) (hd : 2 ≤ d)
    (hd2 : d < uword_size) :
    uword_of_int (round (Real.log N / Real.log d)) =
        (round (Real.log N / Real.log d)).toNat ∧
      d ^ (round (Real.log N / Real.log d)).toNat < uword_size := by
  obtain ⟨hz, hb⟩ := round_log_bound N d hN hd
  have hp : d ^ (round (Real.log N / Real.log d)).toNat < uword_size := by
    generalize (round (Real.log N / Real.log d)).toNat = n at hb
    generalize uword_size = m at hNN hd2
    have h1 : N * N * d < m * m := by
      calc N * N * d < m * d := Nat.mul_lt_mul_of_pos_right hNN (by omega)
        _ ≤ m * m := Nat.mul_le_mul_left m hd2.le
    have h2 : (d ^ n) ^ 2 < m ^ 2 := by
      rw [← pow_mul, mul_comm n 2, sq m]
      exact lt_of_le_of_lt hb h1
    exact lt_of_pow_lt_pow_left₀ 2 (Nat.zero_le m) h2
  exact ⟨uword_of_int_eq _ hz (exp_lt_of_pow_lt d _ hd hp), hp⟩

/-- The rounded quotient of logarithms of a power is its exponent. -/
theorem round_log_pow (d P : Nat) (hd : 2 ≤ d) :
    round (Real.log ((d ^ P : Nat) : ℝ) / Real.log d) = (P : Int) := by
  have hd1 : (1 : ℝ) < d := by exact_mod_cast (by omega : 1 < d)
  have hld : Real.log d ≠ 0 := (Real.log_pos hd1).ne'
  push_cast
  rw [Real.log_pow, mul_div_assoc, div_self hld, mul_one]
  exact round_natCast P

/-- The `uword` product of `n` copies of `d`. -/
theorem arma_prod_replicate (n d : Nat) (h : d ^ n < uword_size) :
    arma_prod (List.replicate n d) = d ^ n := by
  rw [arma_prod_eq _ (by rwa [List.prod_replicate]), List.prod_replicate]

/-- The vector constructor on copies of `d` whose power is not the size of the state. -/
theorem construct_replicate_mismatch {K S : Type} [LinearOrderedField K] (rho : Mat S)
    (k n d : Nat) (h0 : rho.n_elem ≠ 0) (hsq : rho.n_rows = rho.n_cols) (hd : d ≠ 0)
    (h : arma_prod (List.replicate n d) ≠ rho.n_rows) :
    deficit_space.construct (K := K) rho k (List.replicate n d) =
      .error (Fault.exception Exception.DIMS_MISMATCH_MATRIX) := by
  unfold deficit_space.construct deficit_space.init
  have hz : ∀ x ∈ List.replicate n d, ¬ x = 0 := by
    intro x hx
    rw [List.eq_of_mem_replicate hx]
    exact hd
  simp [bind, Except.bind, pure, Except.pure, throw, throwThe, MonadExceptOf.throw, h0, hsq]
  simp_all

/-- Two `arma::Mat` of the same shape with the same entries are equal. -/
theorem Mat.ext_cast {S : Type} (A B : Mat S) (hr : A.n_rows = B.n_rows)
    (hc : A.n_cols = B.n_cols)
    (h : ∀ i j, A.mem i j = B.mem (Fin.cast hr i) (Fin.cast hc j)) : A = B := by
  obtain ⟨ar, ac, am⟩ := A
  obtain ⟨br, bc, bm⟩ := B
  simp only at hr hc
  subst hr
  subst hc
  congr 1
  ext i j
  exact h i j

/-- The Kronecker product with the 1 x 1 identity on the left is the matrix itself. -/
theorem kron_eye_one_left {S : Type} [CommRing S] (A : Mat S) :
    Mat.kron (Mat.eye 1) A = A := by
  apply Mat.ext_cast _ _ (Nat.one_mul _) (Nat.one_mul _)
  intro i j
  have hi : i.modNat = Fin.cast (Nat.one_mul _) i := by
    apply Fin.ext
    have := i.isLt
    simp only [Mat.kron, Mat.eye, Nat.one_mul] at this
    simp [Fin.coe_modNat, Mat.eye, Nat.mod_eq_of_lt this]
  have hj : j.modNat = Fin.cast (Nat.one_mul _) j := by
    apply Fin.ext
    have := j.isLt
    simp only [Mat.kron, Mat.eye, Nat.one_mul] at this
    simp [Fin.coe_modNat, Mat.eye, Nat.mod_eq_of_lt this]
  simp only [Mat.kron, Mat.eye, Matrix.of_apply]
  have e : Fin.divNat i = Fin.divNat j := Subsingleton.elim (α := Fin 1) _ _
  rw [hi, hj, e, Matrix.one_apply_eq, one_mul]

/-- The Kronecker product with the 1 x 1 identity on the right is the matrix itself. -/
theorem kron_eye_one_right {S : Type} [CommRing S] (A : Mat S) :
    Mat.kron A (Mat.eye 1) = A := by
  apply Mat.ext_cast _ _ (Nat.mul_one _) (Nat.mul_one _)
  intro i j
  have hi : i.divNat = Fin.cast (Nat.mul_one _) i := by
    apply Fin.ext
    simp [Fin.coe_divNat, Mat.eye]
  have hj : j.divNat = Fin.cast (Nat.mul_one _) j := by
    apply Fin.ext
    simp [Fin.coe_divNat, Mat.eye]
  simp only [Mat.kron, Mat.eye, Matrix.of_apply]
  have e : Fin.modNat i = Fin.modNat j := Subsingleton.elim (α := Fin 1) _ _
  rw [hi, hj, e, Matrix.one_apply_eq, mul_one]

/-- The value of the product loop over the indices `lo, .., lo + n - 1`. -/
theorem prod_fold_val (dim : List Nat) (n lo acc : Nat) (h : lo + n ≤ dim.length) :
    (List.range' lo n).foldlM (fun acc i => do
      let d ← col_at dim i
      pure (uword_mul acc d)) acc =
      (.ok (((dim.drop lo).take n).foldl uword_mul acc) : Except Fault Nat) := by
  induction n generalizing lo acc with
  | zero => rfl
  | succ n ih =>
    have hlo : lo < dim.length := by omega
    rw [List.range'_succ, List.foldlM_cons, List.drop_eq_getElem_cons hlo, List.take_succ_cons,
      List.foldl_cons]
    have hcol : col_at dim lo = .ok dim[lo] := by
      simp only [col_at, List.get?_eq_getElem?, List.getElem?_eq_getElem hlo]
    rw [hcol]
    exact ih (lo + 1) (uword_mul acc dim[lo]) (by omega)

/-- Without overflow the product loop returns the product of the entries it reads. -/
theorem prod_loop_val (dim : List Nat) (lo hi : Nat) (h : hi ≤ dim.length) (hlo : lo ≤ hi)
    (hp : ((dim.drop lo).take (hi - lo)).prod < uword_size) :
    deficit_space.prod_loop dim lo hi = .ok ((dim.drop lo).take (hi - lo)).prod := by
  unfold deficit_space.prod_loop
  rw [prod_fold_val dim (hi - lo) lo 1 (by omega)]
  have := arma_prod_eq _ hp
  unfold arma_prod at this
  rw [this]

/-- The product of the dimensions splits at the measured party. -/
theorem prod_split (dim : List Nat) (k d : Nat) (hk : 1 ≤ k)
    (hd : dim.get? (k - 1) = some d) :
    dim.prod = (dim.take (k - 1)).prod * d * (dim.drop k).prod := by
  rw [List.get?_eq_getElem?] at hd
  obtain ⟨hlt, hget⟩ := List.getElem?_eq_some_iff.mp hd
  have h1 : dim = dim.take (k - 1) ++ dim.drop (k - 1) := (List.take_append_drop _ _).symm
  have h2 : dim.drop (k - 1) = d :: dim.drop k := by
    rw [List.drop_eq_getElem_cons hlt, hget]
    congr 2
    omega
  conv_lhs => rw [h1, h2]
  rw [List.prod_append, List.prod_cons, mul_assoc]

/-- The context of the objective on a session whose dimensions multiply to the size of the
state: the three identity sizes are `N / d`, the product of the dimensions before the
measured party and the product of those after it. -/
theorem make_pass_val {K S : Type} [LinearOrderedField K] [CommRing S]
    (s : deficit_space K S) (d : Nat)
    (hprod : s._dim.prod = s._rho.n_rows) (h0 : s._rho.n_rows ≠ 0)
    (hN : s._rho.n_rows < uword_size) (hP : s._party_no = s._dim.length)
    (hk1 : 1 ≤ s._nodal) (hk2 : s._nodal ≤ s._party_no) (hku : s._nodal < uword_size)
    (hd : s._dim.get? (s._nodal - 1) = some d) :
    deficit_space.make_pass s d =
        .ok ⟨s._rho, Mat.eye (s._rho.n_rows / d), Mat.eye (s._dim.take (s._nodal - 1)).prod,
          Mat.eye (s._dim.drop s._nodal).prod, s._nodal, s._party_no⟩ ∧
      (s._dim.take (s._nodal - 1)).prod * d * (s._dim.drop s._nodal).prod = s._rho.n_rows ∧
      s._rho.n_rows / d = (s._dim.take (s._nodal - 1)).prod * (s._dim.drop s._nodal).prod := by
  have hs := prod_split s._dim s._nodal d hk1 hd
  rw [hprod] at hs
  generalize hb : (s._dim.take (s._nodal - 1)).prod = b at hs
  generalize ha : (s._dim.drop s._nodal).prod = a at hs
  have hb0 : b ≠ 0 := by
    rintro rfl
    simp at hs
    exact h0 hs
  have hd0 : d ≠ 0 := by
    rintro rfl
    simp at hs
    exact h0 hs
  have ha0 : a ≠ 0 := by
    rintro rfl
    simp at hs
    exact h0 hs
  have hble : b ≤ s._rho.n_rows := by
    rw [hs, mul_assoc]
    exact Nat.le_mul_of_pos_right b (Nat.pos_of_ne_zero (Nat.mul_ne_zero hd0 ha0))
  have hale : a ≤ s._rho.n_rows := by
    rw [hs]
    exact Nat.le_mul_of_pos_left a (Nat.pos_of_ne_zero (Nat.mul_ne_zero hb0 hd0))
  have hdiv : s._rho.n_rows / d = b * a := by
    rw [hs, mul_comm b d, mul_assoc]
    exact Nat.mul_div_cancel_left _ (Nat.pos_of_ne_zero hd0)
  have e1 : arma_prod s._dim = s._rho.n_rows := by
    rw [arma_prod_eq _ (by rw [hprod]; exact hN), hprod]
  have e2 : deficit_space.prod_loop s._dim 0 (uword_sub s._nodal 1) = .ok b := by
    rw [uword_sub_one_eq _ hk1 hku]
    have h := prod_loop_val s._dim 0 (s._nodal - 1) (by omega) (Nat.zero_le _)
    simp only [List.drop_zero, Nat.sub_zero, hb] at h
    exact h (lt_of_le_of_lt hble hN)
  have e3 : deficit_space.prod_loop s._dim s._nodal s._party_no = .ok a := by
    have h := prod_loop_val s._dim s._nodal s._party_no (by omega) hk2
    have ht : (s._dim.drop s._nodal).take (s._party_no - s._nodal) = s._dim.drop s._nodal :=
      List.take_of_length_le (by rw [List.length_drop, hP])
    rw [ht, ha] at h
    exact h (lt_of_le_of_lt hale hN)
  refine ⟨?_, hs.symm, hdiv⟩
  unfold deficit_space.make_pass
  rw [e1, e2, e3]
  rfl

section compute_steps

variable {K S : Type} [LinearOrderedField K] [CommRing S] [StarRing S]

omit [LinearOrderedField K] [CommRing S] [StarRing S] in
/-- The optimizer returns two components on a start point of two. -/
theorem optimize_two (L : Libs K S) (o : nlopt.opt K) (x : List K) (hx : x.length = 2) :
    ∃ t0 t1, (L.optimize o x).1 = [t0, t1] := by
  have hl := L.optimize_size o x
  rw [hx] at hl
  match hy : (L.optimize o x).1, hl with
  | [t0, t1], _ => exact ⟨t0, t1, rfl⟩

/-- The `_deficit2` branch of `compute`, step by step: the box, the start point, the two
optimizer objects, the optional global call and the local call. -/
theorem compute2_val (M : StdMath K S) (L : Libs K S) (s : deficit_space K S)
    (pass : protect_dis.TO_PASS S) (hp : deficit_space.make_pass s 2 = .ok pass)
    (r0 r1 i0 i1 : K) (hr : s._deficit_angle_range = [r0, r1])
    (hi : s._deficit_angle_ini = [i0, i1]) :
    let lb : List K := [0, 0]
    let ub : List K := [r0 * M.pi, r1 * M.pi]
    let x0 : List K := [i0 * M.pi, i0 * M.pi]
    let obj : List K → Except Fault K := fun y => protect_dis.def_nlopt2 M L y pass
    let gopt : nlopt.opt K :=
      ⟨s._deficit_global_opt, 2, lb, ub, obj, s._deficit_global_xtol, s._deficit_global_ftol⟩
    let lopt : nlopt.opt K :=
      ⟨s._deficit_local_opt, 2, lb, ub, obj, s._deficit_local_xtol, s._deficit_local_ftol⟩
    let start : List K := if s._deficit_global = true then (L.optimize gopt x0).1 else x0
    deficit_space.compute2 M L s =
      .ok ({ s with _result := -s._S_A_B + (L.optimize lopt start).2,
                    _tp := (L.optimize lopt start).1, _is_computed := true },
        (if s._deficit_global = true then [Call.optimize gopt x0] else []) ++
          [Call.optimize lopt start]) := by
  intro lb ub x0 obj gopt lopt start
  have hx0 : x0.length = 2 := rfl
  have hst : start.length = 2 := by
    simp only [start]
    split_ifs
    · rw [L.optimize_size]; rfl
    · rfl
  obtain ⟨t0, t1, hT⟩ := optimize_two L lopt start hst
  unfold deficit_space.compute2
  rw [hp]
  simp only [bind, Except.bind, hr, hi, col_at, List.get?]
  by_cases hg : s._deficit_global = true
  · have e : start = (L.optimize gopt x0).1 := by simp only [start, if_pos hg]
    simp only [hg, if_true]
    rw [e] at hT ⊢
    simp only [lopt, gopt, x0, lb, ub, obj] at hT ⊢
    rw [hT]
    rfl
  · have e : start = x0 := by simp only [start, if_neg hg]
    simp only [hg]
    rw [e] at hT ⊢
    simp only [lopt, gopt, x0, lb, ub, obj] at hT ⊢
    simp only [Bool.false_eq_true, if_false]
    rw [hT]
    rfl

omit [CommRing S] [StarRing S] in
/-- The loop that scales the five entries of a configured vector by `pi`. -/
theorem scale5 (c : K) (l : List K) (h : l.length = 5) :
    (List.range 5).mapM (fun i => do
      let r ← col_at l i
      pure (r * c)) = (.ok (l.map (fun r => r * c)) : Except Fault (List K)) := by
  match hx : l, h with
  | [r0, r1, r2, r3, r4], _ =>
    have h5 : List.range 5 = [0, 1, 2, 3, 4] := by decide
    rw [h5]
    rfl

/-- The `_deficit3` branch of `compute`, step by step. -/
theorem compute3_val (M : StdMath K S) (L : Libs K S) (s : deficit_space K S)
    (pass : protect_dis.TO_PASS S) (hp : deficit_space.make_pass s 3 = .ok pass)
    (hr : s._deficit_angle_range.length = 5) (hi : s._deficit_angle_ini.length = 5) :
    let lb : List K := List.replicate 5 0
    let ub : List K := s._deficit_angle_range.map (fun r => r * M.pi)
    let x0 : List K := s._deficit_angle_ini.map (fun a => a * M.pi)
    let obj : List K → Except Fault K := fun y => protect_dis.def_nlopt3 M L y pass
    let gopt : nlopt.opt K :=
      ⟨s._deficit_global_opt, 5, lb, ub, obj, s._deficit_global_xtol, s._deficit_global_ftol⟩
    let lopt : nlopt.opt K :=
      ⟨s._deficit_local_opt, 5, lb, ub, obj, s._deficit_local_xtol, s._deficit_local_ftol⟩
    let start : List K := if s._deficit_global = true then (L.optimize gopt x0).1 else x0
    deficit_space.compute3 M L s =
      .ok ({ s with _result := -s._S_A_B + (L.optimize lopt start).2,
                    _tp := (L.optimize lopt start).1, _is_computed := true },
        (if s._deficit_global = true then [Call.optimize gopt x0] else []) ++
          [Call.optimize lopt start]) := by
  intro lb ub x0 obj gopt lopt start
  unfold deficit_space.compute3
  rw [hp, scale5 M.pi _ hr, scale5 M.pi _ hi]
  simp only [bind, Except.bind]
  by_cases hg : s._deficit_global = true
  · simp only [start, gopt, lopt, lb, ub, x0, obj, hg, if_true]
    rfl
  · simp only [start, gopt, lopt, lb, ub, x0, obj, hg]
    rfl

omit [LinearOrderedField K] [CommRing S] [StarRing S] in
/-- A valid session has exactly one case flag. -/
theorem valid_one_flag (s : deficit_space K S) (hv : s.Valid) :
    (s._deficit2 = true ∧ s._deficit3 = false) ∨ (s._deficit2 = false ∧ s._deficit3 = true) := by
  rcases hv.some_flag with h | h
  · left
    refine ⟨h, ?_⟩
    cases h3 : s._deficit3
    · rfl
    · have a := hv.flag2.mp h
      have b := hv.flag3.mp h3
      rw [a] at b
      cases b
  · right
    refine ⟨?_, h⟩
    cases h2 : s._deficit2
    · rfl
    · have a := hv.flag2.mp h2
      have b := hv.flag3.mp h
      rw [a] at b
      cases b

omit [CommRing S] [StarRing S] in
/-- The value `s_a_b` caches: the entropy of the state, computed by one call of `entropy`
unless the cache already holds it. -/
theorem s_a_b_val (M : StdMath K S) (L : Libs K S) (s : deficit_space K S)
    (h0 : s._rho.n_elem ≠ 0) (h1 : s._rho.n_rows = s._rho.n_cols) :
    ∃ sab ecalls, deficit_space.s_a_b M L s =
        .ok ({ s with _S_A_B := sab, _is_sab_computed := true }, ecalls) ∧
      (s._is_sab_computed = false →
        entropy M L s._rho = .ok sab ∧ ecalls = [Call.entropy s._rho]) ∧
      (s._is_sab_computed = true → sab = s._S_A_B ∧ ecalls = []) := by
  unfold deficit_space.s_a_b
  by_cases h : s._is_sab_computed = false
  · obtain ⟨v, hv⟩ := entropy_ok_of_square M L s._rho h0 h1
    refine ⟨v, [Call.entropy s._rho], ?_, fun _ => ⟨hv, rfl⟩, fun h2 => ?_⟩
    · rw [if_pos h, hv]
      rfl
    · rw [h] at h2
      cases h2
  · have ht : s._is_sab_computed = true := by simpa using h
    refine ⟨s._S_A_B, [], ?_, fun h2 => absurd h2 h, fun _ => ⟨rfl, rfl⟩⟩
    rw [if_neg h]
    cases s
    simp_all [pure, Except.pure]

/-- The member `compute` when the `_deficit2` branch alone runs. -/
theorem compute_of_qubit (M : StdMath K S) (L : Libs K S) (s : deficit_space K S)
    (a b : deficit_space K S × List (Call K S)) (ha : deficit_space.s_a_b M L s = .ok a)
    (h2 : a.1._deficit2 = true) (hb : deficit_space.compute2 M L a.1 = .ok b)
    (h3 : b.1._deficit3 = false) :
    deficit_space.compute M L s = .ok (b.1, a.2 ++ b.2) := by
  simp only [deficit_space.compute, except_bind_eq_ok]
  refine ⟨a, ha, b, ?_, (b.1, []), ?_, ?_⟩
  · rw [if_pos h2]
    exact hb
  · rw [if_neg (by simp [h3])]
    rfl
  · simp [pure, Except.pure]

/-- The member `compute` when the `_deficit3` branch alone runs. -/
theorem compute_of_qutrit (M : StdMath K S) (L : Libs K S) (s : deficit_space K S)
    (a b : deficit_space K S × List (Call K S)) (ha : deficit_space.s_a_b M L s = .ok a)
    (h2 : a.1._deficit2 = false) (h3 : a.1._deficit3 = true)
    (hb : deficit_space.compute3 M L a.1 = .ok b) :
    deficit_space.compute M L s = .ok (b.1, a.2 ++ b.2) := by
  simp only [deficit_space.compute, except_bind_eq_ok]
  refine ⟨a, ha, (a.1, []), ?_, b, ?_, ?_⟩
  · rw [if_neg (by simp [h2])]
    rfl
  · rw [if_pos h3]
    exact hb
  · simp [pure, Except.pure]

/-- The member `compute` on a valid session, step by step: the total entropy, the box
`[0, b_i * pi]`, the start point, the two optimizer objects, the optional global call and
the local call, and the members written. -/
theorem compute_val (M : StdMath K S) (L : Libs K S) (s : deficit_space K S)
    (hv : s.Valid) :
    ∃ (sab : K) (ecalls : List (Call K S)) (n : Nat) (x0 : List K)
      (obj : List K → Except Fault K),
      deficit_space.s_a_b M L s =
        .ok ({ s with _S_A_B := sab, _is_sab_computed := true }, ecalls) ∧
      (s._is_sab_computed = false →
        entropy M L s._rho = .ok sab ∧ ecalls = [Call.entropy s._rho]) ∧
      (s._is_sab_computed = true → sab = s._S_A_B ∧ ecalls = []) ∧
      (s._deficit2 = true → n = 2 ∧
        (∃ i0 i1, s._deficit_angle_ini = [i0, i1] ∧ x0 = [i0 * M.pi, i0 * M.pi]) ∧
        ∃ pass, deficit_space.make_pass s 2 = .ok pass ∧
          obj = fun y => protect_dis.def_nlopt2 M L y pass) ∧
      (s._deficit3 = true → n = 5 ∧
        x0 = s._deficit_angle_ini.map (fun a => a * M.pi) ∧
        ∃ pass, deficit_space.make_pass s 3 = .ok pass ∧
          obj = fun y => protect_dis.def_nlopt3 M L y pass) ∧
      s._deficit_angle_range.length = n ∧ x0.length = n ∧
      ∃ (gopt lopt : nlopt.opt K) (start : List K),
        gopt = ⟨s._deficit_global_opt, n, List.replicate n 0,
          s._deficit_angle_range.map (fun r => r * M.pi), obj, s._deficit_global_xtol,
          s._deficit_global_ftol⟩ ∧
        lopt = ⟨s._deficit_local_opt, n, List.replicate n 0,
          s._deficit_angle_range.map (fun r => r * M.pi), obj, s._deficit_local_xtol,
          s._deficit_local_ftol⟩ ∧
        start = (if s._deficit_global = true then (L.optimize gopt x0).1 else x0) ∧
        deficit_space.compute M L s =
          .ok ({ s with _S_A_B := sab, _is_sab_computed := true,
                        _result := -sab + (L.optimize lopt start).2,
                        _tp := (L.optimize lopt start).1, _is_computed := true },
            ecalls ++ ((if s._deficit_global = true then [Call.optimize gopt x0] else []) ++
              [Call.optimize lopt start])) := by
  obtain ⟨sab, ecalls, hs, hs1, hs2⟩ := s_a_b_val M L s hv.rho_nonempty hv.rho_square
  have hp : s._party_no ≤ s._dim.length := le_of_eq hv.party_no_eq
  rcases valid_one_flag s hv with ⟨f2, f3⟩ | ⟨f2, f3⟩
  · obtain ⟨a, b, hpass⟩ := make_pass_ok s 2 hv.nodal_pos hv.nodal_le hp
    obtain ⟨r0, r1, hr⟩ : ∃ r0 r1, s._deficit_angle_range = [r0, r1] := by
      match hx : s._deficit_angle_range, hv.range2 f2 with
      | [r0, r1], _ => exact ⟨r0, r1, rfl⟩
    obtain ⟨i0, i1, hi⟩ : ∃ i0 i1, s._deficit_angle_ini = [i0, i1] := by
      match hx : s._deficit_angle_ini, hv.ini2 f2 with
      | [i0, i1], _ => exact ⟨i0, i1, rfl⟩
    have hc := compute2_val M L { s with _S_A_B := sab, _is_sab_computed := true } _ hpass
      r0 r1 i0 i1 hr hi
    refine ⟨sab, ecalls, 2, [i0 * M.pi, i0 * M.pi], _, hs, hs1, hs2,
      fun _ => ⟨rfl, ⟨i0, i1, hi, rfl⟩, _, hpass, rfl⟩, fun h => ?_, ?_, rfl, ?_⟩
    · rw [f3] at h
      cases h
    · rw [hr]
      rfl
    · refine ⟨_, _, _, rfl, rfl, rfl, ?_⟩
      have h := compute_of_qubit M L s _ _ hs f2 hc f3
      rw [h, hr]
      rfl
  · obtain ⟨a, b, hpass⟩ := make_pass_ok s 3 hv.nodal_pos hv.nodal_le hp
    have hc := compute3_val M L { s with _S_A_B := sab, _is_sab_computed := true } _ hpass
      (hv.range3 f3) (hv.ini3 f3)
    refine ⟨sab, ecalls, 5, s._deficit_angle_ini.map (fun a => a * M.pi), _, hs, hs1, hs2,
      fun h => ?_, fun _ => ⟨rfl, rfl, _, hpass, rfl⟩, hv.range3 f3, ?_, ?_⟩
    · rw [f2] at h
      cases h
    · rw [List.length_map]
      exact hv.ini3 f3
    · refine ⟨_, _, _, rfl, rfl, rfl, ?_⟩
      have h := compute_of_qutrit M L s _ _ hs f2 f3 hc
      rw [h]

/-- The accessors `result` and `opt_angles` on a session without a cached result return the
members written by `compute`. -/
theorem result_of_compute (M : StdMath K S) (L : Libs K S) (s : deficit_space K S)
    (a : deficit_space K S × List (Call K S)) (hc : s._is_computed = false)
    (h : deficit_space.compute M L s = .ok a) :
    deficit_space.result M L s = .ok (a.1._result, a.1, a.2) ∧
      deficit_space.opt_angles M L s = .ok (a.1._tp, a.1, a.2) := by
  unfold deficit_space.result deficit_space.opt_angles
  rw [if_pos hc, h]
  exact ⟨rfl, rfl⟩

end compute_steps

/-- A call of `initial_angle` that does not throw keeps the session valid. -/
theorem initial_angle_valid {K S : Type} [LinearOrderedField K] (s : deficit_space K S)
    (a : List K) (hv : s.Valid) (h : (s.initial_angle a).2 = none) :
    (s.initial_angle a).1.Valid := by
  unfold deficit_space.initial_angle at h ⊢
  by_cases h2 : s._deficit2 = true ∧ a.length ≠ 2
  · rw [if_pos h2] at h
    cases h
  · rw [if_neg h2] at h ⊢
    by_cases h3 : s._deficit3 = true ∧ a.length ≠ 5
    · rw [if_pos h3] at h
      cases h
    · rw [if_neg h3]
      exact ⟨hv.rho_nonempty, hv.rho_square, hv.dims_nonzero, hv.dims_prod, hv.party_no_eq,
        hv.nodal_pos, hv.nodal_le, hv.flag2, hv.flag3, hv.some_flag, hv.range2, hv.range3,
        fun f => by_contra fun hl => h2 ⟨f, hl⟩, fun f => by_contra fun hl => h3 ⟨f, hl⟩⟩

/-- The session `session_seed` is valid. -/
theorem session_seed_valid : session_seed.Valid :=
  initial_angle_valid session00 [1 / 10, 7 / 10] session00_valid rfl

/-- Two componentwise relations between two lists hold together. -/
theorem forall2_and {α β : Type} (P Q : α → β → Prop) (l1 : List α) (l2 : List β)
    (hP : List.Forall₂ P l1 l2) (hQ : List.Forall₂ Q l1 l2) :
    List.Forall₂ (fun a b => P a b ∧ Q a b) l1 l2 := by
  induction hP with
  | nil => exact List.Forall₂.nil
  | cons h _ ih =>
    cases hQ with
    | cons h2 t2 => exact List.Forall₂.cons ⟨h, h2⟩ (ih t2)

section defaults

variable {K S : Type} [LinearOrderedField K]

/-- A setter writes configuration members and `_is_computed` only. -/
theorem apply_setter_core (s t : deficit_space K S) (op : deficit_space.Setter K)
    (h : deficit_space.SameCore s t) : deficit_space.SameCore s (t.apply_setter op) := by
  unfold deficit_space.SameCore at h ⊢
  cases op <;>
    simp only [deficit_space.apply_setter, deficit_space.global_algorithm,
      deficit_space.global_xtol, deficit_space.global_ftol, deficit_space.global_opt,
      deficit_space.local_algorithm, deficit_space.local_xtol, deficit_space.local_ftol,
      deficit_space.angle_range, deficit_space.initial_angle]
  all_goals first
    | exact h
    | (split_ifs <;> exact h)

/-- Any sequence of setters writes configuration members and `_is_computed` only. -/
theorem foldl_setter_core (s : deficit_space K S) (ops : List (deficit_space.Setter K))
    (t : deficit_space K S) (h : deficit_space.SameCore s t) :
    deficit_space.SameCore s (ops.foldl deficit_space.apply_setter t) := by
  induction ops generalizing t with
  | nil => exact h
  | cons op ops ih => exact ih _ (apply_setter_core s t op h)

/-- With one case flag set, `refresh` depends on the members no setter writes only. -/
theorem refresh_of_same_core (s t : deficit_space K S) (h : deficit_space.SameCore s t)
    (hf : s._deficit2 = true ∨ s._deficit3 = true) : t.refresh = s.refresh := by
  obtain ⟨h1, h2, h3, h4, h5, h6, h7, h8, h9, h10, h11, h12, h13⟩ := h
  cases s
  cases t
  simp only at h1 h2 h3 h4 h5 h6 h7 h8 h9 h10 h11 h12 h13 hf
  subst h1 h2 h3 h4 h5 h6 h7 h8 h9 h10 h11 h12 h13
  unfold deficit_space.refresh deficit_space.set_defaults
  rcases hf with hf | hf
  · subst hf
    dsimp only
    simp only [if_true]
  · subst hf
    dsimp only
    split_ifs <;> first | rfl | simp_all

/-- A constructed session is the default configuration of its case written over the
members the constructor initialises, with exactly one case flag. -/
theorem construct_defaults (rho : Mat S) (k : Nat) (dim : List Nat) (s : deficit_space K S)
    (h : deficit_space.construct rho k dim = .ok s) :
    (s._deficit2 = true ∨ s._deficit3 = true) ∧ s.refresh = s ∧
      (s._deficit2 = true → s.HasQubitDefaults) ∧
      (s._deficit3 = true → s.HasQutritDefaults) := by
  unfold deficit_space.construct at h
  simp only [bind, Except.bind, pure, Except.pure, throw, throwThe, MonadExceptOf.throw] at h
  split_ifs at h with h1 h2
  unfold deficit_space.init at h
  simp only [bind, Except.bind, pure, Except.pure, throw, throwThe, MonadExceptOf.throw] at h
  split_ifs at h with h3 h4 h5
  cases hg : col_get dim (uword_sub k 1) with
  | error e => rw [hg] at h; cases h
  | ok v =>
    rw [hg] at h
    dsimp only at h
    split_ifs at h with h6
    cases h
    have hv : v = 2 ∨ v = 3 := by
      by_contra hv
      push_neg at hv
      exact h6 ⟨by simpa using hv.1, by simpa using hv.2⟩
    rcases hv with rfl | rfl
    · simp [deficit_space.set_defaults, deficit_space.refresh,
        deficit_space.HasQubitDefaults]
    · simp [deficit_space.set_defaults, deficit_space.refresh,
        deficit_space.HasQutritDefaults]

/-- The member `refresh` keeps the case flags and writes the defaults of the case. -/
theorem refresh_defaults (t : deficit_space K S) :
    (t.refresh._deficit2 = t._deficit2 ∧ t.refresh._deficit3 = t._deficit3) ∧
      (t._deficit2 = true → t._deficit3 = false → t.refresh.HasQubitDefaults) ∧
      (t._deficit3 = true → t.refresh.HasQutritDefaults) := by
  unfold deficit_space.refresh deficit_space.set_defaults
  cases h2 : t._deficit2 <;> cases h3 : t._deficit3 <;>
    simp [h2, h3, deficit_space.HasQubitDefaults, deficit_space.HasQutritDefaults]

/-- A `reset_party` that does not throw writes the defaults of the new case. -/
theorem reset_party_defaults (t : deficit_space K S) (k : Nat)
    (hP : t._party_no = t._dim.length) (hk : k < uword_size)
    (hok : (t.reset_party k).2 = none) :
    ((t.reset_party k).1._deficit2 = true → (t.reset_party k).1.HasQubitDefaults) ∧
      ((t.reset_party k).1._deficit3 = true → (t.reset_party k).1.HasQutritDefaults) := by
  rcases reset_party_cases t k hP hk with ⟨h, e⟩ | ⟨dk, h1, h2, hg, d2, d3, e⟩ |
    ⟨dk, h1, h2, hg, hd, e⟩
  · rw [e] at hok; cases hok
  · rw [e] at hok; cases hok
  · rw [e]
    rcases hd with rfl | rfl
    · simp [deficit_space.set_defaults, deficit_space.HasQubitDefaults]
    · simp [deficit_space.set_defaults, deficit_space.HasQutritDefaults]

end defaults

/-! ## The basis and projector tables: auxiliary lemmas -/

/-- The square of `sqrt(0.5)`, as a complex number. -/
theorem sqrt_half_sq : ((Real.sqrt (1 / 2) : ℝ) : ℂ) ^ 2 = 1 / 2 := by
  have h : Real.sqrt (1 / 2) ^ 2 = 1 / 2 := Real.sq_sqrt (by norm_num)
  have h2 : ((Real.sqrt (1 / 2) ^ 2 : ℝ) : ℂ) = ((1 / 2 : ℝ) : ℂ) := by rw [h]
  push_cast at h2
  exact h2

/-- The square of `sqrt 2`, as a complex number. -/
theorem sqrt_two_sq : ((Real.sqrt 2 : ℝ) : ℂ) ^ 2 = 2 := by
  have h : Real.sqrt 2 ^ 2 = 2 := Real.sq_sqrt (by norm_num)
  have h2 : ((Real.sqrt 2 ^ 2 : ℝ) : ℂ) = ((2 : ℝ) : ℂ) := by rw [h]
  push_cast at h2
  exact h2

/-- The value `sqrt(0.5)` is `1 / sqrt 2`. -/
theorem sqrt_half_eq : Real.sqrt (1 / 2) = 1 / Real.sqrt 2 := by
  rw [one_div, Real.sqrt_inv, one_div]

/-- In exact arithmetic the two vectors of each setting of `basis2` are orthonormal. -/
theorem basis2_orthonormal (s j k : Nat) (hs : s < 4) (hj : j < 2) (hk : k < 2) :
    (SPM.basis2 (⟨Complex.ofReal, Complex.I, Real.cos, Real.sin, Complex.exp, Real.sqrt,
        Real.logb 2, Real.pi⟩ : StdMath ℝ ℂ) j s).conjTranspose *
      SPM.basis2 (⟨Complex.ofReal, Complex.I, Real.cos, Real.sin, Complex.exp, Real.sqrt,
        Real.logb 2, Real.pi⟩ : StdMath ℝ ℂ) k s = if j = k then 1 else 0 := by
  have hr := sqrt_two_sq
  interval_cases s <;> interval_cases j <;> interval_cases k <;>
    (ext a b
     fin_cases a
     fin_cases b
     simp [SPM.basis2, SPM.col2, Matrix.mul_apply, Fin.sum_univ_two]
     try ring_nf
     try simp [hr, Complex.I_sq, map_ofNat]
     try norm_num)

/-- In exact arithmetic the three vectors of each setting of `basis3` are orthonormal. -/
theorem basis3_orthonormal (s j k : Nat) (hs : s < 4) (hj : j < 3) (hk : k < 3) :
    (SPM.basis3 (⟨Complex.ofReal, Complex.I, Real.cos, Real.sin, Complex.exp, Real.sqrt,
        Real.logb 2, Real.pi⟩ : StdMath ℝ ℂ) j s).conjTranspose *
      SPM.basis3 (⟨Complex.ofReal, Complex.I, Real.cos, Real.sin, Complex.exp, Real.sqrt,
        Real.logb 2, Real.pi⟩ : StdMath ℝ ℂ) k s = if j = k then 1 else 0 := by
  have hr := sqrt_two_sq
  interval_cases s <;> interval_cases j <;> interval_cases k <;>
    (ext a b
     fin_cases a
     fin_cases b
     simp [SPM.basis3, SPM.col3, Matrix.mul_apply, Fin.sum_univ_three]
     try ring_nf
     try simp [hr, Complex.I_sq, map_ofNat]
     try norm_num)

/-- In exact arithmetic the two projectors of each setting of `proj2` sum to the
identity. -/
theorem proj2_resolution (s : Nat) (hs : s < 4) :
    SPM.proj2 (⟨Complex.ofReal, Complex.I, Real.cos, Real.sin, Complex.exp, Real.sqrt,
        Real.logb 2, Real.pi⟩ : StdMath ℝ ℂ) 0 s +
      SPM.proj2 (⟨Complex.ofReal, Complex.I, Real.cos, Real.sin, Complex.exp, Real.sqrt,
        Real.logb 2, Real.pi⟩ : StdMath ℝ ℂ) 1 s = 1 := by
  have hr := sqrt_two_sq
  interval_cases s <;>
    (ext a b
     fin_cases a <;> fin_cases b <;>
      (simp [SPM.proj2, SPM.basis2, SPM.col2, Matrix.mul_apply]
       try ring_nf
       try simp [hr, Complex.I_sq, map_ofNat]
       try norm_num))

/-- In exact arithmetic the three projectors of each setting of `proj3` sum to the
identity. -/
theorem proj3_resolution (s : Nat) (hs : s < 4) :
    SPM.proj3 (⟨Complex.ofReal, Complex.I, Real.cos, Real.sin, Complex.exp, Real.sqrt,
        Real.logb 2, Real.pi⟩ : StdMath ℝ ℂ) 0 s +
      SPM.proj3 (⟨Complex.ofReal, Complex.I, Real.cos, Real.sin, Complex.exp, Real.sqrt,
        Real.logb 2, Real.pi⟩ : StdMath ℝ ℂ) 1 s +
      SPM.proj3 (⟨Complex.ofReal, Complex.I, Real.cos, Real.sin, Complex.exp, Real.sqrt,
        Real.logb 2, Real.pi⟩ : StdMath ℝ ℂ) 2 s = 1 := by
  have hr := sqrt_two_sq
  interval_cases s <;>
    (ext a b
     fin_cases a <;> fin_cases b <;>
      (simp [SPM.proj3, SPM.basis3, SPM.col3, Matrix.mul_apply]
       try ring_nf
       try simp [hr, Complex.I_sq, map_ofNat]
       try norm_num))

/-- The outer product of a unit vector with itself has rank 1. -/
theorem rank_outer_unit {n : Nat} (v : Matrix (Fin n) (Fin 1) ℂ)
    (h : v.conjTranspose * v = 1) : (v * v.conjTranspose).rank = 1 := by
  apply le_antisymm
  · calc (v * v.conjTranspose).rank ≤ v.rank := Matrix.rank_mul_le_left _ _
      _ ≤ Fintype.card (Fin 1) := Matrix.rank_le_width v
      _ = 1 := by simp
  · by_contra hlt
    have h0 : (v * v.conjTranspose).rank = 0 := by omega
    have hz : v * v.conjTranspose = 0 := by
      have hr : LinearMap.range (v * v.conjTranspose).mulVecLin = ⊥ := by
        apply Submodule.finrank_eq_zero.mp
        exact h0
      have hl : (v * v.conjTranspose).mulVecLin = 0 := LinearMap.range_eq_bot.mp hr
      have hl2 : Matrix.toLin' (v * v.conjTranspose) = 0 := hl
      exact (LinearEquiv.map_eq_zero_iff _).mp hl2
    have h1 : (v.conjTranspose * v) * (v.conjTranspose * v) = 0 := by
      calc (v.conjTranspose * v) * (v.conjTranspose * v)
          = v.conjTranspose * (v * v.conjTranspose) * v := by simp only [Matrix.mul_assoc]
        _ = 0 := by rw [hz]; simp
    rw [h, Matrix.mul_one] at h1
    exact one_ne_zero h1

/-- The outer products of two orthogonal vectors multiply to zero. -/
theorem outer_orthogonal {n : Nat} (v w : Matrix (Fin n) (Fin 1) ℂ)
    (h : v.conjTranspose * w = 0) :
    (v * v.conjTranspose) * (w * w.conjTranspose) = 0 := by
  calc (v * v.conjTranspose) * (w * w.conjTranspose)
      = v * (v.conjTranspose * w) * w.conjTranspose := by simp only [Matrix.mul_assoc]
    _ = 0 := by rw [h]; simp

/-- The accumulation loop `S -= g(i)` started at `a` subtracts the sum of the `g(i)`. -/
theorem foldl_sub_eq {K : Type} [Field K] (g : K → K) (l : List K) (a : K) :
    l.foldl (fun S i => S - g i) a = a - (l.map g).sum := by
  induction l generalizing a with
  | nil => simp
  | cons x l ih =>
    rw [List.foldl_cons, ih, List.map_cons, List.sum_cons]
    ring

/-- A sum in which the terms failing a test are 0 is the sum over the terms passing it. -/
theorem sum_ite_eq_sum_filter {K : Type} [Field K] (p : K → Prop) [DecidablePred p]
    (g : K → K) (l : List K) :
    (l.map (fun x => if p x then g x else 0)).sum =
      ((l.filter (fun x => decide (p x))).map g).sum := by
  induction l with
  | nil => simp
  | cons x l ih =>
    by_cases hx : p x
    · simp [List.filter_cons, hx, ih]
    · simp [List.filter_cons, hx, ih]

section reach

variable {K S : Type} [LinearOrderedField K] [CommRing S] [StarRing S]

omit [LinearOrderedField K] [CommRing S] [StarRing S] in
/-- Validity depends on the state, the dimensions, the nodal index, the flags and the
lengths of the bound and seed vectors only. -/
theorem valid_transfer (s t : deficit_space K S) (hv : s.Valid)
    (h1 : t._rho = s._rho) (h2 : t._nodal = s._nodal) (h3 : t._dim = s._dim)
    (h4 : t._party_no = s._party_no) (h5 : t._deficit2 = s._deficit2)
    (h6 : t._deficit3 = s._deficit3)
    (r2 : t._deficit2 = true → t._deficit_angle_range.length = 2)
    (r3 : t._deficit3 = true → t._deficit_angle_range.length = 5)
    (i2 : t._deficit2 = true → t._deficit_angle_ini.length = 2)
    (i3 : t._deficit3 = true → t._deficit_angle_ini.length = 5) : t.Valid := by
  refine ⟨?_, ?_, ?_, ?_, ?_, ?_, ?_, ?_, ?_, ?_, r2, r3, i2, i3⟩
  · rw [h1]; exact hv.rho_nonempty
  · rw [h1]; exact hv.rho_square
  · rw [h3]; exact hv.dims_nonzero
  · rw [h1, h3]; exact hv.dims_prod
  · rw [h4, h3]; exact hv.party_no_eq
  · rw [h2]; exact hv.nodal_pos
  · rw [h2, h4]; exact hv.nodal_le
  · rw [h5, h3, h2]; exact hv.flag2
  · rw [h6, h3, h2]; exact hv.flag3
  · rw [h5, h6]; exact hv.some_flag

omit [CommRing S] [StarRing S] in
/-- A setter call, throwing or not, keeps the session valid. -/
theorem apply_setter_valid (s : deficit_space K S) (op : deficit_space.Setter K)
    (hv : s.Valid) : (s.apply_setter op).Valid := by
  cases op with
  | angle_range a =>
    simp only [deficit_space.apply_setter, deficit_space.angle_range]
    by_cases h2 : s._deficit2 = true ∧ a.length ≠ 2
    · rw [if_pos h2]; exact hv
    · rw [if_neg h2]
      by_cases h3 : s._deficit3 = true ∧ a.length ≠ 5
      · rw [if_pos h3]; exact hv
      · rw [if_neg h3]
        exact valid_transfer s _ hv rfl rfl rfl rfl rfl rfl
          (fun f => by_contra fun hl => h2 ⟨f, hl⟩) (fun f => by_contra fun hl => h3 ⟨f, hl⟩)
          hv.ini2 hv.ini3
  | initial_angle a =>
    simp only [deficit_space.apply_setter, deficit_space.initial_angle]
    by_cases h2 : s._deficit2 = true ∧ a.length ≠ 2
    · rw [if_pos h2]; exact hv
    · rw [if_neg h2]
      by_cases h3 : s._deficit3 = true ∧ a.length ≠ 5
      · rw [if_pos h3]; exact hv
      · rw [if_neg h3]
        exact valid_transfer s _ hv rfl rfl rfl rfl rfl rfl hv.range2 hv.range3
          (fun f => by_contra fun hl => h2 ⟨f, hl⟩) (fun f => by_contra fun hl => h3 ⟨f, hl⟩)
  | _ =>
    exact valid_transfer s _ hv rfl rfl rfl rfl rfl rfl hv.range2 hv.range3 hv.ini2 hv.ini3

omit [CommRing S] [StarRing S] in
/-- The member `refresh` keeps the session valid. -/
theorem refresh_valid (s : deficit_space K S) (hv : s.Valid) : s.refresh.Valid := by
  rcases valid_one_flag s hv with ⟨f2, f3⟩ | ⟨f2, f3⟩
  · apply valid_transfer s _ hv <;>
      simp [deficit_space.refresh, deficit_space.set_defaults, f2, f3]
  · apply valid_transfer s _ hv <;>
      simp [deficit_space.refresh, deficit_space.set_defaults, f2, f3]

omit [CommRing S] [StarRing S] in
/-- A `reset_party` that does not throw keeps the session valid. -/
theorem reset_party_valid (s : deficit_space K S) (k : Nat) (hv : s.Valid)
    (hk : k < uword_size) (hok : (s.reset_party k).2 = none) : (s.reset_party k).1.Valid := by
  rcases reset_party_cases s k hv.party_no_eq hk with ⟨h, e⟩ | ⟨dk, h1, h2, hg, d2, d3, e⟩ |
    ⟨dk, h1, h2, hg, hd, e⟩
  · rw [e] at hok; cases hok
  · rw [e] at hok; cases hok
  · rw [e]
    have hu := uword_sub_one_eq k h1 hk
    rw [List.get?_eq_getElem?] at hg
    rcases hd with rfl | rfl
    · refine ⟨hv.rho_nonempty, hv.rho_square, hv.dims_nonzero, hv.dims_prod, hv.party_no_eq,
        h1, h2, ?_, ?_, ?_, ?_, ?_, ?_, ?_⟩ <;>
        simp [deficit_space.set_defaults, hu, hg]
    · refine ⟨hv.rho_nonempty, hv.rho_square, hv.dims_nonzero, hv.dims_prod, hv.party_no_eq,
        h1, h2, ?_, ?_, ?_, ?_, ?_, ?_, ?_⟩ <;>
        simp [deficit_space.set_defaults, hu, hg]

/-- The member `compute` keeps the session valid. -/
theorem compute_valid (M : StdMath K S) (L : Libs K S) (s : deficit_space K S)
    (a : deficit_space K S × List (Call K S)) (hv : s.Valid)
    (h : deficit_space.compute M L s = .ok a) : a.1.Valid := by
  obtain ⟨sab, ecalls, n, x0, obj, _, _, _, _, _, _, _, gopt, lopt, start, _, _, _, hc⟩ :=
    compute_val M L s hv
  rw [hc] at h
  cases h
  exact valid_transfer s _ hv rfl rfl rfl rfl rfl rfl hv.range2 hv.range3 hv.ini2 hv.ini3

/-- Every reachable session is valid. -/
theorem reachable_valid (M : StdMath K S) (L : Libs K S) (s : deficit_space K S)
    (h : deficit_space.Reachable M L s) : s.Valid := by
  induction h with
  | construct rho k dim s h => exact construct_valid rho k dim s h
  | construct_uniform R rho k d s h =>
    by_cases hd : d = 0
    · subst hd
      unfold deficit_space.construct_uniform at h
      simp only [bind, Except.bind, pure, Except.pure, throw, throwThe,
        MonadExceptOf.throw] at h
      split_ifs at h
    · rw [construct_uniform_eq R rho k d hd] at h
      exact construct_valid _ _ _ s h
  | setter s op _ ih => exact apply_setter_valid s op ih
  | refresh s _ ih => exact refresh_valid s ih
  | reset_party s k _ hk hok ih => exact reset_party_valid s k ih hk hok
  | result s t v c _ h ih =>
    unfold deficit_space.result at h
    by_cases hc : s._is_computed = false
    · rw [if_pos hc] at h
      simp only [except_bind_eq_ok] at h
      obtain ⟨a, ha, hp⟩ := h
      cases hp
      exact compute_valid M L s a ih ha
    · rw [if_neg hc] at h
      cases h
      exact ih
  | opt_angles s t v c _ h ih =>
    unfold deficit_space.opt_angles at h
    by_cases hc : s._is_computed = false
    · rw [if_pos hc] at h
      simp only [except_bind_eq_ok] at h
      obtain ⟨a, ha, hp⟩ := h
      cases hp
      exact compute_valid M L s a ih ha
    · rw [if_neg hc] at h
      cases h
      exact ih
  | result_reg s t v c _ h ih =>
    unfold deficit_space.result_reg at h
    by_cases hc : s._is_reg_computed = false
    · rw [if_pos hc] at h
      simp only [except_bind_eq_ok] at h
      obtain ⟨a, ha, _⟩ := h
      exact absurd ha (compute_reg_not_ok M L s ih.some_flag a)
    · rw [if_neg hc] at h
      cases h
      exact ih
  | result_reg_all s t v c _ h ih =>
    unfold deficit_space.result_reg_all at h
    by_cases hc : s._is_reg_computed = false
    · rw [if_pos hc] at h
      simp only [except_bind_eq_ok] at h
      obtain ⟨a, ha, _⟩ := h
      exact absurd ha (compute_reg_not_ok M L s ih.some_flag a)
    · rw [if_neg hc] at h
      cases h
      exact ih

/-- On a valid session `result()` and `opt_angles()` return. -/
theorem accessors_ok (M : StdMath K S) (L : Libs K S) (s : deficit_space K S)
    (hv : s.Valid) :
    (∃ v t c, deficit_space.result M L s = .ok (v, t, c)) ∧
      (∃ v t c, deficit_space.opt_angles M L s = .ok (v, t, c)) := by
  by_cases hc : s._is_computed = false
  · obtain ⟨s1, c, h1, _⟩ := compute_ok M L s hv
    obtain ⟨r1, r2⟩ := result_of_compute M L s _ hc h1
    exact ⟨⟨_, _, _, r1⟩, ⟨_, _, _, r2⟩⟩
  · constructor
    · refine ⟨s._result, s, [], ?_⟩
      unfold deficit_space.result
      rw [if_neg hc]
      rfl
    · refine ⟨s._tp, s, [], ?_⟩
      unfold deficit_space.opt_angles
      rw [if_neg hc]
      rfl

omit [LinearOrderedField K] [CommRing S] [StarRing S] in
/-- An unchecked read below the length of the vector is in range. -/
theorem col_at_of_lt {α : Type} (v : List α) (i : Nat) (h : i < v.length) :
    ∃ a, col_at v i = .ok a := by
  refine ⟨v.get ⟨i, h⟩, ?_⟩
  unfold col_at
  rw [List.get?_eq_get h]

end reach

section kron

variable {S : Type} [CommRing S]

/-- The function `arma::kron` on matrices of fixed shapes. -/
theorem kron_ofMatrix {m n p q : Nat} (A : Matrix (Fin m) (Fin n) S)
    (B : Matrix (Fin p) (Fin q) S) :
    Mat.kron (Mat.ofMatrix A) (Mat.ofMatrix B) = Mat.ofMatrix (Mat.kronF A B) := rfl

/-- The entries of `arma::kron` are those of the Kronecker product of Mathlib, the pairs of
indices being numbered row by row. -/
theorem kronF_eq {m n p q : Nat} (A : Matrix (Fin m) (Fin n) S)
    (B : Matrix (Fin p) (Fin q) S) :
    Mat.kronF A B =
      Matrix.reindex finProdFinEquiv finProdFinEquiv (Matrix.kroneckerMap (· * ·) A B) := by
  ext i j
  rfl

/-- The product of two Kronecker products is the Kronecker product of the products. -/
theorem kronF_mul {m p : Nat} (A C : Matrix (Fin m) (Fin m) S)
    (B D : Matrix (Fin p) (Fin p) S) :
    Mat.kronF A B * Mat.kronF C D = Mat.kronF (A * C) (B * D) := by
  rw [kronF_eq, kronF_eq, kronF_eq]
  simp only [Matrix.reindex_apply]
  rw [Matrix.submatrix_mul_equiv]
  have h := Matrix.mul_kronecker_mul A C B D
  simp only [Matrix.kronecker] at h
  rw [h]

/-- The Kronecker product of two identities is the identity. -/
theorem kronF_one (m p : Nat) :
    Mat.kronF (1 : Matrix (Fin m) (Fin m) S) (1 : Matrix (Fin p) (Fin p) S) = 1 := by
  rw [kronF_eq]
  simp only [Matrix.reindex_apply]
  have : Matrix.kroneckerMap (· * ·) (1 : Matrix (Fin m) (Fin m) S)
      (1 : Matrix (Fin p) (Fin p) S) = 1 := Matrix.one_kronecker_one
  rw [this, Matrix.submatrix_one_equiv]

/-- The Kronecker product is additive in its left factor. -/
theorem kronF_add_left {m n p q : Nat} (A A2 : Matrix (Fin m) (Fin n) S)
    (B : Matrix (Fin p) (Fin q) S) :
    Mat.kronF (A + A2) B = Mat.kronF A B + Mat.kronF A2 B := by
  ext i j
  simp [Mat.kronF, add_mul]

/-- The Kronecker product is additive in its right factor. -/
theorem kronF_add_right {m n p q : Nat} (A : Matrix (Fin m) (Fin n) S)
    (B B2 : Matrix (Fin p) (Fin q) S) :
    Mat.kronF A (B + B2) = Mat.kronF A B + Mat.kronF A B2 := by
  ext i j
  simp [Mat.kronF, mul_add]

/-- The Kronecker product with a zero left factor is zero. -/
theorem kronF_zero_left {m n p q : Nat} (B : Matrix (Fin p) (Fin q) S) :
    Mat.kronF (0 : Matrix (Fin m) (Fin n) S) B = 0 := by
  ext i j
  simp [Mat.kronF]

/-- The Kronecker product with a zero right factor is zero. -/
theorem kronF_zero_right {m n p q : Nat} (A : Matrix (Fin m) (Fin n) S) :
    Mat.kronF A (0 : Matrix (Fin p) (Fin q) S) = 0 := by
  ext i j
  simp [Mat.kronF]

/-- The product of two `arma::Mat` of the same square shape. -/
theorem mat_mul_mk (n : Nat) (X Y : Matrix (Fin n) (Fin n) S) :
    Mat.mul ⟨n, n, X⟩ ⟨n, n, Y⟩ = .ok ⟨n, n, X * Y⟩ := by
  unfold Mat.mul
  rw [dif_pos rfl]
  rfl

/-- The sum of two `arma::Mat` of the same square shape. -/
theorem mat_add_mk (n : Nat) (X Y : Matrix (Fin n) (Fin n) S) :
    Mat.add ⟨n, n, X⟩ ⟨n, n, Y⟩ = .ok ⟨n, n, X + Y⟩ := by
  unfold Mat.add
  rw [dif_pos ⟨rfl, rfl⟩]
  rfl

/-- The trace of a square `arma::Mat`. -/
theorem mat_trace_mk (n : Nat) (X : Matrix (Fin n) (Fin n) S) :
    Mat.trace ⟨n, n, X⟩ = Matrix.trace X := by
  unfold Mat.trace Matrix.trace
  apply Finset.sum_congr rfl
  intro i _
  rw [dif_pos i.isLt]
  rfl

/-- The term `proj * rho * proj` on matrices of the same square shape. -/
theorem sandwich_mk (n : Nat) (P X : Matrix (Fin n) (Fin n) S) :
    protect_dis.sandwich ⟨n, n, P⟩ ⟨n, n, X⟩ = .ok ⟨n, n, P * X * P⟩ := by
  unfold protect_dis.sandwich
  rw [mat_mul_mk]
  exact mat_mul_mk n (P * X) P

/-- The embedding `P -> I_b (x) P (x) I_a` is multiplicative. -/
theorem embF_mul (b a : Nat) {d : Nat} (P Q : Matrix (Fin d) (Fin d) S) :
    Mat.kronF (Mat.kronF (1 : Matrix (Fin b) (Fin b) S) P) (1 : Matrix (Fin a) (Fin a) S) *
        Mat.kronF (Mat.kronF (1 : Matrix (Fin b) (Fin b) S) Q) (1 : Matrix (Fin a) (Fin a) S) =
      Mat.kronF (Mat.kronF (1 : Matrix (Fin b) (Fin b) S) (P * Q))
        (1 : Matrix (Fin a) (Fin a) S) := by
  rw [kronF_mul, kronF_mul, Matrix.one_mul, Matrix.one_mul]

/-- The embedding `P -> I_b (x) P (x) I_a` is additive. -/
theorem embF_add (b a : Nat) {d : Nat} (P Q : Matrix (Fin d) (Fin d) S) :
    Mat.kronF (Mat.kronF (1 : Matrix (Fin b) (Fin b) S) (P + Q))
        (1 : Matrix (Fin a) (Fin a) S) =
      Mat.kronF (Mat.kronF (1 : Matrix (Fin b) (Fin b) S) P) (1 : Matrix (Fin a) (Fin a) S) +
        Mat.kronF (Mat.kronF (1 : Matrix (Fin b) (Fin b) S) Q)
          (1 : Matrix (Fin a) (Fin a) S) := by
  rw [kronF_add_right, kronF_add_left]

/-- The embedding of the identity is the identity. -/
theorem embF_one (b d a : Nat) :
    Mat.kronF (Mat.kronF (1 : Matrix (Fin b) (Fin b) S) (1 : Matrix (Fin d) (Fin d) S))
      (1 : Matrix (Fin a) (Fin a) S) = 1 := by
  rw [kronF_one, kronF_one]

/-- The embedding of zero is zero. -/
theorem embF_zero (b d a : Nat) :
    Mat.kronF (Mat.kronF (1 : Matrix (Fin b) (Fin b) S) (0 : Matrix (Fin d) (Fin d) S))
      (1 : Matrix (Fin a) (Fin a) S) = 0 := by
  rw [kronF_zero_right, kronF_zero_left]

/-- The trace of `E * X * E` for an idempotent `E` is the trace of `E * X`. -/
theorem trace_sandwich {n : Nat} (E X : Matrix (Fin n) (Fin n) S) (h : E * E = E) :
    Matrix.trace (E * X * E) = Matrix.trace (E * X) := by
  rw [Matrix.trace_mul_comm, ← Matrix.mul_assoc, h]

/-- Measuring with two idempotents that sum to the identity preserves the trace. -/
theorem trace_two {n : Nat} (E1 E2 X : Matrix (Fin n) (Fin n) S) (h1 : E1 * E1 = E1)
    (h2 : E2 * E2 = E2) (hs : E1 + E2 = 1) :
    Matrix.trace (E1 * X * E1 + E2 * X * E2) = Matrix.trace X := by
  rw [Matrix.trace_add, trace_sandwich E1 X h1, trace_sandwich E2 X h2, ← Matrix.trace_add,
    ← Matrix.add_mul, hs, Matrix.one_mul]

/-- Measuring with three idempotents that sum to the identity preserves the trace. -/
theorem trace_three {n : Nat} (E1 E2 E3 X : Matrix (Fin n) (Fin n) S) (h1 : E1 * E1 = E1)
    (h2 : E2 * E2 = E2) (h3 : E3 * E3 = E3) (hs : E1 + E2 + E3 = 1) :
    Matrix.trace (E1 * X * E1 + (E2 * X * E2 + E3 * X * E3)) = Matrix.trace X := by
  rw [Matrix.trace_add, Matrix.trace_add, trace_sandwich E1 X h1, trace_sandwich E2 X h2,
    trace_sandwich E3 X h3, ← Matrix.trace_add, ← Matrix.trace_add, ← Matrix.add_mul,
    ← Matrix.add_mul, ← add_assoc, hs, Matrix.one_mul]

/-- The operator built by the objective, in all three branches. -/
theorem embed_general (k P N d before after : Nat) (p : Mat S)
    (hfirst : k = 1 → before = 1 ∧ after = N / d)
    (hlast : P = k → before = N / d ∧ after = 1) :
    protect_dis.embed k P (Mat.eye (N / d)) (Mat.eye before) (Mat.eye after) p =
      Mat.kron (Mat.kron (Mat.eye before) p) (Mat.eye after) := by
  simp only [protect_dis.embed]
  by_cases h1 : k = 1
  · obtain ⟨hb, ha⟩ := hfirst h1
    rw [if_pos h1, hb, ha, kron_eye_one_left]
  · rw [if_neg h1]
    by_cases h2 : P = k
    · obtain ⟨hb, ha⟩ := hlast h2
      rw [if_pos h2, hb, ha, kron_eye_one_right]
    · rw [if_neg h2]

end kron

/-- The context of the objective and the operators it builds, on a session whose
dimensions multiply to the size of the state: with `b`, `a` the products of the dimensions
before and after the measured party, the operator built from a `d x d` matrix `P` is
`I_b (x) P (x) I_a`. -/
theorem pass_embed {K S : Type} [LinearOrderedField K] [CommRing S]
    (s : deficit_space K S) (d : Nat)
    (hprod : s._dim.prod = s._rho.n_rows) (h0 : s._rho.n_rows ≠ 0)
    (hN : s._rho.n_rows < uword_size) (hP : s._party_no = s._dim.length)
    (hk1 : 1 ≤ s._nodal) (hk2 : s._nodal ≤ s._party_no) (hku : s._nodal < uword_size)
    (hd : s._dim.get? (s._nodal - 1) = some d) :
    ∃ (b a : Nat) (pass : protect_dis.TO_PASS S), b * d * a = s._rho.n_rows ∧
      deficit_space.make_pass s d = .ok pass ∧ pass.rho = s._rho ∧
      ∀ P : Matrix (Fin d) (Fin d) S,
        protect_dis.embed pass.nodal pass.party_no pass.eye2 pass.eye3 pass.eye4
            (Mat.ofMatrix P) =
          ⟨b * d * a, b * d * a, Mat.kronF (Mat.kronF 1 P) 1⟩ := by
  obtain ⟨hm, hs, hdiv⟩ := make_pass_val s d hprod h0 hN hP hk1 hk2 hku hd
  refine ⟨_, _, _, hs, hm, rfl, fun P => ?_⟩
  have hfirst : s._nodal = 1 → (s._dim.take (s._nodal - 1)).prod = 1 ∧
      (s._dim.drop s._nodal).prod = s._rho.n_rows / d := by
    intro h
    have hb : (s._dim.take (s._nodal - 1)).prod = 1 := by simp [h]
    refine ⟨hb, ?_⟩
    rw [hdiv, hb, Nat.one_mul]
  have hlast : s._party_no = s._nodal → (s._dim.take (s._nodal - 1)).prod =
      s._rho.n_rows / d ∧ (s._dim.drop s._nodal).prod = 1 := by
    intro h
    have ha : (s._dim.drop s._nodal).prod = 1 := by
      rw [List.drop_of_length_le (by omega)]
      rfl
    refine ⟨?_, ha⟩
    rw [hdiv, ha, Nat.mul_one]
  exact embed_general _ _ _ _ _ _ _ hfirst hlast

section post

variable {K S : Type} [LinearOrderedField K] [CommRing S] [StarRing S]

omit [LinearOrderedField K] in
/-- The outer products of two orthogonal vectors multiply to zero. -/
theorem outer_mul_outer {n : Nat} (v w : Matrix (Fin n) (Fin 1) S)
    (h : v.conjTranspose * w = 0) :
    (v * v.conjTranspose) * (w * w.conjTranspose) = 0 := by
  calc (v * v.conjTranspose) * (w * w.conjTranspose)
      = v * (v.conjTranspose * w) * w.conjTranspose := by simp only [Matrix.mul_assoc]
    _ = 0 := by rw [h]; simp

/-- The qubit objective is the entropy of the sum of its two sandwich terms. -/
theorem def_nlopt2_eq (M : StdMath K S) (L : Libs K S) (theta phi : K)
    (pass : protect_dis.TO_PASS S) (r1 r2 r : Mat S)
    (h1 : protect_dis.sandwich (protect_dis.embed pass.nodal pass.party_no pass.eye2
      pass.eye3 pass.eye4 (Mat.ofMatrix (protect_dis.def_nlopt2_proj1 M theta phi)))
      pass.rho = .ok r1)
    (h2 : protect_dis.sandwich (protect_dis.embed pass.nodal pass.party_no pass.eye2
      pass.eye3 pass.eye4 (Mat.ofMatrix (protect_dis.def_nlopt2_proj2 M theta phi)))
      pass.rho = .ok r2)
    (h3 : Mat.add r1 r2 = .ok r) :
    protect_dis.def_nlopt2 M L [theta, phi] pass = liftExc (entropy M L r) := by
  simp only [protect_dis.def_nlopt2, vec_at, List.get?, bind, Except.bind, pure, Except.pure]
  rw [h1, h2]
  simp only [h3]
  cases entropy M L r <;> rfl

/-- The post-measurement state of the qubit objective: the two embedded projectors are
orthogonal idempotents that sum to the identity, and the state they form has the trace of
the session's state and is the argument of `entropy`. -/
theorem post_measurement2 (M : StdMath K S) (hM : M.Exact) (L : Libs K S)
    (s : deficit_space K S) (theta phi : K) (hsq : s._rho.n_rows = s._rho.n_cols)
    (hprod : s._dim.prod = s._rho.n_rows) (h0 : s._rho.n_rows ≠ 0)
    (hN : s._rho.n_rows < uword_size) (hP : s._party_no = s._dim.length)
    (hk1 : 1 ≤ s._nodal) (hk2 : s._nodal ≤ s._party_no) (hku : s._nodal < uword_size)
    (hd : s._dim.get? (s._nodal - 1) = some 2) :
    ∃ (pass : protect_dis.TO_PASS S) (P1 P2 r1 r2 r : Mat S),
      deficit_space.make_pass s 2 = .ok pass ∧
      P1 = protect_dis.embed pass.nodal pass.party_no pass.eye2 pass.eye3 pass.eye4
        (Mat.ofMatrix (protect_dis.def_nlopt2_proj1 M theta phi)) ∧
      P2 = protect_dis.embed pass.nodal pass.party_no pass.eye2 pass.eye3 pass.eye4
        (Mat.ofMatrix (protect_dis.def_nlopt2_proj2 M theta phi)) ∧
      protect_dis.sandwich P1 pass.rho = .ok r1 ∧
      protect_dis.sandwich P2 pass.rho = .ok r2 ∧ Mat.add r1 r2 = .ok r ∧
      protect_dis.def_nlopt2 M L [theta, phi] pass = liftExc (entropy M L r) ∧
      r.n_rows = s._rho.n_rows ∧ r.n_cols = s._rho.n_rows ∧ r.trace = s._rho.trace ∧
      Mat.mul P1 P1 = .ok P1 ∧ Mat.mul P2 P2 = .ok P2 ∧
      Mat.mul P1 P2 = .ok (Mat.zeros s._rho.n_rows) ∧
      Mat.mul P2 P1 = .ok (Mat.zeros s._rho.n_rows) ∧
      Mat.add P1 P2 = .ok (Mat.eye s._rho.n_rows) := by
  obtain ⟨b, a, pass, hbda, hm, hrho, hE⟩ := pass_embed s 2 hprod h0 hN hP hk1 hk2 hku hd
  obtain ⟨o11, o12, o21, o22⟩ := def_nlopt2_orthonormal M hM theta phi
  have i1 : protect_dis.def_nlopt2_proj1 M theta phi * protect_dis.def_nlopt2_proj1 M theta phi =
      protect_dis.def_nlopt2_proj1 M theta phi := outer_idempotent _ o11
  have i2 : protect_dis.def_nlopt2_proj2 M theta phi * protect_dis.def_nlopt2_proj2 M theta phi =
      protect_dis.def_nlopt2_proj2 M theta phi := outer_idempotent _ o22
  have z12 : protect_dis.def_nlopt2_proj1 M theta phi * protect_dis.def_nlopt2_proj2 M theta phi =
      0 := outer_mul_outer _ _ o12
  have z21 : protect_dis.def_nlopt2_proj2 M theta phi * protect_dis.def_nlopt2_proj1 M theta phi =
      0 := outer_mul_outer _ _ o21
  have hs := def_nlopt2_resolution M hM theta phi
  have key := def_nlopt2_eq M L theta phi pass
  generalize protect_dis.def_nlopt2_proj1 M theta phi = Q1 at *
  generalize protect_dis.def_nlopt2_proj2 M theta phi = Q2 at *
  have e1 := hE Q1
  have e2 := hE Q2
  generalize hr : s._rho = rho at *
  obtain ⟨n, c, X⟩ := rho
  simp only at hsq hbda
  subst hsq
  subst hbda
  have E11 := embF_mul b a Q1 Q1
  have E22 := embF_mul b a Q2 Q2
  have E12 := embF_mul b a Q1 Q2
  have E21 := embF_mul b a Q2 Q1
  have Es := embF_add (S := S) b a Q1 Q2
  rw [i1] at E11
  rw [i2] at E22
  rw [z12, embF_zero] at E12
  rw [z21, embF_zero] at E21
  rw [hs, embF_one] at Es
  refine ⟨pass, _, _,
    ⟨b * 2 * a, b * 2 * a, Mat.kronF (Mat.kronF (1 : Matrix (Fin b) (Fin b) S) Q1)
      (1 : Matrix (Fin a) (Fin a) S) * X * Mat.kronF (Mat.kronF 1 Q1) 1⟩,
    ⟨b * 2 * a, b * 2 * a, Mat.kronF (Mat.kronF (1 : Matrix (Fin b) (Fin b) S) Q2)
      (1 : Matrix (Fin a) (Fin a) S) * X * Mat.kronF (Mat.kronF 1 Q2) 1⟩,
    ⟨b * 2 * a, b * 2 * a, Mat.kronF (Mat.kronF (1 : Matrix (Fin b) (Fin b) S) Q1)
        (1 : Matrix (Fin a) (Fin a) S) * X * Mat.kronF (Mat.kronF 1 Q1) 1 +
      Mat.kronF (Mat.kronF (1 : Matrix (Fin b) (Fin b) S) Q2)
        (1 : Matrix (Fin a) (Fin a) S) * X * Mat.kronF (Mat.kronF 1 Q2) 1⟩,
    hm, rfl, rfl, ?_, ?_, ?_, ?_, rfl, rfl, ?_, ?_, ?_, ?_, ?_, ?_⟩
  · rw [e1, hrho]; exact sandwich_mk _ _ _
  · rw [e2, hrho]; exact sandwich_mk _ _ _
  · exact mat_add_mk _ _ _
  · apply key
    · rw [e1, hrho]; exact sandwich_mk _ _ _
    · rw [e2, hrho]; exact sandwich_mk _ _ _
    · exact mat_add_mk _ _ _
  · rw [mat_trace_mk, mat_trace_mk]
    exact trace_two _ _ X E11 E22 Es.symm
  · rw [e1, mat_mul_mk, E11]
  · rw [e2, mat_mul_mk, E22]
  · rw [e1, e2, mat_mul_mk, E12]; rfl
  · rw [e1, e2, mat_mul_mk, E21]; rfl
  · rw [e1, e2, mat_add_mk, ← Es]; rfl

/-- The qutrit objective is the entropy of the sum of its three sandwich terms. -/
theorem def_nlopt3_eq (M : StdMath K S) (L : Libs K S) (x0 x1 x2 x3 x4 : K)
    (pass : protect_dis.TO_PASS S) (r1 r2 r3 r23 r : Mat S)
    (h1 : protect_dis.sandwich (protect_dis.embed pass.nodal pass.party_no pass.eye2
      pass.eye3 pass.eye4 (Mat.ofMatrix (protect_dis.def_nlopt3_projs M x0 x1 x2 x3 x4).1))
      pass.rho = .ok r1)
    (h2 : protect_dis.sandwich (protect_dis.embed pass.nodal pass.party_no pass.eye2
      pass.eye3 pass.eye4 (Mat.ofMatrix (protect_dis.def_nlopt3_projs M x0 x1 x2 x3 x4).2.1))
      pass.rho = .ok r2)
    (h3 : protect_dis.sandwich (protect_dis.embed pass.nodal pass.party_no pass.eye2
      pass.eye3 pass.eye4 (Mat.ofMatrix (protect_dis.def_nlopt3_projs M x0 x1 x2 x3 x4).2.2))
      pass.rho = .ok r3)
    (h4 : Mat.add r2 r3 = .ok r23) (h5 : Mat.add r1 r23 = .ok r) :
    protect_dis.def_nlopt3 M L [x0, x1, x2, x3, x4] pass = liftExc (entropy M L r) := by
  simp only [protect_dis.def_nlopt3, vec_at, List.get?, bind, Except.bind, pure, Except.pure]
  rw [h1, h2, h3]
  simp only [h4, h5]
  cases entropy M L r <;> rfl

/-- The post-measurement state of the qutrit objective: the three embedded projectors are
orthogonal idempotents that sum to the identity, and the state they form has the trace of
the session's state and is the argument of `entropy`. -/
theorem post_measurement3 (M : StdMath K S) (hM : M.Exact) (L : Libs K S)
    (s : deficit_space K S) (x0 x1 x2 x3 x4 : K) (hsq : s._rho.n_rows = s._rho.n_cols)
    (hprod : s._dim.prod = s._rho.n_rows) (h0 : s._rho.n_rows ≠ 0)
    (hN : s._rho.n_rows < uword_size) (hP : s._party_no = s._dim.length)
    (hk1 : 1 ≤ s._nodal) (hk2 : s._nodal ≤ s._party_no) (hku : s._nodal < uword_size)
    (hd : s._dim.get? (s._nodal - 1) = some 3) :
    ∃ (pass : protect_dis.TO_PASS S) (P1 P2 P3 r1 r2 r3 r23 r : Mat S),
      deficit_space.make_pass s 3 = .ok pass ∧
      P1 = protect_dis.embed pass.nodal pass.party_no pass.eye2 pass.eye3 pass.eye4
        (Mat.ofMatrix (protect_dis.def_nlopt3_projs M x0 x1 x2 x3 x4).1) ∧
      P2 = protect_dis.embed pass.nodal pass.party_no pass.eye2 pass.eye3 pass.eye4
        (Mat.ofMatrix (protect_dis.def_nlopt3_projs M x0 x1 x2 x3 x4).2.1) ∧
      P3 = protect_dis.embed pass.nodal pass.party_no pass.eye2 pass.eye3 pass.eye4
        (Mat.ofMatrix (protect_dis.def_nlopt3_projs M x0 x1 x2 x3 x4).2.2) ∧
      protect_dis.sandwich P1 pass.rho = .ok r1 ∧
      protect_dis.sandwich P2 pass.rho = .ok r2 ∧
      protect_dis.sandwich P3 pass.rho = .ok r3 ∧
      Mat.add r2 r3 = .ok r23 ∧ Mat.add r1 r23 = .ok r ∧
      protect_dis.def_nlopt3 M L [x0, x1, x2, x3, x4] pass = liftExc (entropy M L r) ∧
      r.n_rows = s._rho.n_rows ∧ r.n_cols = s._rho.n_rows ∧ r.trace = s._rho.trace ∧
      (Mat.mul P1 P1 = .ok P1 ∧ Mat.mul P2 P2 = .ok P2 ∧ Mat.mul P3 P3 = .ok P3) ∧
      (Mat.mul P1 P2 = .ok (Mat.zeros s._rho.n_rows) ∧
        Mat.mul P1 P3 = .ok (Mat.zeros s._rho.n_rows) ∧
        Mat.mul P2 P1 = .ok (Mat.zeros s._rho.n_rows) ∧
        Mat.mul P2 P3 = .ok (Mat.zeros s._rho.n_rows) ∧
        Mat.mul P3 P1 = .ok (Mat.zeros s._rho.n_rows) ∧
        Mat.mul P3 P2 = .ok (Mat.zeros s._rho.n_rows)) ∧
      (∃ P12, Mat.add P1 P2 = .ok P12 ∧ Mat.add P12 P3 = .ok (Mat.eye s._rho.n_rows)) := by
  obtain ⟨b, a, pass, hbda, hm, hrho, hE⟩ := pass_embed s 3 hprod h0 hN hP hk1 hk2 hku hd
  obtain ⟨o11, o12, o13, o21, o22, o23, o31, o32, o33⟩ :=
    def_nlopt3_orthonormal M hM (1 / 2 * x0) (1 / 2 * x1) (1 / 2 * x2) x3 x4
  have hs := def_nlopt3_resolution M hM (1 / 2 * x0) (1 / 2 * x1) (1 / 2 * x2) x3 x4
  have key := def_nlopt3_eq M L x0 x1 x2 x3 x4 pass
  have q1 : (protect_dis.def_nlopt3_projs M x0 x1 x2 x3 x4).1 =
      protect_dis.def_nlopt3_vec1 M (1 / 2 * x0) (1 / 2 * x1) (1 / 2 * x2) x3 (-x3) x4 *
        (protect_dis.def_nlopt3_vec1 M (1 / 2 * x0) (1 / 2 * x1) (1 / 2 * x2) x3 (-x3)
          x4).conjTranspose := rfl
  have q2 : (protect_dis.def_nlopt3_projs M x0 x1 x2 x3 x4).2.1 =
      protect_dis.def_nlopt3_vec2 M (1 / 2 * x0) (1 / 2 * x2) x3 (-x3) x4 *
        (protect_dis.def_nlopt3_vec2 M (1 / 2 * x0) (1 / 2 * x2) x3 (-x3)
          x4).conjTranspose := rfl
  have q3 : (protect_dis.def_nlopt3_projs M x0 x1 x2 x3 x4).2.2 =
      protect_dis.def_nlopt3_vec3 M (1 / 2 * x0) (1 / 2 * x1) (1 / 2 * x2) x3 (-x3) x4 *
        (protect_dis.def_nlopt3_vec3 M (1 / 2 * x0) (1 / 2 * x1) (1 / 2 * x2) x3 (-x3)
          x4).conjTranspose := rfl
  have i1 := outer_idempotent _ o11
  have i2 := outer_idempotent _ o22
  have i3 := outer_idempotent _ o33
  have z12 := outer_mul_outer _ _ o12
  have z13 := outer_mul_outer _ _ o13
  have z21 := outer_mul_outer _ _ o21
  have z23 := outer_mul_outer _ _ o23
  have z31 := outer_mul_outer _ _ o31
  have z32 := outer_mul_outer _ _ o32
  rw [← q1] at i1 z12 z13 z21 z31 hs
  rw [← q2] at i2 z12 z21 z23 z32 hs
  rw [← q3] at i3 z13 z23 z31 z32 hs
  clear q1 q2 q3 o11 o12 o13 o21 o22 o23 o31 o32 o33
  generalize (protect_dis.def_nlopt3_projs M x0 x1 x2 x3 x4).1 = Q1 at *
  generalize (protect_dis.def_nlopt3_projs M x0 x1 x2 x3 x4).2.1 = Q2 at *
  generalize (protect_dis.def_nlopt3_projs M x0 x1 x2 x3 x4).2.2 = Q3 at *
  have e1 := hE Q1
  have e2 := hE Q2
  have e3 := hE Q3
  generalize hr : s._rho = rho at *
  obtain ⟨n, c, X⟩ := rho
  simp only at hsq hbda
  subst hsq
  subst hbda
  have E11 := embF_mul b a Q1 Q1
  have E22 := embF_mul b a Q2 Q2
  have E33 := embF_mul b a Q3 Q3
  have E12 := embF_mul b a Q1 Q2
  have E13 := embF_mul b a Q1 Q3
  have E21 := embF_mul b a Q2 Q1
  have E23 := embF_mul b a Q2 Q3
  have E31 := embF_mul b a Q3 Q1
  have E32 := embF_mul b a Q3 Q2
  have Es := embF_add (S := S) b a (Q1 + Q2) Q3
  rw [embF_add b a Q1 Q2] at Es
  rw [i1] at E11
  rw [i2] at E22
  rw [i3] at E33
  rw [z12, embF_zero] at E12
  rw [z13, embF_zero] at E13
  rw [z21, embF_zero] at E21
  rw [z23, embF_zero] at E23
  rw [z31, embF_zero] at E31
  rw [z32, embF_zero] at E32
  rw [hs, embF_one] at Es
  refine ⟨pass, _, _, _,
    ⟨b * 3 * a, b * 3 * a, Mat.kronF (Mat.kronF (1 : Matrix (Fin b) (Fin b) S) Q1)
      (1 : Matrix (Fin a) (Fin a) S) * X * Mat.kronF (Mat.kronF 1 Q1) 1⟩,
    ⟨b * 3 * a, b * 3 * a, Mat.kronF (Mat.kronF (1 : Matrix (Fin b) (Fin b) S) Q2)
      (1 : Matrix (Fin a) (Fin a) S) * X * Mat.kronF (Mat.kronF 1 Q2) 1⟩,
    ⟨b * 3 * a, b * 3 * a, Mat.kronF (Mat.kronF (1 : Matrix (Fin b) (Fin b) S) Q3)
      (1 : Matrix (Fin a) (Fin a) S) * X * Mat.kronF (Mat.kronF 1 Q3) 1⟩,
    ⟨b * 3 * a, b * 3 * a, Mat.kronF (Mat.kronF (1 : Matrix (Fin b) (Fin b) S) Q2)
      (1 : Matrix (Fin a) (Fin a) S) * X * Mat.kronF (Mat.kronF 1 Q2) 1 +
      (Mat.kronF (Mat.kronF (1 : Matrix (Fin b) (Fin b) S) Q3)
      (1 : Matrix (Fin a) (Fin a) S) * X * Mat.kronF (Mat.kronF 1 Q3) 1)⟩,
    ⟨b * 3 * a, b * 3 * a, Mat.kronF (Mat.kronF (1 : Matrix (Fin b) (Fin b) S) Q1)
      (1 : Matrix (Fin a) (Fin a) S) * X * Mat.kronF (Mat.kronF 1 Q1) 1 +
      (Mat.kronF (Mat.kronF (1 : Matrix (Fin b) (Fin b) S) Q2)
      (1 : Matrix (Fin a) (Fin a) S) * X * Mat.kronF (Mat.kronF 1 Q2) 1 +
      (Mat.kronF (Mat.kronF (1 : Matrix (Fin b) (Fin b) S) Q3)
      (1 : Matrix (Fin a) (Fin a) S) * X * Mat.kronF (Mat.kronF 1 Q3) 1))⟩,
    hm, rfl, rfl, rfl, ?_, ?_, ?_, ?_, ?_, ?_, rfl, rfl, ?_, ⟨?_, ?_, ?_⟩,
    ⟨?_, ?_, ?_, ?_, ?_, ?_⟩, ?_⟩
  · rw [e1, hrho]; exact sandwich_mk _ _ _
  · rw [e2, hrho]; exact sandwich_mk _ _ _
  · rw [e3, hrho]; exact sandwich_mk _ _ _
  · exact mat_add_mk _ _ _
  · exact mat_add_mk _ _ _
  · apply key
    · rw [e1, hrho]; exact sandwich_mk _ _ _
    · rw [e2, hrho]; exact sandwich_mk _ _ _
    · rw [e3, hrho]; exact sandwich_mk _ _ _
    · exact mat_add_mk _ _ _
    · exact mat_add_mk _ _ _
  · rw [mat_trace_mk, mat_trace_mk]
    exact trace_three _ _ _ X E11 E22 E33 Es.symm
  · rw [e1, mat_mul_mk, E11]
  · rw [e2, mat_mul_mk, E22]
  · rw [e3, mat_mul_mk, E33]
  · rw [e1, e2, mat_mul_mk, E12]; rfl
  · rw [e1, e3, mat_mul_mk, E13]; rfl
  · rw [e2, e1, mat_mul_mk, E21]; rfl
  · rw [e2, e3, mat_mul_mk, E23]; rfl
  · rw [e3, e1, mat_mul_mk, E31]; rfl
  · rw [e3, e2, mat_mul_mk, E32]; rfl
  · refine ⟨⟨b * 3 * a, b * 3 * a, Mat.kronF (Mat.kronF (1 : Matrix (Fin b) (Fin b) S) Q1)
      (1 : Matrix (Fin a) (Fin a) S) + Mat.kronF (Mat.kronF 1 Q2) 1⟩, ?_, ?_⟩
    · rw [e1, e2]; exact mat_add_mk _ _ _
    · rw [e3, mat_add_mk, ← Es]; rfl

end post

/-- The constructor applied to the Bell state and a dimension list equal to `(2, 2)`. -/
theorem construct_bell_aux {K S : Type} [LinearOrderedField K] [Field S] (dim : List Nat)
    (hd : dim = [2, 2]) :
    deficit_space.construct (K := K) (S := S) bell_state 1 dim =
      .ok { (bell_session (K := K) (S := S)) with _dim := dim } := by
  have h1 : arma_prod dim = 4 := by rw [hd]; decide
  have h2 : uword_sub 1 1 = 0 := by decide
  have h3 : (dim.any fun d => d == 0) = false := by rw [hd]; rfl
  have h4 : dim.length = 2 := by rw [hd]; rfl
  have h5 : col_get dim 0 = .ok 2 := by rw [hd]; rfl
  have e1 : (bell_state (S := S)).n_elem = 16 := rfl
  have e2 : (bell_state (S := S)).n_rows = 4 := rfl
  have e3 : (bell_state (S := S)).n_cols = 4 := rfl
  simp only [deficit_space.construct, deficit_space.init, bind, Except.bind, pure, Except.pure,
    throw, throwThe, MonadExceptOf.throw, e1, e2, e3, h1, h2, h3, h4, h5,
    deficit_space.set_defaults]
  simp [bell_session]

/-- The constructor builds `bell_session` from the Bell state. -/
theorem construct_bell_session {K S : Type} [LinearOrderedField K] [Field S] :
    deficit_space.construct (K := K) (S := S) bell_state 1 [2, 2] = .ok bell_session :=
  construct_bell_aux [2, 2] rfl

/-! ## Probability vectors and entropies: auxiliary lemmas -/

/-- The elements of the column made from a list are the list. -/
theorem elems_ofCol {S : Type} (v : List S) : (Mat.ofCol v).elems = v := by
  unfold Mat.elems Mat.ofCol
  simp only [List.finRange_succ_eq_map, List.finRange_zero, List.map_nil, List.flatMap_cons,
    List.flatMap_nil, List.append_nil, Matrix.of_apply]
  exact List.finRange_map_get v

/-- The accumulation loop `ret += g(x)` started at `a` adds the sum of the `g(x)`. -/
theorem foldl_add_eq {K : Type} [Field K] (g : K → K) (l : List K) (a : K) :
    l.foldl (fun r x => r + g x) a = a + (l.map g).sum := by
  induction l generalizing a with
  | nil => simp
  | cons x l ih =>
    rw [List.foldl_cons, ih, List.map_cons, List.sum_cons]
    ring

/-- The library's precision constant for `double` is positive. -/
theorem eps_pos {K : Type} [LinearOrderedField K] : (0 : K) < _precision.eps false := by
  simp only [_precision.eps]
  positivity

/-! ## The Fourier gate: auxiliary lemmas -/

/-- The sum of the powers `w^0, .., w^(n-1)` of an `n`-th root of unity other than 1 is 0. -/
theorem geom_sum_root (n : Nat) (w : ℂ) (hw : w ^ n = 1) (h1 : w ≠ 1) :
    ∑ k : Fin n, w ^ k.val = 0 := by
  rw [Fin.sum_univ_eq_sum_range (fun k => w ^ k) n]
  have h := mul_geom_sum w n
  rw [hw, sub_self] at h
  rcases mul_eq_zero.mp h with h | h
  · exact absurd (sub_eq_zero.mp h) h1
  · exact h

/-- The rows of the Fourier matrix of size `n` are orthonormal. -/
theorem fourier_rows (n : Nat) (hn : n ≠ 0) (j l : Fin n) :
    ∑ k : Fin n, (((1 / Real.sqrt n : ℝ) : ℂ) *
        Complex.exp (2 * Complex.I * Real.pi * ((j.val * k.val : Nat) : ℝ) / (n : ℝ))) *
      star (((1 / Real.sqrt n : ℝ) : ℂ) *
        Complex.exp (2 * Complex.I * Real.pi * ((l.val * k.val : Nat) : ℝ) / (n : ℝ))) =
      if j = l then 1 else 0 := by
  have hz := Complex.isPrimitiveRoot_exp n hn
  set z : ℂ := Complex.exp (2 * Real.pi * Complex.I / n) with hzdef
  have hpow : ∀ a : Nat, Complex.exp (2 * Complex.I * Real.pi * ((a : Nat) : ℝ) / (n : ℝ)) =
      z ^ a := by
    intro a
    rw [hzdef, ← Complex.exp_nat_mul]
    congr 1
    push_cast
    ring
  have hz0 : z ≠ 0 := Complex.exp_ne_zero _
  have hstar : ∀ a : Nat, star (z ^ a) = (z ^ a)⁻¹ := by
    intro a
    rw [hzdef, ← Complex.exp_nat_mul, Complex.star_def, ← Complex.exp_conj, ← Complex.exp_neg]
    congr 1
    simp only [map_mul, map_div₀, Complex.conj_I, map_natCast, Complex.conj_ofReal, map_ofNat]
    ring
  have hnpos : (0 : ℝ) < n := by exact_mod_cast Nat.pos_of_ne_zero hn
  have hs : ((1 / Real.sqrt n : ℝ) : ℂ) * star ((1 / Real.sqrt n : ℝ) : ℂ) = 1 / (n : ℂ) := by
    rw [Complex.star_def, Complex.conj_ofReal, ← Complex.ofReal_mul]
    have : (1 / Real.sqrt n) * (1 / Real.sqrt n) = 1 / (n : ℝ) := by
      rw [div_mul_div_comm, one_mul, Real.mul_self_sqrt hnpos.le]
    rw [this]
    push_cast
    rfl
  have hterm : ∀ k : Fin n, (((1 / Real.sqrt n : ℝ) : ℂ) *
        Complex.exp (2 * Complex.I * Real.pi * ((j.val * k.val : Nat) : ℝ) / (n : ℝ))) *
      star (((1 / Real.sqrt n : ℝ) : ℂ) *
        Complex.exp (2 * Complex.I * Real.pi * ((l.val * k.val : Nat) : ℝ) / (n : ℝ))) =
      1 / (n : ℂ) * (z ^ j.val * (z ^ l.val)⁻¹) ^ k.val := by
    intro k
    rw [hpow, hpow, star_mul, hstar]
    have e : (z ^ j.val * (z ^ l.val)⁻¹) ^ k.val =
        z ^ (j.val * k.val) * (z ^ (l.val * k.val))⁻¹ := by
      rw [mul_pow, inv_pow, ← pow_mul, ← pow_mul]
    rw [e, ← hs]
    ring
  rw [Finset.sum_congr rfl (fun k _ => hterm k), ← Finset.mul_sum]
  by_cases hjl : j = l
  · subst hjl
    rw [if_pos rfl, mul_inv_cancel₀ (pow_ne_zero _ hz0)]
    simp only [one_pow, Finset.sum_const, Finset.card_univ, Fintype.card_fin, nsmul_eq_mul,
      mul_one]
    have hnc : (n : ℂ) ≠ 0 := by exact_mod_cast hn
    field_simp
  · rw [if_neg hjl]
    have hw1 : z ^ j.val * (z ^ l.val)⁻¹ ≠ 1 := by
      intro h
      have h2 : z ^ j.val = z ^ l.val := by
        have := congrArg (fun t => t * z ^ l.val) h
        simpa [mul_assoc, inv_mul_cancel₀ (pow_ne_zero _ hz0)] using this
      exact hjl (Fin.ext (hz.pow_inj j.isLt l.isLt h2))
    have hwn : (z ^ j.val * (z ^ l.val)⁻¹) ^ n = 1 := by
      rw [mul_pow, inv_pow, ← pow_mul, ← pow_mul, mul_comm j.val, mul_comm l.val, pow_mul,
        pow_mul, hz.pow_eq_one]
      simp
    rw [geom_sum_root n _ hwn hw1, mul_zero]

/-! ## The registered measurements inside the parametrized family -/

/-- The value `cos (pi / 4) = sin (pi / 4) = sqrt (1 / 2)`, with the argument written as
the code does. -/
theorem cos_sin_quarter :
    Real.cos (1 / 2 * (Real.pi / 2)) = Real.sqrt (1 / 2) ∧
      Real.sin (1 / 2 * (Real.pi / 2)) = Real.sqrt (1 / 2) := by
  have e : (1 / 2 * (Real.pi / 2) : ℝ) = Real.pi / 4 := by ring
  have h : Real.sqrt (1 / 2) = Real.sqrt 2 / 2 := by
    rw [one_div, Real.sqrt_inv]
    have h2 : Real.sqrt 2 * Real.sqrt 2 = 2 := Real.mul_self_sqrt (by norm_num)
    have h0 : Real.sqrt 2 ≠ 0 := by positivity
    field_simp
  rw [e, Real.cos_pi_div_four, Real.sin_pi_div_four, h]
  exact ⟨rfl, rfl⟩

/-- The qubit parametrization at `(pi/2, 0)`, `(pi/2, pi/2)` and `(0, 0)` gives the table
projectors of the settings 1, 2 and 3. -/
theorem registered_points :
    let M : StdMath ℝ ℂ :=
      ⟨Complex.ofReal, Complex.I, Real.cos, Real.sin, Complex.exp, Real.sqrt, Real.logb 2,
        Real.pi⟩
    (protect_dis.def_nlopt2_proj1 M (Real.pi / 2) 0 = SPM.proj2 M 0 1 ∧
      protect_dis.def_nlopt2_proj2 M (Real.pi / 2) 0 = SPM.proj2 M 1 1) ∧
    (protect_dis.def_nlopt2_proj1 M (Real.pi / 2) (Real.pi / 2) = SPM.proj2 M 0 2 ∧
      protect_dis.def_nlopt2_proj2 M (Real.pi / 2) (Real.pi / 2) = SPM.proj2 M 1 2) ∧
    (protect_dis.def_nlopt2_proj1 M 0 0 = SPM.proj2 M 0 3 ∧
      protect_dis.def_nlopt2_proj2 M 0 0 = SPM.proj2 M 1 3) := by
  intro M
  obtain ⟨hc, hs⟩ := cos_sin_quarter
  have hI : Complex.exp (Complex.I * ((Real.pi / 2 : ℝ) : ℂ)) = Complex.I := by
    rw [mul_comm, Complex.exp_mul_I]
    push_cast
    rw [Complex.cos_pi_div_two, Complex.sin_pi_div_two]
    ring
  have v1a : protect_dis.def_nlopt2_vec1 M (Real.pi / 2) 0 = SPM.basis2 M 0 1 := by
    ext i j
    simp only [protect_dis.def_nlopt2_vec1, M, hc, hs]
    fin_cases i <;> simp [SPM.basis2, SPM.col2]
  have v2a : protect_dis.def_nlopt2_vec2 M (Real.pi / 2) 0 = SPM.basis2 M 1 1 := by
    ext i j
    simp only [protect_dis.def_nlopt2_vec2, M, hc, hs]
    fin_cases i <;> simp [SPM.basis2, SPM.col2]
  have v1b : protect_dis.def_nlopt2_vec1 M (Real.pi / 2) (Real.pi / 2) = SPM.basis2 M 0 2 := by
    ext i j
    simp only [protect_dis.def_nlopt2_vec1, M, hc, hs, hI]
    fin_cases i <;> simp [SPM.basis2, SPM.col2]
  have v2b : protect_dis.def_nlopt2_vec2 M (Real.pi / 2) (Real.pi / 2) = SPM.basis2 M 1 2 := by
    ext i j
    simp only [protect_dis.def_nlopt2_vec2, M, hc, hs, hI]
    fin_cases i <;> simp [SPM.basis2, SPM.col2]
  have v1c : protect_dis.def_nlopt2_vec1 M 0 0 = SPM.basis2 M 0 0 := by
    ext i j
    fin_cases i <;>
      simp [protect_dis.def_nlopt2_vec1, SPM.basis2, SPM.col2, M]
  have v2c : protect_dis.def_nlopt2_vec2 M 0 0 = -SPM.basis2 M 1 0 := by
    ext i j
    fin_cases i <;>
      simp [protect_dis.def_nlopt2_vec2, SPM.basis2, SPM.col2, M]
  refine ⟨⟨?_, ?_⟩, ⟨?_, ?_⟩, ⟨?_, ?_⟩⟩
  · simp only [protect_dis.def_nlopt2_proj1, v1a, SPM.proj2]; rfl
  · simp only [protect_dis.def_nlopt2_proj2, v2a, SPM.proj2]; rfl
  · simp only [protect_dis.def_nlopt2_proj1, v1b, SPM.proj2]; rfl
  · simp only [protect_dis.def_nlopt2_proj2, v2b, SPM.proj2]; rfl
  · simp only [protect_dis.def_nlopt2_proj1, v1c, SPM.proj2]; rfl
  · simp only [protect_dis.def_nlopt2_proj2, v2c, SPM.proj2, Matrix.conjTranspose_neg,
      Matrix.neg_mul, Matrix.mul_neg, neg_neg]; rfl

section registered

variable {K S : Type} [LinearOrderedField K] [CommRing S] [StarRing S]

/-- A turn of the qubit loop of `compute_reg` on a vector `ret` that has an entry `i`: when
the table projectors of the setting `i + 1` are those of the parametrization at
`(theta, phi)`, the turn writes `-S_AB` plus the value of the objective at `(theta, phi)`,
and fails when the objective fails. -/
theorem reg_step2_eq (M : StdMath K S) (L : Libs K S) (s : deficit_space K S)
    (a b c : Nat) (theta phi : K) (i : Nat) (ret : List K) (calls : List (Call K S))
    (hi : i < ret.length)
    (h1 : protect_dis.def_nlopt2_proj1 M theta phi = SPM.proj2 M 0 (i + 1))
    (h2 : protect_dis.def_nlopt2_proj2 M theta phi = SPM.proj2 M 1 (i + 1)) :
    Except.map Prod.fst (deficit_space.reg_step2 M L s
        ⟨s._rho, Mat.eye a, Mat.eye b, Mat.eye c, s._nodal, s._party_no⟩ (ret, calls) i) =
      Except.map (fun v => ret.set i (-s._S_A_B + v))
        (protect_dis.def_nlopt2 M L [theta, phi]
          ⟨s._rho, Mat.eye a, Mat.eye b, Mat.eye c, s._nodal, s._party_no⟩) := by
  simp only [deficit_space.reg_step2, protect_dis.def_nlopt2, vec_at, List.get?, bind,
    Except.bind, pure, Except.pure, h1, h2, col_at_put, if_pos hi]
  cases protect_dis.sandwich (protect_dis.embed s._nodal s._party_no (Mat.eye a) (Mat.eye b)
      (Mat.eye c) (Mat.ofMatrix (SPM.proj2 M 0 (i + 1)))) s._rho with
  | error e => rfl
  | ok r1 =>
    cases protect_dis.sandwich (protect_dis.embed s._nodal s._party_no (Mat.eye a) (Mat.eye b)
        (Mat.eye c) (Mat.ofMatrix (SPM.proj2 M 1 (i + 1)))) s._rho with
    | error e => rfl
    | ok r2 =>
      dsimp only
      cases Mat.add r1 r2 with
      | error e => rfl
      | ok r =>
        dsimp only
        cases entropy M L r with
        | error e => rfl
        | ok v => rfl

end registered

/-! ## The Bell state: auxiliary lemmas -/

/-- Libraries satisfying the two contracts exist. -/
theorem exists_libs : ∃ L : Libs ℝ ℂ, L.EigContract ∧ L.OptContract := by
  classical
  refine ⟨⟨fun rho => Classical.epsilon (IsEigenvalues rho),
    fun o x => (x, match o.min_objective x with
      | .ok v => v
      | .error _ => 0), fun _ _ => rfl⟩, ?_, ?_⟩
  · intro n A hA
    apply Classical.epsilon_spec (p := IsEigenvalues ⟨n, n, A⟩)
    have hU := hA.eigenvectorUnitary.2
    refine ⟨List.ofFn hA.eigenvalues, n, A, hA.eigenvectorUnitary.1, hA.eigenvalues, rfl, rfl,
      Matrix.mem_unitaryGroup_iff.mp hU, Matrix.mem_unitaryGroup_iff'.mp hU, ?_⟩
    exact hA.spectral_theorem
  · intro o x h
    obtain ⟨v, hv⟩ := h x rfl
    show o.min_objective x = .ok (match o.min_objective x with
      | .ok v => v
      | .error _ => 0)
    rw [hv]

/-- The eigenvalues of a matrix with `A * A = c A`: each is 0 or `c`, and they sum to the
trace. -/
theorem eig_facts (n : Nat) (A : Matrix (Fin n) (Fin n) ℂ) (l : List ℝ) (c : ℝ)
    (h : IsEigenvalues ⟨n, n, A⟩ l) (hA : A * A = (c : ℂ) • A) :
    (∀ x ∈ l, x = 0 ∨ x = c) ∧ ((l.sum : ℝ) : ℂ) = A.trace := by
  obtain ⟨n2, A2, U, d, he, hl, hu1, hu2, hA2⟩ := h
  cases he
  have hD : Matrix.diagonal (fun i => (d i : ℂ)) = star U * A * U := by
    rw [hA2]
    calc Matrix.diagonal (fun i => (d i : ℂ))
        = (star U * U) * Matrix.diagonal (fun i => (d i : ℂ)) * (star U * U) := by
          rw [hu2, Matrix.one_mul, Matrix.mul_one]
      _ = star U * (U * Matrix.diagonal (fun i => (d i : ℂ)) * star U) * U := by
          simp only [Matrix.mul_assoc]
  have hDD : Matrix.diagonal (fun i => (d i : ℂ)) * Matrix.diagonal (fun i => (d i : ℂ)) =
      (c : ℂ) • Matrix.diagonal (fun i => (d i : ℂ)) := by
    rw [hD]
    calc star U * A * U * (star U * A * U)
        = star U * A * (U * star U) * A * U := by simp only [Matrix.mul_assoc]
      _ = star U * (A * A) * U := by rw [hu1, Matrix.mul_one]; simp only [Matrix.mul_assoc]
      _ = (c : ℂ) • (star U * A * U) := by
          rw [hA, Matrix.mul_smul, Matrix.smul_mul]
  constructor
  · intro x hx
    rw [hl, List.mem_ofFn] at hx
    obtain ⟨i, rfl⟩ := hx
    have hi := congrFun (congrFun hDD i) i
    rw [Matrix.diagonal_mul_diagonal, Matrix.smul_apply, Matrix.diagonal_apply_eq,
      Matrix.diagonal_apply_eq, smul_eq_mul] at hi
    have hr : d i * d i = c * d i := by exact_mod_cast hi
    have : d i * (d i - c) = 0 := by ring_nf; linarith
    rcases mul_eq_zero.mp this with h0 | h0
    · exact Or.inl h0
    · exact Or.inr (by linarith)
  · rw [hl, List.sum_ofFn, hA2, Matrix.trace_mul_comm, ← Matrix.mul_assoc, hu2,
      Matrix.one_mul, Matrix.trace_diagonal]
    push_cast
    rfl

/-- In exact arithmetic, on a square matrix `A` of size above 1 with `A * A = c A`,
`c > eps`, whose eigenvalues `eig_sym` returns, `entropy` returns `-log2 c` times the
trace. -/
theorem entropy_scaled_projector (L : Libs ℝ ℂ) (n : Nat) (hn : 1 < n)
    (A : Matrix (Fin n) (Fin n) ℂ) (c t : ℝ)
    (hE : IsEigenvalues ⟨n, n, A⟩ (L.eig_sym ⟨n, n, A⟩)) (hA : A * A = (c : ℂ) • A)
    (hc : _precision.eps false < c) (ht : (t : ℂ) = A.trace) :
    entropy ⟨Complex.ofReal, Complex.I, Real.cos, Real.sin, Complex.exp, Real.sqrt,
      Real.logb 2, Real.pi⟩ L ⟨n, n, A⟩ = .ok (-(Real.logb 2 c * t)) := by
  obtain ⟨h01, hsum⟩ := eig_facts n A _ c hE hA
  have hs : (L.eig_sym ⟨n, n, A⟩).sum = t := by
    have : (((L.eig_sym ⟨n, n, A⟩).sum : ℝ) : ℂ) = (t : ℂ) := by rw [hsum, ht]
    exact_mod_cast this
  have h0 : (⟨n, n, A⟩ : Mat ℂ).n_elem ≠ 0 := by
    show n * n ≠ 0
    exact Nat.mul_ne_zero (by omega) (by omega)
  have hc1 : n ≠ 1 := by omega
  simp only [entropy, h0, hc1, if_false]
  simp only [ne_eq, not_true_eq_false, and_false, if_false, Bool.true_eq_false]
  congr 1
  rw [foldl_sub_eq (fun i => if i > _precision.eps false then i * Real.logb 2 i else 0),
    zero_sub, ← hs]
  have hterm : ∀ x ∈ L.eig_sym ⟨n, n, A⟩,
      (if x > _precision.eps false then x * Real.logb 2 x else 0) = Real.logb 2 c * x := by
    intro x hx
    rcases h01 x hx with h | h
    · have : ¬ (x > _precision.eps false) := by
        rw [h]
        exact not_lt.mpr eps_pos.le
      rw [if_neg this, h, mul_zero]
    · rw [h, if_pos hc, mul_comm]
  rw [List.map_congr_left hterm, List.sum_map_mul_left, List.map_id']

/-- The Bell state is the matrix with the entries `bell_mat`. -/
theorem bell_state_eq {S : Type} [Field S] : bell_state (S := S) = ⟨4, 4, bell_mat⟩ := rfl

/-- The Bell state is a projector. -/
theorem bell_mat_sq : (bell_mat (S := ℂ)) * bell_mat = bell_mat := by
  ext i j
  fin_cases i <;> fin_cases j <;>
    simp [Matrix.mul_apply, Fin.sum_univ_four, bell_mat] <;> norm_num

/-- The Bell state is Hermitian. -/
theorem bell_mat_herm : (bell_mat (S := ℂ)).IsHermitian := by
  ext i j
  fin_cases i <;> fin_cases j <;>
    simp [Matrix.conjTranspose_apply, bell_mat]

/-- The Bell state has trace 1. -/
theorem bell_mat_trace : (bell_mat (S := ℂ)).trace = 1 := by
  simp [Matrix.trace, Fin.sum_univ_four, bell_mat]
  norm_num

/-- The entries of `kron(Q, eye(2, 2))` for a 2 x 2 matrix `Q`. -/
theorem kron2_entries {S : Type} [CommRing S] (Q : Matrix (Fin 2) (Fin 2) S) :
    (Mat.kronF Q (1 : Matrix (Fin 2) (Fin 2) S) : Matrix (Fin 4) (Fin 4) S) =
      Matrix.of ![![Q 0 0, 0, Q 0 1, 0], ![0, Q 0 0, 0, Q 0 1], ![Q 1 0, 0, Q 1 1, 0],
        ![0, Q 1 0, 0, Q 1 1]] := by
  ext i j
  fin_cases i <;> fin_cases j <;> first | exact mul_one _ | exact mul_zero _

/-- Between two copies of the Bell state an operator on the first qubit acts as half its
trace. -/
theorem bell_sandwich (Q : Matrix (Fin 2) (Fin 2) ℂ) :
    (bell_mat (S := ℂ)) *
        (Mat.kronF Q (1 : Matrix (Fin 2) (Fin 2) ℂ) : Matrix (Fin 4) (Fin 4) ℂ) * bell_mat =
      (Q.trace / 2) • bell_mat := by
  rw [kron2_entries]
  ext i j
  fin_cases i <;> fin_cases j <;>
    simp [Matrix.mul_apply, Fin.sum_univ_four, bell_mat,
      Matrix.trace, Fin.sum_univ_two] <;> ring

/-- The Hermitian transpose of a Kronecker product. -/
theorem kronF_conjTranspose {S : Type} [CommRing S] [StarRing S] {m p : Nat}
    (A : Matrix (Fin m) (Fin m) S) (B : Matrix (Fin p) (Fin p) S) :
    (Mat.kronF A B).conjTranspose = Mat.kronF A.conjTranspose B.conjTranspose := by
  ext i j
  simp [Mat.kronF, Matrix.conjTranspose_apply, mul_comm]

/-- Measuring the Bell state on the first qubit with two orthogonal rank-one projectors:
the post-measurement matrix `R` is Hermitian, has trace 1 and satisfies `R * R = R / 2`. -/
theorem bell_measured (Q1 Q2 : Matrix (Fin 2) (Fin 2) ℂ) (h11 : Q1 * Q1 = Q1)
    (h22 : Q2 * Q2 = Q2) (h12 : Q1 * Q2 = 0) (h21 : Q2 * Q1 = 0) (hs : Q1 + Q2 = 1)
    (hh1 : Q1.conjTranspose = Q1) (hh2 : Q2.conjTranspose = Q2) (t1 : Q1.trace = 1)
    (t2 : Q2.trace = 1) (E1 E2 R : Matrix (Fin 4) (Fin 4) ℂ)
    (hE1 : E1 = Mat.kronF Q1 (1 : Matrix (Fin 2) (Fin 2) ℂ))
    (hE2 : E2 = Mat.kronF Q2 (1 : Matrix (Fin 2) (Fin 2) ℂ))
    (hR : R = E1 * bell_mat * E1 + E2 * bell_mat * E2) :
    R.IsHermitian ∧ R.trace = 1 ∧ R * R = (((1 / 2 : ℝ) : ℂ)) • R := by
  have e11 : E1 * E1 = E1 := by
    rw [hE1]
    have := kronF_mul Q1 Q1 (1 : Matrix (Fin 2) (Fin 2) ℂ) 1
    rw [h11, Matrix.one_mul] at this
    exact this
  have e22 : E2 * E2 = E2 := by
    rw [hE2]
    have := kronF_mul Q2 Q2 (1 : Matrix (Fin 2) (Fin 2) ℂ) 1
    rw [h22, Matrix.one_mul] at this
    exact this
  have e12 : E1 * E2 = 0 := by
    rw [hE1, hE2]
    have := kronF_mul Q1 Q2 (1 : Matrix (Fin 2) (Fin 2) ℂ) 1
    rw [h12, kronF_zero_left] at this
    exact this
  have e21 : E2 * E1 = 0 := by
    rw [hE1, hE2]
    have := kronF_mul Q2 Q1 (1 : Matrix (Fin 2) (Fin 2) ℂ) 1
    rw [h21, kronF_zero_left] at this
    exact this
  have es : E1 + E2 = 1 := by
    rw [hE1, hE2]
    have := kronF_add_left Q1 Q2 (1 : Matrix (Fin 2) (Fin 2) ℂ)
    rw [hs, kronF_one] at this
    exact this.symm
  have eh1 : E1.conjTranspose = E1 := by
    rw [hE1]
    have := kronF_conjTranspose Q1 (1 : Matrix (Fin 2) (Fin 2) ℂ)
    rw [hh1, Matrix.conjTranspose_one] at this
    exact this
  have eh2 : E2.conjTranspose = E2 := by
    rw [hE2]
    have := kronF_conjTranspose Q2 (1 : Matrix (Fin 2) (Fin 2) ℂ)
    rw [hh2, Matrix.conjTranspose_one] at this
    exact this
  have b1 : bell_mat * E1 * bell_mat = ((1 / 2 : ℝ) : ℂ) • (bell_mat (S := ℂ)) := by
    rw [hE1, bell_sandwich, t1]
    norm_num
  have b2 : bell_mat * E2 * bell_mat = ((1 / 2 : ℝ) : ℂ) • (bell_mat (S := ℂ)) := by
    rw [hE2, bell_sandwich, t2]
    norm_num
  have hB : (bell_mat (S := ℂ)).conjTranspose = bell_mat := bell_mat_herm
  refine ⟨?_, ?_, ?_⟩
  · show R.conjTranspose = R
    rw [hR, Matrix.conjTranspose_add, Matrix.conjTranspose_mul, Matrix.conjTranspose_mul,
      Matrix.conjTranspose_mul, Matrix.conjTranspose_mul, eh1, eh2, hB]
    simp only [Matrix.mul_assoc]
  · rw [hR, trace_two E1 E2 (bell_mat (S := ℂ)) e11 e22 es, bell_mat_trace]
  · have x11 : (E1 * bell_mat * E1) * (E1 * bell_mat * E1) =
        ((1 / 2 : ℝ) : ℂ) • (E1 * bell_mat * E1) := by
      calc (E1 * bell_mat * E1) * (E1 * bell_mat * E1)
          = E1 * bell_mat * (E1 * E1) * bell_mat * E1 := by simp only [Matrix.mul_assoc]
        _ = E1 * (bell_mat * E1 * bell_mat) * E1 := by
            rw [e11]; simp only [Matrix.mul_assoc]
        _ = ((1 / 2 : ℝ) : ℂ) • (E1 * bell_mat * E1) := by
            rw [b1, Matrix.mul_smul, Matrix.smul_mul]
    have x22 : (E2 * bell_mat * E2) * (E2 * bell_mat * E2) =
        ((1 / 2 : ℝ) : ℂ) • (E2 * bell_mat * E2) := by
      calc (E2 * bell_mat * E2) * (E2 * bell_mat * E2)
          = E2 * bell_mat * (E2 * E2) * bell_mat * E2 := by simp only [Matrix.mul_assoc]
        _ = E2 * (bell_mat * E2 * bell_mat) * E2 := by
            rw [e22]; simp only [Matrix.mul_assoc]
        _ = ((1 / 2 : ℝ) : ℂ) • (E2 * bell_mat * E2) := by
            rw [b2, Matrix.mul_smul, Matrix.smul_mul]
    have x12 : (E1 * bell_mat * E1) * (E2 * bell_mat * E2) = 0 := by
      calc (E1 * bell_mat * E1) * (E2 * bell_mat * E2)
          = E1 * bell_mat * (E1 * E2) * bell_mat * E2 := by simp only [Matrix.mul_assoc]
        _ = 0 := by rw [e12]; simp
    have x21 : (E2 * bell_mat * E2) * (E1 * bell_mat * E1) = 0 := by
      calc (E2 * bell_mat * E2) * (E1 * bell_mat * E1)
          = E2 * bell_mat * (E2 * E1) * bell_mat * E1 := by simp only [Matrix.mul_assoc]
        _ = 0 := by rw [e21]; simp
    rw [hR, Matrix.add_mul, Matrix.mul_add, Matrix.mul_add, x11, x12, x21, x22, smul_add]
    simp

/-- The context of the objective on the Bell-state session. -/
theorem make_pass_bell {K S : Type} [LinearOrderedField K] [Field S] :
    deficit_space.make_pass (bell_session (K := K) (S := S)) 2 =
      .ok ⟨bell_state, Mat.eye 2, Mat.eye 1, Mat.eye 2, 1, 2⟩ := by
  have h0 : (bell_session (K := K) (S := S))._rho.n_rows ≠ 0 := Nat.succ_ne_zero 3
  have hN : (bell_session (K := K) (S := S))._rho.n_rows < uword_size := by
    show 4 < uword_size
    decide
  have h1 : 1 ≤ (bell_session (K := K) (S := S))._nodal := le_refl 1
  have h2 : (bell_session (K := K) (S := S))._nodal ≤
      (bell_session (K := K) (S := S))._party_no := Nat.le_succ 1
  have h3 : (bell_session (K := K) (S := S))._nodal < uword_size := by
    show 1 < uword_size
    decide
  have h := (make_pass_val (bell_session (K := K) (S := S)) 2 rfl h0 hN rfl h1 h2 h3 rfl).1
  have e : (⟨(bell_session (K := K) (S := S))._rho,
      Mat.eye ((bell_session (K := K) (S := S))._rho.n_rows / 2),
      Mat.eye (List.take ((bell_session (K := K) (S := S))._nodal - 1)
        (bell_session (K := K) (S := S))._dim).prod,
      Mat.eye (List.drop (bell_session (K := K) (S := S))._nodal
        (bell_session (K := K) (S := S))._dim).prod,
      (bell_session (K := K) (S := S))._nodal,
      (bell_session (K := K) (S := S))._party_no⟩ : protect_dis.TO_PASS S) =
      ⟨bell_state, Mat.eye 2, Mat.eye 1, Mat.eye 2, 1, 2⟩ := by
    show (⟨bell_state, Mat.eye (4 / 2), Mat.eye (List.take (1 - 1) [2, 2]).prod,
      Mat.eye (List.drop 1 [2, 2]).prod, 1, 2⟩ : protect_dis.TO_PASS S) = _
    rfl
  rw [h, e]

/-- In exact arithmetic, with `eig_sym` returning eigenvalues, the qubit objective on the
Bell-state session is 1 at every point. -/
theorem bell_objective (L : Libs ℝ ℂ) (hE : L.EigContract) (theta phi : ℝ) :
    protect_dis.def_nlopt2 ⟨Complex.ofReal, Complex.I, Real.cos, Real.sin, Complex.exp,
        Real.sqrt, Real.logb 2, Real.pi⟩ L [theta, phi]
      ⟨bell_state, Mat.eye 2, Mat.eye 1, Mat.eye 2, 1, 2⟩ = .ok 1 := by
  obtain ⟨o11, o12, o21, o22⟩ := def_nlopt2_orthonormal _ exact_real theta phi
  have hs := def_nlopt2_resolution _ exact_real theta phi
  have key := def_nlopt2_eq ⟨Complex.ofReal, Complex.I, Real.cos, Real.sin, Complex.exp,
    Real.sqrt, Real.logb 2, Real.pi⟩ L theta phi
    ⟨bell_state, Mat.eye 2, Mat.eye 1, Mat.eye 2, 1, 2⟩
  have q1 : protect_dis.def_nlopt2_proj1 (⟨Complex.ofReal, Complex.I, Real.cos, Real.sin,
      Complex.exp, Real.sqrt, Real.logb 2, Real.pi⟩ : StdMath ℝ ℂ) theta phi =
      protect_dis.def_nlopt2_vec1 _ theta phi *
        (protect_dis.def_nlopt2_vec1 _ theta phi).conjTranspose := rfl
  have q2 : protect_dis.def_nlopt2_proj2 (⟨Complex.ofReal, Complex.I, Real.cos, Real.sin,
      Complex.exp, Real.sqrt, Real.logb 2, Real.pi⟩ : StdMath ℝ ℂ) theta phi =
      protect_dis.def_nlopt2_vec2 _ theta phi *
        (protect_dis.def_nlopt2_vec2 _ theta phi).conjTranspose := rfl
  rw [q1, q2] at hs key
  generalize protect_dis.def_nlopt2_vec1 (⟨Complex.ofReal, Complex.I, Real.cos, Real.sin,
      Complex.exp, Real.sqrt, Real.logb 2, Real.pi⟩ : StdMath ℝ ℂ) theta phi = v1 at *
  generalize protect_dis.def_nlopt2_vec2 (⟨Complex.ofReal, Complex.I, Real.cos, Real.sin,
      Complex.exp, Real.sqrt, Real.logb 2, Real.pi⟩ : StdMath ℝ ℂ) theta phi = v2 at *
  have t1 : (v1 * v1.conjTranspose).trace = 1 := by
    rw [Matrix.trace_mul_comm, o11]
    simp
  have t2 : (v2 * v2.conjTranspose).trace = 1 := by
    rw [Matrix.trace_mul_comm, o22]
    simp
  obtain ⟨hH, hT, hRR⟩ := bell_measured (v1 * v1.conjTranspose) (v2 * v2.conjTranspose)
    (outer_idempotent v1 o11) (outer_idempotent v2 o22) (outer_mul_outer v1 v2 o12)
    (outer_mul_outer v2 v1 o21) hs (outer_hermitian v1) (outer_hermitian v2) t1 t2 _ _ _
    rfl rfl rfl
  have hent := entropy_scaled_projector L 4 (by decide) _ (1 / 2) 1 (hE 4 _ hH) hRR
    (by simp only [_precision.eps]; norm_num) (by rw [hT]; norm_num)
  have hval : -(Real.logb 2 (1 / 2) * 1) = (1 : ℝ) := by
    rw [one_div, Real.logb_inv, Real.logb_self_eq_one (by norm_num)]
    norm_num
  rw [hval] at hent
  rw [key _ _ _ (sandwich_mk 4 _ bell_mat) (sandwich_mk 4 _ bell_mat) (mat_add_mk 4 _ _)]
  exact congrArg liftExc hent

/-- In exact arithmetic, with `eig_sym` returning eigenvalues, the entropy of the Bell state
is 0. -/
theorem bell_entropy (L : Libs ℝ ℂ) (hE : L.EigContract) :
    entropy ⟨Complex.ofReal, Complex.I, Real.cos, Real.sin, Complex.exp, Real.sqrt,
      Real.logb 2, Real.pi⟩ L bell_state = .ok 0 := by
  have h := entropy_scaled_projector L 4 (by decide) bell_mat 1 1 (hE 4 _ bell_mat_herm)
    (by rw [bell_mat_sq]; simp) (by simp only [_precision.eps]; norm_num)
    (by rw [bell_mat_trace]; norm_num)
  rw [Real.logb_one, zero_mul, neg_zero] at h
  exact h

/-- In exact arithmetic, with the two library calls meeting their contracts, `result()` on
the Bell-state session returns 1. -/
theorem bell_result (L : Libs ℝ ℂ) (hE : L.EigContract) (hO : L.OptContract) :
    ∃ t c, deficit_space.result ⟨Complex.ofReal, Complex.I, Real.cos, Real.sin, Complex.exp,
      Real.sqrt, Real.logb 2, Real.pi⟩ L bell_session = .ok (1, t, c) := by
  have hv : (bell_session (K := ℝ) (S := ℂ)).Valid :=
    construct_valid bell_state 1 [2, 2] bell_session construct_bell_session
  obtain ⟨sab, ecalls, n, x0, obj, _, hs1, _, hq, _, _, hx0, gopt, lopt, start, hgo, hlo,
    hst, h⟩ := compute_val ⟨Complex.ofReal, Complex.I, Real.cos, Real.sin, Complex.exp,
      Real.sqrt, Real.logb 2, Real.pi⟩ L bell_session hv
  obtain ⟨h1, _⟩ := result_of_compute _ L bell_session _ rfl h
  obtain ⟨hn, _, pass, hpass, hobj⟩ := hq rfl
  have hp : pass = ⟨bell_state, Mat.eye 2, Mat.eye 1, Mat.eye 2, 1, 2⟩ := by
    have := make_pass_bell (K := ℝ) (S := ℂ)
    rw [hpass] at this
    exact Except.ok.inj this
  have hsab : sab = 0 := by
    have := (hs1 rfl).1
    rw [show (bell_session (K := ℝ) (S := ℂ))._rho = bell_state from rfl,
      bell_entropy L hE] at this
    exact (Except.ok.inj this).symm
  have hobj1 : ∀ y : List ℝ, y.length = 2 → obj y = .ok 1 := by
    intro y hy
    match y, hy with
    | [t0, t1], _ =>
      rw [hobj, hp]
      exact bell_objective L hE t0 t1
  have hstart : start.length = 2 := by
    rw [hst]
    split_ifs
    · rw [L.optimize_size, hx0, hn]
    · rw [hx0, hn]
  have hmin := hO lopt start (by
    intro y hy
    rw [hlo]
    exact ⟨1, hobj1 y (by rw [hy, hstart])⟩)
  have hmin2 : lopt.min_objective (L.optimize lopt start).1 = .ok 1 := by
    rw [hlo]
    exact hobj1 _ (by rw [L.optimize_size, hstart])
  rw [hmin2] at hmin
  have hval : (L.optimize lopt start).2 = 1 := by
    exact (Except.ok.inj hmin).symm
  rw [h1]
  simp only [hval, hsab, neg_zero, zero_add]
  exact ⟨_, _, rfl⟩

/-! ## The counter of `make_ctrl`: auxiliary lemmas -/

/-- Reading a C array inside its bounds. -/
theorem arr_at_of_lt (a : List Nat) (i : Nat) (h : i < a.length) :
    arr_at a i = .ok (a.getD i 0) := by
  unfold arr_at
  rw [List.get?_eq_getElem?, List.getElem?_eq_getElem h, List.getD_eq_getElem _ _ h]

/-- Reading the entry that follows a prefix. -/
theorem arr_at_append (pre : List Nat) (x : Nat) (rest : List Nat) :
    arr_at (pre ++ x :: rest) pre.length = .ok x := by
  unfold arr_at
  rw [List.get?_eq_getElem?, List.getElem?_append_right (le_refl _)]
  simp

/-- Writing the entry that follows a prefix. -/
theorem arr_put_append (pre : List Nat) (x y : Nat) (rest : List Nat) :
    arr_put (pre ++ x :: rest) pre.length y = .ok (pre ++ y :: rest) := by
  unfold arr_put
  rw [if_pos (by simp)]
  congr 1
  simp

/-- The digits have the length of the radices. -/
theorem digits_length (R : List Nat) : ∀ t, (digits R t).length = R.length := by
  induction R with
  | nil => intro t; rfl
  | cons m ms ih => intro t; simp [digits, ih]

/-- Adding 1 when the lowest digit is at its maximum. -/
theorem succ_carry (m t : Nat) (hm : 1 ≤ m) (h : t % m + 1 = m) :
    (t + 1) % m = 0 ∧ (t + 1) / m = t / m + 1 := by
  have e : t + 1 = m * (t / m + 1) := by
    have := Nat.div_add_mod t m
    rw [Nat.mul_add, Nat.mul_one]
    omega
  rw [e]
  exact ⟨Nat.mul_mod_right _ _, Nat.mul_div_cancel_left _ (by omega)⟩

/-- Adding 1 when the lowest digit is below its maximum. -/
theorem succ_no_carry (m t : Nat) (hm : 1 ≤ m) (h : t % m + 1 ≠ m) :
    (t + 1) % m = t % m + 1 ∧ (t + 1) / m = t / m := by
  have hlt : t % m + 1 < m := by
    have := Nat.mod_lt t (by omega : m > 0)
    omega
  have e : t + 1 = (t % m + 1) + m * (t / m) := by
    have := Nat.div_add_mod t m
    omega
  rw [e]
  constructor
  · rw [Nat.add_mul_mod_self_left, Nat.mod_eq_of_lt hlt]
  · rw [Nat.add_mul_div_left _ _ (by omega : 0 < m), Nat.div_eq_of_lt hlt, Nat.zero_add]

/-- The digits for the radices followed by one more radix. -/
theorem digits_append (R : List Nat) (b : Nat) :
    ∀ t, digits (R ++ [b]) t = digits R t ++ [(t / R.prod) % b] := by
  induction R with
  | nil => intro t; simp [digits]
  | cons m ms ih =>
    intro t
    show digits (m :: (ms ++ [b])) t = digits (m :: ms) t ++ _
    rw [digits, digits, ih, List.prod_cons, Nat.div_div_eq_div_mul]
    rfl

/-- The test of the carry loop at the entry that follows a prefix. -/
theorem carry_test_append (pre Mpre : List Nat) (x m : Nat) (rest ms : List Nat)
    (h : pre.length = Mpre.length) :
    GATES.carry_test (Mpre ++ m :: ms) (pre ++ x :: rest, pre.length) =
      .ok (decide (x = m)) := by
  unfold GATES.carry_test
  simp only
  rw [arr_at_append, h, arr_at_append]

/-- A carry at the entry that follows a prefix. -/
theorem carry_step_append (pre Mpre : List Nat) (x m c1 m2 : Nat) (rest ms : List Nat)
    (h : pre.length = Mpre.length) :
    GATES.carry_step (Mpre ++ m :: m2 :: ms) (pre ++ x :: c1 :: rest, pre.length) =
      .ok (pre ++ 0 :: (c1 + 1) :: rest, if c1 + 1 ≠ m2 then 0 else pre.length + 1) := by
  have hlen : (pre ++ [0]).length = pre.length + 1 := by simp
  have hlenM : (Mpre ++ [m]).length = pre.length + 1 := by simp [h]
  have h1 : arr_put (pre ++ x :: c1 :: rest) pre.length 0 = .ok (pre ++ 0 :: c1 :: rest) :=
    arr_put_append _ _ _ _
  have h2 : arr_at (pre ++ 0 :: c1 :: rest) (pre.length + 1) = .ok c1 := by
    have := arr_at_append (pre ++ [0]) c1 rest
    rw [hlen] at this
    simpa using this
  have h3 : arr_put (pre ++ 0 :: c1 :: rest) (pre.length + 1) (c1 + 1) =
      .ok (pre ++ 0 :: (c1 + 1) :: rest) := by
    have := arr_put_append (pre ++ [0]) c1 (c1 + 1) rest
    rw [hlen] at this
    simpa using this
  have h4 : arr_at (Mpre ++ m :: m2 :: ms) (pre.length + 1) = .ok m2 := by
    have := arr_at_append (Mpre ++ [m]) m2 ms
    rw [hlenM] at this
    simpa using this
  simp only [GATES.carry_step, h1, h2, h3, h4]

/-- The carry loop stops when its test fails. -/
theorem carry_exit (MAX : List Nat) (st : List Nat × Nat)
    (h : GATES.carry_test MAX st = .ok false) (fuel : Nat) :
    GATES.ctrl_carry MAX fuel st = .ok st := by
  cases fuel with
  | zero => unfold GATES.ctrl_carry; rw [h]
  | succ f => unfold GATES.ctrl_carry; rw [h]

/-- A turn of the carry loop. -/
theorem carry_go (MAX : List Nat) (st st1 : List Nat × Nat)
    (h : GATES.carry_test MAX st = .ok true) (h1 : GATES.carry_step MAX st = .ok st1)
    (fuel : Nat) :
    GATES.ctrl_carry MAX (fuel + 1) st = GATES.ctrl_carry MAX fuel st1 := by
  rw [GATES.ctrl_carry, h]
  simp only [h1]

/-- The carry loop, entered at position `p` on a counter whose entry `p` has just been
incremented: it leaves the digits of `t + 1`, and `p1 = 0`. -/
theorem carry_digits (ms : List Nat) :
    ∀ (Mpre : List Nat) (m t fuel : Nat), (∀ x ∈ Mpre ++ m :: ms, 1 ≤ x) →
      t + 1 < (m :: ms).prod → (Mpre = [] ∨ t % m + 1 = m) → ms.length ≤ fuel →
      GATES.ctrl_carry (Mpre ++ m :: ms) fuel
          (List.replicate Mpre.length 0 ++ (t % m + 1) :: digits ms (t / m), Mpre.length) =
        .ok (List.replicate Mpre.length 0 ++ digits (m :: ms) (t + 1), 0) := by
  have noc : ∀ (m t : Nat) (ms : List Nat), 1 ≤ m → t % m + 1 ≠ m → ∀ fuel,
      GATES.ctrl_carry ([] ++ m :: ms) fuel
          (List.replicate ([] : List Nat).length 0 ++ (t % m + 1) :: digits ms (t / m),
            ([] : List Nat).length) =
        .ok (List.replicate ([] : List Nat).length 0 ++ digits (m :: ms) (t + 1), 0) := by
    intro m t ms hm hc fuel
    obtain ⟨e1, e2⟩ := succ_no_carry m t hm hc
    have ht : GATES.carry_test (m :: ms) ((t % m + 1) :: digits ms (t / m), 0) =
        .ok false := by
      have := carry_test_append [] [] (t % m + 1) m (digits ms (t / m)) ms rfl
      rw [show decide (t % m + 1 = m) = false from decide_eq_false hc] at this
      exact this
    show GATES.ctrl_carry (m :: ms) fuel ((t % m + 1) :: digits ms (t / m), 0) =
      .ok (digits (m :: ms) (t + 1), 0)
    rw [carry_exit _ _ ht]
    simp only [digits, e1, e2]
  induction ms with
  | nil =>
    intro Mpre m t fuel hpos hlt hp _
    have hm : 1 ≤ m := hpos m (by simp)
    have hc : t % m + 1 ≠ m := by
      intro h
      have h1 := (succ_carry m t hm h).2
      simp only [List.prod_cons, List.prod_nil, Nat.mul_one] at hlt
      have h2 := Nat.div_eq_of_lt hlt
      exact Nat.succ_ne_zero _ (h1.symm.trans h2)
    have hp0 : Mpre = [] := by
      rcases hp with h | h
      · exact h
      · exact absurd h hc
    subst hp0
    exact noc m t [] hm hc fuel
  | cons m2 ms2 ih =>
    intro Mpre m t fuel hpos hlt hp hfuel
    have hm : 1 ≤ m := hpos m (by simp)
    have hm2 : 1 ≤ m2 := hpos m2 (by simp)
    have hrl : (List.replicate Mpre.length (0 : Nat)).length = Mpre.length := by simp
    by_cases hc : t % m + 1 = m
    · obtain ⟨e1, e2⟩ := succ_carry m t hm hc
      obtain ⟨fuel2, rfl⟩ : ∃ f, fuel = f + 1 := ⟨fuel - 1, by
        simp only [List.length_cons] at hfuel; omega⟩
      have hlt2 : t / m + 1 < (m2 :: ms2).prod := by
        rw [List.prod_cons] at hlt
        have e : t + 1 = m * (t / m + 1) := by
          have := Nat.div_add_mod t m
          rw [Nat.mul_add, Nat.mul_one]
          omega
        rw [e] at hlt
        exact Nat.lt_of_mul_lt_mul_left hlt
      have ht := carry_test_append (List.replicate Mpre.length 0) Mpre (t % m + 1) m
        (digits (m2 :: ms2) (t / m)) (m2 :: ms2) hrl
      have hs := carry_step_append (List.replicate Mpre.length 0) Mpre (t % m + 1) m
        (t / m % m2) m2 (digits ms2 (t / m / m2)) ms2 hrl
      rw [hrl] at ht hs
      rw [show decide (t % m + 1 = m) = true from decide_eq_true hc] at ht
      rw [carry_go _ _ _ ht hs]
      have hrep : List.replicate Mpre.length 0 ++ 0 :: (t / m % m2 + 1) ::
          digits ms2 (t / m / m2) =
          List.replicate (Mpre ++ [m]).length (0 : Nat) ++ (t / m % m2 + 1) ::
            digits ms2 (t / m / m2) := by
        rw [List.length_append, List.length_singleton, List.replicate_succ']
        simp
      have hM1 : Mpre ++ m :: m2 :: ms2 = (Mpre ++ [m]) ++ m2 :: ms2 := by simp
      by_cases hc2 : t / m % m2 + 1 = m2
      · rw [if_neg (by simpa using hc2), hrep, hM1,
          show Mpre.length + 1 = (Mpre ++ [m]).length by simp]
        rw [ih (Mpre ++ [m]) m2 (t / m) fuel2 (by
            intro x hx
            apply hpos
            simpa using hx) hlt2 (Or.inr hc2) (by
            simp only [List.length_cons] at hfuel; omega)]
        congr 2
        rw [List.length_append, List.length_singleton, List.replicate_succ']
        simp [digits, e1, e2]
      · rw [if_pos (by simpa using hc2)]
        obtain ⟨f1, f2⟩ := succ_no_carry m2 (t / m) hm2 hc2
        have h0 : GATES.carry_test (Mpre ++ m :: m2 :: ms2)
            (List.replicate Mpre.length 0 ++ 0 :: (t / m % m2 + 1) ::
              digits ms2 (t / m / m2), 0) = .ok false := by
          cases Mpre with
          | nil =>
            have := carry_test_append [] [] 0 m ((t / m % m2 + 1) ::
              digits ms2 (t / m / m2)) (m2 :: ms2) rfl
            rw [show decide (0 = m) = false from decide_eq_false (by omega)] at this
            exact this
          | cons a as =>
            have ha : 1 ≤ a := hpos a (by simp)
            have := carry_test_append [] [] 0 a (List.replicate as.length 0 ++ 0 ::
              (t / m % m2 + 1) :: digits ms2 (t / m / m2)) (as ++ m :: m2 :: ms2) rfl
            rw [show decide (0 = a) = false from decide_eq_false (by omega)] at this
            exact this
        rw [carry_exit _ _ h0]
        congr 2
        simp [digits, e1, e2, f1, f2]
    · have hp0 : Mpre = [] := by
        rcases hp with h | h
        · exact h
        · exact absurd h hc
      subst hp0
      exact noc m t (m2 :: ms2) hm hc fuel

/-- The end of a turn of the main loop takes the digits of `t` to those of `t + 1`, and
leaves `p1 = 0`. -/
theorem advance_digits (m : Nat) (ms : List Nat) (t fuel : Nat)
    (hpos : ∀ x ∈ m :: ms, 1 ≤ x) (hlt : t + 1 < (m :: ms).prod) (hfuel : ms.length ≤ fuel) :
    GATES.ctrl_advance (m :: ms) fuel (digits (m :: ms) t) 0 =
      .ok (digits (m :: ms) (t + 1), 0) := by
  have h1 : arr_at (digits (m :: ms) t) 0 = .ok (t % m) := rfl
  have h2 : arr_put (digits (m :: ms) t) 0 (t % m + 1) =
      .ok ((t % m + 1) :: digits ms (t / m)) :=
    arr_put_append [] (t % m) (t % m + 1) (digits ms (t / m))
  simp only [GATES.ctrl_advance, h1, h2]
  exact carry_digits ms [] m t fuel hpos hlt (Or.inl rfl) hfuel

/-- The digits of 0 are zeros. -/
theorem digits_zero (R : List Nat) : digits R 0 = List.replicate R.length 0 := by
  induction R with
  | nil => rfl
  | cons m ms ih => simp [digits, ih, List.replicate_succ]

/-- A product of radices from 1 on is positive. -/
theorem list_prod_pos (R : List Nat) (hpos : ∀ x ∈ R, 1 ≤ x) : 1 ≤ R.prod := by
  induction R with
  | nil => simp
  | cons m ms ih =>
    rw [List.prod_cons]
    have h1 : 1 ≤ m := hpos m (by simp)
    have h2 : 1 ≤ ms.prod := ih (fun x hx => hpos x (by simp [hx]))
    exact Nat.mul_le_mul h1 h2

/-- The number with the digits of `t` is `t`. -/
theorem ofDigits_digits (R : List Nat) :
    ∀ t, t < R.prod → ofDigits R (digits R t) = t := by
  induction R with
  | nil =>
    intro t ht
    simp only [List.prod_nil, Nat.lt_one_iff] at ht
    subst ht
    rfl
  | cons m ms ih =>
    intro t ht
    rw [List.prod_cons] at ht
    have h1 : t / m < ms.prod := Nat.div_lt_of_lt_mul ht
    show t % m + m * ofDigits ms (digits ms (t / m)) = t
    rw [ih _ h1]
    exact Nat.mod_add_div t m

/-- The digits of the number with the digits `ds`, each below its radix, are `ds`. -/
theorem digits_ofDigits (R : List Nat) :
    ∀ ds : List Nat, ds.length = R.length → (∀ i, i < R.length → ds.getD i 0 < R.getD i 0) →
      digits R (ofDigits R ds) = ds ∧ ofDigits R ds < R.prod := by
  induction R with
  | nil =>
    intro ds hlen _
    have : ds = [] := List.length_eq_zero.mp hlen
    subst this
    exact ⟨rfl, by simp [ofDigits]⟩
  | cons m ms ih =>
    intro ds hlen h
    cases ds with
    | nil => simp at hlen
    | cons d ds =>
      have hd : d < m := by simpa using h 0 (by simp)
      obtain ⟨e1, e2⟩ := ih ds (by simpa using hlen) (fun i hi => by
        simpa using h (i + 1) (by simpa using hi))
      have hm : 0 < m := by omega
      constructor
      · show (d + m * ofDigits ms ds) % m :: digits ms ((d + m * ofDigits ms ds) / m) = d :: ds
        rw [Nat.add_mul_mod_self_left, Nat.mod_eq_of_lt hd, Nat.add_mul_div_left _ _ hm,
          Nat.div_eq_of_lt hd, Nat.zero_add, e1]
      · show d + m * ofDigits ms ds < (m :: ms).prod
        rw [List.prod_cons]
        calc d + m * ofDigits ms ds < m + m * ofDigits ms ds := by omega
          _ = m * (ofDigits ms ds + 1) := by ring
          _ ≤ m * ms.prod := Nat.mul_le_mul_left _ e2

section counter

variable {S : Type}

/-- The end of a turn of the main loop on a counter with a sentinel. -/
theorem advance_sentinel (R : List Nat) (t cfuel : Nat) (hpos : ∀ x ∈ R, 1 ≤ x)
    (ht : t < R.prod) (hf : R.length ≤ cfuel) :
    GATES.ctrl_advance (R ++ [2]) cfuel (digits (R ++ [2]) t) 0 =
      .ok (digits (R ++ [2]) (t + 1), 0) := by
  cases R with
  | nil =>
    simp only [List.prod_nil, Nat.lt_one_iff] at ht
    subst ht
    exact advance_digits 2 [] 0 cfuel (by simp) (by simp) (by simp)
  | cons m ms =>
    refine advance_digits m (ms ++ [2]) t cfuel ?_ ?_ (by simpa using hf)
    · intro x hx
      simp only [List.mem_cons, List.mem_append, List.mem_singleton, List.not_mem_nil,
        or_false] at hx
      rcases hx with h | h | h
      · exact hpos x (by simp [h])
      · exact hpos x (by simp [h])
      · omega
    · rw [List.prod_cons] at ht
      rw [List.prod_cons, List.prod_append]
      simp only [List.prod_cons, List.prod_nil, Nat.mul_one]
      have e : m * (ms.prod * 2) = (m * ms.prod) * 2 := by ring
      omega

/-- The sentinel of the counter after `t` turns. -/
theorem sentinel_read (R : List Nat) (t : Nat) :
    arr_at (digits (R ++ [2]) t) R.length = .ok ((t / R.prod) % 2) := by
  rw [digits_append]
  have := arr_at_append (digits R t) ((t / R.prod) % 2) []
  rw [digits_length] at this
  exact this

/-- One turn of the main loop from the digits of `t`. -/
theorem turn_run (body : List Nat → (Nat → Nat → S) → Except Fault (Nat → Nat → S))
    (R : List Nat) (cfuel t : Nat) (U U1 : Nat → Nat → S) (hpos : ∀ x ∈ R, 1 ≤ x)
    (ht : t < R.prod) (hf : R.length ≤ cfuel)
    (hb : body (digits (R ++ [2]) t) U = .ok U1) :
    GATES.ctrl_turn body (R ++ [2]) cfuel (digits (R ++ [2]) t, 0, U) =
      .ok (digits (R ++ [2]) (t + 1), 0, U1) := by
  simp only [GATES.ctrl_turn, hb, advance_sentinel R t cfuel hpos ht hf]

/-- The state after `t` turns of the main loop. -/
theorem turns_run (body : List Nat → (Nat → Nat → S) → Except Fault (Nat → Nat → S))
    (R : List Nat) (cfuel : Nat) (W : Nat → Nat → Nat → S) (hpos : ∀ x ∈ R, 1 ≤ x)
    (hf : R.length ≤ cfuel)
    (hb : ∀ t, t < R.prod → body (digits (R ++ [2]) t) (W t) = .ok (W (t + 1))) :
    ∀ t, t ≤ R.prod →
      GATES.ctrl_turns body (R ++ [2]) cfuel t (digits (R ++ [2]) 0, 0, W 0) =
        .ok (digits (R ++ [2]) t, 0, W t) := by
  intro t
  induction t with
  | zero => intro _; rfl
  | succ t ih =>
    intro ht
    rw [GATES.ctrl_turns, ih (by omega)]
    exact turn_run body R cfuel t _ _ hpos (by omega) hf (hb t (by omega))

/-- The main loop from the state after `t` turns: it takes the remaining turns and stops. -/
theorem loop_run (body : List Nat → (Nat → Nat → S) → Except Fault (Nat → Nat → S))
    (R : List Nat) (cfuel : Nat) (W : Nat → Nat → Nat → S) (hpos : ∀ x ∈ R, 1 ≤ x)
    (hf : R.length ≤ cfuel)
    (hb : ∀ t, t < R.prod → body (digits (R ++ [2]) t) (W t) = .ok (W (t + 1))) :
    ∀ j t, t + j = R.prod → ∀ fuel,
      GATES.ctrl_loop body (R ++ [2]) R.length cfuel fuel (digits (R ++ [2]) t, 0, W t) =
        if j ≤ fuel then .ok (digits (R ++ [2]) R.prod, 0, W R.prod) else .error .fuel := by
  have hT : 1 ≤ R.prod := list_prod_pos R hpos
  intro j
  induction j with
  | zero =>
    intro t ht fuel
    have e : t = R.prod := by omega
    subst e
    have hs := sentinel_read R R.prod
    rw [Nat.div_self (by omega)] at hs
    cases fuel with
    | zero =>
      rw [GATES.ctrl_loop]
      simp only [hs]
      simp
    | succ f =>
      rw [GATES.ctrl_loop]
      simp only [hs]
      simp
  | succ j ih =>
    intro t ht fuel
    have hlt : t < R.prod := by omega
    have hs := sentinel_read R t
    rw [Nat.div_eq_of_lt hlt] at hs
    cases fuel with
    | zero =>
      rw [GATES.ctrl_loop]
      simp only [hs]
      simp
    | succ f =>
      rw [GATES.ctrl_loop]
      simp only [hs]
      rw [turn_run body R cfuel t _ _ hpos hlt hf (hb t hlt)]
      simp only [Nat.zero_mod, ne_eq, not_true_eq_false, if_false]
      rw [ih (t + 1) (by omega) f]
      simp only [Nat.add_le_add_iff_right]

end counter

/-- Each digit is below its radix. -/
theorem digits_lt (R : List Nat) (hpos : ∀ x ∈ R, 1 ≤ x) :
    ∀ t i, i < R.length → (digits R t).getD i 0 < R.getD i 0 := by
  induction R with
  | nil => intro t i hi; simp at hi
  | cons m ms ih =>
    intro t i hi
    have hm : 1 ≤ m := hpos m (by simp)
    cases i with
    | zero =>
      show t % m < m
      exact Nat.mod_lt _ (by omega)
    | succ i =>
      show (digits ms (t / m)).getD i 0 < ms.getD i 0
      exact ih (fun x hx => hpos x (by simp [hx])) _ _ (by simpa using hi)

/-- Membership in a `uvec`, as the code tests it. -/
theorem contains_iff (l : List Nat) (a : Nat) : l.contains a = true ↔ a ∈ l := by
  simp only [List.elem_eq_mem, decide_eq_true_eq]

/-- The members of `keep`. -/
theorem keep_mem (n : Nat) (sys : List Nat) (i : Nat) :
    (GATES.keep_list n sys).contains (i + 1) = true ↔ i < n ∧ (i + 1) ∉ sys := by
  rw [contains_iff]
  unfold GATES.keep_list
  simp only [List.mem_map, List.mem_filter, List.mem_range, Nat.add_right_cancel_iff]
  constructor
  · rintro ⟨a, ⟨h1, h2⟩, rfl⟩
    refine ⟨h1, ?_⟩
    intro h
    rw [(contains_iff sys (a + 1)).mpr h] at h2
    cases h2
  · rintro ⟨h1, h2⟩
    refine ⟨i, ⟨h1, ?_⟩, rfl⟩
    cases h : sys.contains (i + 1) with
    | false => rfl
    | true => exact absurd ((contains_iff _ _).mp h) h2

/-- A `zipWith` with the indices is a `map` over the indices. -/
theorem zipWith_range (f : Nat → Nat → Nat) (l : List Nat) :
    List.zipWith f (List.range l.length) l =
      (List.range l.length).map (fun i => f i (l.getD i 0)) := by
  apply List.ext_getElem
  · simp
  · intro i h1 h2
    have hi : i < l.length := by simpa using h1
    simp [List.getElem?_eq_getElem hi]

/-- The product of a list given by its entries. -/
theorem prod_map_range (g : Nat → Nat) (n : Nat) :
    ((List.range n).map g).prod = ∏ i in Finset.range n, g i := by
  induction n with
  | zero => simp
  | succ n ih => rw [List.prod_range_succ, Finset.prod_range_succ, ih]

/-- A product over the parties of `sys`, taken over all parties. -/
theorem reindex_prod (n : Nat) (f : Nat → Nat) (l : List Nat) (hnd : l.Nodup)
    (hv : ∀ s ∈ l, 1 ≤ s ∧ s ≤ n) :
    (∏ i in Finset.range n, if (i + 1) ∈ l then f i else 1) =
      (l.map (fun s => f (s - 1))).prod := by
  induction l with
  | nil => simp
  | cons c l ih =>
    have hc := hv c (by simp)
    have hcl : c ∉ l := (List.nodup_cons.mp hnd).1
    rw [List.map_cons, List.prod_cons, ← ih (List.nodup_cons.mp hnd).2
      (fun s hs => hv s (by simp [hs]))]
    have e : ∀ i ∈ Finset.range n, (if (i + 1) ∈ c :: l then f i else 1) =
        (if i = c - 1 then f i else 1) * (if (i + 1) ∈ l then f i else 1) := by
      intro i _
      by_cases h1 : i = c - 1
      · have h2 : i + 1 = c := by omega
        rw [if_pos (by simp [h2]), if_pos h1, if_neg (by rw [h2]; exact hcl), Nat.mul_one]
      · have h2 : i + 1 ≠ c := by omega
        rw [if_neg h1, Nat.one_mul]
        simp only [List.mem_cons, h2, false_or]
    rw [Finset.prod_congr rfl e, Finset.prod_mul_distrib]
    congr 1
    rw [Finset.prod_ite_eq']
    rw [if_pos (by simp; omega)]

/-- The array `MAX` is the dimensions, the column radices and the sentinel. -/
theorem ctrl_MAX_eq (sys dim : List Nat) :
    GATES.ctrl_MAX dim.length (GATES.keep_list dim.length sys) dim =
      (dim ++ (List.range dim.length).map
        (fun i => if (i + 1) ∈ sys then dim.getD i 0 else 1)) ++ [2] := by
  unfold GATES.ctrl_MAX
  rw [zipWith_range]
  congr 2
  apply List.map_congr_left
  intro i hi
  have hi : i < dim.length := List.mem_range.mp hi
  by_cases h : (i + 1) ∈ sys
  · rw [if_neg, if_pos h]
    rw [keep_mem]
    exact fun hh => hh.2 h
  · rw [if_pos ((keep_mem _ _ _).mpr ⟨hi, h⟩), if_neg h]

/-- The radices of the counter are from 1 on. -/
theorem radices_pos (sys dim : List Nat) (hdim : ∀ x ∈ dim, 1 ≤ x) :
    ∀ x ∈ dim ++ (List.range dim.length).map
        (fun i => if (i + 1) ∈ sys then dim.getD i 0 else 1), 1 ≤ x := by
  intro x hx
  rcases List.mem_append.mp hx with h | h
  · exact hdim x h
  · obtain ⟨i, hi, rfl⟩ := List.mem_map.mp h
    have hi : i < dim.length := List.mem_range.mp hi
    by_cases hs : (i + 1) ∈ sys
    · rw [if_pos hs, List.getD_eq_getElem _ _ hi]
      exact hdim _ (List.getElem_mem _)
    · rw [if_neg hs]

/-- The number of turns: the product of the radices without the sentinel. -/
theorem radices_prod (sys dim : List Nat) (hnd : sys.Nodup)
    (hv : ∀ s ∈ sys, 1 ≤ s ∧ s ≤ dim.length) :
    (dim ++ (List.range dim.length).map
        (fun i => if (i + 1) ∈ sys then dim.getD i 0 else 1)).prod =
      dim.prod * (sys.map (fun s => dim.getD (s - 1) 1)).prod := by
  rw [List.prod_append, prod_map_range, reindex_prod _ (fun i => dim.getD i 0) _ hnd hv]
  congr 2
  apply List.map_congr_left
  intro s hs
  have := hv s hs
  rw [List.getD_eq_getElem _ _ (by omega : s - 1 < dim.length),
    List.getD_eq_getElem _ _ (by omega : s - 1 < dim.length)]

/-! ## The loop body of `make_ctrl`: auxiliary lemmas -/

/-- A fold over the indices whose steps all return. -/
theorem foldlM_range_ok {α : Type} (f : α → Nat → Except Fault α) (g : Nat → α) :
    ∀ n, (∀ i, i < n → f (g i) i = .ok (g (i + 1))) →
      (List.range n).foldlM f (g 0) = .ok (g n) := by
  intro n
  induction n with
  | zero => intro _; rfl
  | succ n ih =>
    intro h
    rw [List.range_succ, List.foldlM_append, ih (fun i hi => h i (by omega))]
    simp only [bind, Except.bind, List.foldlM_cons, List.foldlM_nil, h n (by omega), pure,
      Except.pure]

/-- An addition and a multiplication on `uword` that do not wrap. -/
theorem uadd_umul (acc p a : Nat) (h : acc + p * a < uword_size) :
    uword_add acc (uword_mul p a) = acc + p * a := by
  unfold uword_add uword_mul
  rw [Nat.mod_eq_of_lt (by omega : p * a < uword_size), Nat.mod_eq_of_lt h]

/-- A partial sum is at most the sum. -/
theorem partial_sum_le (f : Nat → Nat) (k n : Nat) (h : k ≤ n) :
    ∑ i in Finset.range k, f i ≤ ∑ i in Finset.range n, f i :=
  Finset.sum_le_sum_of_subset (Finset.range_mono h)

/-- The counts `count1` and `count2` of a turn. -/
theorem ctrl_counts_eq (n : Nat) (ctrl lc : List Nat) (hlen : lc.length = 2 * n + 1) :
    GATES.ctrl_counts n ctrl lc =
      .ok (∑ i in Finset.range n,
            (if ctrl.contains (i + 1) = true ∧ lc.getD i 0 ≠ 0 then 1 else 0),
          ∑ i in Finset.range n, (if lc.getD (i + n) 0 = 0 then 1 else 0)) := by
  have h := foldlM_range_ok
    (fun (acc : Nat × Nat) i =>
      match arr_at lc i, arr_at lc (i + n) with
      | .ok a, .ok b =>
        .ok (acc.1 + (if ctrl.contains (i + 1) = true ∧ a ≠ 0 then 1 else 0),
          acc.2 + (if b = 0 then 1 else 0))
      | .error e, _ => .error e
      | _, .error e => .error e)
    (fun k => (∑ i in Finset.range k,
            (if ctrl.contains (i + 1) = true ∧ lc.getD i 0 ≠ 0 then 1 else 0),
          ∑ i in Finset.range k, (if lc.getD (i + n) 0 = 0 then 1 else 0))) n (by
      intro i hi
      simp only [arr_at_of_lt lc i (by omega), arr_at_of_lt lc (i + n) (by omega),
        Finset.sum_range_succ])
  exact h

/-- The index `I` of the first branch. -/
theorem ctrl_row_eq (n : Nat) (product lc : List Nat) (hp : product.length = n)
    (hlen : n ≤ lc.length)
    (hsum : ∑ i in Finset.range n, product.getD i 0 * lc.getD i 0 < uword_size) :
    GATES.ctrl_row n product lc =
      .ok (∑ i in Finset.range n, product.getD i 0 * lc.getD i 0) := by
  have h := foldlM_range_ok
    (fun (acc : Nat) i =>
      match arr_at product i, arr_at lc i with
      | .ok p, .ok a => .ok (uword_add acc (uword_mul p a))
      | .error e, _ => .error e
      | _, .error e => .error e)
    (fun k => ∑ i in Finset.range k, product.getD i 0 * lc.getD i 0) n (by
      intro i hi
      have hb := partial_sum_le (fun i => product.getD i 0 * lc.getD i 0) (i + 1) n (by omega)
      simp only [Finset.sum_range_succ] at hb
      simp only [arr_at_of_lt product i (by omega), arr_at_of_lt lc i (by omega),
        Finset.sum_range_succ]
      rw [uadd_umul _ _ _ (by omega)])
  exact h

/-- The indices `I`, `J`, `K`, `L` of the second branch. -/
theorem ctrl_index_eq (n : Nat) (keep sys product productr lc : List Nat)
    (hp : product.length = n) (hq : productr.length = sys.length)
    (hlen : lc.length = 2 * n + 1)
    (hI : ∑ i in Finset.range n, product.getD i 0 * lc.getD i 0 < uword_size)
    (hJ : ∑ i in Finset.range n, product.getD i 0 *
      (if keep.contains (i + 1) = true then lc.getD i 0 else lc.getD (i + n) 0) < uword_size)
    (hK : ∑ i in Finset.range n, (if sys.contains (i + 1) = true then
      productr.getD (sys.indexOf (i + 1)) 0 * lc.getD i 0 else 0) < uword_size)
    (hL : ∑ i in Finset.range n, (if sys.contains (i + 1) = true then
      productr.getD (sys.indexOf (i + 1)) 0 * lc.getD (i + n) 0 else 0) < uword_size) :
    GATES.ctrl_index n keep sys product productr lc =
      .ok (∑ i in Finset.range n, product.getD i 0 * lc.getD i 0,
        ∑ i in Finset.range n, product.getD i 0 *
          (if keep.contains (i + 1) = true then lc.getD i 0 else lc.getD (i + n) 0),
        ∑ i in Finset.range n, (if sys.contains (i + 1) = true then
          productr.getD (sys.indexOf (i + 1)) 0 * lc.getD i 0 else 0),
        ∑ i in Finset.range n, (if sys.contains (i + 1) = true then
          productr.getD (sys.indexOf (i + 1)) 0 * lc.getD (i + n) 0 else 0)) := by
  have h := foldlM_range_ok
    (fun (acc : Nat × Nat × Nat × Nat) i =>
      match arr_at product i, arr_at lc i, arr_at lc (i + n) with
      | .ok p, .ok a, .ok b =>
        let I := uword_add acc.1 (uword_mul p a)
        let J := uword_add acc.2.1
          (uword_mul p (if keep.contains (i + 1) = true then a else b))
        if sys.contains (i + 1) = true then
          match arr_at productr (sys.indexOf (i + 1)) with
          | .ok pr =>
            .ok (I, J, uword_add acc.2.2.1 (uword_mul pr a),
              uword_add acc.2.2.2 (uword_mul pr b))
          | .error e => .error e
        else .ok (I, J, acc.2.2.1, acc.2.2.2)
      | .error e, _, _ => .error e
      | _, .error e, _ => .error e
      | _, _, .error e => .error e)
    (fun k => (∑ i in Finset.range k, product.getD i 0 * lc.getD i 0,
        ∑ i in Finset.range k, product.getD i 0 *
          (if keep.contains (i + 1) = true then lc.getD i 0 else lc.getD (i + n) 0),
        ∑ i in Finset.range k, (if sys.contains (i + 1) = true then
          productr.getD (sys.indexOf (i + 1)) 0 * lc.getD i 0 else 0),
        ∑ i in Finset.range k, (if sys.contains (i + 1) = true then
          productr.getD (sys.indexOf (i + 1)) 0 * lc.getD (i + n) 0 else 0))) n (by
      intro i hi
      have hbI := partial_sum_le (fun i => product.getD i 0 * lc.getD i 0) (i + 1) n (by omega)
      have hbJ := partial_sum_le (fun i => product.getD i 0 *
          (if keep.contains (i + 1) = true then lc.getD i 0 else lc.getD (i + n) 0))
        (i + 1) n (by omega)
      have hbK := partial_sum_le (fun i => (if sys.contains (i + 1) = true then
          productr.getD (sys.indexOf (i + 1)) 0 * lc.getD i 0 else 0)) (i + 1) n (by omega)
      have hbL := partial_sum_le (fun i => (if sys.contains (i + 1) = true then
          productr.getD (sys.indexOf (i + 1)) 0 * lc.getD (i + n) 0 else 0)) (i + 1) n
        (by omega)
      simp only [Finset.sum_range_succ] at hbI hbJ hbK hbL
      simp only [arr_at_of_lt product i (by omega), arr_at_of_lt lc i (by omega),
        arr_at_of_lt lc (i + n) (by omega), Finset.sum_range_succ]
      rw [uadd_umul _ _ _ (by omega), uadd_umul _ _ _ (by omega)]
      by_cases hs : sys.contains (i + 1) = true
      · have hidx : sys.indexOf (i + 1) < productr.length := by
          rw [hq]
          exact List.indexOf_lt_length.mpr ((contains_iff _ _).mp hs)
        rw [if_pos hs] at hbK hbL
        simp only [if_pos hs, arr_at_of_lt productr _ hidx]
        rw [uadd_umul _ _ _ (by omega), uadd_umul _ _ _ (by omega)]
      · simp only [if_neg hs, Nat.add_zero])
  exact h

/-- A fold whose steps all add 1. -/
theorem foldlM_count {α : Type} (f : Nat → α → Except Fault Nat) :
    ∀ (cs : List α) (k : Nat), (∀ acc c, c ∈ cs → f acc c = .ok (acc + 1)) →
      cs.foldlM f k = .ok (k + cs.length) := by
  intro cs
  induction cs with
  | nil => intro k _; rfl
  | cons c cs ih =>
    intro k h
    rw [List.foldlM_cons, h k c (by simp)]
    simp only [bind, Except.bind]
    rw [ih (k + 1) (fun acc x hx => h acc x (by simp [hx]))]
    simp only [List.length_cons]
    congr 1
    omega

/-- The exponent when every control party is at 1. -/
theorem ctrl_power_one (ctrl lc : List Nat) (n : Nat) (hlen : n ≤ lc.length)
    (hn : n < uword_size) (hv : ∀ c ∈ ctrl, 1 ≤ c ∧ c ≤ n)
    (h1 : ∀ c ∈ ctrl, lc.getD (c - 1) 0 = 1) :
    GATES.ctrl_power ctrl lc = .ok 1 := by
  have hrd : ∀ c ∈ ctrl, arr_at lc (uword_sub c 1) = .ok 1 := by
    intro c hc
    have hc2 := hv c hc
    rw [uword_sub_one_eq c hc2.1 (lt_of_le_of_lt hc2.2 hn),
      arr_at_of_lt lc (c - 1) (by omega), h1 c hc]
  cases ctrl with
  | nil => rfl
  | cons c0 cs =>
    unfold GATES.ctrl_power
    simp only [hrd c0 (by simp)]
    generalize hfold : (List.foldlM _ 1 cs : Except Fault Nat) = r
    have hr : r = .ok (1 + cs.length) := by
      rw [← hfold]
      refine foldlM_count _ cs 1 ?_
      intro acc c hc
      simp only [hrd c (by simp [hc]), if_true]
    rw [hr]
    simp only [List.length_cons]
    rw [if_pos (by omega)]

/-! ## Strides, multi-indices and sums over the parties -/

/-- The strides have the length of the dimensions. -/
theorem strides_length (R : List Nat) : (strides R).length = R.length := by
  induction R with
  | nil => rfl
  | cons d ds ih => simp [strides, ih]

/-- The entries of the strides. -/
theorem strides_getD (R : List Nat) :
    ∀ i, i < R.length → (strides R).getD i 0 = (R.drop (i + 1)).prod := by
  induction R with
  | nil => intro i hi; simp at hi
  | cons d ds ih =>
    intro i hi
    cases i with
    | zero => rfl
    | succ i => exact ih i (by simpa using hi)

/-- The product of a tail of the dimensions is at most the product. -/
theorem suffix_prod_le (R : List Nat) (hpos : ∀ x ∈ R, 1 ≤ x) (j : Nat) :
    (R.drop j).prod ≤ R.prod := by
  have h := List.prod_take_mul_prod_drop R j
  have h1 : 1 ≤ (R.take j).prod :=
    list_prod_pos _ (fun x hx => hpos x (List.mem_of_mem_take hx))
  calc (R.drop j).prod = 1 * (R.drop j).prod := (Nat.one_mul _).symm
    _ ≤ (R.take j).prod * (R.drop j).prod := Nat.mul_le_mul_right _ h1
    _ = R.prod := h

/-- The loop that fills a stride array from the back. -/
theorem stride_loop_eq (f : Nat → Except Fault Nat) (R : List Nat) (hpos : ∀ x ∈ R, 1 ≤ x)
    (hR : R.prod < uword_size)
    (hf : ∀ i, i + 1 < R.length → f i = .ok (R.getD (i + 1) 0)) :
    ∀ k, k < R.length → GATES.stride_loop f k (strides (R.drop k)) = .ok (strides R) := by
  intro k
  induction k with
  | zero => intro _; rfl
  | succ k ih =>
    intro hk
    have e1 : R.drop (k + 1) = R.getD (k + 1) 0 :: R.drop (k + 2) := by
      rw [List.getD_eq_getElem _ _ hk]
      exact List.drop_eq_getElem_cons hk
    have e0 : R.drop k = R.getD k 0 :: R.drop (k + 1) := by
      rw [List.getD_eq_getElem _ _ (by omega : k < R.length)]
      exact List.drop_eq_getElem_cons (by omega)
    have hle := suffix_prod_le R hpos (k + 1)
    have e2 : (R.drop (k + 1)).prod = R.getD (k + 1) 0 * (R.drop (k + 2)).prod := by
      rw [e1, List.prod_cons]
    rw [GATES.stride_loop, hf k hk]
    simp only
    have e3 : uword_mul ((strides (R.drop (k + 1))).headD 0) (R.getD (k + 1) 0) =
        (R.drop (k + 1)).prod := by
      rw [e1]
      show uword_mul (R.drop (k + 2)).prod (R.getD (k + 1) 0) = _
      unfold uword_mul
      rw [← e1, e2, Nat.mul_comm]
      exact Nat.mod_eq_of_lt (by rw [← e2]; omega)
    rw [e3]
    have e4 : (R.drop (k + 1)).prod :: strides (R.drop (k + 1)) = strides (R.drop k) := by
      rw [e0]
      rfl
    rw [e4]
    exact ih (by omega)

/-- A stride array of the code holds the strides. -/
theorem stride_array_eq (MAXQDIT : Nat) (f : Nat → Except Fault Nat) (R : List Nat)
    (hpos : ∀ x ∈ R, 1 ≤ x) (hR : R.prod < uword_size) (h1 : 1 ≤ R.length)
    (h2 : R.length ≤ MAXQDIT)
    (hf : ∀ i, i + 1 < R.length → f i = .ok (R.getD (i + 1) 0)) :
    GATES.stride_array MAXQDIT R.length f = .ok (strides R) := by
  unfold GATES.stride_array
  rw [if_neg (by omega)]
  have e : strides (R.drop (R.length - 1)) = [1] := by
    have hk : R.length - 1 < R.length := by omega
    rw [List.drop_eq_getElem_cons hk]
    have : R.length - 1 + 1 = R.length := by omega
    rw [this, List.drop_length]
    rfl
  rw [← e]
  exact stride_loop_eq f R hpos hR hf _ (by omega)

/-- The multi-index has the length of the dimensions. -/
theorem multi_index_length (R : List Nat) : ∀ I, (multi_index R I).length = R.length := by
  induction R with
  | nil => intro I; rfl
  | cons d ds ih => intro I; simp [multi_index, ih]

/-- The index built from digits below the dimensions is below the product of the
dimensions and has these digits as its multi-index. -/
theorem multi_index_sum (R : List Nat) :
    ∀ x : Nat → Nat, (∀ i, i < R.length → x i < R.getD i 0) →
      (∑ i in Finset.range R.length, (R.drop (i + 1)).prod * x i) < R.prod ∧
      multi_index R (∑ i in Finset.range R.length, (R.drop (i + 1)).prod * x i) =
        (List.range R.length).map x := by
  induction R with
  | nil => intro x _; exact ⟨by simp, rfl⟩
  | cons d ds ih =>
    intro x hx
    have hx0 : x 0 < d := by simpa using hx 0 (by simp)
    obtain ⟨h1, h2⟩ := ih (fun i => x (i + 1)) (fun i hi => by
      simpa using hx (i + 1) (by simpa using hi))
    have hP : 0 < ds.prod := by omega
    have e : (∑ i in Finset.range (d :: ds).length, ((d :: ds).drop (i + 1)).prod * x i) =
        (∑ i in Finset.range ds.length, (ds.drop (i + 1)).prod * x (i + 1)) +
          ds.prod * x 0 := by
      rw [List.length_cons, Finset.sum_range_succ']
      rfl
    rw [e]
    generalize (∑ i in Finset.range ds.length, (ds.drop (i + 1)).prod * x (i + 1)) = I1
      at h1 h2
    constructor
    · rw [List.prod_cons]
      calc I1 + ds.prod * x 0 < ds.prod + ds.prod * x 0 := by omega
        _ = ds.prod * (x 0 + 1) := by ring
        _ ≤ ds.prod * d := Nat.mul_le_mul_left _ hx0
        _ = d * ds.prod := Nat.mul_comm _ _
    · show ((I1 + ds.prod * x 0) / ds.prod) % d ::
        multi_index ds ((I1 + ds.prod * x 0) % ds.prod) = _
      rw [Nat.add_mul_div_left _ _ hP, Nat.div_eq_of_lt h1, Nat.zero_add,
        Nat.mod_eq_of_lt hx0, Nat.add_mul_mod_self_left, Nat.mod_eq_of_lt h1, h2,
        List.length_cons, List.range_succ_eq_map, List.map_cons, List.map_map]
      rfl

/-- An index below the product of the dimensions is built from its multi-index. -/
theorem sum_multi_index (R : List Nat) :
    ∀ I, I < R.prod →
      (∑ i in Finset.range R.length, (R.drop (i + 1)).prod * (multi_index R I).getD i 0) =
        I := by
  induction R with
  | nil =>
    intro I hI
    simp only [List.prod_nil, Nat.lt_one_iff] at hI
    simp [hI]
  | cons d ds ih =>
    intro I hI
    rw [List.prod_cons] at hI
    have hP : 0 < ds.prod := by
      rcases Nat.eq_zero_or_pos ds.prod with h | h
      · rw [h] at hI
        omega
      · exact h
    have hq : I / ds.prod < d := Nat.div_lt_of_lt_mul (by rw [Nat.mul_comm]; exact hI)
    have e : (∑ i in Finset.range (d :: ds).length,
        ((d :: ds).drop (i + 1)).prod * (multi_index (d :: ds) I).getD i 0) =
        (∑ i in Finset.range ds.length,
          (ds.drop (i + 1)).prod * (multi_index ds (I % ds.prod)).getD i 0) +
          ds.prod * ((I / ds.prod) % d) := by
      rw [List.length_cons, Finset.sum_range_succ']
      rfl
    rw [e, ih _ (Nat.mod_lt _ hP), Nat.mod_eq_of_lt hq]
    exact Nat.mod_add_div I ds.prod

/-- The sub-index as a sum over the positions. -/
theorem sub_index_sum (R : List Nat) :
    ∀ xs : List Nat, xs.length = R.length →
      sub_index R xs = ∑ k in Finset.range R.length, (R.drop (k + 1)).prod * xs.getD k 0 := by
  induction R with
  | nil => intro xs _; cases xs <;> simp [sub_index]
  | cons d ds ih =>
    intro xs hlen
    cases xs with
    | nil => simp at hlen
    | cons x xs =>
      rw [List.length_cons, Finset.sum_range_succ']
      show x * ds.prod + sub_index ds xs = _
      rw [ih xs (by simpa using hlen)]
      simp only [List.drop_succ_cons, List.getD_cons_succ, List.drop_zero, List.getD_cons_zero]
      ring

/-- A sum over the parties of a list, taken over all parties. -/
theorem reindex_sum (n : Nat) (l : List Nat) :
    ∀ (g : Nat → Nat → Nat), l.Nodup → (∀ s ∈ l, 1 ≤ s ∧ s ≤ n) →
      (∑ i in Finset.range n, if (i + 1) ∈ l then g (l.indexOf (i + 1)) i else 0) =
        ∑ k in Finset.range l.length, g k (l.getD k 0 - 1) := by
  induction l with
  | nil => intro g _ _; simp
  | cons c l ih =>
    intro g hnd hv
    have hc := hv c (by simp)
    have hcl : c ∉ l := (List.nodup_cons.mp hnd).1
    have e : ∀ i ∈ Finset.range n,
        (if (i + 1) ∈ c :: l then g ((c :: l).indexOf (i + 1)) i else 0) =
        (if i = c - 1 then g 0 i else 0) +
          (if (i + 1) ∈ l then g (l.indexOf (i + 1) + 1) i else 0) := by
      intro i _
      by_cases h1 : i = c - 1
      · have h2 : i + 1 = c := by omega
        rw [if_pos (by simp [h2]), if_pos h1, if_neg (by rw [h2]; exact hcl), h2,
          List.indexOf_cons_self, Nat.add_zero]
      · have h2 : i + 1 ≠ c := by omega
        rw [if_neg h1, Nat.zero_add]
        by_cases h3 : (i + 1) ∈ l
        · rw [if_pos (by simp [h3]), if_pos h3, List.indexOf_cons_ne _ (Ne.symm h2)]
        · rw [if_neg (by simp [h2, h3]), if_neg h3]
    rw [Finset.sum_congr rfl e, Finset.sum_add_distrib, Finset.sum_ite_eq',
      if_pos (by simp; omega), ih (fun k i => g (k + 1) i) (List.nodup_cons.mp hnd).2
        (fun s hs => hv s (by simp [hs])), List.length_cons, Finset.sum_range_succ']
    simp only [List.getD_cons_succ, List.getD_cons_zero]
    ring

/-- A sum of indicators over the indices below `n` is `n` when all of them hold. -/
theorem ind_sum_eq (p : Nat → Prop) [DecidablePred p] (n : Nat) :
    (∑ i in Finset.range n, if p i then 1 else 0) ≤ n ∧
      ((∑ i in Finset.range n, if p i then 1 else 0) = n ↔ ∀ i, i < n → p i) := by
  induction n with
  | zero => simp
  | succ n ih =>
    obtain ⟨h1, h2⟩ := ih
    rw [Finset.sum_range_succ]
    by_cases hp : p n
    · rw [if_pos hp]
      refine ⟨by omega, ?_⟩
      constructor
      · intro h i hi
        rcases Nat.lt_succ_iff_lt_or_eq.mp hi with h3 | h3
        · exact h2.mp (by omega) i h3
        · rw [h3]; exact hp
      · intro h
        have := h2.mpr (fun i hi => h i (by omega))
        omega
    · rw [if_neg hp]
      refine ⟨by omega, ?_⟩
      constructor
      · intro h; omega
      · intro h; exact absurd (h n (by omega)) hp

/-- The count `count1` reaches the number of control parties when every control party is
away from 0. -/
theorem count_ctrl (n : Nat) (ctrl : List Nat) (r : Nat → Nat) (hnd : ctrl.Nodup)
    (hv : ∀ c ∈ ctrl, 1 ≤ c ∧ c ≤ n) :
    (∑ i in Finset.range n, (if ctrl.contains (i + 1) = true ∧ r i ≠ 0 then 1 else 0)) =
        ctrl.length ↔ ∀ c ∈ ctrl, r (c - 1) ≠ 0 := by
  have e : (∑ i in Finset.range n, (if ctrl.contains (i + 1) = true ∧ r i ≠ 0 then 1 else 0)) =
      ∑ k in Finset.range ctrl.length, (if r (ctrl.getD k 0 - 1) ≠ 0 then 1 else 0) := by
    rw [← reindex_sum n ctrl (fun _ i => if r i ≠ 0 then 1 else 0) hnd hv]
    apply Finset.sum_congr rfl
    intro i _
    by_cases hm : (i + 1) ∈ ctrl
    · have hc := (contains_iff ctrl (i + 1)).mpr hm
      simp only [hc, true_and, if_pos hm]
    · have hc : ¬ (ctrl.contains (i + 1) = true) := fun h => hm ((contains_iff _ _).mp h)
      rw [if_neg (fun h => hc h.1), if_neg hm]
  rw [e, (ind_sum_eq (fun k => r (ctrl.getD k 0 - 1) ≠ 0) ctrl.length).2]
  constructor
  · intro h c hc
    obtain ⟨k, hk, rfl⟩ := List.getElem_of_mem hc
    have := h k hk
    rw [List.getD_eq_getElem _ _ hk] at this
    exact this
  · intro h k hk
    rw [List.getD_eq_getElem _ _ hk]
    exact h _ (List.getElem_mem _)

/-! ## The entries written by the loop body of `make_ctrl` -/

/-- An entry of a list given by its entries. -/
theorem getD_map_range (f : Nat → Nat) (n i : Nat) (h : i < n) :
    ((List.range n).map f).getD i 0 = f i := by
  rw [List.getD_eq_getElem _ _ (by simpa using h)]
  simp

/-- An entry of a mapped list. -/
theorem getD_map_lt (f : Nat → Nat) (l : List Nat) (k : Nat) (h : k < l.length) :
    (l.map f).getD k 0 = f (l.getD k 0) := by
  rw [List.getD_eq_getElem _ _ (by simpa using h), List.getD_eq_getElem _ _ h]
  simp

/-- Inside a list the default of `getD` does not matter. -/
theorem getD_default (l : List Nat) (i a b : Nat) (h : i < l.length) :
    l.getD i a = l.getD i b := by
  rw [List.getD_eq_getElem _ _ h, List.getD_eq_getElem _ _ h]

/-- Each digit of a multi-index is below its dimension. -/
theorem multi_index_lt (R : List Nat) (hpos : ∀ x ∈ R, 1 ≤ x) :
    ∀ I i, i < R.length → (multi_index R I).getD i 0 < R.getD i 1 := by
  induction R with
  | nil => intro I i hi; simp at hi
  | cons d ds ih =>
    intro I i hi
    have hd : 1 ≤ d := hpos d (by simp)
    cases i with
    | zero =>
      show (I / ds.prod) % d < d
      exact Nat.mod_lt _ (by omega)
    | succ i =>
      show (multi_index ds (I % ds.prod)).getD i 0 < ds.getD i 1
      exact ih (fun x hx => hpos x (by simp [hx])) _ _ (by simpa using hi)

/-- The row of a counter is below the product of the dimensions, and its multi-index is the
row digits of the counter. -/
theorem counter_row_spec (dim sys lc : List Nat) (h : CounterOK dim sys lc) :
    counter_row dim lc < dim.prod ∧
      multi_index dim (counter_row dim lc) =
        (List.range dim.length).map (fun i => lc.getD i 0) :=
  multi_index_sum dim (fun i => lc.getD i 0) (fun i hi => by
    rw [getD_default dim i 0 1 hi]
    exact h.row i hi)

/-- The column of a counter is below the product of the dimensions, and its multi-index is
the column digits on the parties of `sys` and the row digits on the others. -/
theorem counter_col_spec (dim sys lc : List Nat) (h : CounterOK dim sys lc) :
    counter_col dim sys lc < dim.prod ∧
      multi_index dim (counter_col dim sys lc) =
        (List.range dim.length).map
          (fun i => if (i + 1) ∈ sys then lc.getD (i + dim.length) 0 else lc.getD i 0) :=
  multi_index_sum dim
    (fun i => if (i + 1) ∈ sys then lc.getD (i + dim.length) 0 else lc.getD i 0)
    (fun i hi => by
      rw [getD_default dim i 0 1 hi]
      have h1 := h.row i hi
      have h2 := h.col i hi
      beta_reduce
      by_cases hs : (i + 1) ∈ sys
      · rw [if_pos hs] at h2 ⊢
        exact h2
      · rw [if_neg hs]
        exact h1)

/-- The sub-index computed by the loop body, for digits below 2 on the parties of `sys`: it
is the sub-index of these digits, it is below `2 ^ m`, and it determines the digits. -/
theorem sub_index_code (n : Nat) (sys : List Nat) (x : Nat → Nat) (hnd : sys.Nodup)
    (hv : ∀ s ∈ sys, 1 ≤ s ∧ s ≤ n) (hx : ∀ s ∈ sys, x (s - 1) < 2) :
    (∑ i in Finset.range n, (if sys.contains (i + 1) = true then
        (strides (List.replicate sys.length 2)).getD (sys.indexOf (i + 1)) 0 * x i else 0)) =
        sub_index (List.replicate sys.length 2) (sys.map (fun s => x (s - 1))) ∧
      sub_index (List.replicate sys.length 2) (sys.map (fun s => x (s - 1))) <
        2 ^ sys.length ∧
      multi_index (List.replicate sys.length 2)
        (sub_index (List.replicate sys.length 2) (sys.map (fun s => x (s - 1)))) =
        sys.map (fun s => x (s - 1)) := by
  have hlen : (List.replicate sys.length 2).length = sys.length := List.length_replicate _ _
  have e1 : (∑ i in Finset.range n, (if sys.contains (i + 1) = true then
        (strides (List.replicate sys.length 2)).getD (sys.indexOf (i + 1)) 0 * x i else 0)) =
      ∑ k in Finset.range sys.length,
        ((List.replicate sys.length 2).drop (k + 1)).prod * x (sys.getD k 0 - 1) := by
    calc (∑ i in Finset.range n, (if sys.contains (i + 1) = true then
          (strides (List.replicate sys.length 2)).getD (sys.indexOf (i + 1)) 0 * x i else 0))
        = ∑ i in Finset.range n, (if (i + 1) ∈ sys then
          (strides (List.replicate sys.length 2)).getD (sys.indexOf (i + 1)) 0 * x i
            else 0) := by
          apply Finset.sum_congr rfl
          intro i _
          by_cases hm : (i + 1) ∈ sys
          · rw [if_pos ((contains_iff sys (i + 1)).mpr hm), if_pos hm]
          · rw [if_neg (fun h => hm ((contains_iff _ _).mp h)), if_neg hm]
      _ = ∑ k in Finset.range sys.length,
          (strides (List.replicate sys.length 2)).getD k 0 * x (sys.getD k 0 - 1) :=
          reindex_sum n sys
            (fun k i => (strides (List.replicate sys.length 2)).getD k 0 * x i) hnd hv
      _ = _ := by
          apply Finset.sum_congr rfl
          intro k hk
          rw [strides_getD _ k (by rw [hlen]; exact Finset.mem_range.mp hk)]
  have e2 : sub_index (List.replicate sys.length 2) (sys.map (fun s => x (s - 1))) =
      ∑ k in Finset.range sys.length,
        ((List.replicate sys.length 2).drop (k + 1)).prod * x (sys.getD k 0 - 1) := by
    rw [sub_index_sum _ _ (by simp), hlen]
    apply Finset.sum_congr rfl
    intro k hk
    rw [getD_map_lt _ _ _ (Finset.mem_range.mp hk)]
  have h3 := multi_index_sum (List.replicate sys.length 2) (fun k => x (sys.getD k 0 - 1))
    (fun k hk => by
      rw [hlen] at hk
      beta_reduce
      have hr2 : (List.replicate sys.length 2).getD k 0 = 2 := by
        simp [List.getD_eq_getElem?_getD, List.getElem?_replicate, hk]
      rw [hr2, List.getD_eq_getElem _ _ hk]
      exact hx _ (List.getElem_mem _))
  rw [hlen, ← e2, List.prod_replicate] at h3
  refine ⟨e1.trans e2.symm, h3.1, h3.2.trans ?_⟩
  apply List.ext_getElem
  · simp
  · intro k h1 h2
    have hk : k < sys.length := by simpa using h2
    simp only [List.getElem_map, List.getElem_range, List.getD_eq_getElem _ _ hk]

/-- The dimensions of the parties of `sys` are 2. -/
theorem sys_dims_eq (dim sys ctrl : List Nat) (hwf : CtrlWF dim sys ctrl) :
    sys.map (fun s => dim.getD (s - 1) 1) = List.replicate sys.length 2 := by
  rw [List.eq_replicate_iff]
  refine ⟨by simp, ?_⟩
  intro b hb
  obtain ⟨s, hs, rfl⟩ := List.mem_map.mp hb
  exact hwf.sys_qubit s hs

/-- The entry of the controlled gate at a row and a column with given multi-indices. -/
theorem controlled_gate_eval {S : Type} [CommRing S] (A : Mat S) (ctrl sys dim : List Nat)
    (hwf : CtrlWF dim sys ctrl) (x y : Nat) (X Y : Nat → Nat)
    (hX : multi_index dim x = (List.range dim.length).map X)
    (hY : multi_index dim y = (List.range dim.length).map Y) :
    controlled_gate A ctrl sys dim x y =
      if ∀ i, i < dim.length → (i + 1) ∉ sys → X i = Y i then
        if ∀ c ∈ ctrl, X (c - 1) = 1 then
          match A.entry (sub_index (List.replicate sys.length 2) (sys.map (fun s => X (s - 1))))
              (sub_index (List.replicate sys.length 2) (sys.map (fun s => Y (s - 1)))) with
          | .ok v => v
          | .error _ => 0
        else if sub_index (List.replicate sys.length 2) (sys.map (fun s => X (s - 1))) =
            sub_index (List.replicate sys.length 2) (sys.map (fun s => Y (s - 1))) then 1
          else 0
      else 0 := by
  have e1 := sys_dims_eq dim sys ctrl hwf
  have e2 : ∀ Z : Nat → Nat, sys.map (fun s => ((List.range dim.length).map Z).getD (s - 1) 0) =
      sys.map (fun s => Z (s - 1)) := by
    intro Z
    apply List.map_congr_left
    intro s hs
    have := hwf.sys_valid s hs
    exact getD_map_range Z _ _ (by omega)
  have c1 : (∀ i, i < dim.length → (i + 1) ∉ sys →
      ((List.range dim.length).map X).getD i 0 = ((List.range dim.length).map Y).getD i 0) ↔
      (∀ i, i < dim.length → (i + 1) ∉ sys → X i = Y i) := by
    constructor
    · intro h i hi hs
      have := h i hi hs
      rw [getD_map_range X _ _ hi, getD_map_range Y _ _ hi] at this
      exact this
    · intro h i hi hs
      rw [getD_map_range X _ _ hi, getD_map_range Y _ _ hi]
      exact h i hi hs
  have c2 : (∀ c ∈ ctrl, ((List.range dim.length).map X).getD (c - 1) 0 = 1) ↔
      (∀ c ∈ ctrl, X (c - 1) = 1) := by
    constructor
    · intro h c hc
      have := h c hc
      have hv := hwf.ctrl_valid c hc
      rw [getD_map_range X _ _ (by omega)] at this
      exact this
    · intro h c hc
      have hv := hwf.ctrl_valid c hc
      rw [getD_map_range X _ _ (by omega)]
      exact h c hc
  unfold controlled_gate
  simp only [hX, hY, e1, e2, c1, c2]

section body

variable {S : Type} [CommRing S]

/-- The loop body of `make_ctrl` on a counter of the loop returns; it leaves each entry as
it is or sets it to the entry of the controlled gate, and it sets the entry at the row and
the column of the counter when every control party is away from 0, and the diagonal entry
at the row of the counter when some control party is at 0 and the column digits are 0. -/
theorem ctrl_body_spec (E : Internal S) (A : Mat S) (ctrl sys dim : List Nat) (p_num : Nat)
    (lc : List Nat) (hwf : CtrlWF dim sys ctrl)
    (hA : A.n_rows = 2 ^ sys.length ∧ A.n_cols = 2 ^ sys.length)
    (hpow : E.powm_gen A 1 = A) (hp : 1 ≤ p_num) (hlc : CounterOK dim sys lc)
    (U : Nat → Nat → S) :
    ∃ U1, GATES.ctrl_body E A dim.length ctrl sys (GATES.keep_list dim.length sys)
          (strides dim) (strides (List.replicate sys.length 2)) p_num dim.prod lc U =
        .ok U1 ∧
      (∀ x y, U1 x y = U x y ∨ U1 x y = controlled_gate A ctrl sys dim x y) ∧
      (∀ x y, x = counter_row dim lc →
        (((∀ c ∈ ctrl, lc.getD (c - 1) 0 ≠ 0) ∧ y = counter_col dim sys lc) ∨
          ((¬ ∀ c ∈ ctrl, lc.getD (c - 1) 0 ≠ 0) ∧
            (∀ i, i < dim.length → lc.getD (i + dim.length) 0 = 0) ∧ y = x)) →
        U1 x y = controlled_gate A ctrl sys dim x y) := by
  obtain ⟨hIlt, hImi⟩ := counter_row_spec dim sys lc hlc
  obtain ⟨hJlt, hJmi⟩ := counter_col_spec dim sys lc hlc
  have hNlt := hwf.prod_lt
  have hrow2 : ∀ s ∈ sys, lc.getD (s - 1) 0 < 2 := by
    intro s hs
    have hv := hwf.sys_valid s hs
    have := hlc.row (s - 1) (by omega)
    rw [hwf.sys_qubit s hs] at this
    exact this
  have hcol2 : ∀ s ∈ sys, lc.getD (s - 1 + dim.length) 0 < 2 := by
    intro s hs
    have hv := hwf.sys_valid s hs
    have := hlc.col (s - 1) (by omega)
    have e : s - 1 + 1 = s := by omega
    rw [e, if_pos hs, hwf.sys_qubit s hs] at this
    exact this
  have hctl2 : ∀ c ∈ ctrl, lc.getD (c - 1) 0 < 2 := by
    intro c hc
    have hv := hwf.ctrl_valid c hc
    have := hlc.row (c - 1) (by omega)
    rw [hwf.ctrl_qubit c hc] at this
    exact this
  obtain ⟨hK1, hK2, _⟩ := sub_index_code dim.length sys (fun i => lc.getD i 0)
    hwf.sys_nodup hwf.sys_valid hrow2
  obtain ⟨hL1, hL2, _⟩ := sub_index_code dim.length sys (fun i => lc.getD (i + dim.length) 0)
    hwf.sys_nodup hwf.sys_valid hcol2
  have hIc : (∑ i in Finset.range dim.length, (strides dim).getD i 0 * lc.getD i 0) =
      counter_row dim lc := by
    unfold counter_row
    apply Finset.sum_congr rfl
    intro i hi
    rw [strides_getD dim i (Finset.mem_range.mp hi)]
  have hJc : (∑ i in Finset.range dim.length, (strides dim).getD i 0 *
      (if (GATES.keep_list dim.length sys).contains (i + 1) = true then lc.getD i 0
        else lc.getD (i + dim.length) 0)) = counter_col dim sys lc := by
    unfold counter_col
    apply Finset.sum_congr rfl
    intro i hi
    have hi2 := Finset.mem_range.mp hi
    rw [strides_getD dim i hi2]
    by_cases hs : (i + 1) ∈ sys
    · rw [if_neg (fun h => ((keep_mem _ _ _).mp h).2 hs), if_pos hs]
    · rw [if_pos ((keep_mem _ _ _).mpr ⟨hi2, hs⟩), if_neg hs]
  have hcnt := ctrl_counts_eq dim.length ctrl lc hlc.len
  have hiff1 := count_ctrl dim.length ctrl (fun i => lc.getD i 0) hwf.ctrl_nodup
    hwf.ctrl_valid
  have hiff2 := (ind_sum_eq (fun i => lc.getD (i + dim.length) 0 = 0) dim.length).2
  have hgate := controlled_gate_eval A ctrl sys dim hwf
  unfold GATES.ctrl_body
  rw [hcnt]
  simp only
  by_cases hall : ∀ c ∈ ctrl, lc.getD (c - 1) 0 ≠ 0
  · have hc1 := hiff1.mpr hall
    rw [if_neg (fun h => h.1 hc1), if_pos hc1]
    have hone : ∀ c ∈ ctrl, lc.getD (c - 1) 0 = 1 := by
      intro c hc
      have h1 := hall c hc
      have h2 := hctl2 c hc
      omega
    have hidx := ctrl_index_eq dim.length (GATES.keep_list dim.length sys) sys (strides dim)
      (strides (List.replicate sys.length 2)) lc (strides_length dim)
      (by rw [strides_length, List.length_replicate]) hlc.len
      (by rw [hIc]; omega) (by rw [hJc]; omega)
      (by rw [hK1]; exact lt_trans hK2 hwf.pow_lt) (by rw [hL1]; exact lt_trans hL2 hwf.pow_lt)
    rw [hIc, hJc, hK1, hL1] at hidx
    have hpw := ctrl_power_one ctrl lc dim.length (by rw [hlc.len]; omega) hwf.len_lt
      hwf.ctrl_valid hone
    rw [hidx, hpw]
    simp only
    rw [if_pos hp, hpow]
    have hent : A.entry
        (sub_index (List.replicate sys.length 2) (sys.map (fun s => lc.getD (s - 1) 0)))
        (sub_index (List.replicate sys.length 2)
          (sys.map (fun s => lc.getD (s - 1 + dim.length) 0))) =
        .ok (A.mem ⟨_, by rw [hA.1]; exact hK2⟩ ⟨_, by rw [hA.2]; exact hL2⟩) := by
      unfold Mat.entry
      rw [dif_pos ⟨by rw [hA.1]; exact hK2, by rw [hA.2]; exact hL2⟩]
    rw [hent]
    simp only
    unfold mat_put
    rw [if_pos ⟨hIlt, hJlt⟩]
    have hval : controlled_gate A ctrl sys dim (counter_row dim lc) (counter_col dim sys lc) =
        A.mem ⟨_, by rw [hA.1]; exact hK2⟩ ⟨_, by rw [hA.2]; exact hL2⟩ := by
      rw [hgate _ _ _ _ hImi hJmi]
      have hsm : sys.map (fun s => if (s - 1 + 1) ∈ sys then lc.getD (s - 1 + dim.length) 0
          else lc.getD (s - 1) 0) = sys.map (fun s => lc.getD (s - 1 + dim.length) 0) := by
        apply List.map_congr_left
        intro s hs
        have hv := hwf.sys_valid s hs
        have e : s - 1 + 1 = s := by omega
        rw [e, if_pos hs]
      rw [if_pos (fun i _ hs => by rw [if_neg hs]), if_pos hone, hsm, hent]
    refine ⟨_, rfl, ?_, ?_⟩
    · intro x y
      by_cases hxy : x = counter_row dim lc ∧ y = counter_col dim sys lc
      · right
        rw [if_pos hxy, hxy.1, hxy.2, hval]
      · left
        rw [if_neg hxy]
    · intro x y hx hc
      rcases hc with ⟨_, hy⟩ | ⟨hn, _⟩
      · rw [if_pos ⟨hx, hy⟩, hx, hy, hval]
      · exact absurd hall hn
  · have hc1 : ¬ (∑ i in Finset.range dim.length,
        (if ctrl.contains (i + 1) = true ∧ (fun i => lc.getD i 0) i ≠ 0 then 1 else 0)) =
        ctrl.length := fun h => hall (hiff1.mp h)
    have hdiag : controlled_gate A ctrl sys dim (counter_row dim lc) (counter_row dim lc) =
        1 := by
      rw [hgate _ _ _ _ hImi hImi, if_pos (fun _ _ _ => rfl), if_neg, if_pos rfl]
      intro h
      apply hall
      intro c hc
      rw [h c hc]
      exact Nat.one_ne_zero
    by_cases hz : ∀ i, i < dim.length → lc.getD (i + dim.length) 0 = 0
    · have hc2 := hiff2.mpr hz
      rw [if_pos ⟨hc1, hc2⟩]
      have hrw := ctrl_row_eq dim.length (strides dim) lc (strides_length dim)
        (by rw [hlc.len]; omega) (by rw [hIc]; omega)
      rw [hIc] at hrw
      rw [hrw]
      simp only
      unfold mat_put
      rw [if_pos ⟨hIlt, hIlt⟩]
      refine ⟨_, rfl, ?_, ?_⟩
      · intro x y
        by_cases hxy : x = counter_row dim lc ∧ y = counter_row dim lc
        · right
          rw [if_pos hxy, hxy.1, hxy.2, hdiag]
        · left
          rw [if_neg hxy]
      · intro x y hx hc
        rcases hc with ⟨ha, _⟩ | ⟨_, _, hy⟩
        · exact absurd ha hall
        · rw [if_pos ⟨hx, hy.trans hx⟩, hy, hx, hdiag]
    · have hc2 : ¬ (∑ i in Finset.range dim.length,
          (if lc.getD (i + dim.length) 0 = 0 then 1 else 0)) = dim.length :=
        fun h => hz (hiff2.mp h)
      rw [if_neg (fun h => hc2 h.2), if_neg hc1]
      refine ⟨_, rfl, fun x y => Or.inl rfl, ?_⟩
      intro x y _ hc
      rcases hc with ⟨ha, _⟩ | ⟨_, hzz, _⟩
      · exact absurd ha hall
      · exact absurd hzz hz

end body

/-- The entries after a run of turns each of which leaves an entry as it is or sets it to
the entry of `F`, when every non-zero entry of `F` is set in some turn. -/
theorem writes_fold {S : Type} [Zero S] (F : Nat → Nat → S) (W : Nat → Nat → Nat → S)
    (T N : Nat) (h0 : W 0 = fun _ _ => 0)
    (hA : ∀ t, t < T → ∀ x y, W (t + 1) x y = W t x y ∨ W (t + 1) x y = F x y)
    (hB : ∀ x y, x < N → y < N → F x y ≠ 0 → ∃ t, t < T ∧ W (t + 1) x y = F x y) :
    ∀ x y, x < N → y < N → W T x y = F x y := by
  intro x y hx hy
  have inv1 : ∀ t, t ≤ T → (W t x y = 0 ∨ W t x y = F x y) := by
    intro t
    induction t with
    | zero => intro _; left; rw [h0]
    | succ t ih =>
      intro ht
      rcases hA t (by omega) x y with h | h
      · rw [h]; exact ih (by omega)
      · right; exact h
  by_cases hF : F x y = 0
  · rcases inv1 T (le_refl _) with h | h
    · rw [h, hF]
    · exact h
  · obtain ⟨t0, ht0, hw⟩ := hB x y hx hy hF
    have inv2 : ∀ k, t0 + 1 + k ≤ T → W (t0 + 1 + k) x y = F x y := by
      intro k
      induction k with
      | zero => intro _; exact hw
      | succ k ih =>
        intro hk
        rcases hA (t0 + 1 + k) (by omega) x y with h | h
        · have e : t0 + 1 + (k + 1) = t0 + 1 + k + 1 := by omega
          rw [e, h]; exact ih (by omega)
        · exact h
    have := inv2 (T - (t0 + 1)) (by omega)
    have e : t0 + 1 + (T - (t0 + 1)) = T := by omega
    rw [e] at this
    exact this

/-- A counter put together from row digits, column digits and the sentinel 0. -/
theorem counterOK_append (dim sys r c : List Nat) (hr : r.length = dim.length)
    (hc : c.length = dim.length) (hrb : ∀ i, i < dim.length → r.getD i 0 < dim.getD i 1)
    (hcb : ∀ i, i < dim.length →
      if (i + 1) ∈ sys then c.getD i 0 < dim.getD i 1 else c.getD i 0 = 0) :
    CounterOK dim sys (r ++ c ++ [0]) ∧
      (∀ i, i < dim.length → (r ++ c ++ [0]).getD i 0 = r.getD i 0) ∧
      (∀ i, i < dim.length → (r ++ c ++ [0]).getD (i + dim.length) 0 = c.getD i 0) := by
  have e1 : ∀ i, i < dim.length → (r ++ c ++ [0]).getD i 0 = r.getD i 0 := by
    intro i hi
    rw [List.append_assoc, List.getD_append _ _ _ _ (by omega)]
  have e2 : ∀ i, i < dim.length → (r ++ c ++ [0]).getD (i + dim.length) 0 = c.getD i 0 := by
    intro i hi
    rw [List.append_assoc, List.getD_append_right _ _ _ _ (by omega),
      List.getD_append _ _ _ _ (by omega)]
    congr 1
    omega
  refine ⟨⟨?_, ?_, ?_⟩, e1, e2⟩
  · simp only [List.length_append, List.length_singleton, hr, hc]
    omega
  · intro i hi
    rw [e1 i hi]
    exact hrb i hi
  · intro i hi
    rw [e2 i hi]
    exact hcb i hi

/-- Every counter put together from row digits and column digits is the counter of a
turn. -/
theorem counter_visit (dim sys r c : List Nat) (hr : r.length = dim.length)
    (hc : c.length = dim.length) (hrb : ∀ i, i < dim.length → r.getD i 0 < dim.getD i 1)
    (hcb : ∀ i, i < dim.length →
      if (i + 1) ∈ sys then c.getD i 0 < dim.getD i 1 else c.getD i 0 = 0) :
    ∃ t, t < (dim ++ (List.range dim.length).map
          (fun i => if (i + 1) ∈ sys then dim.getD i 0 else 1)).prod ∧
      digits ((dim ++ (List.range dim.length).map
          (fun i => if (i + 1) ∈ sys then dim.getD i 0 else 1)) ++ [2]) t = r ++ c ++ [0] := by
  generalize hR : dim ++ (List.range dim.length).map
      (fun i => if (i + 1) ∈ sys then dim.getD i 0 else 1) = R
  have hlen : R.length = 2 * dim.length := by
    rw [← hR]
    simp only [List.length_append, List.length_map, List.length_range]
    omega
  have hds : (r ++ c).length = R.length := by
    rw [List.length_append, hr, hc, hlen]
    omega
  have hb : ∀ i, i < R.length → (r ++ c).getD i 0 < R.getD i 0 := by
    intro i hi
    rw [hlen] at hi
    rw [← hR]
    by_cases h : i < dim.length
    · rw [List.getD_append _ _ _ _ (by omega), List.getD_append _ _ _ _ h,
        getD_default dim i 0 1 h]
      exact hrb i h
    · have e1 : (r ++ c).getD i 0 = c.getD (i - dim.length) 0 := by
        rw [List.getD_append_right _ _ _ _ (by omega), hr]
      have e2 : (dim ++ (List.range dim.length).map
          (fun i => if (i + 1) ∈ sys then dim.getD i 0 else 1)).getD i 0 =
          (if (i - dim.length + 1) ∈ sys then dim.getD (i - dim.length) 0 else 1) := by
        rw [List.getD_append_right _ _ _ _ (by omega)]
        have h3 : i - dim.length < ((List.range dim.length).map
            (fun i => if (i + 1) ∈ sys then dim.getD i 0 else 1)).length := by
          simp only [List.length_map, List.length_range]
          omega
        rw [List.getD_eq_getElem _ _ h3]
        simp
      rw [e1, e2]
      have := hcb (i - dim.length) (by omega)
      by_cases hs : (i - dim.length + 1) ∈ sys
      · rw [if_pos hs] at this ⊢
        rw [getD_default dim _ 0 1 (by omega)]
        exact this
      · rw [if_neg hs] at this ⊢
        omega
  obtain ⟨e1, e2⟩ := digits_ofDigits R (r ++ c) hds hb
  refine ⟨ofDigits R (r ++ c), e2, ?_⟩
  rw [digits_append, e1, Nat.div_eq_of_lt e2]

/-- The counter of every turn is put together from row digits, column digits and the
sentinel 0. -/
theorem visited_ok (dim sys : List Nat) (hdim : ∀ x ∈ dim, 1 ≤ x) (t : Nat)
    (ht : t < (dim ++ (List.range dim.length).map
          (fun i => if (i + 1) ∈ sys then dim.getD i 0 else 1)).prod) :
    CounterOK dim sys (digits ((dim ++ (List.range dim.length).map
          (fun i => if (i + 1) ∈ sys then dim.getD i 0 else 1)) ++ [2]) t) := by
  have hpos := radices_pos sys dim hdim
  generalize hR : dim ++ (List.range dim.length).map
      (fun i => if (i + 1) ∈ sys then dim.getD i 0 else 1) = R at ht hpos
  have hlen : R.length = 2 * dim.length := by
    rw [← hR]
    simp only [List.length_append, List.length_map, List.length_range]
    omega
  have hd : digits (R ++ [2]) t = digits R t ++ [0] := by
    rw [digits_append, Nat.div_eq_of_lt ht]
  have hbd := digits_lt R hpos t
  have hdl := digits_length R t
  rw [hd]
  refine ⟨?_, ?_, ?_⟩
  · rw [List.length_append, hdl, hlen]
    rfl
  · intro i hi
    have := hbd i (by omega)
    rw [← hR, List.getD_append _ _ _ _ hi, hR, getD_default dim i 0 1 hi] at this
    rw [List.getD_append _ _ _ _ (by omega)]
    exact this
  · intro i hi
    have := hbd (i + dim.length) (by omega)
    rw [← hR, List.getD_append_right _ _ _ _ (by omega), hR] at this
    have h3 : i + dim.length - dim.length < ((List.range dim.length).map
        (fun i => if (i + 1) ∈ sys then dim.getD i 0 else 1)).length := by
      simp only [List.length_map, List.length_range]
      omega
    rw [List.getD_eq_getElem _ _ h3] at this
    simp only [List.getElem_map, List.getElem_range, Nat.add_sub_cancel] at this
    rw [List.getD_append _ _ _ _ (by omega)]
    by_cases hs : (i + 1) ∈ sys
    · rw [if_pos hs] at this ⊢
      rw [getD_default dim i 0 1 hi] at this
      exact this
    · rw [if_neg hs] at this ⊢
      omega

/-- The number of parties of a list of distinct parties. -/
theorem count_parties (n : Nat) (l : List Nat) (hnd : l.Nodup)
    (hv : ∀ s ∈ l, 1 ≤ s ∧ s ≤ n) :
    (∑ i in Finset.range n, if (i + 1) ∈ l then 1 else 0) = l.length := by
  rw [reindex_sum n l (fun _ _ => 1) hnd hv]
  simp

/-- Distinct parties are at most all parties. -/
theorem parties_length_le (n : Nat) (l : List Nat) (hnd : l.Nodup)
    (hv : ∀ s ∈ l, 1 ≤ s ∧ s ≤ n) : l.length ≤ n := by
  rw [← count_parties n l hnd hv]
  exact (ind_sum_eq (fun i => (i + 1) ∈ l) n).1

/-- The vector `keep` has `n - m` entries. -/
theorem keep_length (n : Nat) (sys : List Nat) (hnd : sys.Nodup)
    (hv : ∀ s ∈ sys, 1 ≤ s ∧ s ≤ n) :
    (GATES.keep_list n sys).length = n - sys.length := by
  have h : ∀ k, ((List.range k).filter (fun run => !(sys.contains (run + 1)))).length +
      (∑ i in Finset.range k, if (i + 1) ∈ sys then 1 else 0) = k := by
    intro k
    induction k with
    | zero => simp
    | succ k ih =>
      rw [List.range_succ, List.filter_append, List.length_append, Finset.sum_range_succ]
      by_cases hs : (k + 1) ∈ sys
      · rw [if_pos hs]
        have : sys.contains (k + 1) = true := (contains_iff _ _).mpr hs
        simp only [List.filter_cons, List.filter_nil, this, Bool.not_true, Bool.false_eq_true,
          if_false, List.length_nil]
        omega
      · rw [if_neg hs]
        have : sys.contains (k + 1) = false := by
          cases h : sys.contains (k + 1) with
          | false => rfl
          | true => exact absurd ((contains_iff _ _).mp h) hs
        simp only [List.filter_cons, List.filter_nil, this, Bool.not_false, if_true,
          List.length_singleton]
        omega
  have := h n
  rw [count_parties n sys hnd hv] at this
  unfold GATES.keep_list
  rw [List.length_map]
  omega

/-- Below `2 ^ 64` the `uword` difference of `a` and a smaller `b` is the difference. -/
theorem uword_sub_eq (a b : Nat) (h1 : b ≤ a) (h2 : a < uword_size) :
    uword_sub a b = a - b := by
  unfold uword_sub
  rw [Nat.mod_eq_of_lt (by omega : b < uword_size)]
  have e : a + uword_size - b = (a - b) + uword_size := by omega
  rw [e, Nat.add_mod_right]
  exact Nat.mod_eq_of_lt (by omega)

/-- An unchecked read inside a `uvec`. -/
theorem col_at_getD (v : List Nat) (i a : Nat) (h : i < v.length) :
    col_at v i = .ok (v.getD i a) := by
  unfold col_at
  rw [List.get?_eq_getElem?, List.getElem?_eq_getElem h, List.getD_eq_getElem _ _ h]

/-- A checked read inside a `uvec`. -/
theorem col_get_getD (v : List Nat) (i a : Nat) (h : i < v.length) :
    col_get v i = .ok (v.getD i a) := by
  unfold col_get
  rw [List.get?_eq_getElem?, List.getElem?_eq_getElem h, List.getD_eq_getElem _ _ h]

/-- Every non-zero entry of the controlled gate is set in some turn of the main loop. -/
theorem gate_covered {S : Type} [CommRing S] (A : Mat S) (ctrl sys dim : List Nat)
    (hwf : CtrlWF dim sys ctrl) (x y : Nat) (hx : x < dim.prod) (hy : y < dim.prod)
    (hF : controlled_gate A ctrl sys dim x y ≠ 0) :
    ∃ lc, (∃ t, t < (dim ++ (List.range dim.length).map
          (fun i => if (i + 1) ∈ sys then dim.getD i 0 else 1)).prod ∧
        digits ((dim ++ (List.range dim.length).map
          (fun i => if (i + 1) ∈ sys then dim.getD i 0 else 1)) ++ [2]) t = lc) ∧
      x = counter_row dim lc ∧
      (((∀ c ∈ ctrl, lc.getD (c - 1) 0 ≠ 0) ∧ y = counter_col dim sys lc) ∨
        ((¬ ∀ c ∈ ctrl, lc.getD (c - 1) 0 ≠ 0) ∧
          (∀ i, i < dim.length → lc.getD (i + dim.length) 0 = 0) ∧ y = x)) := by
  have hmi : ∀ z, multi_index dim z =
      (List.range dim.length).map (fun i => (multi_index dim z).getD i 0) := by
    intro z
    apply List.ext_getElem
    · simp [multi_index_length]
    · intro i h1 h2
      simp only [List.getElem_map, List.getElem_range]
      rw [List.getD_eq_getElem _ _ h1]
  have hlt := multi_index_lt dim hwf.pos
  have hsumX := sum_multi_index dim x hx
  have hsumY := sum_multi_index dim y hy
  have hg := controlled_gate_eval A ctrl sys dim hwf x y _ _ (hmi x) (hmi y)
  have hagree : ∀ i, i < dim.length → (i + 1) ∉ sys →
      (multi_index dim x).getD i 0 = (multi_index dim y).getD i 0 := by
    by_contra h
    rw [hg, if_neg h] at hF
    exact hF rfl
  rw [if_pos hagree] at hg
  have hrb : ∀ i, i < dim.length → (multi_index dim x).getD i 0 < dim.getD i 1 :=
    fun i hi => hlt x i hi
  by_cases hones : ∀ c ∈ ctrl, (multi_index dim x).getD (c - 1) 0 = 1
  · have hc : ((List.range dim.length).map
        (fun i => if (i + 1) ∈ sys then (multi_index dim y).getD i 0 else 0)).length =
        dim.length := by simp
    have hcv : ∀ i, i < dim.length → ((List.range dim.length).map
        (fun i => if (i + 1) ∈ sys then (multi_index dim y).getD i 0 else 0)).getD i 0 =
        (if (i + 1) ∈ sys then (multi_index dim y).getD i 0 else 0) :=
      fun i hi => getD_map_range _ _ _ hi
    have hcb : ∀ i, i < dim.length →
        if (i + 1) ∈ sys then ((List.range dim.length).map
          (fun i => if (i + 1) ∈ sys then (multi_index dim y).getD i 0 else 0)).getD i 0 <
            dim.getD i 1
        else ((List.range dim.length).map
          (fun i => if (i + 1) ∈ sys then (multi_index dim y).getD i 0 else 0)).getD i 0 =
            0 := by
      intro i hi
      rw [hcv i hi]
      by_cases hs : (i + 1) ∈ sys
      · rw [if_pos hs, if_pos hs]
        exact hlt y i hi
      · rw [if_neg hs, if_neg hs]
    obtain ⟨t, ht, hd⟩ := counter_visit dim sys _ _ (multi_index_length dim x) hc hrb hcb
    obtain ⟨_, e1, e2⟩ := counterOK_append dim sys _ _ (multi_index_length dim x) hc hrb hcb
    refine ⟨_, ⟨t, ht, hd⟩, ?_, Or.inl ⟨?_, ?_⟩⟩
    · unfold counter_row
      refine hsumX.symm.trans (Finset.sum_congr rfl ?_)
      intro i hi
      rw [e1 i (Finset.mem_range.mp hi)]
    · intro c hc
      have hv := hwf.ctrl_valid c hc
      rw [e1 (c - 1) (by omega), hones c hc]
      exact Nat.one_ne_zero
    · unfold counter_col
      refine hsumY.symm.trans (Finset.sum_congr rfl ?_)
      intro i hi
      have hi2 := Finset.mem_range.mp hi
      rw [e1 i hi2, e2 i hi2, hcv i hi2]
      by_cases hs : (i + 1) ∈ sys
      · rw [if_pos hs, if_pos hs]
      · rw [if_neg hs, hagree i hi2 hs]
  · rw [if_neg hones] at hg
    have hK : sub_index (List.replicate sys.length 2)
        (sys.map (fun s => (multi_index dim x).getD (s - 1) 0)) =
        sub_index (List.replicate sys.length 2)
          (sys.map (fun s => (multi_index dim y).getD (s - 1) 0)) := by
      by_contra h
      rw [hg, if_neg h] at hF
      exact hF rfl
    have hq : ∀ z, ∀ s ∈ sys, (multi_index dim z).getD (s - 1) 0 < 2 := by
      intro z s hs
      have hv := hwf.sys_valid s hs
      have := hlt z (s - 1) (by omega)
      rw [hwf.sys_qubit s hs] at this
      exact this
    obtain ⟨_, _, hmX⟩ := sub_index_code dim.length sys
      (fun i => (multi_index dim x).getD i 0) hwf.sys_nodup hwf.sys_valid (hq x)
    obtain ⟨_, _, hmY⟩ := sub_index_code dim.length sys
      (fun i => (multi_index dim y).getD i 0) hwf.sys_nodup hwf.sys_valid (hq y)
    have hmap : sys.map (fun s => (multi_index dim x).getD (s - 1) 0) =
        sys.map (fun s => (multi_index dim y).getD (s - 1) 0) := by
      rw [← hmX, hK, hmY]
    have hsysd : ∀ s ∈ sys, (multi_index dim x).getD (s - 1) 0 =
        (multi_index dim y).getD (s - 1) 0 := List.map_inj_left.mp hmap
    have hall : ∀ i, i < dim.length →
        (multi_index dim x).getD i 0 = (multi_index dim y).getD i 0 := by
      intro i hi
      by_cases hs : (i + 1) ∈ sys
      · exact hsysd (i + 1) hs
      · exact hagree i hi hs
    have hxy : y = x := by
      refine hsumY.symm.trans (Eq.trans (Finset.sum_congr rfl ?_) hsumX)
      intro i hi
      rw [hall i (Finset.mem_range.mp hi)]
    have hc : (List.replicate dim.length 0).length = dim.length := List.length_replicate _ _
    have hcv : ∀ i, i < dim.length → (List.replicate dim.length 0).getD i 0 = 0 := by
      intro i hi
      simp [List.getD_eq_getElem?_getD, List.getElem?_replicate, hi]
    have hcb : ∀ i, i < dim.length →
        if (i + 1) ∈ sys then (List.replicate dim.length 0).getD i 0 < dim.getD i 1
        else (List.replicate dim.length 0).getD i 0 = 0 := by
      intro i hi
      rw [hcv i hi]
      by_cases hs : (i + 1) ∈ sys
      · rw [if_pos hs]
        have := hrb i hi
        omega
      · rw [if_neg hs]
    obtain ⟨t, ht, hd⟩ := counter_visit dim sys _ _ (multi_index_length dim x) hc hrb hcb
    obtain ⟨_, e1, e2⟩ := counterOK_append dim sys _ _ (multi_index_length dim x) hc hrb hcb
    refine ⟨_, ⟨t, ht, hd⟩, ?_, Or.inr ⟨?_, ?_, hxy⟩⟩
    · unfold counter_row
      refine hsumX.symm.trans (Finset.sum_congr rfl ?_)
      intro i hi
      rw [e1 i (Finset.mem_range.mp hi)]
    · intro h
      apply hones
      intro c hc
      have hv := hwf.ctrl_valid c hc
      have h1 := h c hc
      rw [e1 (c - 1) (by omega)] at h1
      have h2 := hlt x (c - 1) (by omega)
      rw [hwf.ctrl_qubit c hc] at h2
      omega
    · intro i hi
      rw [e2 i hi, hcv i hi]

/-- A stride array of the code holds the strides, the length being given. -/
theorem stride_array_len (MAXQDIT n : Nat) (f : Nat → Except Fault Nat) (R : List Nat)
    (hn : R.length = n) (hpos : ∀ x ∈ R, 1 ≤ x) (hR : R.prod < uword_size) (h1 : 1 ≤ n)
    (h2 : n ≤ MAXQDIT) (hf : ∀ i, i + 1 < n → f i = .ok (R.getD (i + 1) 0)) :
    GATES.stride_array MAXQDIT n f = .ok (strides R) := by
  subst hn
  exact stride_array_eq MAXQDIT f R hpos hR h1 h2 hf

section core

variable {S : Type} [CommRing S]

/-- The part of `make_ctrl` after the call of `dim_collapse_sys_ctrl`, on well-formed
vectors with `sys` not empty: with enough fuel it returns the controlled gate. -/
theorem make_ctrl_core_eq (E : Internal S) (fuel : Nat) (A : Mat S) (ctrl sys dim : List Nat)
    (d : Nat) (hwf : CtrlWF dim sys ctrl) (hsys : sys ≠ []) (hmax : dim.length ≤ E.MAXQDIT)
    (hA : A.n_rows = 2 ^ sys.length ∧ A.n_cols = 2 ^ sys.length)
    (hpow : E.powm_gen A 1 = A)
    (hfuel : 2 * dim.length ≤ fuel ∧ dim.prod * 2 ^ sys.length ≤ fuel) :
    GATES.make_ctrl_core E fuel A ctrl sys dim d dim.prod =
      .ok ⟨dim.prod, dim.prod,
        Matrix.of fun I J => controlled_gate A ctrl sys dim I.val J.val⟩ := by
  have hm1 : 1 ≤ sys.length := List.length_pos.mpr hsys
  have hmn := parties_length_le dim.length sys hwf.sys_nodup hwf.sys_valid
  have hkeep : (GATES.keep_list dim.length sys).length = uword_sub dim.length sys.length := by
    rw [keep_length _ _ hwf.sys_nodup hwf.sys_valid, uword_sub_eq _ _ hmn hwf.len_lt]
  have hprod : GATES.stride_array E.MAXQDIT dim.length (fun i => col_at dim (i + 1)) =
      .ok (strides dim) :=
    stride_array_eq E.MAXQDIT _ dim hwf.pos hwf.prod_lt (by omega) hmax
      (fun i hi => col_at_getD dim (i + 1) 0 hi)
  have hr2 : ∀ k, k < sys.length → (List.replicate sys.length 2).getD k 0 = 2 := by
    intro k hk
    simp [List.getD_eq_getElem?_getD, List.getElem?_replicate, hk]
  -- the loop body along the turns
  have hp : 1 ≤ max 1 (uword_sub d 1) := le_max_left _ _
  have hstep : ∀ t (U : Nat → Nat → S), ∃ U1,
      t < (dim ++ (List.range dim.length).map
          (fun i => if (i + 1) ∈ sys then dim.getD i 0 else 1)).prod →
      (GATES.ctrl_body E A dim.length ctrl sys (GATES.keep_list dim.length sys)
          (strides dim) (strides (List.replicate sys.length 2)) (max 1 (uword_sub d 1))
          dim.prod (digits ((dim ++ (List.range dim.length).map
            (fun i => if (i + 1) ∈ sys then dim.getD i 0 else 1)) ++ [2]) t) U = .ok U1 ∧
        (∀ x y, U1 x y = U x y ∨ U1 x y = controlled_gate A ctrl sys dim x y) ∧
        (∀ x y, x = counter_row dim (digits ((dim ++ (List.range dim.length).map
            (fun i => if (i + 1) ∈ sys then dim.getD i 0 else 1)) ++ [2]) t) →
          (((∀ c ∈ ctrl, (digits ((dim ++ (List.range dim.length).map
              (fun i => if (i + 1) ∈ sys then dim.getD i 0 else 1)) ++ [2]) t).getD
                (c - 1) 0 ≠ 0) ∧
            y = counter_col dim sys (digits ((dim ++ (List.range dim.length).map
              (fun i => if (i + 1) ∈ sys then dim.getD i 0 else 1)) ++ [2]) t)) ∨
            ((¬ ∀ c ∈ ctrl, (digits ((dim ++ (List.range dim.length).map
              (fun i => if (i + 1) ∈ sys then dim.getD i 0 else 1)) ++ [2]) t).getD
                (c - 1) 0 ≠ 0) ∧
              (∀ i, i < dim.length → (digits ((dim ++ (List.range dim.length).map
                (fun i => if (i + 1) ∈ sys then dim.getD i 0 else 1)) ++ [2]) t).getD
                  (i + dim.length) 0 = 0) ∧ y = x)) →
          U1 x y = controlled_gate A ctrl sys dim x y)) := by
    intro t U
    by_cases ht : t < (dim ++ (List.range dim.length).map
          (fun i => if (i + 1) ∈ sys then dim.getD i 0 else 1)).prod
    · obtain ⟨U1, h⟩ := ctrl_body_spec E A ctrl sys dim (max 1 (uword_sub d 1)) _ hwf hA hpow hp
        (visited_ok dim sys hwf.pos t ht) U
      exact ⟨U1, fun _ => h⟩
    · exact ⟨U, fun h => absurd h ht⟩
  have hcov := gate_covered A ctrl sys dim hwf
  have hpos := radices_pos sys dim hwf.pos
  have hRprod := radices_prod sys dim hwf.sys_nodup hwf.sys_valid
  rw [sys_dims_eq dim sys ctrl hwf, List.prod_replicate] at hRprod
  have hMAX := ctrl_MAX_eq sys dim
  generalize hR : dim ++ (List.range dim.length).map
      (fun i => if (i + 1) ∈ sys then dim.getD i 0 else 1) = R at hstep hcov hpos hRprod hMAX
  have hlen : R.length = 2 * dim.length := by
    rw [← hR]
    simp only [List.length_append, List.length_map, List.length_range]
    omega
  choose f hf using hstep
  have hW : ∀ t, t < R.prod →
      GATES.ctrl_body E A dim.length ctrl sys (GATES.keep_list dim.length sys)
          (strides dim) (strides (List.replicate sys.length 2)) (max 1 (uword_sub d 1))
          dim.prod (digits (R ++ [2]) t)
          ((fun t => Nat.rec (fun _ _ => (0 : S)) (fun t U => f t U) t : Nat → Nat → Nat → S) t) =
        .ok ((fun t => Nat.rec (fun _ _ => (0 : S)) (fun t U => f t U) t :
          Nat → Nat → Nat → S) (t + 1)) :=
    fun t ht => (hf t _ ht).1
  have hfin := writes_fold (controlled_gate A ctrl sys dim)
    (fun t => Nat.rec (fun _ _ => (0 : S)) (fun t U => f t U) t) R.prod dim.prod rfl
    (fun t ht x y => (hf t _ ht).2.1 x y)
    (fun x y hx hy hF => by
      obtain ⟨lc, ⟨t, ht, hd⟩, hrow, hc⟩ := hcov x y hx hy hF
      subst hd
      exact ⟨t, ht, (hf t _ ht).2.2 x y hrow hc⟩)
  have hloop := loop_run _ R fuel _ hpos (by omega) hW R.prod 0 (by omega) fuel
  rw [if_pos (by omega), hlen] at hloop
  simp only [Nat.rec_zero] at hloop
  unfold GATES.make_ctrl_core
  simp only
  rw [if_neg (fun h => h hkeep), hprod]
  generalize hq : GATES.stride_array E.MAXQDIT sys.length _ = q
  have hqv : q = .ok (strides (List.replicate sys.length 2)) := by
    rw [← hq]
    refine stride_array_len E.MAXQDIT sys.length _ (List.replicate sys.length 2)
      (List.length_replicate _ _) ?_ ?_ hm1 (by omega) ?_
    · intro x hx
      rw [List.eq_of_mem_replicate hx]
      omega
    · rw [List.prod_replicate]
      exact hwf.pow_lt
    · intro i hi
      have hs : sys.getD i 0 ∈ sys := by
        rw [List.getD_eq_getElem _ _ (by omega : i < sys.length)]
        exact List.getElem_mem _
      have hv := hwf.sys_valid _ hs
      rw [hr2 (i + 1) hi]
      simp only [col_get_getD sys i 0 (by omega)]
      rw [uword_sub_one_eq _ hv.1 (lt_of_le_of_lt hv.2 hwf.len_lt),
        col_at_getD dim _ 1 (by omega), hwf.sys_qubit _ hs]
  rw [hqv]
  simp only
  rw [hMAX, show List.replicate (2 * dim.length + 1) 0 = digits (R ++ [2]) 0 by
    rw [digits_zero, List.length_append, hlen]; rfl]
  rw [hloop]
  simp only
  congr 2
  funext I J
  exact hfin I.val J.val I.isLt J.isLt

end core

/-! ## `make_ctrl` on qubits -/

/-- An entry of the dimensions of `n` qubits. -/
theorem qubits_getD (n i a : Nat) (h : i < n) : (List.replicate n 2).getD i a = 2 := by
  simp [List.getD_eq_getElem?_getD, List.getElem?_replicate, h]

/-- The dimension of a party of `n` qubits, as the code reads it. -/
theorem qubits_read (n c : Nat) (hn : n < uword_size) (hc : 1 ≤ c ∧ c ≤ n) :
    col_at (List.replicate n 2) (uword_sub c 1) = .ok 2 ∧
      col_get (List.replicate n 2) (uword_sub c 1) = .ok 2 := by
  have hl : c - 1 < (List.replicate n 2).length := by
    rw [List.length_replicate]
    omega
  rw [uword_sub_one_eq c hc.1 (by omega), col_at_getD _ _ 0 hl, col_get_getD _ _ 0 hl,
    qubits_getD n (c - 1) 0 (by omega)]
  exact ⟨rfl, rfl⟩

/-- The control parties of qubits have equal dimensions. -/
theorem dims_check_qubits (n : Nat) (hn : n < uword_size) :
    ∀ l : List Nat, (∀ c ∈ l, 1 ≤ c ∧ c ≤ n) →
      GATES.ctrl_dims_check (List.replicate n 2) 2 l = .ok () := by
  intro l
  induction l with
  | nil => intro _; rfl
  | cons c l ih =>
    intro hv
    rw [GATES.ctrl_dims_check, (qubits_read n c hn (hv c (by simp))).1]
    simp only [ne_eq, not_true_eq_false, if_false]
    exact ih (fun x hx => hv x (by simp [hx]))

/-- The dimensions of the parties of `sys` among qubits, as the code reads them. -/
theorem mapM_qubits (n : Nat) (hn : n < uword_size) :
    ∀ l : List Nat, (∀ c ∈ l, 1 ≤ c ∧ c ≤ n) →
      l.mapM (fun s => col_get (List.replicate n 2) (uword_sub s 1)) =
        (.ok (List.replicate l.length 2) : Except Fault (List Nat)) := by
  intro l
  induction l with
  | nil => intro _; rfl
  | cons c l ih =>
    intro hv
    rw [List.mapM_cons, (qubits_read n c hn (hv c (by simp))).2,
      ih (fun x hx => hv x (by simp [hx]))]
    rfl

/-- Distinct parties of `n` qubits are well-formed vectors. -/
theorem ctrlwf_qubits (n : Nat) (sys ctrl : List Nat) (hN : 2 ^ n < uword_size)
    (hnd : (sys ++ ctrl).Nodup) (hv : ∀ s ∈ sys ++ ctrl, 1 ≤ s ∧ s ≤ n) :
    CtrlWF (List.replicate n 2) sys ctrl := by
  have hlen : (List.replicate n 2).length = n := List.length_replicate _ _
  have hn : n < uword_size := lt_trans (Nat.lt_two_pow n) hN
  have hsv : ∀ s ∈ sys, 1 ≤ s ∧ s ≤ n := fun s hs => hv s (List.mem_append_left _ hs)
  have hcv : ∀ s ∈ ctrl, 1 ≤ s ∧ s ≤ n := fun s hs => hv s (List.mem_append_right _ hs)
  have hsn : sys.Nodup := (List.nodup_append.mp hnd).1
  have hcn : ctrl.Nodup := (List.nodup_append.mp hnd).2.1
  refine ⟨?_, ?_, ?_, hsn, ?_, ?_, hcn, ?_, ?_, ?_⟩
  · intro x hx
    rw [List.eq_of_mem_replicate hx]
    omega
  · rw [List.prod_replicate]
    exact hN
  · rw [hlen]
    exact hn
  · rw [hlen]
    exact hsv
  · intro s hs
    have := hsv s hs
    exact qubits_getD n (s - 1) 1 (by omega)
  · rw [hlen]
    exact hcv
  · intro s hs
    have := hcv s hs
    exact qubits_getD n (s - 1) 1 (by omega)
  · have := parties_length_le n sys hsn hsv
    exact lt_of_le_of_lt (Nat.pow_le_pow_right (by omega) this) hN

section qubits

variable {S : Type} [CommRing S]

omit [CommRing S] in
/-- The checks of `make_ctrl` pass on distinct parties of `n` qubits and a matrix of the
size of `sys`. -/
theorem checks_qubits (A : Mat S) (ctrl sys : List Nat) (n d : Nat) (hn1 : 1 ≤ n)
    (hN : 2 ^ n < uword_size) (hnd : (sys ++ ctrl).Nodup)
    (hv : ∀ s ∈ sys ++ ctrl, 1 ≤ s ∧ s ≤ n)
    (hA : A.n_rows = 2 ^ sys.length ∧ A.n_cols = 2 ^ sys.length)
    (hd : ctrl.tail ≠ [] → d = 2) :
    GATES.make_ctrl_checks A ctrl sys (List.replicate n 2) d = .ok () := by
  have hn : n < uword_size := lt_trans (Nat.lt_two_pow n) hN
  have hsv : ∀ s ∈ sys, 1 ≤ s ∧ s ≤ n := fun s hs => hv s (List.mem_append_left _ hs)
  have hcv : ∀ s ∈ ctrl, 1 ≤ s ∧ s ≤ n := fun s hs => hv s (List.mem_append_right _ hs)
  have hsn : sys.Nodup := (List.nodup_append.mp hnd).1
  have hmn := parties_length_le n sys hsn hsv
  have hpow : 2 ^ sys.length < uword_size :=
    lt_of_le_of_lt (Nat.pow_le_pow_right (by omega) hmn) hN
  have hall := parties_length_le n (sys ++ ctrl) hnd hv
  have hpos : 0 < 2 ^ sys.length := Nat.two_pow_pos _
  have h1 : GATES.ctrl_dims_check (List.replicate n 2) d ctrl.tail = .ok () := by
    by_cases ht : ctrl.tail = []
    · rw [ht]
      rfl
    · rw [hd ht]
      exact dims_check_qubits n hn _ (fun c hc => hcv c (List.mem_of_mem_tail hc))
  unfold GATES.make_ctrl_checks
  rw [if_neg (by
    unfold Mat.n_elem
    rw [hA.1, hA.2]
    exact Nat.ne_of_gt (Nat.mul_pos hpos hpos)), if_neg (by rw [hA.1, hA.2]; exact fun h => h rfl),
    h1]
  simp only
  rw [if_neg (by
    rw [List.length_replicate]
    simp only [List.any_replicate, beq_iff_eq]
    intro h
    rcases h with h | h
    · omega
    · simp at h), mapM_qubits n hn sys hsv]
  simp only
  rw [if_neg (by rw [arma_prod_replicate _ _ hpow, hA.1]; exact fun h => h rfl), if_neg]
  · rw [List.length_replicate, List.Nodup.dedup hnd]
    intro h
    rcases h with h | h | h | h
    · omega
    · exact h rfl
    · obtain ⟨x, hx, hgt⟩ := List.any_eq_true.mp h
      have := hv x hx
      simp only [decide_eq_true_eq] at hgt
      omega
    · obtain ⟨x, hx, h0⟩ := List.any_eq_true.mp h
      have := hv x hx
      simp only [beq_iff_eq] at h0
      omega

/-- The call `make_ctrl(A, ctrl, sys, dim)` on `n` qubits, when `dim_collapse_sys_ctrl`
leaves the vectors as they are: with enough fuel it returns the controlled gate. -/
theorem make_ctrl_qubits (E : Internal S) (fuel : Nat) (A : Mat S) (ctrl sys : List Nat)
    (n N : Nat) (hNe : (List.replicate n 2).prod = N)
    (hn : n ≤ E.MAXQDIT) (hN : 2 ^ n < uword_size) (hsys : sys ≠ [])
    (hnd : (sys ++ ctrl).Nodup) (hv : ∀ s ∈ sys ++ ctrl, 1 ≤ s ∧ s ≤ n)
    (hA : A.n_rows = 2 ^ sys.length ∧ A.n_cols = 2 ^ sys.length)
    (hpow : E.powm_gen A 1 = A)
    (hcol : E.dim_collapse_sys_ctrl (List.replicate n 2) sys ctrl =
      (List.replicate n 2, sys, ctrl))
    (hfuel : 2 ^ n * 2 ^ sys.length ≤ fuel) :
    GATES.make_ctrl E fuel A ctrl sys (List.replicate n 2) =
      .ok ⟨N, N, Matrix.of fun I J =>
        controlled_gate A ctrl sys (List.replicate n 2) I.val J.val⟩ := by
  subst hNe
  have hwf := ctrlwf_qubits n sys ctrl hN hnd hv
  have hnlt : n < uword_size := lt_trans (Nat.lt_two_pow n) hN
  have hm1 : 1 ≤ sys.length := List.length_pos.mpr hsys
  have hn1 : 1 ≤ n := by
    obtain ⟨s, hs⟩ := List.exists_mem_of_ne_nil sys hsys
    have := hv s (List.mem_append_left _ hs)
    omega
  have hlen : (List.replicate n 2).length = n := List.length_replicate _ _
  have hf2 : 2 * n ≤ fuel := by
    have h1 : n < 2 ^ n := Nat.lt_two_pow n
    have h2 : 2 ^ 1 ≤ 2 ^ sys.length := Nat.pow_le_pow_right (by omega) hm1
    have h3 : 2 ^ n * 2 ^ 1 ≤ 2 ^ n * 2 ^ sys.length := Nat.mul_le_mul_left _ h2
    omega
  have hcore := make_ctrl_core_eq E fuel A ctrl sys (List.replicate n 2)
  rw [hlen, List.prod_replicate] at hcore
  have hd : ∃ d, ((match ctrl with
      | [] => .ok 1
      | c0 :: _ => col_at (List.replicate n 2) (uword_sub c0 1) : Except Fault Nat) = .ok d) ∧
      (ctrl.tail ≠ [] → d = 2) := by
    cases ctrl with
    | nil => exact ⟨1, rfl, fun h => absurd rfl h⟩
    | cons c0 cs =>
      refine ⟨2, ?_, fun _ => rfl⟩
      exact (qubits_read n c0 hnlt (hv c0 (by simp))).1
  obtain ⟨d, hd1, hd2⟩ := hd
  unfold GATES.make_ctrl
  split
  · rename_i e heq
    exact absurd (hd1.symm.trans heq) (by simp)
  · rename_i d1 heq
    have hdd : d1 = d := (Except.ok.inj (hd1.symm.trans heq)).symm
    subst hdd
    rw [checks_qubits A ctrl sys n d1 hn1 hN hnd hv hA hd2]
    simp only
    rw [hcol, arma_prod_replicate _ _ hN]
    simp only
    rw [List.prod_replicate]
    exact hcore d1 hwf hsys hn hA hpow ⟨hf2, hfuel⟩

end qubits

/-- The power 1 of the examples is the matrix. -/
theorem sample_powm_one {S : Type} [CommRing S] (A : Mat S) : sample_powm A 1 = A := by
  cases A with
  | mk r c M =>
    simp [sample_powm, Mat.mul, Mat.eye]

section empty

variable {S : Type} [CommRing S]

end empty

/-- The controlled gate on qubits with `sys` not empty: let `powm_gen(A, 1)` be `A`. For `n` qubits, `n` at most
`MAXQDIT` and `2 ^ n` below `2 ^ 64`, distinct parties `sys` (not empty) and `ctrl` among
them, a `2 ^ m x 2 ^ m` matrix `A` (`m` the length of `sys`), and a call
`dim_collapse_sys_ctrl` that leaves these vectors as they are, `make_ctrl(A, ctrl, sys, dim)`
returns, given `2 ^ n * 2 ^ m` turns of fuel, the `2 ^ n x 2 ^ n` controlled gate: the entry
`(I, J)` is 0 unless `I` and `J` agree on every party outside `sys`, and then it is
`A(K, L)` for the sub-indices `K`, `L` of `I`, `J` on `sys` when every control party of `I`
is at 1, and `delta(K, L)` otherwise. In particular `make_ctrl(X, {1}, {2}, 2)` is the table
`CNOT`, `make_ctrl(Z, {1}, {2}, 2)` is the table `CZ` and `make_ctrl(X, {1, 2}, {3}, 3)` is
the table `Tof`. -/
theorem make_ctrl_controlled_gate {K : Type} [Field K] (E : Internal K) (fuel : Nat)
    (hpow : ∀ A : Mat K, E.powm_gen A 1 = A) :
    (∀ (A : Mat K) (ctrl sys : List Nat) (n : Nat),
      n ≤ E.MAXQDIT → 2 ^ n < uword_size → sys ≠ [] → (sys ++ ctrl).Nodup →
      (∀ s ∈ sys ++ ctrl, 1 ≤ s ∧ s ≤ n) →
      A.n_rows = 2 ^ sys.length ∧ A.n_cols = 2 ^ sys.length →
      E.dim_collapse_sys_ctrl (List.replicate n 2) sys ctrl = (List.replicate n 2, sys, ctrl) →
      2 ^ n * 2 ^ sys.length ≤ fuel →
      GATES.make_ctrl E fuel A ctrl sys (List.replicate n 2) =
        .ok ⟨2 ^ n, 2 ^ n, Matrix.of fun I J =>
          controlled_gate A ctrl sys (List.replicate n 2) I.val J.val⟩) ∧
    (3 ≤ E.MAXQDIT → 16 ≤ fuel →
      (E.dim_collapse_sys_ctrl [2, 2] [2] [1] = ([2, 2], [2], [1]) →
        GATES.make_ctrl_uniform E fuel ⟨2, 2, GATES.X⟩ [1] [2] 2 2 = .ok ⟨4, 4, GATES.CNOT⟩ ∧
        GATES.make_ctrl_uniform E fuel ⟨2, 2, GATES.Z⟩ [1] [2] 2 2 = .ok ⟨4, 4, GATES.CZ⟩) ∧
      (E.dim_collapse_sys_ctrl [2, 2, 2] [3] [1, 2] = ([2, 2, 2], [3], [1, 2]) →
        GATES.make_ctrl_uniform E fuel ⟨2, 2, GATES.X⟩ [1, 2] [3] 3 2 =
          .ok ⟨8, 8, GATES.Tof⟩)) := by
  refine ⟨?_, ?_⟩
  · intro A ctrl sys n hn hN hsys hnd hv hA hcol hfuel
    exact make_ctrl_qubits E fuel A ctrl sys n (2 ^ n) (List.prod_replicate _ _) hn hN hsys
      hnd hv hA (hpow A) hcol hfuel
  · intro hmax hfuel
    refine ⟨fun hcol => ⟨?_, ?_⟩, fun hcol => ?_⟩
    · have h := make_ctrl_qubits E fuel ⟨2, 2, GATES.X⟩ [1] [2] 2 4 rfl (by omega)
        (by decide) (by simp) (by decide) (by decide) ⟨rfl, rfl⟩ (hpow _) hcol (by
          show 8 ≤ fuel
          omega)
      show GATES.make_ctrl E fuel ⟨2, 2, GATES.X⟩ [1] [2] [2, 2] = _
      rw [show ([2, 2] : List Nat) = List.replicate 2 2 from rfl, h]
      congr 2
      ext I J
      fin_cases I <;> fin_cases J <;> rfl
    · have h := make_ctrl_qubits E fuel ⟨2, 2, GATES.Z⟩ [1] [2] 2 4 rfl (by omega)
        (by decide) (by simp) (by decide) (by decide) ⟨rfl, rfl⟩ (hpow _) hcol (by
          show 8 ≤ fuel
          omega)
      show GATES.make_ctrl E fuel ⟨2, 2, GATES.Z⟩ [1] [2] [2, 2] = _
      rw [show ([2, 2] : List Nat) = List.replicate 2 2 from rfl, h]
      congr 2
      ext I J
      fin_cases I <;> fin_cases J <;> rfl
    · have h := make_ctrl_qubits E fuel ⟨2, 2, GATES.X⟩ [1, 2] [3] 3 8 rfl (by omega)
        (by decide) (by simp) (by decide) (by decide) ⟨rfl, rfl⟩ (hpow _) hcol (by
          show 16 ≤ fuel
          omega)
      show GATES.make_ctrl E fuel ⟨2, 2, GATES.X⟩ [1, 2] [3] [2, 2, 2] = _
      rw [show ([2, 2, 2] : List Nat) = List.replicate 3 2 from rfl, h]
      congr 2
      ext I J
      fin_cases I <;> fin_cases J <;> rfl

/-- With the parts of `_internal` of the examples and 16 turns of fuel,
`make_ctrl(X, {1}, {2}, 2)` is `CNOT` and `make_ctrl(X, {1, 2}, {3}, 3)` is `Tof`. -/
theorem make_ctrl_sample_tables :
    GATES.make_ctrl_uniform (sample_internal ℚ) 16 ⟨2, 2, GATES.X⟩ [1] [2] 2 2 =
        .ok ⟨4, 4, GATES.CNOT⟩ ∧
      GATES.make_ctrl_uniform (sample_internal ℚ) 16 ⟨2, 2, GATES.X⟩ [1, 2] [3] 3 2 =
        .ok ⟨8, 8, GATES.Tof⟩ :=
  ⟨((make_ctrl_controlled_gate (sample_internal ℚ) 16 sample_powm_one).2 (by decide)
      (le_refl _)).1 rfl |>.1,
    ((make_ctrl_controlled_gate (sample_internal ℚ) 16 sample_powm_one).2 (by decide)
      (le_refl _)).2 rfl⟩

/-! ## The claims -/

/-- C1: for all real angles `theta`, `phi` the two vectors built by the qubit objective are
`psi1 = cos(theta/2) u + e^{i phi} sin(theta/2) d` and
`psi2 = sin(theta/2) u - e^{i phi} cos(theta/2) d`, and the two projectors
`|psi1><psi1|`, `|psi2><psi2|` sum to the 2 x 2 identity. -/
theorem C1_qubit_projectors_sum_to_identity (theta phi : ℝ) :
    let M : StdMath ℝ ℂ :=
      ⟨Complex.ofReal, Complex.I, Real.cos, Real.sin, Complex.exp, Real.sqrt, Real.logb 2,
        Real.pi⟩
    protect_dis.def_nlopt2_vec1 M theta phi =
        Matrix.of ![![(Real.cos (theta / 2) : ℂ)],
          ![Complex.exp (Complex.I * phi) * (Real.sin (theta / 2) : ℂ)]] ∧
      protect_dis.def_nlopt2_vec2 M theta phi =
        Matrix.of ![![(Real.sin (theta / 2) : ℂ)],
          ![-(Complex.exp (Complex.I * phi) * (Real.cos (theta / 2) : ℂ))]] ∧
      protect_dis.def_nlopt2_proj1 M theta phi +
        protect_dis.def_nlopt2_proj2 M theta phi = 1 := by
  intro M
  refine ⟨?_, ?_, def_nlopt2_resolution M exact_real theta phi⟩
  · ext i j
    fin_cases i <;>
      simp [M, protect_dis.def_nlopt2_vec1, SPM.basis2, SPM.col2, div_eq_inv_mul]
  · ext i j
    fin_cases i <;>
      simp [M, protect_dis.def_nlopt2_vec2, SPM.basis2, SPM.col2, div_eq_inv_mul]

/-- C2: for every real `x = (x0, .., x4)` the three vectors built by the qutrit objective
(`theta_i = x_i / 2`, `phi1 = x3`, `phi2 = -x3`, `delta = x4`) are mutually orthogonal unit
vectors, and the three projectors sum to the 3 x 3 identity. -/
theorem C2_qutrit_vectors_orthonormal_resolution (x0 x1 x2 x3 x4 : ℝ) :
    let M : StdMath ℝ ℂ :=
      ⟨Complex.ofReal, Complex.I, Real.cos, Real.sin, Complex.exp, Real.sqrt, Real.logb 2,
        Real.pi⟩
    let v := protect_dis.def_nlopt3_vecs M x0 x1 x2 x3 x4
    let p := protect_dis.def_nlopt3_projs M x0 x1 x2 x3 x4
    (v.1.conjTranspose * v.1 = 1 ∧ v.1.conjTranspose * v.2.1 = 0 ∧
      v.1.conjTranspose * v.2.2 = 0 ∧ v.2.1.conjTranspose * v.1 = 0 ∧
      v.2.1.conjTranspose * v.2.1 = 1 ∧ v.2.1.conjTranspose * v.2.2 = 0 ∧
      v.2.2.conjTranspose * v.1 = 0 ∧ v.2.2.conjTranspose * v.2.1 = 0 ∧
      v.2.2.conjTranspose * v.2.2 = 1) ∧
    p.1 + p.2.1 + p.2.2 = 1 := by
  intro M v p
  exact ⟨def_nlopt3_orthonormal M exact_real (1 / 2 * x0) (1 / 2 * x1) (1 / 2 * x2) x3 x4,
    def_nlopt3_resolution M exact_real (1 / 2 * x0) (1 / 2 * x1) (1 / 2 * x2) x3 x4⟩

/-- C3: for every angle vector each of the two projectors of the qubit variant and each of
the three projectors of the qutrit variant is idempotent and Hermitian. -/
theorem C3_projectors_idempotent_hermitian (theta phi x0 x1 x2 x3 x4 : ℝ) :
    let M : StdMath ℝ ℂ :=
      ⟨Complex.ofReal, Complex.I, Real.cos, Real.sin, Complex.exp, Real.sqrt, Real.logb 2,
        Real.pi⟩
    let q1 := protect_dis.def_nlopt2_proj1 M theta phi
    let q2 := protect_dis.def_nlopt2_proj2 M theta phi
    let p := protect_dis.def_nlopt3_projs M x0 x1 x2 x3 x4
    (q1 = q1 * q1 ∧ q1 = q1.conjTranspose) ∧ (q2 = q2 * q2 ∧ q2 = q2.conjTranspose) ∧
      (p.1 = p.1 * p.1 ∧ p.1 = p.1.conjTranspose) ∧
      (p.2.1 = p.2.1 * p.2.1 ∧ p.2.1 = p.2.1.conjTranspose) ∧
      (p.2.2 = p.2.2 * p.2.2 ∧ p.2.2 = p.2.2.conjTranspose) := by
  intro M q1 q2 p
  have h2 := def_nlopt2_orthonormal M exact_real theta phi
  have h3 := def_nlopt3_orthonormal M exact_real (1 / 2 * x0) (1 / 2 * x1) (1 / 2 * x2) x3 x4
  refine ⟨⟨?_, ?_⟩, ⟨?_, ?_⟩, ⟨?_, ?_⟩, ⟨?_, ?_⟩, ⟨?_, ?_⟩⟩
  · exact (outer_idempotent _ h2.1).symm
  · exact (outer_hermitian _).symm
  · exact (outer_idempotent _ h2.2.2.2).symm
  · exact (outer_hermitian _).symm
  · exact (outer_idempotent _ h3.1).symm
  · exact (outer_hermitian _).symm
  · exact (outer_idempotent _ h3.2.2.2.2.1).symm
  · exact (outer_hermitian _).symm
  · exact (outer_idempotent _ h3.2.2.2.2.2.2.2.2).symm
  · exact (outer_hermitian _).symm

/-- C4: on a non-empty input with exactly one column `entropy` returns exactly 0, whatever
the entries and whatever `eig_sym` would return. -/
theorem C4_entropy_pure_state_zero {K S : Type} [LinearOrderedField K] (M : StdMath K S)
    (L : Libs K S) (rho : Mat S) (hcol : rho.n_cols = 1) (hne : rho.n_elem ≠ 0) :
    entropy M L rho = .ok 0 := by
  simp [entropy, hcol, hne]

/-- Witness of C4 at the column vector `ket0`. -/
theorem C4_witness :
    (ket0.n_cols = 1 ∧ ket0.n_elem ≠ 0) ∧
      ∀ (M : StdMath ℚ GaussianInt) (L : Libs ℚ GaussianInt), entropy M L ket0 = .ok 0 :=
  ⟨⟨rfl, by decide⟩, fun M L => C4_entropy_pure_state_zero M L ket0 rfl (by decide)⟩

/-- C6: `entropy` throws `ZERO_SIZE` exactly on inputs without elements; on a non-empty
input it throws `MATRIX_NOT_SQUARE_OR_CVECTOR` (the spec's `ShapeMismatch`) exactly when
there is more than one column and the row and column counts differ; in every other case it
returns a value. -/
theorem C6_entropy_errors {K S : Type} [LinearOrderedField K] (M : StdMath K S)
    (L : Libs K S) (rho : Mat S) :
    (entropy M L rho = .error .ZERO_SIZE ↔ rho.n_elem = 0) ∧
    (rho.n_elem ≠ 0 →
      (entropy M L rho = .error .MATRIX_NOT_SQUARE_OR_CVECTOR ↔
        (1 < rho.n_cols ∧ rho.n_rows ≠ rho.n_cols))) ∧
    (rho.n_elem ≠ 0 → ¬ (1 < rho.n_cols ∧ rho.n_rows ≠ rho.n_cols) →
      ∃ v, entropy M L rho = .ok v) := by
  have hc : rho.n_elem ≠ 0 → (rho.n_cols ≠ 1 ↔ 1 < rho.n_cols) := by
    intro h
    have : rho.n_cols ≠ 0 := by
      intro h0; apply h; simp [Mat.n_elem, h0]
    omega
  refine ⟨?_, ?_, ?_⟩
  · by_cases h0 : rho.n_elem = 0
    · simp [entropy, h0]
    · simp only [entropy, h0, if_false, iff_false]
      split_ifs <;> simp
  · intro h0
    rw [← hc h0]
    simp only [entropy, h0, if_false]
    by_cases h1 : rho.n_cols = 1
    · simp [h1]
    · by_cases h2 : rho.n_rows = rho.n_cols
      · simp [h1, h2]
      · simp [h1, h2]
  · intro h0 h
    rw [← hc h0] at h
    simp only [entropy, h0, if_false]
    by_cases h1 : rho.n_cols = 1
    · simp [h1]
    · have h2 : rho.n_rows = rho.n_cols := by
        by_contra h2; exact h ⟨h1, h2⟩
      simp [h1, h2]

section session_claims

variable {K S : Type} [LinearOrderedField K] [CommRing S] [StarRing S]

/-- C7 (the code departs from it): on every valid session whose registered result is not
yet cached, neither `result_reg_all()` nor `result_reg()` returns: `compute_reg` writes its
three values with `ret.at(i)` into the vector `ret`, which was declared empty and is never
sized, so no vector of 3 values is produced. -/
theorem C7_result_reg_all_never_returns (M : StdMath K S) (L : Libs K S)
    (s : deficit_space K S) (hv : s.Valid) (hreg : s._is_reg_computed = false) :
    (∀ r, deficit_space.result_reg_all M L s ≠ .ok r) ∧
      (∀ r, deficit_space.result_reg M L s ≠ .ok r) := by
  constructor
  · intro r h
    simp only [deficit_space.result_reg_all, hreg, if_true, except_bind_eq_ok] at h
    obtain ⟨a, ha, _⟩ := h
    exact compute_reg_not_ok M L s hv.some_flag a ha
  · intro r h
    simp only [deficit_space.result_reg, hreg, if_true, except_bind_eq_ok] at h
    obtain ⟨a, ha, _⟩ := h
    exact compute_reg_not_ok M L s hv.some_flag a ha

/-- C8: on every valid session `result()` returns, and a second call right after it returns
the same value, makes no library call (neither optimizer phase, nor `entropy`) and leaves
the whole session as the first call left it. -/
theorem C8_result_cached (M : StdMath K S) (L : Libs K S) (s : deficit_space K S)
    (hv : s.Valid) :
    ∃ v s1 c, deficit_space.result M L s = .ok (v, s1, c) ∧
      deficit_space.result M L s1 = .ok (v, s1, []) := by
  have second : ∀ t : deficit_space K S, t._is_computed = true →
      deficit_space.result M L t = .ok (t._result, t, []) := by
    intro t ht
    simp [deficit_space.result, ht, bind, Except.bind, pure, Except.pure]
  by_cases hc : s._is_computed = true
  · exact ⟨s._result, s, [], second s hc, second s hc⟩
  · obtain ⟨s1, c, h1, h2⟩ := compute_ok M L s hv
    refine ⟨s1._result, s1, c, ?_, second s1 h2⟩
    simp [deficit_space.result, hc, h1, bind, Except.bind, pure, Except.pure]

end session_claims

/-- C9: each configuration setter (the two angle setters when they do not throw) yields the
session with the one field it sets replaced and `_is_computed` cleared, so the total-entropy
cache and the registered-result cache, flags and values, are unchanged; `refresh()` clears
the three flags. -/
theorem C9_setters_clear_only_opt {K S : Type} [LinearOrderedField K]
    (s : deficit_space K S) (alg : nlopt.algorithm) (x : K)
    (b : Bool) (ar ai : List K) (hr : (s.angle_range ar).2 = none)
    (hi : (s.initial_angle ai).2 = none) :
    (s.global_algorithm alg = { s with _deficit_global_opt := alg, _is_computed := false } ∧
      s.global_xtol x = { s with _deficit_global_xtol := x, _is_computed := false } ∧
      s.global_ftol x = { s with _deficit_global_ftol := x, _is_computed := false } ∧
      s.global_opt b = { s with _deficit_global := b, _is_computed := false } ∧
      s.local_algorithm alg = { s with _deficit_local_opt := alg, _is_computed := false } ∧
      s.local_xtol x = { s with _deficit_local_xtol := x, _is_computed := false } ∧
      s.local_ftol x = { s with _deficit_local_ftol := x, _is_computed := false } ∧
      (s.angle_range ar).1 = { s with _deficit_angle_range := ar, _is_computed := false } ∧
      (s.initial_angle ai).1 = { s with _deficit_angle_ini := ai, _is_computed := false }) ∧
    (∀ t ∈ [s.global_algorithm alg, s.global_xtol x, s.global_ftol x, s.global_opt b,
        s.local_algorithm alg, s.local_xtol x, s.local_ftol x, (s.angle_range ar).1,
        (s.initial_angle ai).1], t._is_computed = false ∧ s.KeepsCaches t) ∧
    (s.refresh._is_computed = false ∧ s.refresh._is_reg_computed = false ∧
      s.refresh._is_sab_computed = false) := by
  have er : (s.angle_range ar).1 =
      { s with _deficit_angle_range := ar, _is_computed := false } := by
    unfold deficit_space.angle_range at hr ⊢
    split_ifs at hr ⊢ with h1 h2
    rfl
  have ei : (s.initial_angle ai).1 =
      { s with _deficit_angle_ini := ai, _is_computed := false } := by
    unfold deficit_space.initial_angle at hi ⊢
    split_ifs at hi ⊢ with h1 h2
    rfl
  refine ⟨⟨rfl, rfl, rfl, rfl, rfl, rfl, rfl, er, ei⟩, ?_, ?_⟩
  · intro t ht
    simp only [List.mem_cons, List.mem_singleton, List.not_mem_nil, or_false] at ht
    rcases ht with h | h | h | h | h | h | h | h | h
    all_goals first
      | (rw [h]; exact ⟨rfl, rfl, rfl, rfl, rfl, rfl⟩)
      | (rw [h, er]; exact ⟨rfl, rfl, rfl, rfl, rfl, rfl⟩)
      | (rw [h, ei]; exact ⟨rfl, rfl, rfl, rfl, rfl, rfl⟩)
  · have h := set_defaults_sab
      { s with _is_computed := false, _is_reg_computed := false, _is_sab_computed := false }
    exact ⟨h.2.2.1, h.2.2.2, h.1⟩

/-- C10, as amended: once `_is_sab_computed` is true it stays true, with the cached `_S_A_B`
unchanged, after every configuration setter and after `reset_party()`, whether the call
throws or not; `refresh()` clears it. -/
theorem C10_sab_kept_except_by_refresh {K S : Type} [LinearOrderedField K]
    (s : deficit_space K S)
    (h : s._is_sab_computed = true) (alg : nlopt.algorithm) (x : K) (b : Bool)
    (ar ai : List K) (k : Nat) :
    (∀ t ∈ [s.global_algorithm alg, s.global_xtol x, s.global_ftol x, s.global_opt b,
        s.local_algorithm alg, s.local_xtol x, s.local_ftol x, (s.angle_range ar).1,
        (s.initial_angle ai).1, (s.reset_party k).1],
      t._is_sab_computed = true ∧ t._S_A_B = s._S_A_B) ∧
    s.refresh._is_sab_computed = false := by
  have er : (s.angle_range ar).1._is_sab_computed = s._is_sab_computed ∧
      (s.angle_range ar).1._S_A_B = s._S_A_B := by
    unfold deficit_space.angle_range
    split_ifs <;> exact ⟨rfl, rfl⟩
  have ei : (s.initial_angle ai).1._is_sab_computed = s._is_sab_computed ∧
      (s.initial_angle ai).1._S_A_B = s._S_A_B := by
    unfold deficit_space.initial_angle
    split_ifs <;> exact ⟨rfl, rfl⟩
  have ep := reset_party_sab s k
  constructor
  · intro t ht
    simp only [List.mem_cons, List.mem_singleton, List.not_mem_nil, or_false] at ht
    rcases ht with e | e | e | e | e | e | e | e | e | e
    all_goals first
      | (rw [e]; exact ⟨h, rfl⟩)
      | (rw [e]; exact ⟨er.1.trans h, er.2⟩)
      | (rw [e]; exact ⟨ei.1.trans h, ei.2⟩)
      | (rw [e]; exact ⟨ep.1.trans h, ep.2⟩)
  · exact (set_defaults_sab
      { s with _is_computed := false, _is_reg_computed := false,
               _is_sab_computed := false }).1

/-- Witness of C7 at the session built from `|00><00|`, nodal index 1, dimensions (2, 2). -/
theorem C7_witness :
    (session00.Valid ∧ session00._is_reg_computed = false) ∧
      ∀ (M : StdMath ℚ GaussianInt) (L : Libs ℚ GaussianInt),
        (∀ r, deficit_space.result_reg_all M L session00 ≠ .ok r) ∧
          (∀ r, deficit_space.result_reg M L session00 ≠ .ok r) :=
  ⟨⟨session00_valid, rfl⟩, fun M L =>
    C7_result_reg_all_never_returns M L session00 session00_valid rfl⟩

/-- Witness of C8 at the session built from `|00><00|`, nodal index 1, dimensions (2, 2). -/
theorem C8_witness :
    session00.Valid ∧
      ∀ (M : StdMath ℚ GaussianInt) (L : Libs ℚ GaussianInt),
        ∃ v s1 c, deficit_space.result M L session00 = .ok (v, s1, c) ∧
          deficit_space.result M L s1 = .ok (v, s1, []) :=
  ⟨session00_valid, fun M L => C8_result_cached M L session00 session00_valid⟩

/-- Witness of C9 at the sample session. -/
theorem C9_witness :
    ((session00.angle_range [1, 1]).2 = none ∧ (session00.initial_angle [1 / 2, 1]).2 = none) ∧
      (session00.angle_range [1, 1]).1 =
        { session00 with _deficit_angle_range := [1, 1], _is_computed := false } ∧
      session00.refresh._is_sab_computed = false :=
  have h := C9_setters_clear_only_opt session00 nlopt.algorithm.LN_COBYLA 0 false [1, 1]
    [1 / 2, 1] rfl rfl
  ⟨⟨rfl, rfl⟩, h.1.2.2.2.2.2.2.2.1, h.2.2.2.2⟩

/-- C10 fails as stated: `refresh()` clears a valid total-entropy cache. -/
theorem C10_counterexample :
    session00_sab._is_sab_computed = true ∧ session00_sab.refresh._is_sab_computed = false :=
  ⟨rfl, rfl⟩

/-- Witness of C10 at the sample session with its total entropy cached. -/
theorem C10_witness :
    session00_sab._is_sab_computed = true ∧
      ((session00_sab.reset_party 2).1._is_sab_computed = true ∧
        (session00_sab.reset_party 0).1._is_sab_computed = true ∧
        (session00_sab.global_xtol (1 / 2))._is_sab_computed = true) ∧
      session00_sab.refresh._is_sab_computed = false :=
  have h := C10_sab_kept_except_by_refresh session00_sab rfl nlopt.algorithm.LN_COBYLA
    (1 / 2) false [] [] 2
  have h0 := C10_sab_kept_except_by_refresh session00_sab rfl nlopt.algorithm.LN_COBYLA
    (1 / 2) false [] [] 0
  ⟨rfl, ⟨(h.1 _ (by simp)).1, (h0.1 _ (by simp)).1, (h.1 (session00_sab.global_xtol (1 / 2))
    (by simp)).1⟩, h.2⟩

/-- C11: for a session of `P` parties and an index `k` held by an `arma::uword`,
`reset_party(k)` throws "Invalid measured party index!" (the spec's `InvalidMeasuredParty`)
exactly when `k < 1` or `k > P`; otherwise it throws "Measured party is not qubit or
qutrit!" (`UnsupportedMeasuredPartyDimension`) exactly when `dim[k-1]` is neither 2 nor 3;
otherwise it does not throw. -/
theorem C11_reset_party_errors {K S : Type} [LinearOrderedField K] (s : deficit_space K S)
    (k : Nat) (hP : s._party_no = s._dim.length) (hk : k < uword_size) :
    ((s.reset_party k).2 =
        some (Fault.exception (Exception.CUSTOM "Invalid measured party index!")) ↔
      (k < 1 ∨ s._party_no < k)) ∧
    (¬ (k < 1 ∨ s._party_no < k) →
      ((s.reset_party k).2 =
          some (Fault.exception (Exception.CUSTOM "Measured party is not qubit or qutrit!")) ↔
        (s._dim.get? (k - 1) ≠ some 2 ∧ s._dim.get? (k - 1) ≠ some 3))) ∧
    (¬ (k < 1 ∨ s._party_no < k) →
      (s._dim.get? (k - 1) = some 2 ∨ s._dim.get? (k - 1) = some 3) →
      (s.reset_party k).2 = none) := by
  rcases reset_party_cases s k hP hk with ⟨h, e⟩ | ⟨dk, h1, h2, hg, d2, d3, e⟩ |
    ⟨dk, h1, h2, hg, hd, e⟩
  · rw [e]
    exact ⟨⟨fun _ => h, fun _ => rfl⟩, fun hn => absurd h hn, fun hn => absurd h hn⟩
  · rw [e, hg]
    refine ⟨⟨fun hh => ?_, fun hh => ?_⟩, fun _ => ⟨fun _ => ?_, fun _ => rfl⟩, fun _ hh => ?_⟩
    · simp at hh
    · omega
    · simp [d2, d3]
    · simp [d2, d3] at hh
  · rw [e, hg]
    refine ⟨⟨fun hh => ?_, fun hh => ?_⟩, fun _ => ⟨fun hh => ?_, fun hh => ?_⟩, fun _ _ => rfl⟩
    · simp at hh
    · omega
    · simp at hh
    · rcases hd with rfl | rfl <;> simp at hh

/-- Witness of C11 on the parties (2, 4): indices 0 and `P + 1 = 3`, the party of
dimension 4, and the qubit party. -/
theorem C11_witness :
    (session24._party_no = session24._dim.length ∧ 2 < uword_size) ∧
      (session24.reset_party 0).2 =
        some (Fault.exception (Exception.CUSTOM "Invalid measured party index!")) ∧
      (session24.reset_party 3).2 =
        some (Fault.exception (Exception.CUSTOM "Invalid measured party index!")) ∧
      (session24.reset_party 2).2 =
        some (Fault.exception (Exception.CUSTOM "Measured party is not qubit or qutrit!")) ∧
      (session24.reset_party 1).2 = none :=
  have h0 := C11_reset_party_errors session24 0 rfl (by decide)
  have h3 := C11_reset_party_errors session24 3 rfl (by decide)
  have h2 := C11_reset_party_errors session24 2 rfl (by decide)
  have h1 := C11_reset_party_errors session24 1 rfl (by decide)
  ⟨⟨rfl, by decide⟩, h0.1.2 (by decide), h3.1.2 (by decide),
    (h2.2.1 (by decide)).2 (by decide), h1.2.2 (by decide) (by decide)⟩

/-- C12: a `reset_party(k)` that does not throw sets the nodal index to `k`, derives the two
flags from `dim[k-1]`, clears `_is_computed` and `_is_reg_computed`, writes the default
configuration of the new case, and keeps the state, the dimensions, the party count and the
total-entropy cache. -/
theorem C12_reset_party_frame {K S : Type} [LinearOrderedField K] (s : deficit_space K S)
    (k : Nat) (hP : s._party_no = s._dim.length) (hk : k < uword_size)
    (hok : (s.reset_party k).2 = none) :
    (s.reset_party k).1._nodal = k ∧
    ((s.reset_party k).1._deficit2 = true ↔ s._dim.get? (k - 1) = some 2) ∧
    ((s.reset_party k).1._deficit3 = true ↔ s._dim.get? (k - 1) = some 3) ∧
    (s.reset_party k).1._is_computed = false ∧
    (s.reset_party k).1._is_reg_computed = false ∧
    ((s.reset_party k).1._deficit2 = true → (s.reset_party k).1.HasQubitDefaults) ∧
    ((s.reset_party k).1._deficit3 = true → (s.reset_party k).1.HasQutritDefaults) ∧
    (s.reset_party k).1._rho = s._rho ∧ (s.reset_party k).1._dim = s._dim ∧
    (s.reset_party k).1._party_no = s._party_no ∧
    (s.reset_party k).1._is_sab_computed = s._is_sab_computed ∧
    (s.reset_party k).1._S_A_B = s._S_A_B := by
  rcases reset_party_cases s k hP hk with ⟨h, e⟩ | ⟨dk, h1, h2, hg, d2, d3, e⟩ |
    ⟨dk, h1, h2, hg, hd, e⟩
  · rw [e] at hok; cases hok
  · rw [e] at hok; cases hok
  · rw [e, hg]
    rcases hd with rfl | rfl
    · simp [deficit_space.set_defaults, deficit_space.HasQubitDefaults]
    · simp [deficit_space.set_defaults, deficit_space.HasQutritDefaults]


/-- Witness of C12: the sample session moved to its second party. -/
theorem C12_witness :
    (session00._party_no = session00._dim.length ∧ 2 < uword_size ∧
      (session00.reset_party 2).2 = none) ∧
    (session00.reset_party 2).1._nodal = 2 ∧
    (session00.reset_party 2).1.HasQubitDefaults ∧
    (session00.reset_party 2).1._rho = session00._rho :=
  have h := C12_reset_party_frame session00 2 rfl (by decide) rfl
  ⟨⟨rfl, by decide, rfl⟩, h.1, h.2.2.2.2.2.1 rfl, h.2.2.2.2.2.2.2.1⟩

/-- C13 (the code departs from it): `reset_party` assigns `_nodal` before it validates it.
After `reset_party(0)` has thrown on a constructed session the nodal index is 0; after
`reset_party(2)` has thrown on the parties (2, 4) the nodal index is 2, `dim[1]` is 4 and
neither flag is set. -/
theorem C13_failed_reset_party_breaks_invariant :
    (deficit_space.construct rho00 1 [2, 2] = .ok session00 ∧
      (session00.reset_party 0).2 =
        some (Fault.exception (Exception.CUSTOM "Invalid measured party index!")) ∧
      (session00.reset_party 0).1._nodal = 0) ∧
    (deficit_space.construct rho24 1 [2, 4] = .ok session24 ∧
      (session24.reset_party 2).2 =
        some (Fault.exception (Exception.CUSTOM "Measured party is not qubit or qutrit!")) ∧
      (session24.reset_party 2).1._nodal = 2 ∧
      (session24.reset_party 2).1._dim.get? (2 - 1) = some 4 ∧
      (session24.reset_party 2).1._deficit2 = false ∧
      (session24.reset_party 2).1._deficit3 = false) :=
  ⟨⟨rfl, rfl, rfl⟩, rfl, rfl, rfl, rfl, rfl, rfl⟩

/-- C14: in a session with exactly one case flag, `angle_range(a)` and `initial_angle(a)`
throw exactly when the length of `a` is not 2 (qubit case), not 5 (qutrit case); the
exception carries the message of the case (the spec's `InvalidParameterVectorLength`) and
the session is unchanged; when they do not throw, `a` is stored and `_is_computed` is
cleared, nothing else changes. -/
theorem C14_angle_setters {K S : Type} [LinearOrderedField K] (s : deficit_space K S)
    (a : List K) (hcase : s._deficit2 = !s._deficit3) :
    (((s.angle_range a).2 ≠ none ↔ a.length ≠ (if s._deficit2 = true then 2 else 5)) ∧
      ((s.angle_range a).2 ≠ none →
        (s.angle_range a).2 = some (Fault.exception (Exception.CUSTOM
          (if s._deficit2 = true then
            "Number of elements has to be 2, when measured party is a qubit!"
          else "Number of elements has to be 5, when measured party is a qutrit!"))) ∧
        (s.angle_range a).1 = s) ∧
      ((s.angle_range a).2 = none →
        (s.angle_range a).1 = { s with _deficit_angle_range := a, _is_computed := false })) ∧
    (((s.initial_angle a).2 ≠ none ↔ a.length ≠ (if s._deficit2 = true then 2 else 5)) ∧
      ((s.initial_angle a).2 ≠ none →
        (s.initial_angle a).2 = some (Fault.exception (Exception.CUSTOM
          (if s._deficit2 = true then
            "Number of elements has to be 2, when measured party is a qubit!"
          else "Number of elements has to be 5, when measured party is a qutrit!"))) ∧
        (s.initial_angle a).1 = s) ∧
      ((s.initial_angle a).2 = none →
        (s.initial_angle a).1 = { s with _deficit_angle_ini := a, _is_computed := false })) := by
  unfold deficit_space.angle_range deficit_space.initial_angle
  cases h2 : s._deficit2 <;> cases h3 : s._deficit3 <;> simp [h2, h3] at hcase
  · by_cases hl : a.length = 5 <;> simp [hl]
  · by_cases hl : a.length = 2 <;> simp [hl]

/-- Witness of C14 at the sample qubit session. -/
theorem C14_witness :
    (session00._deficit2 = !session00._deficit3) ∧
      (session00.angle_range [1, 1, 1]).2 ≠ none ∧
      (session00.angle_range [1, 1, 1]).1 = session00 ∧
      (session00.initial_angle [1 / 2, 1]).2 = none :=
  have h := C14_angle_setters session00 [1, 1, 1] rfl
  have h' := C14_angle_setters session00 [1 / 2, 1] rfl
  ⟨rfl, h.1.1.2 (by decide), (h.1.2.1 (h.1.1.2 (by decide))).2,
    not_not.mp (fun hn => (h'.2.1.1 hn) rfl)⟩

/-- C15 as stated, refuted: with `dim = (2^63 + 1, 2)` the product is not the size 2 of the
state, yet `arma::prod` wraps to 2 on `uword` and the construction succeeds. -/
theorem C15_counterexample :
    [2 ^ 63 + 1, 2].prod ≠ rho0.n_rows ∧
      deficit_space.construct (K := ℚ) rho0 2 [2 ^ 63 + 1, 2] =
        .ok { session00 with _rho := rho0, _nodal := 2, _dim := [2 ^ 63 + 1, 2] } :=
  ⟨by decide, by rfl⟩

/-- C15, amended: the construction from (state, `k`, `dim`) fails exactly with the error of
the first violated condition in the order ZERO_SIZE, MATRIX_NOT_SQUARE, INVALID_DIMS,
DIMS_MISMATCH_MATRIX, invalid measured party, unsupported measured party dimension; it
succeeds if and only if the state is non-empty and square, every entry of `dim` is
non-zero, the `uword` product of `dim` (the product itself when that is below `2 ^ 64`) is
the size of the state, `1 <= k <= length dim` and `dim[k-1]` is 2 or 3; and a constructed
session has its three validity flags false. -/
theorem C15_construct_outcome {K S : Type} [LinearOrderedField K] (rho : Mat S) (k : Nat)
    (dim : List Nat) (hk : k < uword_size) :
    (∀ f, deficit_space.construct (K := K) rho k dim = .error f ↔
      deficit_space.construct_check rho k dim = some f) ∧
    ((∃ s, deficit_space.construct (K := K) rho k dim = .ok s) ↔
      (rho.n_elem ≠ 0 ∧ rho.n_rows = rho.n_cols ∧ (∀ d ∈ dim, d ≠ 0) ∧
        arma_prod dim = rho.n_rows ∧ 1 ≤ k ∧ k ≤ dim.length ∧
        (dim.get? (k - 1) = some 2 ∨ dim.get? (k - 1) = some 3))) ∧
    (∀ s, deficit_space.construct (K := K) rho k dim = .ok s →
      s._is_computed = false ∧ s._is_reg_computed = false ∧ s._is_sab_computed = false) ∧
    (dim.prod < uword_size → arma_prod dim = dim.prod) := by
  rw [← construct_check_none]
  rcases construct_cases (K := K) rho k dim hk with ⟨f, hc, he⟩ | ⟨s, hc, he, hf⟩
  · rw [hc, he]
    refine ⟨fun g => ?_, ?_, ?_, arma_prod_eq dim⟩
    · constructor
      · intro h; cases h; rfl
      · intro h; cases h; rfl
    · constructor
      · rintro ⟨s, hs⟩; cases hs
      · intro h; cases h
    · intro s hs; cases hs
  · rw [hc, he]
    refine ⟨fun g => ?_, ?_, ?_, arma_prod_eq dim⟩
    · constructor
      · intro h; cases h
      · intro h; cases h
    · exact ⟨fun _ => rfl, fun _ => ⟨s, rfl⟩⟩
    · intro t ht
      cases ht
      exact ⟨hf.1, hf.2.1, hf.2.2.1⟩

/-- Witness of C15: `k = 2` and `k = 1` are `uword` values; the construction for
`(rho24, 2, (2, 4))` fails on the measured dimension 4 and the one for `(rho24, 1, (2, 2))`
on the product. -/
theorem C15_witness :
    (2 < uword_size ∧ 1 < uword_size) ∧
      deficit_space.construct (K := ℚ) rho24 2 [2, 4] =
        .error (Fault.exception (Exception.CUSTOM "Measured party is not qubit or qutrit!")) ∧
      deficit_space.construct (K := ℚ) rho24 1 [2, 2] =
        .error (Fault.exception Exception.DIMS_MISMATCH_MATRIX) :=
  have h := C15_construct_outcome (K := ℚ) rho24 2 [2, 4] (by decide)
  have h2 := C15_construct_outcome (K := ℚ) rho24 1 [2, 2] (by decide)
  ⟨⟨by decide, by decide⟩, (h.1 _).2 rfl, (h2.1 _).2 rfl⟩

/-- C16: with `std::log` the real logarithm and `std::llround` exact rounding, for every
uniform dimension `2 <= d` and every non-empty square `N x N` state (`N * N` and `d`
being `uword` values) the uniform constructor is the vector constructor on
`round(log N / log d)` copies of `d`; when `N = d ^ P` with `1 <= P` these are `P` copies,
when `N` is no power of `d` the result is DIMS_MISMATCH_MATRIX, and the uniform dimension
0 gives INVALID_DIMS. -/
theorem C16_uniform_constructor {S : Type} (rho : Mat S) (k d : Nat)
    (h0 : rho.n_elem ≠ 0) (hsq : rho.n_rows = rho.n_cols) (hN : rho.n_elem < uword_size)
    (hd : 2 ≤ d) (hd2 : d < uword_size) :
    let R : RoundMath ℝ := ⟨Real.log, fun x => if 0 ≤ x then round x else -round (-x)⟩
    deficit_space.construct_uniform R rho k d =
        deficit_space.construct rho k
          (List.replicate (round (Real.log rho.n_rows / Real.log d)).toNat d) ∧
      (∀ P, 1 ≤ P → rho.n_rows = d ^ P →
        deficit_space.construct_uniform R rho k d =
          deficit_space.construct rho k (List.replicate P d)) ∧
      ((∀ P, rho.n_rows ≠ d ^ P) →
        deficit_space.construct_uniform R rho k d =
          .error (Fault.exception Exception.DIMS_MISMATCH_MATRIX)) ∧
      deficit_space.construct_uniform R rho k 0 =
        .error (Fault.exception Exception.INVALID_DIMS) := by
  intro R
  have hN1 : 1 ≤ rho.n_rows := by
    rcases Nat.eq_zero_or_pos rho.n_rows with h | h
    · exact absurd (by simp [Mat.n_elem, h]) h0
    · exact h
  have hNN : rho.n_rows * rho.n_rows < uword_size := by
    have : rho.n_elem = rho.n_rows * rho.n_rows := by simp [Mat.n_elem, ← hsq]
    rwa [this] at hN
  have hd1 : (1 : ℝ) < d := by exact_mod_cast (by omega : 1 < d)
  have hx : 0 ≤ Real.log rho.n_rows / Real.log d :=
    div_nonneg (Real.log_nonneg (by exact_mod_cast hN1)) (Real.log_pos hd1).le
  obtain ⟨hu, hp⟩ := uniform_count rho.n_rows d hN1 hNN hd hd2
  have ha : deficit_space.construct_uniform R rho k d =
      deficit_space.construct rho k
        (List.replicate (round (Real.log rho.n_rows / Real.log d)).toNat d) := by
    rw [construct_uniform_eq R rho k d (by omega)]
    simp only [R, if_pos hx, hu]
  refine ⟨ha, ?_, ?_, construct_uniform_zero R rho k h0 hsq⟩
  · intro P _ hP
    rw [ha, hP, round_log_pow d P hd, Int.toNat_natCast]
  · intro hP
    rw [ha]
    apply construct_replicate_mismatch rho k _ d h0 hsq (by omega)
    rw [arma_prod_replicate _ _ hp]
    exact fun h => hP _ h.symm

/-- Witness of C16: the 4 x 4 state `rho00` with uniform dimension 2 is constructed as
with the dimension vector `(2, 2)`. -/
theorem C16_witness :
    (rho00.n_elem ≠ 0 ∧ rho00.n_rows = rho00.n_cols ∧ rho00.n_elem < uword_size ∧ 2 ≤ 2 ∧
        2 < uword_size) ∧
      deficit_space.construct_uniform (K := ℝ)
          ⟨Real.log, fun x => if 0 ≤ x then round x else -round (-x)⟩ rho00 1 2 =
        deficit_space.construct rho00 1 [2, 2] :=
  ⟨⟨by decide, by decide, by decide, by decide, by decide⟩,
    (C16_uniform_constructor rho00 1 2 (by decide) (by decide) (by decide) (by decide)
      (by decide)).2.1 2 (by decide) (by decide)⟩

/-- C17: on a session whose dimensions multiply to the size `N` of a non-empty state, with
`1 <= k <= P` and `dim[k-1] = d`, and for every `d x d` matrix `p`, the context built by
`compute` holds the identities of sizes `N / d`, `before = prod(dim[0..k-2])` and
`after = prod(dim[k..P-1])` with `before * d * after = N`, and the operator the objective
builds from `p` is `N x N` and equals `kron(kron(I_before, p), I_after)`: for the first
party it is `kron(p, I_(N/d))` with `before = 1`, for the last party `kron(I_(N/d), p)`
with `after = 1`. -/
theorem C17_embedded_projector {K S : Type} [LinearOrderedField K] [CommRing S]
    (s : deficit_space K S) (d : Nat) (p : Mat S)
    (hprod : s._dim.prod = s._rho.n_rows) (h0 : s._rho.n_rows ≠ 0)
    (hN : s._rho.n_rows < uword_size) (hP : s._party_no = s._dim.length)
    (hk1 : 1 ≤ s._nodal) (hk2 : s._nodal ≤ s._party_no) (hku : s._nodal < uword_size)
    (hd : s._dim.get? (s._nodal - 1) = some d) (hp : p.n_rows = d ∧ p.n_cols = d) :
    let N := s._rho.n_rows
    let before := (s._dim.take (s._nodal - 1)).prod
    let after := (s._dim.drop s._nodal).prod
    let op := protect_dis.embed s._nodal s._party_no (Mat.eye (N / d)) (Mat.eye before)
      (Mat.eye after) p
    deficit_space.make_pass s d =
        .ok ⟨s._rho, Mat.eye (N / d), Mat.eye before, Mat.eye after, s._nodal, s._party_no⟩ ∧
      before * d * after = N ∧
      op = Mat.kron (Mat.kron (Mat.eye before) p) (Mat.eye after) ∧
      op.n_rows = N ∧ op.n_cols = N ∧
      (s._nodal = 1 → before = 1 ∧ after = N / d ∧ op = Mat.kron p (Mat.eye (N / d))) ∧
      (s._nodal ≠ 1 → s._party_no = s._nodal →
        before = N / d ∧ after = 1 ∧ op = Mat.kron (Mat.eye (N / d)) p) := by
  intro N before after op
  obtain ⟨hm, hs, hdiv⟩ := make_pass_val s d hprod h0 hN hP hk1 hk2 hku hd
  have hfirst : s._nodal = 1 → before = 1 ∧ after = N / d := by
    intro h
    have hb : before = 1 := by simp [before, h]
    refine ⟨hb, ?_⟩
    have := hdiv
    simp only [N, before, after] at hb ⊢
    rw [this, hb, Nat.one_mul]
  have hlast : s._party_no = s._nodal → before = N / d ∧ after = 1 := by
    intro h
    have ha : after = 1 := by
      simp only [after]
      rw [List.drop_of_length_le (by omega)]
      rfl
    refine ⟨?_, ha⟩
    have := hdiv
    simp only [N, before, after] at ha ⊢
    rw [this, ha, Nat.mul_one]
  have hop : op = Mat.kron (Mat.kron (Mat.eye before) p) (Mat.eye after) := by
    simp only [op, protect_dis.embed]
    by_cases h1 : s._nodal = 1
    · obtain ⟨hb, ha⟩ := hfirst h1
      rw [if_pos h1, hb, ha, kron_eye_one_left]
    · rw [if_neg h1]
      by_cases h2 : s._party_no = s._nodal
      · obtain ⟨hb, ha⟩ := hlast h2
        rw [if_pos h2, hb, ha, kron_eye_one_right]
      · rw [if_neg h2]
  refine ⟨hm, hs, hop, ?_, ?_, ?_, ?_⟩
  · rw [hop]
    simp only [Mat.kron, Mat.eye, hp.1]
    exact hs
  · rw [hop]
    simp only [Mat.kron, Mat.eye, hp.2]
    exact hs
  · intro h1
    refine ⟨(hfirst h1).1, (hfirst h1).2, ?_⟩
    simp only [op, protect_dis.embed, if_pos h1]
  · intro h1 h2
    refine ⟨(hlast h2).1, (hlast h2).2, ?_⟩
    simp only [op, protect_dis.embed, if_neg h1, if_pos h2]

/-- Witness of C17: the session `session00` (two qubits, first party measured) with the
2 x 2 matrix `rho0`. -/
theorem C17_witness :
    ([2, 2].prod = rho00.n_rows ∧ rho00.n_rows ≠ 0 ∧ rho00.n_rows < uword_size ∧
        session00._party_no = [2, 2].length ∧ 1 ≤ session00._nodal ∧
        session00._nodal ≤ session00._party_no ∧ session00._nodal < uword_size ∧
        session00._dim.get? (session00._nodal - 1) = some 2 ∧
        (rho0.n_rows = 2 ∧ rho0.n_cols = 2)) ∧
      deficit_space.make_pass session00 2 =
        .ok ⟨rho00, Mat.eye 2, Mat.eye 1, Mat.eye 2, 1, 2⟩ ∧
      protect_dis.embed 1 2 (Mat.eye 2) (Mat.eye 1) (Mat.eye 2) rho0 =
        Mat.kron (Mat.kron (Mat.eye 1) rho0) (Mat.eye 2) :=
  have h := C17_embedded_projector session00 2 rho0
    (by decide) (by decide) (by decide) (by decide) (by decide) (by decide) (by decide)
    (by decide) ⟨rfl, rfl⟩
  ⟨⟨by decide, by decide, by decide, by decide, by decide, by decide, by decide, by decide,
      rfl, rfl⟩, h.1, h.2.2.1⟩

/-- C18: on a valid session without a cached result, with the optimizer an arbitrary
function, `result()` returns `f* - S_AB` and `opt_angles()` returns `x*`, where `S_AB` is
the entropy of the state (computed by one call of `entropy`, or the cached value) and
`(x*, f*)` is the output of the local phase. The calls made are the entropy call if any, the
global phase once from `x0` if it is enabled, and the local phase once, started from the
point the global phase returned, or from `x0` if it is disabled; the value the global phase
returned is not used. The two phases share the objective and carry the configured
algorithms and tolerances. -/
theorem C18_two_phase_result {K S : Type} [LinearOrderedField K] [CommRing S] [StarRing S]
    (M : StdMath K S) (L : Libs K S) (s : deficit_space K S) (hv : s.Valid)
    (hc : s._is_computed = false) :
    ∃ (sab : K) (ecalls : List (Call K S)) (x0 : List K) (gopt lopt : nlopt.opt K)
      (s1 : deficit_space K S),
      (s._is_sab_computed = false →
        entropy M L s._rho = .ok sab ∧ ecalls = [Call.entropy s._rho]) ∧
      (s._is_sab_computed = true → sab = s._S_A_B ∧ ecalls = []) ∧
      (gopt.a = s._deficit_global_opt ∧ gopt.xtol_rel = s._deficit_global_xtol ∧
        gopt.ftol_rel = s._deficit_global_ftol) ∧
      (lopt.a = s._deficit_local_opt ∧ lopt.xtol_rel = s._deficit_local_xtol ∧
        lopt.ftol_rel = s._deficit_local_ftol) ∧
      gopt.min_objective = lopt.min_objective ∧
      (let start : List K := if s._deficit_global = true then (L.optimize gopt x0).1 else x0
       let r : List K × K := L.optimize lopt start
       let calls : List (Call K S) :=
        ecalls ++ ((if s._deficit_global = true then [Call.optimize gopt x0] else []) ++
          [Call.optimize lopt start])
       deficit_space.result M L s = .ok (r.2 - sab, s1, calls) ∧
        deficit_space.opt_angles M L s = .ok (r.1, s1, calls) ∧
        s1._S_A_B = sab ∧ s1._is_sab_computed = true ∧ s1._is_computed = true) := by
  obtain ⟨sab, ecalls, n, x0, obj, _, hs1, hs2, _, _, _, _, gopt, lopt, start, hgo, hlo,
    hst, h⟩ := compute_val M L s hv
  obtain ⟨h1, h2⟩ := result_of_compute M L s _ hc h
  subst hst
  refine ⟨sab, ecalls, x0, gopt, lopt, _, hs1, hs2, ?_, ?_, ?_, ?_, h2, rfl, rfl, rfl⟩
  · rw [hgo]
    exact ⟨rfl, rfl, rfl⟩
  · rw [hlo]
    exact ⟨rfl, rfl, rfl⟩
  · rw [hgo, hlo]
  · rw [h1, sub_eq_neg_add]

/-- Witness of C18 at the sample session, whose global phase is enabled and whose total
entropy is not cached. -/
theorem C18_witness :
    (session00.Valid ∧ session00._is_computed = false) ∧
      ∀ (M : StdMath ℚ GaussianInt) (L : Libs ℚ GaussianInt),
        ∃ (sab : ℚ) (x0 : List ℚ) (gopt lopt : nlopt.opt ℚ)
          (s1 : deficit_space ℚ GaussianInt),
          entropy M L rho00 = .ok sab ∧
            deficit_space.result M L session00 =
              .ok ((L.optimize lopt (L.optimize gopt x0).1).2 - sab, s1,
                [Call.entropy rho00, Call.optimize gopt x0,
                  Call.optimize lopt (L.optimize gopt x0).1]) :=
  ⟨⟨session00_valid, rfl⟩, fun M L => by
    obtain ⟨sab, ecalls, x0, gopt, lopt, s1, h1, _, _, _, _, h⟩ :=
      C18_two_phase_result M L session00 session00_valid rfl
    obtain ⟨he, hcalls⟩ := h1 rfl
    subst hcalls
    exact ⟨sab, x0, gopt, lopt, s1, he, h.1⟩⟩

/-- C19: on a valid session without a cached result, every optimizer call made by
`opt_angles()` carries the lower bounds 0 and the upper bounds `b_i * pi`, `b` being the
configured `angle_range`; the angles returned are the output of one of these calls, and
they satisfy `0 <= opt_angles()[i] <= b_i * pi` for every `i` whenever every optimizer call
returns a point inside the box it was given. -/
theorem C19_angles_in_box {K S : Type} [LinearOrderedField K] [CommRing S] [StarRing S]
    (M : StdMath K S) (L : Libs K S) (s : deficit_space K S) (hv : s.Valid)
    (hc : s._is_computed = false) :
    ∃ (tp : List K) (s1 : deficit_space K S) (calls : List (Call K S)),
      deficit_space.opt_angles M L s = .ok (tp, s1, calls) ∧
      (∃ o x, Call.optimize o x ∈ calls ∧ tp = (L.optimize o x).1) ∧
      (∀ o x, Call.optimize o x ∈ calls →
        o.lower_bounds = s._deficit_angle_range.map (fun _ => 0) ∧
          o.upper_bounds = s._deficit_angle_range.map (fun b => b * M.pi)) ∧
      ((∀ o x, Call.optimize o x ∈ calls →
          List.Forall₂ (fun l t => l ≤ t) o.lower_bounds (L.optimize o x).1 ∧
            List.Forall₂ (fun t u => t ≤ u) (L.optimize o x).1 o.upper_bounds) →
        List.Forall₂ (fun b t => 0 ≤ t ∧ t ≤ b * M.pi) s._deficit_angle_range tp) := by
  obtain ⟨sab, ecalls, n, x0, obj, _, hs1, hs2, _, _, hn, _, gopt, lopt, start, hgo, hlo,
    _, h⟩ := compute_val M L s hv
  obtain ⟨_, h2⟩ := result_of_compute M L s _ hc h
  have hlb : List.replicate n (0 : K) = s._deficit_angle_range.map (fun _ => 0) := by
    rw [List.map_const', hn]
  have hec : ∀ o x, Call.optimize o x ∉ ecalls := by
    intro o x hm
    by_cases hsab : s._is_sab_computed = false
    · rw [(hs1 hsab).2] at hm
      simp at hm
    · rw [(hs2 (by simpa using hsab)).2] at hm
      simp at hm
  have hgb : gopt.lower_bounds = s._deficit_angle_range.map (fun _ => 0) ∧
      gopt.upper_bounds = s._deficit_angle_range.map (fun b => b * M.pi) := by
    rw [hgo]
    exact ⟨hlb, rfl⟩
  have hlbd : lopt.lower_bounds = s._deficit_angle_range.map (fun _ => 0) ∧
      lopt.upper_bounds = s._deficit_angle_range.map (fun b => b * M.pi) := by
    rw [hlo]
    exact ⟨hlb, rfl⟩
  have hmem : Call.optimize lopt start ∈ ecalls ++
      ((if s._deficit_global = true then [Call.optimize gopt x0] else []) ++
        [Call.optimize lopt start]) := by simp
  refine ⟨_, _, _, h2, ⟨lopt, start, hmem, rfl⟩, ?_, ?_⟩
  · intro o x hm
    simp only [List.mem_append, List.mem_singleton] at hm
    rcases hm with hm | hm | hm
    · exact absurd hm (hec o x)
    · split_ifs at hm
      · simp only [List.mem_singleton] at hm
        cases hm
        exact hgb
      · simp at hm
    · cases hm
      exact hlbd
  · intro hbox
    obtain ⟨hl, hu⟩ := hbox _ _ hmem
    rw [hlbd.1, List.forall₂_map_left_iff] at hl
    rw [hlbd.2, List.forall₂_map_right_iff] at hu
    exact forall2_and _ _ _ _ hl hu.flip

/-- Witness of C19 at the sample session, whose configured range is `(1, 2)`. -/
theorem C19_witness :
    (session00.Valid ∧ session00._is_computed = false) ∧
      ∀ (M : StdMath ℚ GaussianInt) (L : Libs ℚ GaussianInt),
        ∃ (tp : List ℚ) (s1 : deficit_space ℚ GaussianInt)
          (calls : List (Call ℚ GaussianInt)),
          deficit_space.opt_angles M L session00 = .ok (tp, s1, calls) ∧
          (∀ o x, Call.optimize o x ∈ calls →
            o.lower_bounds = [0, 0] ∧ o.upper_bounds = [1 * M.pi, 2 * M.pi]) :=
  ⟨⟨session00_valid, rfl⟩, fun M L => by
    obtain ⟨tp, s1, calls, h, _, hb, _⟩ := C19_angles_in_box M L session00 session00_valid rfl
    exact ⟨tp, s1, calls, h, hb⟩⟩

/-- C20 (the code departs from it in the qubit case): on a valid qubit session with the
seed `(i0, i1)` the first optimizer call made by `result()` starts from
`(i0 * pi, i0 * pi)`: line 395 reads `_deficit_angle_ini.at(0)` for `x[1]`. For `i0 /= i1`
and `pi /= 0` this is not the componentwise image of the seed. -/
theorem C20_qubit_start_point {K S : Type} [LinearOrderedField K] [CommRing S] [StarRing S]
    (M : StdMath K S) (L : Libs K S) (s : deficit_space K S) (hv : s.Valid)
    (hc : s._is_computed = false) (h2 : s._deficit2 = true) (i0 i1 : K)
    (hi : s._deficit_angle_ini = [i0, i1]) :
    ∃ (v : K) (s1 : deficit_space K S) (rest : List (Call K S)) (o : nlopt.opt K),
      deficit_space.result M L s =
        .ok (v, s1, (if s._is_sab_computed = false then [Call.entropy s._rho] else []) ++
          Call.optimize o [i0 * M.pi, i0 * M.pi] :: rest) ∧
      (i0 ≠ i1 → M.pi ≠ 0 →
        [i0 * M.pi, i0 * M.pi] ≠ s._deficit_angle_ini.map (fun a => a * M.pi)) := by
  obtain ⟨sab, ecalls, n, x0, obj, _, hs1, hs2, hq, _, _, _, gopt, lopt, start, _, _,
    hst, h⟩ := compute_val M L s hv
  obtain ⟨h1, _⟩ := result_of_compute M L s _ hc h
  obtain ⟨_, ⟨j0, j1, hj, hx0⟩, _⟩ := hq h2
  rw [hi] at hj
  cases hj
  have hec : ecalls = if s._is_sab_computed = false then [Call.entropy s._rho] else [] := by
    by_cases hsab : s._is_sab_computed = false
    · rw [if_pos hsab, (hs1 hsab).2]
    · rw [if_neg hsab, (hs2 (by simpa using hsab)).2]
  have hne : i0 ≠ i1 → M.pi ≠ 0 →
      [i0 * M.pi, i0 * M.pi] ≠ s._deficit_angle_ini.map (fun a => a * M.pi) := by
    intro h01 hpi he
    rw [hi] at he
    simp only [List.map_cons, List.map_nil, List.cons.injEq, and_true, true_and] at he
    exact h01 (mul_right_cancel₀ hpi he)
  subst hx0
  rw [hec] at h1
  by_cases hg : s._deficit_global = true
  · simp only [hg, if_true, List.singleton_append] at h1
    exact ⟨_, _, [Call.optimize lopt start], gopt, h1, hne⟩
  · simp only [hg, Bool.false_eq_true, if_false, List.nil_append] at h1 hst
    rw [hst] at h1
    exact ⟨_, _, [], lopt, h1, hne⟩

/-- Witness of C20: after `initial_angle({0.1, 0.7})` on the sample session the first
optimizer call starts from `(0.1 * pi, 0.1 * pi)`. -/
theorem C20_witness :
    (session_seed.Valid ∧ session_seed._is_computed = false ∧ session_seed._deficit2 = true ∧
        session_seed._deficit_angle_ini = [1 / 10, 7 / 10]) ∧
      (session00.initial_angle [1 / 10, 7 / 10]).1 = session_seed ∧
      ∀ (M : StdMath ℚ GaussianInt) (L : Libs ℚ GaussianInt),
        ∃ (v : ℚ) (s1 : deficit_space ℚ GaussianInt) (rest : List (Call ℚ GaussianInt))
          (o : nlopt.opt ℚ),
          deficit_space.result M L session_seed =
            .ok (v, s1, Call.entropy rho00 ::
              Call.optimize o [1 / 10 * M.pi, 1 / 10 * M.pi] :: rest) :=
  ⟨⟨session_seed_valid, rfl, rfl, rfl⟩, rfl, fun M L => by
    obtain ⟨v, s1, rest, o, h, _⟩ :=
      C20_qubit_start_point M L session_seed session_seed_valid rfl rfl (1 / 10) (7 / 10) rfl
    exact ⟨v, s1, rest, o, h⟩⟩

/-- C21: a constructed session carries the default configuration of its case (qubit:
global phase enabled, global f-tolerance 0, global x-tolerance 0.04, bound multipliers
(1, 2), seed (0.1, 0.1); qutrit: x-tolerance 0.25, multipliers and seed all 2); so does
any session after `refresh()`, which keeps the case flags, and after a `reset_party(k)`
that does not throw; and `refresh()` after any sequence of setters on a constructed
session gives back the constructed session. -/
theorem C21_default_configuration {K S : Type} [LinearOrderedField K] (rho : Mat S)
    (k : Nat) (dim : List Nat) (s : deficit_space K S)
    (h : deficit_space.construct rho k dim = .ok s)
    (ops : List (deficit_space.Setter K)) (t : deficit_space K S)
    (hP : t._party_no = t._dim.length) (k2 : Nat) (hk2 : k2 < uword_size) :
    ((s._deficit2 = true → s.HasQubitDefaults) ∧
      (s._deficit3 = true → s.HasQutritDefaults) ∧
      (s._deficit2 = true ∨ s._deficit3 = true)) ∧
    ((t.refresh._deficit2 = t._deficit2 ∧ t.refresh._deficit3 = t._deficit3) ∧
      (t._deficit2 = true → t._deficit3 = false → t.refresh.HasQubitDefaults) ∧
      (t._deficit3 = true → t.refresh.HasQutritDefaults)) ∧
    ((t.reset_party k2).2 = none →
      ((t.reset_party k2).1._deficit2 = true → (t.reset_party k2).1.HasQubitDefaults) ∧
      ((t.reset_party k2).1._deficit3 = true → (t.reset_party k2).1.HasQutritDefaults)) ∧
    (ops.foldl deficit_space.apply_setter s).refresh = s := by
  obtain ⟨hf, hr, hq2, hq3⟩ := construct_defaults rho k dim s h
  refine ⟨⟨hq2, hq3, hf⟩, refresh_defaults t, reset_party_defaults t k2 hP hk2, ?_⟩
  have hc : deficit_space.SameCore s s :=
    ⟨rfl, rfl, rfl, rfl, rfl, rfl, rfl, rfl, rfl, rfl, rfl, rfl, rfl⟩
  rw [refresh_of_same_core s _ (foldl_setter_core s ops s hc) hf, hr]

/-- Witness of C21 at the sample session: its defaults, those restored by `refresh()` after
`initial_angle({0.1, 0.7})`, and `refresh()` after three setters. -/
theorem C21_witness :
    (deficit_space.construct rho00 1 [2, 2] = .ok session00 ∧
        session00._party_no = session00._dim.length ∧ 2 < uword_size) ∧
      session00.HasQubitDefaults ∧ session_seed.refresh.HasQubitDefaults ∧
      (((session00.global_xtol (1 / 2)).angle_range [1, 1]).1.global_opt false).refresh =
        session00 :=
  have h := C21_default_configuration rho00 1 [2, 2] session00 construct_session00
    [.global_xtol (1 / 2), .angle_range [1, 1], .global_opt false] session00 rfl 2
    (by decide)
  have h2 := C21_default_configuration rho00 1 [2, 2] session00 construct_session00 []
    session_seed rfl 2
    (by decide)
  ⟨⟨construct_session00, rfl, by decide⟩, h.1.1 rfl, h2.2.1.2.1 rfl rfl, h.2.2.2⟩

/-- C22 as stated, refuted: the default local x-tolerance of the sample session is
`10 * eps<double>` = `1000 * 2^-52`, not `10 * 2^-52`. -/
theorem C22_counterexample :
    deficit_space.construct rho00 1 [2, 2] = .ok session00 ∧
      session00._deficit_local_xtol ≠ 10 * (1 / 2) ^ 52 ∧
      session00._deficit_local_xtol = 1000 * (1 / 2) ^ 52 := by
  refine ⟨construct_session00, ?_, ?_⟩ <;> norm_num [session00, _precision.eps]

/-- C22, amended: in both cases the default local relative x-tolerance is 10 times the
library's precision constant `eps<double>`, that is 1000 times the machine epsilon
`2^-52`, and the default local relative f-tolerance is 0; `eps<T>` is 10 times the machine
epsilon `2^-23` for `float` and 100 times the machine epsilon `2^-52` for `double`. -/
theorem C22_local_tolerances {K S : Type} [LinearOrderedField K] (rho : Mat S)
    (k : Nat) (dim : List Nat) (s : deficit_space K S)
    (h : deficit_space.construct rho k dim = .ok s) :
    (s._deficit_local_xtol = 10 * _precision.eps false ∧
      s._deficit_local_xtol = 1000 * (1 / 2) ^ 52 ∧ s._deficit_local_ftol = 0) ∧
    ((_precision.eps true : K) = 10 * (1 / 2) ^ 23 ∧
      (_precision.eps false : K) = 100 * (1 / 2) ^ 52) := by
  obtain ⟨hf, _, hq2, hq3⟩ := construct_defaults rho k dim s h
  have he : (_precision.eps false : K) = 100 * (1 / 2) ^ 52 := by simp [_precision.eps]
  have hx : s._deficit_local_xtol = 10 * _precision.eps false ∧ s._deficit_local_ftol = 0 := by
    rcases hf with hf | hf
    · exact ⟨(hq2 hf).2.2.2.2.2.1, (hq2 hf).2.2.2.2.2.2.1⟩
    · exact ⟨(hq3 hf).2.2.2.2.2.1, (hq3 hf).2.2.2.2.2.2.1⟩
  refine ⟨⟨hx.1, ?_, hx.2⟩, by simp [_precision.eps], he⟩
  rw [hx.1, he]
  ring

/-- Witness of C22 at the sample session. -/
theorem C22_witness :
    deficit_space.construct rho00 1 [2, 2] = .ok session00 ∧
      session00._deficit_local_xtol = 1000 * (1 / 2) ^ 52 ∧
      session00._deficit_local_ftol = 0 :=
  have h := C22_local_tolerances rho00 1 [2, 2] session00 construct_session00
  ⟨construct_session00, h.1.2.1, h.1.2.2⟩

/-- C23: in exact arithmetic, with `h = 1 / sqrt 2`, the table `basis2` holds
`(1, 0), (0, 1)` at setting index 0, `(h, h), (h, -h)` at index 1, `(h, i h), (h, -i h)`
at index 2, and at index 3 the vectors of index 0; `proj2` at index 3 holds the projectors
of index 0; and every entry `proj2(j, s)` is `basis2(j, s) * basis2(j, s)^dagger`. -/
theorem C23_qubit_basis_table :
    let M : StdMath ℝ ℂ :=
      ⟨Complex.ofReal, Complex.I, Real.cos, Real.sin, Complex.exp, Real.sqrt, Real.logb 2,
        Real.pi⟩
    let h : ℂ := 1 / (Real.sqrt 2 : ℂ)
    (SPM.basis2 M 0 0 = SPM.col2 1 0 ∧ SPM.basis2 M 1 0 = SPM.col2 0 1) ∧
    (SPM.basis2 M 0 1 = SPM.col2 h h ∧ SPM.basis2 M 1 1 = SPM.col2 h (-h)) ∧
    (SPM.basis2 M 0 2 = SPM.col2 h (Complex.I * h) ∧
      SPM.basis2 M 1 2 = SPM.col2 h (-(Complex.I * h))) ∧
    (SPM.basis2 M 0 3 = SPM.basis2 M 0 0 ∧ SPM.basis2 M 1 3 = SPM.basis2 M 1 0 ∧
      SPM.proj2 M 0 3 = SPM.proj2 M 0 0 ∧ SPM.proj2 M 1 3 = SPM.proj2 M 1 0) ∧
    ∀ j s, j < 2 → s < 4 →
      SPM.proj2 M j s = SPM.basis2 M j s * (SPM.basis2 M j s).conjTranspose := by
  intro M h
  have e : ((Real.sqrt (1 / 2) : ℝ) : ℂ) = h := by
    simp only [h]
    rw [sqrt_half_eq]
    push_cast
    rfl
  refine ⟨⟨rfl, rfl⟩, ⟨?_, ?_⟩, ⟨?_, ?_⟩, ⟨rfl, rfl, rfl, rfl⟩, ?_⟩
  · simp only [SPM.basis2, M, e]
  · simp only [SPM.basis2, M, Complex.ofReal_neg, e]
  · simp only [SPM.basis2, M, e]
  · simp only [SPM.basis2, M, Complex.ofReal_neg, e, mul_neg]
  · intro j s hj hs
    interval_cases s <;> interval_cases j <;> rfl

/-- C24: in exact arithmetic, for each of the 4 settings `s` the vectors `basis2(., s)` and
`basis3(., s)` are orthonormal, and the projectors `proj2(., s)`, `proj3(., s)` are
Hermitian, idempotent, of rank 1, mutually orthogonal, and sum to the identity. -/
theorem C24_tables_orthonormal (s : Nat) (hs : s < 4) :
    let M : StdMath ℝ ℂ :=
      ⟨Complex.ofReal, Complex.I, Real.cos, Real.sin, Complex.exp, Real.sqrt, Real.logb 2,
        Real.pi⟩
    ((∀ j k, j < 2 → k < 2 →
        (SPM.basis2 M j s).conjTranspose * SPM.basis2 M k s = if j = k then 1 else 0) ∧
      (∀ j, j < 2 → (SPM.proj2 M j s).conjTranspose = SPM.proj2 M j s ∧
        SPM.proj2 M j s * SPM.proj2 M j s = SPM.proj2 M j s ∧
        (SPM.proj2 M j s).rank = 1) ∧
      (∀ j k, j < 2 → k < 2 → j ≠ k → SPM.proj2 M j s * SPM.proj2 M k s = 0) ∧
      SPM.proj2 M 0 s + SPM.proj2 M 1 s = 1) ∧
    ((∀ j k, j < 3 → k < 3 →
        (SPM.basis3 M j s).conjTranspose * SPM.basis3 M k s = if j = k then 1 else 0) ∧
      (∀ j, j < 3 → (SPM.proj3 M j s).conjTranspose = SPM.proj3 M j s ∧
        SPM.proj3 M j s * SPM.proj3 M j s = SPM.proj3 M j s ∧
        (SPM.proj3 M j s).rank = 1) ∧
      (∀ j k, j < 3 → k < 3 → j ≠ k → SPM.proj3 M j s * SPM.proj3 M k s = 0) ∧
      SPM.proj3 M 0 s + SPM.proj3 M 1 s + SPM.proj3 M 2 s = 1) := by
  intro M
  have p2 : ∀ j, j < 2 →
      SPM.proj2 M j s = SPM.basis2 M j s * (SPM.basis2 M j s).conjTranspose := by
    intro j hj
    interval_cases s <;> interval_cases j <;> rfl
  have p3 : ∀ j, j < 3 →
      SPM.proj3 M j s = SPM.basis3 M j s * (SPM.basis3 M j s).conjTranspose := by
    intro j hj
    interval_cases s <;> interval_cases j <;> rfl
  have o2 := fun j k hj hk => basis2_orthonormal s j k hs hj hk
  have o3 := fun j k hj hk => basis3_orthonormal s j k hs hj hk
  refine ⟨⟨o2, ?_, ?_, proj2_resolution s hs⟩, ⟨o3, ?_, ?_, proj3_resolution s hs⟩⟩
  · intro j hj
    have hu := o2 j j hj hj
    rw [if_pos rfl] at hu
    rw [p2 j hj]
    exact ⟨outer_hermitian _, outer_idempotent _ hu, rank_outer_unit _ hu⟩
  · intro j k hj hk hjk
    have hu := o2 j k hj hk
    rw [if_neg hjk] at hu
    rw [p2 j hj, p2 k hk]
    exact outer_orthogonal _ _ hu
  · intro j hj
    have hu := o3 j j hj hj
    rw [if_pos rfl] at hu
    rw [p3 j hj]
    exact ⟨outer_hermitian _, outer_idempotent _ hu, rank_outer_unit _ hu⟩
  · intro j k hj hk hjk
    have hu := o3 j k hj hk
    rw [if_neg hjk] at hu
    rw [p3 j hj, p3 k hk]
    exact outer_orthogonal _ _ hu

/-- Witness of C24 at the third setting of the qutrit table. -/
theorem C24_witness :
    (2 < 4) ∧
      (SPM.basis3 (⟨Complex.ofReal, Complex.I, Real.cos, Real.sin, Complex.exp, Real.sqrt,
          Real.logb 2, Real.pi⟩ : StdMath ℝ ℂ) 0 2).conjTranspose *
        SPM.basis3 (⟨Complex.ofReal, Complex.I, Real.cos, Real.sin, Complex.exp, Real.sqrt,
          Real.logb 2, Real.pi⟩ : StdMath ℝ ℂ) 2 2 = 0 ∧
      (SPM.proj3 (⟨Complex.ofReal, Complex.I, Real.cos, Real.sin, Complex.exp, Real.sqrt,
          Real.logb 2, Real.pi⟩ : StdMath ℝ ℂ) 0 2).rank = 1 :=
  have h := C24_tables_orthonormal 2 (by decide)
  ⟨by decide, by simpa using h.2.1 0 2 (by decide) (by decide),
    (h.2.2.1 0 (by decide)).2.2⟩

/-- C28: in exact arithmetic, for a square input with more than one column `entropy`
returns the sum of `-l * log2 l` over exactly the values `l > eps` returned by `eig_sym`;
every value at or below `eps` contributes 0; and the result is non-negative when all the
values are at most 1. -/
theorem C28_entropy_formula (L : Libs ℝ ℂ) (rho : Mat ℂ) (hsq : rho.n_rows = rho.n_cols)
    (hc : 1 < rho.n_cols) :
    let M : StdMath ℝ ℂ :=
      ⟨Complex.ofReal, Complex.I, Real.cos, Real.sin, Complex.exp, Real.sqrt, Real.logb 2,
        Real.pi⟩
    let eps : ℝ := _precision.eps false
    let term : ℝ → ℝ := fun l => if l > eps then -(l * Real.logb 2 l) else 0
    entropy M L rho =
        .ok (((L.eig_sym rho).filter (fun l => decide (l > eps))).map
          (fun l => -(l * Real.logb 2 l))).sum ∧
      entropy M L rho = .ok ((L.eig_sym rho).map term).sum ∧
      (∀ l, l ≤ eps → term l = 0) ∧
      ((∀ l ∈ L.eig_sym rho, l ≤ 1) → 0 ≤ ((L.eig_sym rho).map term).sum) := by
  intro M eps term
  have h0 : rho.n_elem ≠ 0 := by
    unfold Mat.n_elem
    rw [hsq]
    exact Nat.mul_ne_zero (by omega) (by omega)
  have hc1 : rho.n_cols ≠ 1 := by omega
  have heps : (0 : ℝ) < eps := by
    simp only [eps, _precision.eps]
    norm_num
  have hval : entropy M L rho = .ok ((L.eig_sym rho).map term).sum := by
    simp only [entropy, h0, hc1, hsq, if_false]
    simp only [ne_eq, not_true_eq_false, and_false, if_false, Bool.true_eq_false]
    congr 1
    rw [foldl_sub_eq, zero_sub]
    generalize L.eig_sym rho = l
    induction l with
    | nil => simp
    | cons x l ih =>
      rw [List.map_cons, List.map_cons, List.sum_cons, List.sum_cons, neg_add, ih]
      congr 1
      simp only [term, eps]
      split_ifs <;> simp
  refine ⟨?_, hval, ?_, ?_⟩
  · rw [hval]
    congr 1
    exact sum_ite_eq_sum_filter (fun l => l > eps) _ _
  · intro l hl
    simp only [term]
    rw [if_neg (not_lt.mpr hl)]
  · intro h1
    apply List.sum_nonneg
    intro x hx
    rw [List.mem_map] at hx
    obtain ⟨l, hl, rfl⟩ := hx
    simp only [term]
    split_ifs with hgt
    · have hpos : 0 < l := lt_trans heps hgt
      have := Real.logb_nonpos (by norm_num : (1 : ℝ) < 2) hpos.le (h1 l hl)
      nlinarith
    · exact le_refl 0

/-- Witness of C28 at the 2 x 2 maximally mixed state. -/
theorem C28_witness :
    ((maximally_mixed (S := ℂ) 2).n_rows = (maximally_mixed (S := ℂ) 2).n_cols ∧
        1 < (maximally_mixed (S := ℂ) 2).n_cols) ∧
      ∀ L : Libs ℝ ℂ,
        entropy ⟨Complex.ofReal, Complex.I, Real.cos, Real.sin, Complex.exp, Real.sqrt,
            Real.logb 2, Real.pi⟩ L (maximally_mixed 2) =
          .ok (((L.eig_sym (maximally_mixed 2)).filter
            (fun l => decide (l > _precision.eps false))).map
              (fun l => -(l * Real.logb 2 l))).sum :=
  ⟨⟨rfl, by decide⟩, fun L => (C28_entropy_formula L (maximally_mixed 2) rfl (by decide)).1⟩

/-- C26: in every session reachable from a constructor by public operations that return,
exactly one case flag is set and the stored bound and seed vectors have length 2 in the
qubit case and 5 in the qutrit case; the reads `.at(i)` of them made by `compute` (`i < 2`,
`i < 5`) are in range, and `result()` and `opt_angles()` return. -/
theorem C26_vectors_well_formed {K S : Type} [LinearOrderedField K] [CommRing S]
    [StarRing S] (M : StdMath K S) (L : Libs K S) (s : deficit_space K S)
    (h : deficit_space.Reachable M L s) :
    ((s._deficit2 = true ∧ s._deficit3 = false ∧ s._deficit_angle_range.length = 2 ∧
        s._deficit_angle_ini.length = 2) ∨
      (s._deficit2 = false ∧ s._deficit3 = true ∧ s._deficit_angle_range.length = 5 ∧
        s._deficit_angle_ini.length = 5)) ∧
    (∀ i, i < (if s._deficit2 = true then 2 else 5) →
      (∃ r, col_at s._deficit_angle_range i = .ok r) ∧
        (∃ a, col_at s._deficit_angle_ini i = .ok a)) ∧
    (∃ v t c, deficit_space.result M L s = .ok (v, t, c)) ∧
    (∃ v t c, deficit_space.opt_angles M L s = .ok (v, t, c)) := by
  have hv := reachable_valid M L s h
  have hlen : (s._deficit2 = true ∧ s._deficit3 = false ∧ s._deficit_angle_range.length = 2 ∧
        s._deficit_angle_ini.length = 2) ∨
      (s._deficit2 = false ∧ s._deficit3 = true ∧ s._deficit_angle_range.length = 5 ∧
        s._deficit_angle_ini.length = 5) := by
    rcases valid_one_flag s hv with ⟨f2, f3⟩ | ⟨f2, f3⟩
    · exact Or.inl ⟨f2, f3, hv.range2 f2, hv.ini2 f2⟩
    · exact Or.inr ⟨f2, f3, hv.range3 f3, hv.ini3 f3⟩
  refine ⟨hlen, ?_, (accessors_ok M L s hv).1, (accessors_ok M L s hv).2⟩
  intro i hi
  rcases hlen with ⟨f2, _, hr, hn⟩ | ⟨f2, _, hr, hn⟩
  · rw [if_pos f2] at hi
    exact ⟨col_at_of_lt _ i (by omega), col_at_of_lt _ i (by omega)⟩
  · rw [if_neg (by simp [f2])] at hi
    exact ⟨col_at_of_lt _ i (by omega), col_at_of_lt _ i (by omega)⟩

/-- Witness of C26: the sample session after `global_opt(false)` and
`angle_range({1, 1})`. -/
theorem C26_witness :
    ((session00.global_opt false).angle_range [1, 1]).1._deficit_angle_range.length = 2 ∧
      ∀ (M : StdMath ℚ GaussianInt) (L : Libs ℚ GaussianInt),
        deficit_space.Reachable M L ((session00.global_opt false).angle_range [1, 1]).1 ∧
          ∃ v t c,
            deficit_space.result M L ((session00.global_opt false).angle_range [1, 1]).1 =
              .ok (v, t, c) :=
  ⟨rfl, fun M L =>
    have hr : deficit_space.Reachable M L
        ((session00.global_opt false).angle_range [1, 1]).1 :=
      deficit_space.Reachable.setter _ (.angle_range [1, 1])
        (deficit_space.Reachable.setter _ (.global_opt false)
          (deficit_space.Reachable.construct rho00 1 [2, 2] session00 construct_session00))
    ⟨hr, (C26_vectors_well_formed M L _ hr).2.2.1⟩⟩

/-- C27: in exact arithmetic, on a session with a square state of size `N`, dimensions
that multiply to `N` and a measured party `k` of dimension 2 (respectively 3), for all
angles the two (three) operators the objective builds are idempotent, multiply to zero in
pairs and sum to the `N x N` identity, and the state `sum_i P_i rho P_i` the objective
passes to `entropy` is `N x N` with the trace of `rho`. -/
theorem C27_post_measurement_trace (L : Libs ℝ ℂ) (s : deficit_space ℝ ℂ)
    (theta phi x0 x1 x2 x3 x4 : ℝ) (hsq : s._rho.n_rows = s._rho.n_cols)
    (hprod : s._dim.prod = s._rho.n_rows) (h0 : s._rho.n_rows ≠ 0)
    (hN : s._rho.n_rows < uword_size) (hP : s._party_no = s._dim.length)
    (hk1 : 1 ≤ s._nodal) (hk2 : s._nodal ≤ s._party_no) (hku : s._nodal < uword_size) :
    let M : StdMath ℝ ℂ :=
      ⟨Complex.ofReal, Complex.I, Real.cos, Real.sin, Complex.exp, Real.sqrt, Real.logb 2,
        Real.pi⟩
    (s._dim.get? (s._nodal - 1) = some 2 →
      ∃ (pass : protect_dis.TO_PASS ℂ) (P1 P2 r1 r2 r : Mat ℂ),
        deficit_space.make_pass s 2 = .ok pass ∧
        P1 = protect_dis.embed pass.nodal pass.party_no pass.eye2 pass.eye3 pass.eye4
          (Mat.ofMatrix (protect_dis.def_nlopt2_proj1 M theta phi)) ∧
        P2 = protect_dis.embed pass.nodal pass.party_no pass.eye2 pass.eye3 pass.eye4
          (Mat.ofMatrix (protect_dis.def_nlopt2_proj2 M theta phi)) ∧
        protect_dis.sandwich P1 pass.rho = .ok r1 ∧
        protect_dis.sandwich P2 pass.rho = .ok r2 ∧ Mat.add r1 r2 = .ok r ∧
        protect_dis.def_nlopt2 M L [theta, phi] pass = liftExc (entropy M L r) ∧
        r.n_rows = s._rho.n_rows ∧ r.n_cols = s._rho.n_rows ∧ r.trace = s._rho.trace ∧
        Mat.mul P1 P1 = .ok P1 ∧ Mat.mul P2 P2 = .ok P2 ∧
        Mat.mul P1 P2 = .ok (Mat.zeros s._rho.n_rows) ∧
        Mat.mul P2 P1 = .ok (Mat.zeros s._rho.n_rows) ∧
        Mat.add P1 P2 = .ok (Mat.eye s._rho.n_rows)) ∧
    (s._dim.get? (s._nodal - 1) = some 3 →
      ∃ (pass : protect_dis.TO_PASS ℂ) (P1 P2 P3 r1 r2 r3 r23 r : Mat ℂ),
        deficit_space.make_pass s 3 = .ok pass ∧
        P1 = protect_dis.embed pass.nodal pass.party_no pass.eye2 pass.eye3 pass.eye4
          (Mat.ofMatrix (protect_dis.def_nlopt3_projs M x0 x1 x2 x3 x4).1) ∧
        P2 = protect_dis.embed pass.nodal pass.party_no pass.eye2 pass.eye3 pass.eye4
          (Mat.ofMatrix (protect_dis.def_nlopt3_projs M x0 x1 x2 x3 x4).2.1) ∧
        P3 = protect_dis.embed pass.nodal pass.party_no pass.eye2 pass.eye3 pass.eye4
          (Mat.ofMatrix (protect_dis.def_nlopt3_projs M x0 x1 x2 x3 x4).2.2) ∧
        protect_dis.sandwich P1 pass.rho = .ok r1 ∧
        protect_dis.sandwich P2 pass.rho = .ok r2 ∧
        protect_dis.sandwich P3 pass.rho = .ok r3 ∧
        Mat.add r2 r3 = .ok r23 ∧ Mat.add r1 r23 = .ok r ∧
        protect_dis.def_nlopt3 M L [x0, x1, x2, x3, x4] pass = liftExc (entropy M L r) ∧
        r.n_rows = s._rho.n_rows ∧ r.n_cols = s._rho.n_rows ∧ r.trace = s._rho.trace ∧
        (Mat.mul P1 P1 = .ok P1 ∧ Mat.mul P2 P2 = .ok P2 ∧ Mat.mul P3 P3 = .ok P3) ∧
        (Mat.mul P1 P2 = .ok (Mat.zeros s._rho.n_rows) ∧
          Mat.mul P1 P3 = .ok (Mat.zeros s._rho.n_rows) ∧
          Mat.mul P2 P1 = .ok (Mat.zeros s._rho.n_rows) ∧
          Mat.mul P2 P3 = .ok (Mat.zeros s._rho.n_rows) ∧
          Mat.mul P3 P1 = .ok (Mat.zeros s._rho.n_rows) ∧
          Mat.mul P3 P2 = .ok (Mat.zeros s._rho.n_rows)) ∧
        (∃ P12, Mat.add P1 P2 = .ok P12 ∧
          Mat.add P12 P3 = .ok (Mat.eye s._rho.n_rows))) := by
  intro M
  exact ⟨fun hd => post_measurement2 M exact_real L s theta phi hsq hprod h0 hN hP hk1 hk2
      hku hd,
    fun hd => post_measurement3 M exact_real L s x0 x1 x2 x3 x4 hsq hprod h0 hN hP hk1 hk2
      hku hd⟩

/-- Witness of C27 at the Bell-state session, for all angles. -/
theorem C27_witness :
    ((bell_session (K := ℝ) (S := ℂ))._rho.n_rows = (bell_session (K := ℝ) (S := ℂ))._rho.n_cols ∧
        (bell_session (K := ℝ) (S := ℂ))._dim.prod = (bell_session (K := ℝ) (S := ℂ))._rho.n_rows ∧
        (bell_session (K := ℝ) (S := ℂ))._rho.n_rows ≠ 0 ∧
        (bell_session (K := ℝ) (S := ℂ))._rho.n_rows < uword_size ∧
        (bell_session (K := ℝ) (S := ℂ))._party_no = (bell_session (K := ℝ) (S := ℂ))._dim.length ∧
        1 ≤ (bell_session (K := ℝ) (S := ℂ))._nodal ∧
        (bell_session (K := ℝ) (S := ℂ))._nodal ≤ (bell_session (K := ℝ) (S := ℂ))._party_no ∧
        (bell_session (K := ℝ) (S := ℂ))._nodal < uword_size) ∧
      ∀ (L : Libs ℝ ℂ) (theta phi : ℝ),
        ∃ (pass : protect_dis.TO_PASS ℂ) (r : Mat ℂ),
          deficit_space.make_pass (bell_session (K := ℝ) (S := ℂ)) 2 = .ok pass ∧
          protect_dis.def_nlopt2 ⟨Complex.ofReal, Complex.I, Real.cos, Real.sin, Complex.exp,
              Real.sqrt, Real.logb 2, Real.pi⟩ L [theta, phi] pass =
            liftExc (entropy ⟨Complex.ofReal, Complex.I, Real.cos, Real.sin, Complex.exp,
              Real.sqrt, Real.logb 2, Real.pi⟩ L r) ∧
          r.trace = (bell_state (S := ℂ)).trace :=
  ⟨⟨rfl, by decide, by decide, by decide, rfl, by decide, by decide, by decide⟩,
    fun L theta phi => by
      obtain ⟨pass, P1, P2, r1, r2, r, hm, _, _, _, _, _, ho, _, _, ht, _⟩ :=
        (C27_post_measurement_trace L bell_session theta phi 0 0 0 0 0 rfl (by decide)
          (by decide) (by decide) rfl (by decide) (by decide) (by decide)).1 rfl
      exact ⟨pass, r, hm, ho, ht⟩⟩

/-- C34 (the code departs from it): in exact arithmetic, for a non-empty list `p` with
entries at least `-eps` and an order `alpha >= 0` with `|alpha - 1| >= eps`, the
column-vector and the `std::vector` overloads of `tsallis_prob` return
`(sum over p_i > eps of p_i^alpha - 1) / (1 - alpha)`, whereas the initializer-list
overload returns the value of `renyi_prob`: `log2 (length p)` for `alpha < eps` and
`log2 (sum over p_i > eps of p_i^alpha) / (1 - alpha)` otherwise. -/
theorem C34_tsallis_prob_overloads (p : List ℝ) (alpha : ℝ) (hp : p ≠ [])
    (hpos : ∀ x ∈ p, -_precision.eps false ≤ x) (ha : 0 ≤ alpha)
    (h1 : _precision.eps false ≤ |alpha - 1|) :
    let M : StdMath ℝ ℂ :=
      ⟨Complex.ofReal, Complex.I, Real.cos, Real.sin, Complex.exp, Real.sqrt, Real.logb 2,
        Real.pi⟩
    let E : PowMath ℝ := ⟨fun x y => x ^ y, Real.log, fun _ => false⟩
    let sum : ℝ := ((p.filter (fun x => decide (x > _precision.eps false))).map
      (fun x => x ^ alpha)).sum
    tsallis_prob M E (Mat.ofCol p) alpha = .ok ((sum - 1) / (1 - alpha)) ∧
      tsallis_prob_vector M E p alpha = .ok ((sum - 1) / (1 - alpha)) ∧
      tsallis_prob_init M E p alpha =
        .ok (if alpha < _precision.eps false then Real.logb 2 (p.length : ℝ)
          else Real.logb 2 sum / (1 - alpha)) := by
  intro M E sum
  have hlen : p.length ≠ 0 := fun h => hp (List.length_eq_zero.mp h)
  have h0 : (Mat.ofCol p).n_elem ≠ 0 := by
    show p.length * 1 ≠ 0
    omega
  have hne : (Mat.ofCol p).n_elem = p.length := by
    show p.length * 1 = p.length
    omega
  have hc : (Mat.ofCol p).n_cols = 1 := rfl
  have hany : (Mat.ofCol p).elems.any (fun x => decide (x < -_precision.eps false)) = false := by
    rw [elems_ofCol, List.any_eq_false]
    intro x hx
    have := hpos x hx
    simpa using this
  have ha2 : ¬ alpha < -_precision.eps false := by
    have := eps_pos (K := ℝ)
    linarith
  have hsum : (Mat.ofCol p).elems.foldl
      (fun ret x => ret + (if x > _precision.eps false then E.pow x alpha else 0)) 0 = sum := by
    rw [elems_ofCol, foldl_add_eq (fun x => if x > _precision.eps false then E.pow x alpha else 0),
      zero_add]
    exact sum_ite_eq_sum_filter (fun x => x > _precision.eps false) (fun x => x ^ alpha) p
  have ht : tsallis_prob M E (Mat.ofCol p) alpha = .ok ((sum - 1) / (1 - alpha)) := by
    unfold tsallis_prob
    rw [if_neg h0, if_neg (by simp [hc]), if_neg (not_lt.mpr ha), hany]
    rw [if_neg (by simp), if_neg (not_lt.mpr h1), hsum]
  refine ⟨ht, ht, ?_⟩
  show renyi_prob M E (Mat.ofCol p) alpha = _
  unfold renyi_prob
  rw [if_neg h0, if_neg (by simp [hc]), if_neg ha2, hany, if_neg (by simp)]
  by_cases hae : alpha < _precision.eps false
  · rw [if_pos hae, if_pos hae, hne]
  · rw [if_neg hae, if_neg hae, if_neg (not_lt.mpr h1), if_neg (by simp [E]), hsum]

/-- Witness of C34 at `p = (1/2, 1/2)` and `alpha = 2`: the `std::vector` overload returns
`1/2`, the initializer-list overload returns `1`. -/
theorem C34_witness :
    let M : StdMath ℝ ℂ :=
      ⟨Complex.ofReal, Complex.I, Real.cos, Real.sin, Complex.exp, Real.sqrt, Real.logb 2,
        Real.pi⟩
    let E : PowMath ℝ := ⟨fun x y => x ^ y, Real.log, fun _ => false⟩
    ([1 / 2, 1 / 2] ≠ ([] : List ℝ) ∧
        (∀ x ∈ ([1 / 2, 1 / 2] : List ℝ), -_precision.eps false ≤ x) ∧ (0 : ℝ) ≤ 2 ∧
        (_precision.eps false : ℝ) ≤ |2 - 1|) ∧
      tsallis_prob_vector M E [1 / 2, 1 / 2] 2 = .ok (1 / 2) ∧
      tsallis_prob_init M E [1 / 2, 1 / 2] 2 = .ok 1 := by
  intro M E
  have hp : ([1 / 2, 1 / 2] : List ℝ) ≠ [] := by simp
  have hpos : ∀ x ∈ ([1 / 2, 1 / 2] : List ℝ), -_precision.eps false ≤ x := by
    intro x hx
    have h0 := eps_pos (K := ℝ)
    simp only [List.mem_cons, List.mem_singleton, List.not_mem_nil, or_false, or_self] at hx
    rw [hx]
    linarith
  have ha : (0 : ℝ) ≤ 2 := by norm_num
  have h1 : (_precision.eps false : ℝ) ≤ |2 - 1| := by
    simp only [_precision.eps]
    norm_num
  have hgt : (1 / 2 : ℝ) > _precision.eps false := by
    simp only [_precision.eps]
    norm_num
  have hsum : (([1 / 2, 1 / 2] : List ℝ).filter
      (fun x => decide (x > _precision.eps false))).map (fun x => x ^ (2 : ℝ)) =
      [1 / 4, 1 / 4] := by
    simp only [List.filter_cons, hgt, decide_True, if_true, List.filter_nil, List.map_cons,
      List.map_nil, Real.rpow_two]
    norm_num
  have h := C34_tsallis_prob_overloads [1 / 2, 1 / 2] 2 hp hpos ha h1
  simp only [hsum] at h
  refine ⟨⟨hp, hpos, ha, h1⟩, ?_, ?_⟩
  · rw [h.2.1]
    norm_num
  · rw [h.2.2]
    have h2 : ¬ (2 : ℝ) < _precision.eps false := by
      simp only [_precision.eps]
      norm_num
    rw [if_neg h2]
    have h3 : Real.logb 2 (([1 / 4, 1 / 4] : List ℝ).sum) = -1 := by
      have : (([1 / 4, 1 / 4] : List ℝ).sum) = 2⁻¹ := by norm_num
      rw [this, Real.logb_inv, Real.logb_self_eq_one (by norm_num)]
    rw [h3]
    norm_num

/-- C35 (the code departs from it): in exact arithmetic, for a non-empty column vector and
an order `alpha >= 0`, `entropy` returns 0 and `renyi` returns 0 when `alpha >= eps`; for
`alpha < eps` the test on `alpha` comes before the test for a column vector, and `renyi`
returns `log2 (n_rows)`, which is not 0 as soon as the vector has two rows. -/
theorem C35_renyi_pure_state (L : Libs ℝ ℂ) (psi : Mat ℂ) (alpha : ℝ)
    (hc : psi.n_cols = 1) (hr : psi.n_rows ≠ 0) (ha : 0 ≤ alpha) :
    let M : StdMath ℝ ℂ :=
      ⟨Complex.ofReal, Complex.I, Real.cos, Real.sin, Complex.exp, Real.sqrt, Real.logb 2,
        Real.pi⟩
    let E : PowMath ℝ := ⟨fun x y => x ^ y, Real.log, fun _ => false⟩
    entropy M L psi = .ok 0 ∧
      (_precision.eps false ≤ alpha → renyi M E L psi alpha = .ok 0) ∧
      (alpha < _precision.eps false →
        renyi M E L psi alpha = .ok (Real.logb 2 (psi.n_rows : ℝ))) ∧
      (alpha < _precision.eps false → 2 ≤ psi.n_rows → renyi M E L psi alpha ≠ .ok 0) := by
  intro M E
  have h0 : psi.n_elem ≠ 0 := by
    unfold Mat.n_elem
    rw [hc]
    omega
  have ha2 : ¬ alpha < -_precision.eps false := by
    have := eps_pos (K := ℝ)
    linarith
  have hlow : alpha < _precision.eps false →
      renyi M E L psi alpha = .ok (Real.logb 2 (psi.n_rows : ℝ)) := by
    intro h
    unfold renyi
    simp only [hc, if_true]
    rw [if_neg h0, if_neg (by simp), if_neg ha2, if_pos h]
  refine ⟨by simp [entropy, hc, h0], ?_, hlow, ?_⟩
  · intro h
    unfold renyi
    simp only [hc, if_true]
    rw [if_neg h0, if_neg (by simp), if_neg ha2, if_neg (not_lt.mpr h)]
  · intro h h2 he
    rw [hlow h] at he
    have hpos : 0 < Real.logb 2 (psi.n_rows : ℝ) := by
      apply Real.logb_pos (by norm_num)
      have : (2 : ℝ) ≤ (psi.n_rows : ℝ) := by exact_mod_cast h2
      linarith
    injection he with he
    linarith

/-- Witness of C35 at the state `|0>` of one qubit and `alpha = 0`: `renyi` returns 1. -/
theorem C35_witness :
    ((Mat.ofCol [(1 : ℂ), 0]).n_cols = 1 ∧ (Mat.ofCol [(1 : ℂ), 0]).n_rows ≠ 0 ∧
        (0 : ℝ) ≤ 0) ∧
      ∀ L : Libs ℝ ℂ,
        renyi ⟨Complex.ofReal, Complex.I, Real.cos, Real.sin, Complex.exp, Real.sqrt,
            Real.logb 2, Real.pi⟩ ⟨fun x y => x ^ y, Real.log, fun _ => false⟩ L
          (Mat.ofCol [(1 : ℂ), 0]) 0 = .ok 1 ∧
        entropy ⟨Complex.ofReal, Complex.I, Real.cos, Real.sin, Complex.exp, Real.sqrt,
            Real.logb 2, Real.pi⟩ L (Mat.ofCol [(1 : ℂ), 0]) = .ok 0 :=
  ⟨⟨rfl, by decide, le_refl 0⟩, fun L => by
    have h := C35_renyi_pure_state L (Mat.ofCol [(1 : ℂ), 0]) 0 rfl (by decide) (le_refl 0)
    refine ⟨?_, h.1⟩
    rw [h.2.2.1 eps_pos]
    have : ((Mat.ofCol [(1 : ℂ), 0]).n_rows : ℝ) = 2 := by
      show (([(1 : ℂ), 0].length : ℕ) : ℝ) = 2
      norm_num
    rw [this, Real.logb_self_eq_one (by norm_num)]⟩

/-- C36 as stated, refuted: a non-empty 3 x 2 input has a row count other than 4, and `EoF`
rejects it with `MATRIX_NOT_SQUARE_OR_CVECTOR`, not with `NOT_QUBIT_SUBSYS`. -/
theorem C36_counterexample :
    ((⟨3, 2, 0⟩ : Mat GaussianInt).n_elem ≠ 0 ∧ (⟨3, 2, 0⟩ : Mat GaussianInt).n_rows ≠ 4) ∧
      ∀ (M : StdMath ℚ GaussianInt) (E : PowMath ℚ) (F : EntFuns ℚ GaussianInt),
        EoF M E F ⟨3, 2, 0⟩ = .error .MATRIX_NOT_SQUARE_OR_CVECTOR ∧
        EoF M E F ⟨3, 2, 0⟩ ≠ .error .NOT_QUBIT_SUBSYS :=
  ⟨⟨by decide, by decide⟩, fun M E F => by
    have h : EoF M E F ⟨3, 2, 0⟩ = .error .MATRIX_NOT_SQUARE_OR_CVECTOR := rfl
    refine ⟨h, ?_⟩
    rw [h]
    intro he
    cases he⟩

/-- C36, amended: in exact arithmetic, for a 4 x 4 input whose concurrence `C` lies in
`[0, 1]`, `EoF` returns `h(x)` for `x = (1 + sqrt (1 - C^2)) / 2`, where
`h(x) = -x log2 x - (1 - x) log2 (1 - x)` and a term is dropped when its argument is at
most `eps`; the value is 0 for `C = 0` and 1 for `C = 1`. A non-empty input with a row
count other than 4 is rejected with `NOT_QUBIT_SUBSYS` when it is square or a column
vector, and with `MATRIX_NOT_SQUARE_OR_CVECTOR` otherwise. -/
theorem C36_EoF_value (F : EntFuns ℝ ℂ) (rho : Mat ℂ) (hr : rho.n_rows = 4)
    (hc : rho.n_cols = 4) (hC0 : 0 ≤ F.concurrence rho) (hC1 : F.concurrence rho ≤ 1) :
    let M : StdMath ℝ ℂ :=
      ⟨Complex.ofReal, Complex.I, Real.cos, Real.sin, Complex.exp, Real.sqrt, Real.logb 2,
        Real.pi⟩
    let E : PowMath ℝ := ⟨fun x y => x ^ y, Real.log, fun _ => false⟩
    let x : ℝ := (1 + Real.sqrt (1 - F.concurrence rho ^ 2)) / 2
    EoF M E F rho =
        .ok ((if x > _precision.eps false then -(x * Real.logb 2 x) else 0) +
          (if 1 - x > _precision.eps false then -((1 - x) * Real.logb 2 (1 - x)) else 0)) ∧
      (1 / 2 ≤ x ∧ x ≤ 1) ∧
      (F.concurrence rho = 0 → EoF M E F rho = .ok 0) ∧
      (F.concurrence rho = 1 → EoF M E F rho = .ok 1) ∧
      (∀ q : Mat ℂ, q.n_elem ≠ 0 → q.n_rows ≠ 4 → (q.n_cols = 1 ∨ q.n_rows = q.n_cols) →
        EoF M E F q = .error .NOT_QUBIT_SUBSYS) ∧
      (∀ q : Mat ℂ, q.n_elem ≠ 0 → q.n_cols ≠ 1 → q.n_rows ≠ q.n_cols →
        EoF M E F q = .error .MATRIX_NOT_SQUARE_OR_CVECTOR) := by
  intro M E x
  have h0 : rho.n_elem ≠ 0 := by
    unfold Mat.n_elem
    rw [hr, hc]
    decide
  have hc1 : rho.n_cols ≠ 1 := by omega
  have hval : EoF M E F rho =
      .ok ((if x > _precision.eps false then -(x * Real.logb 2 x) else 0) +
        (if 1 - x > _precision.eps false then -((1 - x) * Real.logb 2 (1 - x)) else 0)) := by
    unfold EoF
    simp only [hc1, if_false]
    rw [if_neg h0, if_neg (by simp [hr, hc]), if_neg (by simp [hr]), if_neg (by simp)]
    have hx : (1 / 2 : ℝ) * (1 + M.sqrt (1 - E.pow (F.concurrence rho) 2)) = x := by
      show (1 / 2 : ℝ) * (1 + Real.sqrt (1 - F.concurrence rho ^ (2 : ℝ))) = x
      rw [Real.rpow_two]
      ring
    simp only [hx]
    congr 1
    split_ifs <;> ring
  have hsq0 : 0 ≤ 1 - F.concurrence rho ^ 2 := by nlinarith
  have hsq1 : Real.sqrt (1 - F.concurrence rho ^ 2) ≤ 1 := by
    rw [Real.sqrt_le_left (by norm_num : (0 : ℝ) ≤ 1)]
    nlinarith [sq_nonneg (F.concurrence rho)]
  have hs0 : 0 ≤ Real.sqrt (1 - F.concurrence rho ^ 2) := Real.sqrt_nonneg _
  have heps : (_precision.eps false : ℝ) < 1 / 2 := by
    simp only [_precision.eps]
    norm_num
  refine ⟨hval, ⟨by simp only [x]; linarith, by simp only [x]; linarith⟩, ?_, ?_, ?_, ?_⟩
  · intro hC
    have hx : x = 1 := by
      simp only [x, hC]
      norm_num
    rw [hval, hx]
    have h1 : ¬ (1 - 1 : ℝ) > _precision.eps false := by
      have := eps_pos (K := ℝ)
      simp only [sub_self, gt_iff_lt, not_lt]
      exact this.le
    rw [if_neg h1]
    simp
  · intro hC
    have hx : x = 1 / 2 := by
      simp only [x, hC]
      norm_num
    rw [hval, hx]
    have h1 : (1 - 1 / 2 : ℝ) = 1 / 2 := by norm_num
    rw [h1, if_pos heps]
    have h2 : Real.logb 2 (1 / 2) = -1 := by
      rw [one_div, Real.logb_inv, Real.logb_self_eq_one (by norm_num)]
    rw [h2]
    norm_num
  · intro q hq0 hq4 hsq
    unfold EoF
    rw [if_neg hq0]
    rcases hsq with h | h
    · simp [h, hq4]
    · by_cases h1 : q.n_cols = 1
      · simp [h1, hq4]
      · simp [h1, h, hq4]
        intro h4
        rw [h, h4] at hq4
        exact hq4 rfl
  · intro q hq0 hq1 hsq
    unfold EoF
    rw [if_neg hq0]
    simp [hq1, hsq]

/-- Witness of C36 at the Bell state when its concurrence is returned as 1. -/
theorem C36_witness :
    let F : EntFuns ℝ ℂ := ⟨fun _ => 1, fun _ _ => 0⟩
    ((bell_state (S := ℂ)).n_rows = 4 ∧ (bell_state (S := ℂ)).n_cols = 4 ∧
        0 ≤ F.concurrence bell_state ∧ F.concurrence bell_state ≤ 1) ∧
      EoF ⟨Complex.ofReal, Complex.I, Real.cos, Real.sin, Complex.exp, Real.sqrt,
          Real.logb 2, Real.pi⟩ ⟨fun x y => x ^ y, Real.log, fun _ => false⟩ F bell_state =
        .ok 1 := by
  intro F
  have h0 : (0 : ℝ) ≤ F.concurrence bell_state := zero_le_one
  have h1 : F.concurrence bell_state ≤ (1 : ℝ) := le_refl 1
  exact ⟨⟨rfl, rfl, h0, h1⟩, (C36_EoF_value F bell_state rfl rfl h0 h1).2.2.2.1 rfl⟩

/-- C32: in exact arithmetic, for `dim >= 1` whose square fits in `arma::uword` (the number
of elements of the result), `qft(dim)` returns the `dim x dim` matrix with entries
`exp(2 pi i j k / dim) / sqrt dim`, which is unitary; and `qft(2)` is the table gate
`Had`. -/
theorem C32_qft_unitary (dim : Nat) (h1 : 1 ≤ dim) (hN : dim * dim < uword_size) :
    let M : StdMath ℝ ℂ :=
      ⟨Complex.ofReal, Complex.I, Real.cos, Real.sin, Complex.exp, Real.sqrt, Real.logb 2,
        Real.pi⟩
    (∃ U : Matrix (Fin dim) (Fin dim) ℂ, GATES.qft M dim = .ok ⟨dim, dim, U⟩ ∧
      (∀ j k : Fin dim, U j k =
        Complex.exp (2 * Real.pi * Complex.I * (j.val : ℂ) * (k.val : ℂ) / (dim : ℂ)) /
          (Real.sqrt dim : ℂ)) ∧
      U * U.conjTranspose = 1 ∧ U.conjTranspose * U = 1) ∧
    GATES.qft M 2 = .ok (Mat.ofMatrix ((GATES.Had M).map Complex.ofReal)) := by
  intro M
  have hd0 : dim ≠ 0 := by omega
  have hmul : ∀ j k : Fin dim, uword_mul j.val k.val = j.val * k.val := by
    intro j k
    unfold uword_mul
    apply Nat.mod_eq_of_lt
    calc j.val * k.val ≤ dim * dim := Nat.mul_le_mul j.isLt.le k.isLt.le
      _ < uword_size := hN
  have hsq2 : Real.sqrt 2 ≠ 0 := by positivity
  refine ⟨⟨_, by unfold GATES.qft; rw [if_neg hd0], ?_, ?_⟩, ?_⟩
  · intro j k
    simp only [Matrix.of_apply, hmul, M]
    push_cast
    rw [one_div, mul_comm, div_eq_mul_inv]
    congr 2
    ring
  · have hrow : (Matrix.of fun i j : Fin dim =>
        M.ofReal (1 / M.sqrt (dim : ℝ)) *
          M.exp (M.ofReal 2 * M.I * M.ofReal M.pi *
            M.ofReal ((uword_mul i.val j.val : Nat) : ℝ) / M.ofReal (dim : ℝ))) *
        (Matrix.of fun i j : Fin dim =>
        M.ofReal (1 / M.sqrt (dim : ℝ)) *
          M.exp (M.ofReal 2 * M.I * M.ofReal M.pi *
            M.ofReal ((uword_mul i.val j.val : Nat) : ℝ) / M.ofReal (dim : ℝ))).conjTranspose =
        1 := by
      ext j l
      rw [Matrix.mul_apply, Matrix.one_apply]
      simp only [Matrix.conjTranspose_apply, Matrix.of_apply, hmul, M]
      have h := fourier_rows dim hd0 j l
      simp only [Complex.ofReal_ofNat] at h ⊢
      exact h
    exact ⟨hrow, Matrix.mul_eq_one_comm.mp hrow⟩
  · unfold GATES.qft
    rw [if_neg (by decide)]
    show Except.ok (⟨2, 2, _⟩ : Mat ℂ) = Except.ok ⟨2, 2, _⟩
    congr 2
    have u0 : ∀ a : Nat, uword_mul 0 a = 0 := by
      intro a
      simp [uword_mul]
    have u1 : uword_mul 1 0 = 0 := by decide
    have u11 : uword_mul 1 1 = 1 := by decide
    have hh : (1 / Real.sqrt ((2 : Nat) : ℝ)) = Real.sqrt (1 / 2) := by
      rw [Nat.cast_ofNat, one_div, one_div, Real.sqrt_inv]
    have he : Complex.exp (((2 : ℝ) : ℂ) * Complex.I * (Real.pi : ℂ) * (((1 : Nat) : ℝ) : ℂ) /
        (((2 : Nat) : ℝ) : ℂ)) = -1 := by
      rw [← Complex.exp_pi_mul_I]
      congr 1
      push_cast
      ring
    ext i j
    fin_cases i <;> fin_cases j
    · simp [GATES.Had, M, u0, hh]
    · simp [GATES.Had, M, u0, hh]
    · simp [GATES.Had, M, u1, hh]
    · simp only [GATES.Had, M, Matrix.of_apply, Matrix.map_apply, Fin.mk_one, Fin.isValue,
        Fin.val_one, u11, and_self, if_true, hh, he]
      simp

/-- Witness of C32 at `dim = 3`. -/
theorem C32_witness :
    (1 ≤ 3 ∧ 3 * 3 < uword_size) ∧
      ∃ U : Matrix (Fin 3) (Fin 3) ℂ,
        GATES.qft ⟨Complex.ofReal, Complex.I, Real.cos, Real.sin, Complex.exp, Real.sqrt,
          Real.logb 2, Real.pi⟩ 3 = .ok ⟨3, 3, U⟩ ∧ U * U.conjTranspose = 1 :=
  have h := (C32_qft_unitary 3 (by decide) (by decide)).1
  ⟨⟨by decide, by decide⟩, h.choose, h.choose_spec.1, h.choose_spec.2.2.1⟩

/-- C33 (the code departs from it): in exact arithmetic the qubit parametrization at
`(pi/2, 0)`, `(pi/2, pi/2)` and `(0, 0)`, three points of the default box
`[0, pi] x [0, 2 pi]`, gives the table projector pairs of the settings 1, 2 and 3, and on a
valid session the turn `i` of the qubit loop of `compute_reg`, run on a vector of 3
entries, writes `-S_AB` plus the value of the objective at the `i`-th point; but
`compute_reg` runs the loop on a vector of no entry, and `result_reg_all()` and
`result_reg()` return no value at all. -/
theorem C33_registered_in_family (L : Libs ℝ ℂ) (s : deficit_space ℝ ℂ) (hv : s.Valid)
    (hreg : s._is_reg_computed = false) :
    let M : StdMath ℝ ℂ :=
      ⟨Complex.ofReal, Complex.I, Real.cos, Real.sin, Complex.exp, Real.sqrt, Real.logb 2,
        Real.pi⟩
    let pts : List (Nat × ℝ × ℝ) :=
      [(0, Real.pi / 2, 0), (1, Real.pi / 2, Real.pi / 2), (2, 0, 0)]
    (∃ pass, deficit_space.make_pass s 2 = .ok pass ∧
      ∀ t ∈ pts,
        protect_dis.def_nlopt2_proj1 M t.2.1 t.2.2 = SPM.proj2 M 0 (t.1 + 1) ∧
        protect_dis.def_nlopt2_proj2 M t.2.1 t.2.2 = SPM.proj2 M 1 (t.1 + 1) ∧
        (0 ≤ t.2.1 ∧ t.2.1 ≤ 1 * Real.pi ∧ 0 ≤ t.2.2 ∧ t.2.2 ≤ 2 * Real.pi) ∧
        ∀ (ret : List ℝ) (calls : List (Call ℝ ℂ)), ret.length = 3 →
          Except.map Prod.fst (deficit_space.reg_step2 M L s pass (ret, calls) t.1) =
            Except.map (fun v => ret.set t.1 (-s._S_A_B + v))
              (protect_dis.def_nlopt2 M L [t.2.1, t.2.2] pass)) ∧
    (∀ r, deficit_space.result_reg_all M L s ≠ .ok r) ∧
    (∀ r, deficit_space.result_reg M L s ≠ .ok r) := by
  intro M pts
  obtain ⟨⟨a1, a2⟩, ⟨b1, b2⟩, ⟨c1, c2⟩⟩ := registered_points
  obtain ⟨a, b, hp⟩ := make_pass_ok s 2 hv.nodal_pos hv.nodal_le (le_of_eq hv.party_no_eq)
  have hpi := Real.pi_pos
  refine ⟨⟨_, hp, ?_⟩, ?_, ?_⟩
  · intro t ht
    simp only [pts, List.mem_cons, List.mem_singleton, List.not_mem_nil, or_false] at ht
    rcases ht with rfl | rfl | rfl
    · refine ⟨a1, a2, ⟨by positivity, by linarith, le_refl 0, by positivity⟩, ?_⟩
      intro ret calls h3
      exact reg_step2_eq M L s _ _ _ _ _ 0 ret calls (by omega) a1 a2
    · refine ⟨b1, b2, ⟨by positivity, by linarith, by positivity, by linarith⟩, ?_⟩
      intro ret calls h3
      exact reg_step2_eq M L s _ _ _ _ _ 1 ret calls (by omega) b1 b2
    · refine ⟨c1, c2, ⟨le_refl 0, by positivity, le_refl 0, by positivity⟩, ?_⟩
      intro ret calls h3
      exact reg_step2_eq M L s _ _ _ _ _ 2 ret calls (by omega) c1 c2
  · intro r h
    simp only [deficit_space.result_reg_all, hreg, if_true, except_bind_eq_ok] at h
    obtain ⟨x, hx, _⟩ := h
    exact compute_reg_not_ok M L s hv.some_flag x hx
  · intro r h
    simp only [deficit_space.result_reg, hreg, if_true, except_bind_eq_ok] at h
    obtain ⟨x, hx, _⟩ := h
    exact compute_reg_not_ok M L s hv.some_flag x hx

/-- Witness of C33 at the Bell-state session. -/
theorem C33_witness :
    ((bell_session (K := ℝ) (S := ℂ)).Valid ∧
        (bell_session (K := ℝ) (S := ℂ))._is_reg_computed = false) ∧
      ∀ L : Libs ℝ ℂ,
        ∀ r, deficit_space.result_reg_all ⟨Complex.ofReal, Complex.I, Real.cos, Real.sin,
          Complex.exp, Real.sqrt, Real.logb 2, Real.pi⟩ L bell_session ≠ .ok r :=
  have hv : (bell_session (K := ℝ) (S := ℂ)).Valid :=
    construct_valid bell_state 1 [2, 2] bell_session construct_bell_session
  ⟨⟨hv, rfl⟩, fun L => (C33_registered_in_family L bell_session hv rfl).2.1⟩

/-- C25 as stated, refuted: with library calls meeting their contracts, `result()` on the
session of the Bell state with dimensions (2, 2) and nodal index 1 returns 1, not 0. -/
theorem C25_counterexample :
    ∃ L : Libs ℝ ℂ, L.EigContract ∧ L.OptContract ∧
      (∃ t c, deficit_space.result ⟨Complex.ofReal, Complex.I, Real.cos, Real.sin,
        Complex.exp, Real.sqrt, Real.logb 2, Real.pi⟩ L bell_session = .ok (1, t, c)) ∧
      ¬ ∃ t c, deficit_space.result ⟨Complex.ofReal, Complex.I, Real.cos, Real.sin,
        Complex.exp, Real.sqrt, Real.logb 2, Real.pi⟩ L bell_session = .ok (0, t, c) := by
  obtain ⟨L, hE, hO⟩ := exists_libs
  obtain ⟨t, c, h⟩ := bell_result L hE hO
  refine ⟨L, hE, hO, ⟨t, c, h⟩, ?_⟩
  rintro ⟨t2, c2, h2⟩
  rw [h] at h2
  have h3 := congrArg Prod.fst (Except.ok.inj h2)
  exact one_ne_zero h3

/-- C25, amended: in exact arithmetic, when `eig_sym` returns the eigenvalues of Hermitian
matrices and the optimizer hands back the value of the objective at the point it hands
back, for the Bell state `(|00> + |11>) / sqrt 2` with dimensions (2, 2) and nodal index 1
the total entropy `S_AB` is 0, the qubit objective is 1 at every point of the angle box, and
`result()` returns 1. -/
theorem C25_bell_state_deficit (L : Libs ℝ ℂ) (hE : L.EigContract) (hO : L.OptContract) :
    let M : StdMath ℝ ℂ :=
      ⟨Complex.ofReal, Complex.I, Real.cos, Real.sin, Complex.exp, Real.sqrt, Real.logb 2,
        Real.pi⟩
    deficit_space.construct (K := ℝ) (S := ℂ) bell_state 1 [2, 2] = .ok bell_session ∧
      entropy M L bell_state = .ok 0 ∧
      (∃ pass, deficit_space.make_pass (bell_session (K := ℝ) (S := ℂ)) 2 = .ok pass ∧
        ∀ theta phi : ℝ, protect_dis.def_nlopt2 M L [theta, phi] pass = .ok 1) ∧
      ∃ t c, deficit_space.result M L bell_session = .ok (1, t, c) :=
  ⟨construct_bell_session, bell_entropy L hE,
    ⟨_, make_pass_bell, fun theta phi => bell_objective L hE theta phi⟩, bell_result L hE hO⟩

/-- Witness of C25: libraries meeting the two contracts exist, and with them `result()`
returns 1 on the Bell-state session. -/
theorem C25_witness :
    ∃ L : Libs ℝ ℂ, (L.EigContract ∧ L.OptContract) ∧
      ∃ t c, deficit_space.result ⟨Complex.ofReal, Complex.I, Real.cos, Real.sin,
        Complex.exp, Real.sqrt, Real.logb 2, Real.pi⟩ L bell_session = .ok (1, t, c) :=
  exists_libs.elim fun L h => ⟨L, h, (C25_bell_state_deficit L h.1 h.2).2.2.2⟩

/-- C31: on the vectors `dim` (every entry from 1 on) and `sys` (distinct parties of `dim`),
the counter loop of `make_ctrl` (lines 192-208 and 257-264), run with a loop body that
returns on the counters it is given, behaves as follows. The arrays `MAX` and `loop_counter`
hold `2 n + 1` entries, and an access outside them is a fault of the model, so a run that
returns had none. After `t` turns, `t` up to `T = prod(dim) * prod(dim[sys])`, the counter
holds the mixed-radix digits of `t` and `p1` is 0 again. The loop stops after exactly `T`
turns: with at least `T` turns of fuel it returns the state after `T` turns, with fewer it
is still running. Every pair of a row multi-index `r` and a column sub-index `c` on the
parties of `sys` is the counter of exactly one of the `T` turns, and every counter of a turn
is such a pair. -/
theorem C31_counter_loop {S : Type} [CommRing S]
    (body : List Nat → (Nat → Nat → S) → Except Fault (Nat → Nat → S))
    (sys dim : List Nat) (cfuel : Nat)
    (hdim : ∀ x ∈ dim, 1 ≤ x) (hnd : sys.Nodup) (hv : ∀ s ∈ sys, 1 ≤ s ∧ s ≤ dim.length)
    (hcf : 2 * dim.length ≤ cfuel)
    (hbody : ∀ t U, t < dim.prod * (sys.map (fun s => dim.getD (s - 1) 1)).prod →
      ∃ U1, body (digits (GATES.ctrl_MAX dim.length (GATES.keep_list dim.length sys) dim) t) U =
        .ok U1) :
    let n := dim.length
    let MAX := GATES.ctrl_MAX n (GATES.keep_list n sys) dim
    let T := dim.prod * (sys.map (fun s => dim.getD (s - 1) 1)).prod
    let st0 : List Nat × Nat × (Nat → Nat → S) := (List.replicate (2 * n + 1) 0, 0, fun _ _ => 0)
    MAX.length = 2 * n + 1 ∧
    (∀ t, t ≤ T → ∃ U, GATES.ctrl_turns body MAX cfuel t st0 = .ok (digits MAX t, 0, U)) ∧
    (∀ fuel, GATES.ctrl_loop body MAX (2 * n) cfuel fuel st0 =
      if T ≤ fuel then GATES.ctrl_turns body MAX cfuel T st0 else .error .fuel) ∧
    (∀ r c : List Nat, r.length = n → c.length = n →
      (∀ i, i < n → r.getD i 0 < dim.getD i 0) →
      (∀ i, i < n → if (i + 1) ∈ sys then c.getD i 0 < dim.getD i 0 else c.getD i 0 = 0) →
      ∃! t, t < T ∧ digits MAX t = r ++ c ++ [0]) ∧
    (∀ t, t < T → ∃ r c : List Nat, r.length = n ∧ c.length = n ∧
      (∀ i, i < n → r.getD i 0 < dim.getD i 0) ∧
      (∀ i, i < n → if (i + 1) ∈ sys then c.getD i 0 < dim.getD i 0 else c.getD i 0 = 0) ∧
      digits MAX t = r ++ c ++ [0]) := by
  intro n MAX T st0
  have hM : MAX = (dim ++ (List.range dim.length).map
      (fun i => if (i + 1) ∈ sys then dim.getD i 0 else 1)) ++ [2] := ctrl_MAX_eq sys dim
  generalize hR : dim ++ (List.range dim.length).map
      (fun i => if (i + 1) ∈ sys then dim.getD i 0 else 1) = R at hM
  have hpos : ∀ x ∈ R, 1 ≤ x := hR ▸ radices_pos sys dim hdim
  have hprod : R.prod = T := hR ▸ radices_prod sys dim hnd hv
  have hlen : R.length = 2 * n := by
    rw [← hR]
    simp only [List.length_append, List.length_map, List.length_range]
    omega
  have hbody2 : ∀ t U, t < T → ∃ U1, body (digits MAX t) U = .ok U1 := hbody
  clear_value MAX T
  subst hM
  have hst0 : st0 = (digits (R ++ [2]) 0, 0, fun _ _ => 0) := by
    show (List.replicate (2 * n + 1) 0, 0, fun _ _ => 0) = _
    rw [digits_zero, List.length_append, hlen]
    rfl
  obtain ⟨W, hW0, hW⟩ : ∃ W : Nat → Nat → Nat → S, W 0 = (fun _ _ => 0) ∧
      ∀ t, t < R.prod → body (digits (R ++ [2]) t) (W t) = .ok (W (t + 1)) := by
    have h : ∀ t U, ∃ U1, t < T → body (digits (R ++ [2]) t) U = .ok U1 := by
      intro t U
      by_cases ht : t < T
      · obtain ⟨U1, h1⟩ := hbody2 t U ht
        exact ⟨U1, fun _ => h1⟩
      · exact ⟨U, fun h => absurd h ht⟩
    choose f hf using h
    refine ⟨fun t => Nat.rec (fun _ _ => 0) (fun t U => f t U) t, rfl, ?_⟩
    intro t ht
    exact hf t _ (hprod ▸ ht)
  have hturns := turns_run body R cfuel W hpos (by omega) hW
  have hloop := loop_run body R cfuel W hpos (by omega) hW R.prod 0 (by omega)
  rw [hW0] at hturns hloop
  rw [hlen] at hloop
  rw [hprod] at hturns hloop
  rw [hst0]
  refine ⟨by rw [List.length_append, hlen]; rfl, ?_, ?_, ?_, ?_⟩
  · intro t ht
    exact ⟨W t, hturns t ht⟩
  · intro fuel
    rw [hloop fuel, hturns T (le_refl _)]
  · intro r c hr hc hrb hcb
    have hds : (r ++ c).length = R.length := by
      rw [List.length_append, hr, hc, hlen]
      omega
    have hb : ∀ i, i < R.length → (r ++ c).getD i 0 < R.getD i 0 := by
      intro i hi
      rw [hlen] at hi
      rw [← hR]
      by_cases h : i < n
      · rw [List.getD_append _ _ _ _ (by omega), List.getD_append _ _ _ _ h]
        exact hrb i h
      · have e1 : (r ++ c).getD i 0 = c.getD (i - n) 0 := by
          rw [List.getD_append_right _ _ _ _ (by omega), hr]
        have e2 : (dim ++ (List.range dim.length).map
            (fun i => if (i + 1) ∈ sys then dim.getD i 0 else 1)).getD i 0 =
            (if (i - n + 1) ∈ sys then dim.getD (i - n) 0 else 1) := by
          rw [List.getD_append_right _ _ _ _ (by omega)]
          have h3 : i - dim.length < ((List.range dim.length).map
              (fun i => if (i + 1) ∈ sys then dim.getD i 0 else 1)).length := by
            simp only [List.length_map, List.length_range]
            omega
          rw [List.getD_eq_getElem _ _ h3]
          simp
        rw [e1, e2]
        have := hcb (i - n) (by omega)
        by_cases hs : (i - n + 1) ∈ sys
        · rw [if_pos hs] at this ⊢
          exact this
        · rw [if_neg hs] at this ⊢
          omega
    obtain ⟨e1, e2⟩ := digits_ofDigits R (r ++ c) hds hb
    rw [hprod] at e2
    refine ⟨ofDigits R (r ++ c), ⟨e2, ?_⟩, ?_⟩
    · rw [digits_append, e1, hprod, Nat.div_eq_of_lt e2]
    · rintro t ⟨ht, hd⟩
      rw [digits_append] at hd
      have hd1 : digits R t = r ++ c := by
        have := congrArg (List.take R.length) hd
        rw [List.take_left' (digits_length R t), List.take_left' hds] at this
        exact this
      rw [← hd1, ofDigits_digits R t (hprod ▸ ht)]
  · intro t ht
    have hd : digits (R ++ [2]) t = digits R t ++ [0] := by
      rw [digits_append, hprod, Nat.div_eq_of_lt ht]
    have hbd := digits_lt R hpos t
    refine ⟨(digits R t).take n, (digits R t).drop n, ?_, ?_, ?_, ?_, ?_⟩
    · rw [List.length_take, digits_length, hlen]
      omega
    · rw [List.length_drop, digits_length, hlen]
      omega
    · intro i hi
      have := hbd i (by omega)
      rw [← hR, List.getD_append _ _ _ _ hi] at this
      rw [hR] at this
      rw [List.getD_eq_getElem?_getD, List.getElem?_take_of_lt hi, ← List.getD_eq_getElem?_getD]
      exact this
    · intro i hi
      have := hbd (n + i) (by omega)
      rw [← hR, List.getD_append_right _ _ _ _ (by omega)] at this
      rw [hR] at this
      have h3 : n + i - dim.length < ((List.range dim.length).map
          (fun i => if (i + 1) ∈ sys then dim.getD i 0 else 1)).length := by
        simp only [List.length_map, List.length_range]
        omega
      rw [List.getD_eq_getElem _ _ h3] at this
      simp only [List.getElem_map, List.getElem_range] at this
      have e : n + i - dim.length = i := by omega
      rw [e] at this
      have e2 : ((digits R t).drop n).getD i 0 = (digits R t).getD (n + i) 0 := by
        rw [List.getD_eq_getElem?_getD, List.getElem?_drop, ← List.getD_eq_getElem?_getD]
      rw [e2]
      by_cases hs : (i + 1) ∈ sys
      · rw [if_pos hs] at this ⊢
        exact this
      · rw [if_neg hs] at this ⊢
        omega
    · rw [hd, List.take_append_drop]

/-- Witness of C31: the counter loop of `make_ctrl(X, {1}, {2}, {2, 2})`, with the loop body
of the code, stops after 8 turns with the counter at `0, 0, 0, 0, 1`. -/
theorem C31_witness :
    ∃ U, GATES.ctrl_loop
        (GATES.ctrl_body (sample_internal ℚ) ⟨2, 2, GATES.X⟩ 2 [1] [2] [1] [2, 1] [1] 1 4)
        (GATES.ctrl_MAX 2 (GATES.keep_list 2 [2]) [2, 2]) 4 4 8
        (List.replicate 5 0, 0, fun _ _ => 0) = .ok ([0, 0, 0, 0, 1], 0, U) := by
  have h := C31_counter_loop (S := ℚ)
    (GATES.ctrl_body (sample_internal ℚ) ⟨2, 2, GATES.X⟩ 2 [1] [2] [1] [2, 1] [1] 1 4)
    [2] [2, 2] 4 (by decide) (by decide) (by decide) (by decide) (by
      intro t U ht
      have ht8 : t < 8 := ht
      interval_cases t <;> exact ⟨_, rfl⟩)
  obtain ⟨_, h2, h3, _⟩ := h
  obtain ⟨U, hU⟩ := h2 8 (le_refl _)
  refine ⟨U, ?_⟩
  have := h3 8
  rw [if_pos (show [2, 2].prod * (List.map (fun s => [2, 2].getD (s - 1) 1) [2]).prod ≤ 8 by
    decide)] at this
  exact this.trans hU

end qic
